import Mathlib

/-!
# CodeSample: freeform line to arc-spline conversion

A shallow embedding of the geometric core of the repository
(`Vector2.h`, `Common.h`, `FreeformLine.{h,inl,cpp}`, `Geometry.{h,cpp}`).

Scalars: the C++ `float` is idealised as an element of a linear ordered
field `F` (exact arithmetic, no rounding, no NaN/infinity).  All definitions
are polymorphic in `F` and computable, so they can be evaluated over `ℚ`;
`std::sqrt` is passed as an explicit argument `sqrt : F → F`.  The theorems
that need the exact square root are stated over `ℝ` with `Real.sqrt`.

Where the rounding of one float operation decides what the program does, the
function is also given with that operation as an argument (`addPointWith`,
`setBoundsWith`, `midPointWith`, `generateBiarcsAndFinalShapesWith`,
`recreateSplineWith`); with the exact operation it is the function itself.
`float32` rounds a result to 24 significant bits, ties to even.  The decimal
text of the stream operators is modelled by the two conversions `fmt` (the
number the text written for a float denotes) and `parse` (the float read from
a number).

`std::map<float, Vector2>` is a list of `(key, value)` pairs kept strictly
sorted by key.  Dereferencing `end()` or stepping before `begin()` is
undefined behaviour in the source and is `none` in the model.
-/

namespace CodeSample

section Defs

variable {F : Type} [LinearOrderedField F]

/-! ## Common.h constants -/

/-- `FLT_MIN` of `<cfloat>`: the smallest positive normalised float, 2^-126. -/
def FLT_MIN : F := 1 / 2 ^ 126

/-- `FLT_MAX` of `<cfloat>`: the largest finite float, (2 - 2^-23) * 2^127. -/
def FLT_MAX : F := (2 - 1 / 2 ^ 23) * 2 ^ 127

/-- `#define ME_EPSILON 1e-6f`. -/
def ME_EPSILON : F := 1 / 10 ^ 6

/-- `#define ME_EPSILON2 (ME_EPSILON * ME_EPSILON)`. -/
def ME_EPSILON2 : F := ME_EPSILON * ME_EPSILON

/-- `#define ME_A_LOT 1e10f`. -/
def ME_A_LOT : F := 10 ^ 10

/-- `#define ME_MAX_SPLINE_GAP 1.0f`. -/
def ME_MAX_SPLINE_GAP : F := 1

/-- `#define ME_MAX_D_PARAM 10000.0f`. -/
def ME_MAX_D_PARAM : F := 10000

/-- `#define ME_MAX_ARC_RADIUS 10000.0f`. -/
def ME_MAX_ARC_RADIUS : F := 10000

/-- `#define ME_MAX_ARC_RADIUS_TO_CHORD_LENGTH_RATIO 1000.0f`. -/
def ME_MAX_ARC_RADIUS_TO_CHORD_LENGTH_RATIO : F := 1000

/-- `getClipped(val, min, max)`: `std::fmin(std::fmax(min, val), max)`.
The source asserts `min <= max + ME_EPSILON` (debug builds only). -/
def getClipped (val lo hi : F) : F := min (max lo val) hi

/-- `isEqual(a, b, precision)`: `std::fabs(a - b) <= precision`. -/
def isEqual (a b precision : F) : Prop := |a - b| ≤ precision

instance (a b precision : F) : Decidable (isEqual a b precision) := by
  unfold isEqual; infer_instance

/-! ## Common.h: Range -/

/-- `struct Range { float start, end; }`. -/
structure Range (F : Type) where
  start : F
  end_ : F

namespace Range

/-- `Range::isValid`: `start <= end`. -/
def isValid (r : Range F) : Prop := r.start ≤ r.end_

instance (r : Range F) : Decidable r.isValid := by
  unfold isValid; infer_instance

/-- `Range::length`: `isValid() ? end - start : 0.0f`. -/
def length (r : Range F) : F := if r.isValid then r.end_ - r.start else 0

/-- `Range::invalidate`: `start = FLT_MAX; end = -FLT_MAX`. -/
def invalidate (_r : Range F) : Range F := { start := FLT_MAX, end_ := -FLT_MAX }

/-- The default constructor `Range() { invalidate(); }`. -/
def new : Range F := invalidate { start := 0, end_ := 0 }

/-- `Range::include` (`include` is reserved in Lean):
`start = fmin(value, start); end = fmax(end, value)`. -/
def include_ (r : Range F) (value : F) : Range F :=
  { start := min value r.start, end_ := max r.end_ value }

/-- `Range::inflate`: `start -= padding; end += padding`.  The source asserts
`padding >= 0` (debug builds only). -/
def inflate (r : Range F) (padding : F) : Range F :=
  { start := r.start - padding, end_ := r.end_ + padding }

/-- `Range::isLess`: `a.start < b.start || (a.start == b.start && a.end < b.end)`. -/
def isLess (a b : Range F) : Prop :=
  a.start < b.start ∨ (a.start = b.start ∧ a.end_ < b.end_)

instance (a b : Range F) : Decidable (isLess a b) := by
  unfold isLess; infer_instance

/-- A value lies in the range: `start <= x <= end`. -/
def contains (r : Range F) (x : F) : Prop := r.start ≤ x ∧ x ≤ r.end_

end Range

/-! ## Vector2.h -/

/-- `struct Vector2 { float x, y; }`. -/
@[ext]
structure Vector2 (F : Type) where
  x : F
  y : F

namespace Vector2

/-- `operator + (const Vector2&)`. -/
def add (a b : Vector2 F) : Vector2 F := ⟨a.x + b.x, a.y + b.y⟩

/-- `operator - (const Vector2&)`. -/
def sub (a b : Vector2 F) : Vector2 F := ⟨a.x - b.x, a.y - b.y⟩

/-- `operator * (float)`. -/
def mul (a : Vector2 F) (b : F) : Vector2 F := ⟨a.x * b, a.y * b⟩

/-- `operator / (float b)`: `operator * (1.0f / b)`. -/
def div (a : Vector2 F) (b : F) : Vector2 F := a.mul (1 / b)

/-- Unary `operator -`. -/
def neg (a : Vector2 F) : Vector2 F := ⟨-a.x, -a.y⟩

instance : Add (Vector2 F) := ⟨add⟩
instance : Sub (Vector2 F) := ⟨sub⟩
instance : Neg (Vector2 F) := ⟨neg⟩
instance : HMul (Vector2 F) F (Vector2 F) := ⟨mul⟩
instance : HDiv (Vector2 F) F (Vector2 F) := ⟨div⟩

/-- `Vector2()`: the zero vector. -/
def zero : Vector2 F := ⟨0, 0⟩

/-- `dot`. -/
def dot (a b : Vector2 F) : F := a.x * b.x + a.y * b.y

/-- `cross`. -/
def cross (a b : Vector2 F) : F := a.x * b.y - a.y * b.x

/-- `norm2`: squared length. -/
def norm2 (a : Vector2 F) : F := a.x * a.x + a.y * a.y

/-- `norm`: `std::sqrt(norm2())`. -/
def norm (sqrt : F → F) (a : Vector2 F) : F := sqrt a.norm2

/-- `distTo`: `operator - (b).norm()`. -/
def distTo (sqrt : F → F) (a b : Vector2 F) : F := (a - b).norm sqrt

/-- `normalized`: `operator / (norm() + FLT_MIN)`. -/
def normalized (sqrt : F → F) (a : Vector2 F) : Vector2 F := a / (a.norm sqrt + FLT_MIN)

/-- `directionTo`: `(b - *this).normalized()`. -/
def directionTo (sqrt : F → F) (a b : Vector2 F) : Vector2 F := (b - a).normalized sqrt

/-- `rotate90`: `Vector2(-y, x)`. -/
def rotate90 (a : Vector2 F) : Vector2 F := ⟨-a.y, a.x⟩

/-- `interpolate(a, b, t)`: `a * (1.0f - t) + b * t`. -/
def interpolate (a b : Vector2 F) (t : F) : Vector2 F := a * (1 - t) + b * t

end Vector2

/-! ## std::map<float, Vector2> -/

/-- The map `operator[]` followed by assignment: overwrite the value at an
existing key, otherwise insert at the sorted position. -/
def mapSet (k : F) (v : Vector2 F) : List (F × Vector2 F) → List (F × Vector2 F)
  | [] => [(k, v)]
  | e :: rest =>
    if k < e.1 then (k, v) :: e :: rest
    else if k = e.1 then (k, v) :: rest
    else e :: mapSet k v rest

/-- `std::map::find`, returning the mapped value. -/
def mapFind (k : F) : List (F × Vector2 F) → Option (Vector2 F)
  | [] => none
  | e :: rest => if e.1 = k then some e.2 else mapFind k rest

/-- `std::map::upper_bound(t)`: position of the first entry whose key is
greater than `t`; the length of the list stands for `end()`. -/
def upper_bound (t : F) : List (F × Vector2 F) → Nat
  | [] => 0
  | e :: rest => if t < e.1 then 0 else upper_bound t rest + 1

/-- `rbegin()->second = v`: overwrite the value of the last entry. -/
def setLastValue (v : Vector2 F) : List (F × Vector2 F) → List (F × Vector2 F)
  | [] => []
  | [e] => [(e.1, v)]
  | e :: e2 :: rest => e :: setLastValue v (e2 :: rest)

/-- `*++points.rbegin()`: the entry before the last one; `none` when the
map has fewer than two entries. -/
def secondLast (m : List (F × Vector2 F)) : Option (F × Vector2 F) :=
  if 2 ≤ m.length then m[m.length - 2]? else none

/-! ## FreeformLine -/

/-- `class FreeformLine`: the data members. -/
structure FreeformLine (F : Type) where
  halfSmoothingSpread : F
  points : List (F × Vector2 F)
  cachedLength : F
  clippingRange : Range F
  clippingMargin : F

namespace FreeformLine

/-- The constructor `FreeformLine()`. -/
def new : FreeformLine F :=
  { halfSmoothingSpread := 10
    points := []
    cachedLength := 0
    clippingRange := ⟨-ME_A_LOT, ME_A_LOT⟩
    clippingMargin := 0 }

/-- `FreeformLine::length`. -/
def length (line : FreeformLine F) : F := line.cachedLength

/-- `FreeformLine::addPoint`.  With a non-empty map the last real point is
`*++points.rbegin()`; a map with a single entry would make that undefined
(`none`). -/
def addPoint (sqrt : F → F) (line : FreeformLine F) (point : Vector2 F) :
    Option (FreeformLine F) :=
  if line.points.length ≠ 0 then
    match secondLast line.points with
    | some lastPoint =>
      let length := lastPoint.1 + lastPoint.2.distTo sqrt point
      let points1 := mapSet length point line.points
      let points2 := setLastValue point points1
      some { line with points := points2, cachedLength := length }
    | none => none
  else
    some { line with
      points := mapSet ME_A_LOT point (mapSet 0 point (mapSet (-ME_A_LOT) point [])) }

/-- `FreeformLine::getPointAt`.  `it = points.upper_bound(t)`, `next = *it`,
`prev = *--it`; undefined (`none`) when `it` is `end()` or `begin()`. -/
def getPointAt (line : FreeformLine F) (t : F) : Option (Vector2 F) :=
  let it := upper_bound t line.points
  match line.points[it]?, (if it = 0 then none else line.points[it - 1]?) with
  | some next, some prev =>
    let localT := (t - prev.1) / (next.1 - prev.1)
    some (Vector2.interpolate prev.2 next.2 localT)
  | _, _ => none

/-- The local `ta` of `getTangentAt`. -/
def tangentSampleA (line : FreeformLine F) (t : F) : F :=
  getClipped (t - line.halfSmoothingSpread) line.clippingRange.start
    (line.clippingRange.end_ - line.clippingMargin)

/-- The local `tb` of `getTangentAt`. -/
def tangentSampleB (line : FreeformLine F) (t : F) : F :=
  getClipped (t + line.halfSmoothingSpread) (line.clippingRange.start + line.clippingMargin)
    line.clippingRange.end_

/-- `FreeformLine::getTangentAt`.  The source asserts
`ME_EPSILON < halfSmoothingSpread` (debug builds only). -/
def getTangentAt (sqrt : F → F) (line : FreeformLine F) (t : F) : Option (Vector2 F) :=
  let ta := line.tangentSampleA t
  let tb := line.tangentSampleB t
  match line.getPointAt ta, line.getPointAt tb with
  | some a, some b => some ((b - a).normalized sqrt)
  | _, _ => none

/-- `FreeformLine::setBounds`. -/
def setBounds (line : FreeformLine F) (range : Range F) : FreeformLine F :=
  { line with
    clippingRange := range
    clippingMargin := min (2 * line.halfSmoothingSpread) range.length }

/-- A polyline built from an empty `FreeformLine` by calling `addPoint` on
each point of the list in order. -/
def build (sqrt : F → F) (pts : List (Vector2 F)) : Option (FreeformLine F) :=
  pts.foldl (fun acc p => acc.bind (fun line => addPoint sqrt line p)) (some new)

end FreeformLine

/-! ## Geometry.h / Geometry.cpp -/

/-- `struct Line { float a, b, c; }`: the line `a x + b y + c = 0`. -/
structure Line (F : Type) where
  a : F
  b : F
  c : F

namespace Line

/-- `Line::fromPointAndNormal`.  The source asserts
`isEqual(normal.norm2(), 1.0f, 1e-4f)` (debug builds only). -/
def fromPointAndNormal (point normal : Vector2 F) : Line F :=
  { a := normal.x, b := normal.y, c := -(normal.dot point) }

/-- `Line::between`: `fromPointAndNormal(p0, p0.directionTo(p1).rotate90())`. -/
def between (sqrt : F → F) (p0 p1 : Vector2 F) : Line F :=
  fromPointAndNormal p0 (p0.directionTo sqrt p1).rotate90

/-- `Line::normal`. -/
def normal (l : Line F) : Vector2 F := ⟨l.a, l.b⟩

/-- `Line::signedDistTo`: `normal().dot(point) + c`. -/
def signedDistTo (l : Line F) (point : Vector2 F) : F := l.normal.dot point + l.c

/-- `Line::project`: `point - normal() * signedDistTo(point)`. -/
def project (l : Line F) (point : Vector2 F) : Vector2 F :=
  point - l.normal * l.signedDistTo point

end Line

/-- `struct Circle { float x, y, radius; }`. -/
structure Circle (F : Type) where
  x : F
  y : F
  radius : F

namespace Circle

/-- `Circle::center`. -/
def center (c : Circle F) : Vector2 F := ⟨c.x, c.y⟩

/-- `Circle::signedDistTo`: `(point - center()).norm() - radius`. -/
def signedDistTo (sqrt : F → F) (c : Circle F) (point : Vector2 F) : F :=
  (point - c.center).norm sqrt - c.radius

end Circle

/-- `struct CircleOrLine`: the type tag together with the union payload. -/
inductive CircleOrLine (F : Type) where
  | invalid : CircleOrLine F
  | circle : Circle F → CircleOrLine F
  | line : Line F → CircleOrLine F

namespace CircleOrLine

/-- `CircleOrLine::signedDistTo`; for `TYPE_INVALID` the source asserts and
returns `ME_A_LOT`. -/
def signedDistTo (sqrt : F → F) (s : CircleOrLine F) (point : Vector2 F) : F :=
  match s with
  | circle c => c.signedDistTo sqrt point
  | line l => l.signedDistTo point
  | invalid => ME_A_LOT

/-- The local `line0` of `fitCircleOrLine`. -/
def fitLine0 (point0 tangent0 : Vector2 F) : Line F :=
  Line.fromPointAndNormal point0 (-tangent0)

/-- The local `mid` of `fitCircleOrLine`. -/
def fitMid (point0 point1 : Vector2 F) : Vector2 F := (point0 + point1) * (1 / 2 : F)

/-- The local `lead` of `fitCircleOrLine`. -/
def fitLead (point0 tangent0 point1 : Vector2 F) : Vector2 F :=
  (fitLine0 point0 tangent0).project (fitMid point0 point1) - point0

/-- The local `center` of `fitCircleOrLine`. -/
def fitCenter (point0 tangent0 point1 : Vector2 F) : Vector2 F :=
  let line0 := fitLine0 point0 tangent0
  let mid := fitMid point0 point1
  let dist := line0.signedDistTo mid
  let proj := line0.project mid
  let lead := proj - point0
  proj + lead * (dist * dist / lead.norm2)

/-- The local `radius` of `fitCircleOrLine`. -/
def fitRadius (sqrt : F → F) (point0 tangent0 point1 : Vector2 F) : F :=
  sqrt ((fitCenter point0 tangent0 point1 - point0).norm2)

/-- `CircleOrLine::fitCircleOrLine`, returning the shape written to `*result`.
(The local `normal1` of the source is never read and is left out.) -/
def fitCircleOrLine (sqrt : F → F) (point0 tangent0 point1 : Vector2 F) : CircleOrLine F :=
  let pNorm2 := (point1 - point0).norm2
  if pNorm2 > ME_EPSILON2 then
    let lead := fitLead point0 tangent0 point1
    let result : CircleOrLine F :=
      if lead.norm2 > ME_EPSILON2 then
        let center := fitCenter point0 tangent0 point1
        let radius := fitRadius sqrt point0 tangent0 point1
        if radius ≤ ME_MAX_ARC_RADIUS ∧
            radius * radius <
              ME_MAX_ARC_RADIUS_TO_CHORD_LENGTH_RATIO * ME_MAX_ARC_RADIUS_TO_CHORD_LENGTH_RATIO
                * pNorm2 then
          circle { x := center.x, y := center.y, radius := radius }
        else invalid
      else invalid
    match result with
    | invalid => line (Line.between sqrt point0 point1)
    | r => r
  else
    circle { x := point0.x, y := point0.y, radius := 0 }

end CircleOrLine

/-! ## Geometry.h / Geometry.cpp: Biarc -/

/-- `struct Biarc::DParam { float d0, d1; }`. -/
structure DParam (F : Type) where
  d0 : F
  d1 : F

/-- `struct Biarc`: the data members. -/
structure Biarc (F : Type) where
  point0 : Vector2 F
  tangent0 : Vector2 F
  point1 : Vector2 F
  tangent1 : Vector2 F
  param : DParam F
  divLine : Line F
  shape0 : CircleOrLine F
  shape1 : CircleOrLine F

namespace Biarc

/-- How one pass through the body of the ratio loop of
`findPossibleBiarcParams` ends. -/
inductive RatioStep (F : Type) where
  /-- The `continue` of "Can't figure the biarc, safe exit". -/
  | skipped : RatioStep F
  /-- The quotient `-c / b` with `b == 0`: a float division by zero, outside
  the exact-arithmetic model. -/
  | nonFinite : RatioStep F
  /-- The end of the body is reached with these values of `d1` and
  `foundSolution`. -/
  | finished : F → Bool → RatioStep F

/-- The locals `a`, `b`, `c` of the loop body for the ratio `r`. -/
def coeffA (t0 t1 : Vector2 F) (r : F) : F := r * (1 - t0.dot t1)

/-- The local `b` of the loop body: `v.dot(t)` with `t = r * t0 + t1`. -/
def coeffB (t0 t1 v : Vector2 F) (r : F) : F := v.dot (t0 * r + t1)

/-- The local `c` of the loop body: `-0.5f * v.dot(v)`. -/
def coeffC (v : Vector2 F) : F := -(1 / 2 : F) * v.dot v

/-- The second `if` of the loop body, entered with `foundSolution == false`
and the current `d1`: `if (fabs(v.dot(t1)) > FLT_MIN) { d1 = -c / b; if (d1 <
ME_MAX_D_PARAM) foundSolution = true; }`. -/
def linearFallback (t1 v : Vector2 F) (b c d1 : F) : RatioStep F :=
  if |v.dot t1| > FLT_MIN then
    if b = 0 then RatioStep.nonFinite
    else RatioStep.finished (-c / b) (decide (-c / b < ME_MAX_D_PARAM))
  else RatioStep.finished d1 false

/-- The body of the ratio loop of `findPossibleBiarcParams` up to (not
including) the final `push_back`, for one ratio `r`. -/
def ratioStep (sqrt : F → F) (t0 t1 v : Vector2 F) (r : F) : RatioStep F :=
  let a := coeffA t0 t1 r
  let b := coeffB t0 t1 v r
  let c := coeffC v
  let delta := b * b - 4 * a * c
  if |a| > ME_EPSILON then
    let d1 : F :=
      if delta ≥ 0 then
        max ((-b - sqrt delta) / (2 * a)) ((-b + sqrt delta) / (2 * a))
      else -1
    if delta < 0 ∨ d1 < 0 then RatioStep.skipped
    else if d1 < ME_MAX_D_PARAM then RatioStep.finished d1 true
    else linearFallback t1 v b c d1
  else linearFallback t1 v b c (-1)

/-- The values of `r` over the iterations `for (i = 0; i < n; ++i, r *=
rIterationMultiplier)`. -/
def ratioSeries (rIterationMultiplier : F) : Nat → F → List F
  | 0, _ => []
  | n + 1, r => r :: ratioSeries rIterationMultiplier n (r * rIterationMultiplier)

/-- The ratios tried by `findPossibleBiarcParams`: the initial `r` and
`rIterationMultiplier` of the source, iterated `numResults` times. -/
def ratiosTried (powf : F → F → F) (rLower rUpper : F) (numResults : Int) : List F :=
  let rIterationMultiplier : F :=
    if numResults > 1 then powf (rUpper / rLower) (1 / (((numResults - 1 : Int) : F) + ME_EPSILON))
    else 1
  let r : F := if numResults > 1 then rLower else 1
  ratioSeries rIterationMultiplier numResults.toNat r

/-- The ratio loop of `findPossibleBiarcParams` over the ratios still to be
tried, appending to `result`; `none` when a pass divides by zero. -/
def ratioLoop (sqrt : F → F) (t0 t1 v : Vector2 F) :
    List F → List (DParam F) → Option (List (DParam F))
  | [], result => some result
  | r :: rest, result =>
    match ratioStep sqrt t0 t1 v r with
    | RatioStep.skipped => ratioLoop sqrt t0 t1 v rest result
    | RatioStep.nonFinite => none
    | RatioStep.finished d1 _ =>
      ratioLoop sqrt t0 t1 v rest
        (if ME_EPSILON < d1 then result ++ [{ d0 := r * d1, d1 := d1 }] else result)

/-- `Biarc::findPossibleBiarcParams`, returning the vector written to
`*result` (empty on entry, as the source asserts).  `none` stands for a float
division by zero (`rUpper / rLower`, `-c / b`, or the single-arc quotient),
which the exact-arithmetic model does not follow. -/
def findPossibleBiarcParams (sqrt : F → F) (powf : F → F → F) (biarcPointsAndTangents : Biarc F)
    (rLower rUpper : F) (numResults : Int) (addSingleArcResult : Bool) :
    Option (List (DParam F)) :=
  let t0 := biarcPointsAndTangents.tangent0
  let t1 := biarcPointsAndTangents.tangent1
  let v := biarcPointsAndTangents.point1 - biarcPointsAndTangents.point0
  if numResults > 1 ∧ rLower = 0 then none
  else
    match ratioLoop sqrt t0 t1 v (ratiosTried powf rLower rUpper numResults) [] with
    | none => none
    | some result =>
      if addSingleArcResult then
        if v.dot t0 = 0 then none
        else
          let d0 := v.dot v / (2 * v.dot t0)
          some (if ¬ isEqual 0 d0 ME_EPSILON then result ++ [{ d0 := d0, d1 := 0 }] else result)
      else some result

/-- A `Biarc` holding only end points and tangents, as passed to
`findPossibleBiarcParams`; the shapes are default-constructed (invalid) and
the remaining members, uninitialised in the source, are zero. -/
def ofPointsAndTangents (point0 tangent0 point1 tangent1 : Vector2 F) : Biarc F :=
  { point0 := point0, tangent0 := tangent0, point1 := point1, tangent1 := tangent1
    param := { d0 := 0, d1 := 0 }
    divLine := { a := 0, b := 0, c := 0 }
    shape0 := CircleOrLine.invalid
    shape1 := CircleOrLine.invalid }

end Biarc

/-! ## ArcSplineUtil.h / ArcSplineUtil.cpp: segment classifier -/

/-- `struct ArcSplineUtil::SegmentsInput`. -/
structure SegmentsInput (F : Type) where
  tStep : F
  maxMeanErrorAtReferenceLength : F
  referenceSegmentLength : F

/-- The default member initialisers of `SegmentsInput`: 15, 2.5, 20. -/
def SegmentsInput.default : SegmentsInput F :=
  { tStep := 15, maxMeanErrorAtReferenceLength := 5 / 2, referenceSegmentLength := 20 }

/-- The loop of `ArcSplineUtil::calcMeanSquaredError` from the state
`(tCurr, numMeasurements, sumError2)`, followed by the final
`sumError2 / numMeasurements`.  `fuel` bounds the number of iterations;
`none` when it runs out or when `getPointAt` is undefined. -/
def calcMeanSquaredErrorLoop (signedDistTo : Vector2 F → F) (line : FreeformLine F)
    (tStep tEnd : F) : Nat → F → F → F → Option F
  | 0, tCurr, numMeasurements, sumError2 =>
    if tCurr < tEnd then none else some (sumError2 / numMeasurements)
  | fuel + 1, tCurr, numMeasurements, sumError2 =>
    if tCurr < tEnd then
      match line.getPointAt tCurr with
      | none => none
      | some pointOnLine =>
        let signedDist := signedDistTo pointOnLine
        calcMeanSquaredErrorLoop signedDistTo line tStep tEnd fuel (tCurr + tStep)
          (numMeasurements + 1) (sumError2 + signedDist * signedDist)
    else some (sumError2 / numMeasurements)

/-- `ArcSplineUtil::calcMeanSquaredError`; the fitting shape is passed as its
`signedDistTo`.  `numMeasurements` starts at `FLT_MIN`, `sumError2` at 0. -/
def calcMeanSquaredError (fuel : Nat) (line : FreeformLine F) (tStart tStep tEnd : F)
    (signedDistTo : Vector2 F → F) : Option F :=
  calcMeanSquaredErrorLoop signedDistTo line tStep tEnd fuel tStart FLT_MIN 0

/-- `ArcSplineUtil::isSegment`, returning the result together with the value
written to `*meanError2`.  The source asserts `segmentBounds.start >= 0 &&
segmentBounds.end <= line.length()` (debug builds only).  `none` when a point
query is undefined, the fuel runs out, or `referenceSegmentLength` is 0
(float division by zero). -/
def isSegment (sqrt : F → F) (fuel : Nat) (line : FreeformLine F) (segmentBounds : Range F)
    (input : SegmentsInput F) : Option (Bool × F) :=
  match line.getPointAt segmentBounds.start, line.getPointAt segmentBounds.end_ with
  | some p0, some p1 =>
    let testFitLine := Line.between sqrt p0 p1
    let dist := p0.distTo sqrt p1
    match calcMeanSquaredError fuel line segmentBounds.start input.tStep segmentBounds.end_
        testFitLine.signedDistTo with
    | some meanError2 =>
      if input.referenceSegmentLength = 0 then none
      else
        let limitMultiplier := dist / input.referenceSegmentLength
        some (decide (meanError2 ≤ input.maxMeanErrorAtReferenceLength *
          input.maxMeanErrorAtReferenceLength * limitMultiplier), meanError2)
    | none => none
  | _, _ => none

/-- Cumulative distance travelled along a sequence of points: the sum of
`|p_i - p_(i-1)|` over consecutive points. -/
def pathLength (sqrt : F → F) : List (Vector2 F) → F
  | [] => 0
  | [_] => 0
  | a :: b :: rest => (b - a).norm sqrt + pathLength sqrt (b :: rest)

/-! ## Invariants of the point map -/

/-- The keys of a map are strictly increasing (the `std::map` ordering
invariant with unique keys). -/
def SortedKeys (m : List (F × Vector2 F)) : Prop :=
  m.Pairwise (fun a b => a.1 < b.1)

/-! ## Vector2.cpp: angleTo; Common.h: angle constants -/

/-- `Vector2::angleTo`: `std::atan2(cross(b), dot(b))`; `std::atan2` is passed
as the argument `atan2` (first argument `y`, second `x`).  The source asserts
that both vectors are unit vectors up to `1e-4` (debug builds only). -/
def Vector2.angleTo (atan2 : F → F → F) (a b : Vector2 F) : F := atan2 (a.cross b) (a.dot b)

/-- `#define ME_PI 3.14159265358979323846264338328f`, taken at its decimal value. -/
def ME_PI : F := 314159265358979323846264338328 / 10 ^ 29

/-- `#define ME_RAD_TO_DEG (180.0f / ME_PI)`. -/
def ME_RAD_TO_DEG : F := 180 / ME_PI

/-! ## ArcSplineUtil.h / ArcSplineUtil.cpp: corner detector -/

/-- `struct ArcSplineUtil::CornersInput`; the two `unsigned int` members are
natural numbers. -/
structure CornersInput (F : Type) where
  tStep : F
  innerMinAngleInDeg : F
  outerMaxAngleInDeg : F
  minNumberTestPositivesInSeries : Nat
  maxDistBetweenCornersToMerge : Nat
  innerInterMeasurementFactor : F
  outerInterMeasurementFactor : F

/-- The default member initialisers of `CornersInput`: 1, 45, 25, 2, 4, 1, 2. -/
def CornersInput.default : CornersInput F :=
  { tStep := 1, innerMinAngleInDeg := 45, outerMaxAngleInDeg := 25
    minNumberTestPositivesInSeries := 2, maxDistBetweenCornersToMerge := 4
    innerInterMeasurementFactor := 1, outerInterMeasurementFactor := 2 }

/-- The local `margin` of `findCorners`:
`std::ceil(outerInterMeasurementFactor + 0.5f * innerInterMeasurementFactor)`;
`std::ceil` is passed as the argument `ceil`. -/
def cornerMargin (ceil : F → F) (input : CornersInput F) : F :=
  ceil (input.outerInterMeasurementFactor + (1 / 2 : F) * input.innerInterMeasurementFactor)

/-- The local array `d[4]` of `findCorners` after the scaling by
`line.halfSmoothingSpread`, entry `i` (an index above 3 reads entry 3). -/
def cornerOffset (line : FreeformLine F) (input : CornersInput F) : Nat → F
  | 0 => -(input.outerInterMeasurementFactor + input.innerInterMeasurementFactor) *
      line.halfSmoothingSpread
  | 1 => -input.innerInterMeasurementFactor * line.halfSmoothingSpread
  | 2 => input.innerInterMeasurementFactor * line.halfSmoothingSpread
  | _ => (input.innerInterMeasurementFactor + input.outerInterMeasurementFactor) *
      line.halfSmoothingSpread

/-- The local array `angles[3]` of the scan loop of `findCorners` at the
position `t`; `none` when a tangent query is undefined. -/
def cornerAngles (sqrt : F → F) (atan2 : F → F → F) (line : FreeformLine F)
    (input : CornersInput F) (t : F) : Option (F × F × F) :=
  match line.getTangentAt sqrt (t + cornerOffset line input 0),
      line.getTangentAt sqrt (t + cornerOffset line input 1),
      line.getTangentAt sqrt (t + cornerOffset line input 2),
      line.getTangentAt sqrt (t + cornerOffset line input 3) with
  | some tan0, some tan1, some tan2, some tan3 =>
    some (|tan0.angleTo atan2 tan1| * ME_RAD_TO_DEG,
      |tan1.angleTo atan2 tan2| * ME_RAD_TO_DEG,
      |tan2.angleTo atan2 tan3| * ME_RAD_TO_DEG)
  | _, _, _, _ => none

/-- The condition of the first `if` of the scan loop of `findCorners`.  The
two quotients are reached only after `angles[1] > innerMinAngleInDeg` held;
with `angles[1] == 0` the float quotient of the non-negative `angles[0]` (or
`angles[2]`) by zero is `+inf` or NaN and the comparison `< 1/3` is false,
which is the conjunct `angles.2.1 ≠ 0` here. -/
def isCornerCandidate (input : CornersInput F) (angles : F × F × F) : Bool :=
  decide (angles.1 < input.outerMaxAngleInDeg ∧
    angles.2.1 > input.innerMinAngleInDeg ∧
    angles.2.2 < input.outerMaxAngleInDeg ∧
    angles.2.1 ≠ 0 ∧
    angles.1 / angles.2.1 < 1 / 3 ∧
    angles.2.2 / angles.2.1 < 1 / 3)

/-- The variables the scan loop of `findCorners` updates: the running
`cornerSection` and the vector `*result`. -/
structure CornerScan (F : Type) where
  cornerSection : Range F
  result : List (Range F)

/-- The body of the scan loop of `findCorners` at the position `t`, given the
outcome `qualifies` of the angle test. -/
def scanStep (input : CornersInput F) (qualifies : Bool) (t : F) (st : CornerScan F) :
    CornerScan F :=
  if qualifies then
    { st with cornerSection := st.cornerSection.include_ t }
  else if st.cornerSection.length ≥ (input.minNumberTestPositivesInSeries : F) then
    match st.result.getLast? with
    | some back =>
      if back.end_ + (input.maxDistBetweenCornersToMerge : F) ≥ st.cornerSection.start then
        { cornerSection := st.cornerSection.invalidate
          result := st.result.dropLast ++ [{ back with end_ := st.cornerSection.end_ }] }
      else
        { cornerSection := st.cornerSection.invalidate
          result := st.result ++ [st.cornerSection] }
    | none =>
      { cornerSection := st.cornerSection.invalidate
        result := st.result ++ [st.cornerSection] }
  else
    { st with cornerSection := st.cornerSection.invalidate }

/-- The scan loop of `findCorners`,
`for (t = ...; t <= tBounds.end - margin; t += input.tStep)`, from the
position `t` with the variables `st`.  `fuel` bounds the number of
iterations; `none` when it runs out or when a tangent query is undefined. -/
def scanLoop (sqrt : F → F) (atan2 : F → F → F) (line : FreeformLine F)
    (input : CornersInput F) (tEnd : F) : Nat → F → CornerScan F → Option (CornerScan F)
  | 0, t, st => if t ≤ tEnd then none else some st
  | fuel + 1, t, st =>
    if t ≤ tEnd then
      match cornerAngles sqrt atan2 line input t with
      | none => none
      | some angles =>
        scanLoop sqrt atan2 line input tEnd fuel (t + input.tStep)
          (scanStep input (isCornerCandidate input angles) t st)
    else some st

/-- The first loop of `findCorners`: the corner sections in `*result` when
the scan ends (`*result` is empty on entry). -/
def findCornerSections (sqrt : F → F) (atan2 : F → F → F) (ceil : F → F) (fuel : Nat)
    (line : FreeformLine F) (input : CornersInput F) : Option (List (Range F)) :=
  match scanLoop sqrt atan2 line input (line.clippingRange.end_ - cornerMargin ceil input) fuel
      (line.clippingRange.start + cornerMargin ceil input)
      { cornerSection := Range.new, result := [] } with
  | some st => some st.result
  | none => none

/-- The inner loop of the second part of `findCorners`,
`for (t = c.start; t <= c.end; t++)`, from the position `t` with the current
`tBest` and `furthestPosAlongDir`; returns the final `tBest`. -/
def bestPointLoop (line : FreeformLine F) (searchDir : Vector2 F) (tEnd : F) :
    Nat → F → F → F → Option F
  | 0, t, tBest, _ => if t ≤ tEnd then none else some tBest
  | fuel + 1, t, tBest, furthestPosAlongDir =>
    if t ≤ tEnd then
      match line.getPointAt t with
      | none => none
      | some p =>
        let posAlongDir := searchDir.dot p
        if furthestPosAlongDir < posAlongDir then
          bestPointLoop line searchDir tEnd fuel (t + 1) t posAlongDir
        else
          bestPointLoop line searchDir tEnd fuel (t + 1) tBest furthestPosAlongDir
    else some tBest

/-- The body of the second loop of `findCorners` for one corner section `c`:
the range `{tBest, tBest}` written back to it. -/
def reduceCorner (sqrt : F → F) (fuel : Nat) (line : FreeformLine F) (input : CornersInput F)
    (c : Range F) : Option (Range F) :=
  match line.getTangentAt sqrt (c.start + cornerOffset line input 1),
      line.getTangentAt sqrt (c.end_ + cornerOffset line input 2) with
  | some tangent0, some tangent1 =>
    let searchDir := tangent0 - tangent1
    let tBest := (1 / 2 : F) * (c.start + c.end_)
    if searchDir.norm2 > ME_EPSILON2 then
      let c1 := c.inflate (2 * input.innerInterMeasurementFactor * line.halfSmoothingSpread)
      match bestPointLoop line searchDir c1.end_ fuel c1.start tBest (-FLT_MAX) with
      | some best => some { start := best, end_ := best }
      | none => none
    else some { start := tBest, end_ := tBest }
  | _, _ => none

/-- The second loop of `findCorners`, `for (Range& c : *result)`. -/
def reduceCorners (sqrt : F → F) (fuel : Nat) (line : FreeformLine F) (input : CornersInput F) :
    List (Range F) → Option (List (Range F))
  | [] => some []
  | c :: rest =>
    match reduceCorner sqrt fuel line input c, reduceCorners sqrt fuel line input rest with
    | some c1, some rest1 => some (c1 :: rest1)
    | _, _ => none

/-- `ArcSplineUtil::findCorners`, returning the vector written to `*result`
(empty on entry).  `fuel` bounds the iterations of each loop. -/
def findCorners (sqrt : F → F) (atan2 : F → F → F) (ceil : F → F) (fuel : Nat)
    (line : FreeformLine F) (input : CornersInput F) : Option (List (Range F)) :=
  match findCornerSections sqrt atan2 ceil fuel line input with
  | some sections => reduceCorners sqrt fuel line input sections
  | none => none

/-! ## ArcSplineUtil.h: biarc and combined inputs -/

/-- `struct ArcSplineUtil::BiarcsInput`. -/
structure BiarcsInput (F : Type) where
  tBounds : Range F
  tStep : F
  maxMeanError : F
  maxBiarcRatio : F
  minBiarcRatio : F
  numBiarcRatioSamples : Int
  distToErrorThreshold : F
  endOfLineOkayFactor : F
  allowHalfArcAtSectionEnd : Bool
  endAngleTolerance : F
  allowExtraToleranceForSingleArcSections : Bool
  endAngleToleranceForSingleArcSection : F

/-- The default member initialisers of `BiarcsInput`; `tBounds` is a
default-constructed (invalid) range and `minBiarcRatio = 1 / maxBiarcRatio`. -/
def BiarcsInput.default : BiarcsInput F :=
  { tBounds := Range.new, tStep := 15, maxMeanError := 10, maxBiarcRatio := 5
    minBiarcRatio := 1 / 5, numBiarcRatioSamples := 9, distToErrorThreshold := 101 / 100
    endOfLineOkayFactor := 0, allowHalfArcAtSectionEnd := true, endAngleTolerance := 15
    allowExtraToleranceForSingleArcSections := false
    endAngleToleranceForSingleArcSection := 45 }

/-- `struct ArcSplineUtil::ProcessingInput`. -/
structure ProcessingInput (F : Type) where
  corners : CornersInput F
  segments : SegmentsInput F
  biarcs : BiarcsInput F

/-- A default-constructed `ProcessingInput`. -/
def ProcessingInput.default : ProcessingInput F :=
  { corners := CornersInput.default, segments := SegmentsInput.default
    biarcs := BiarcsInput.default }

/-! ## Geometry.h: Biarc helpers -/

namespace Biarc

/-- `Biarc::q0`: `point0 + tangent0 * param.d0`. -/
def q0 (b : Biarc F) : Vector2 F := b.point0 + b.tangent0 * b.param.d0

/-- `Biarc::q1`: `point1 - tangent1 * param.d1`. -/
def q1 (b : Biarc F) : Vector2 F := b.point1 - b.tangent1 * b.param.d1

/-- `Biarc::midPoint`:
`Vector2::interpolate(q0(), q1(), param.d0 / (param.d0 + param.d1 + FLT_MIN))`;
`none` when the denominator is 0 (float division by zero). -/
def midPoint (b : Biarc F) : Option (Vector2 F) :=
  if b.param.d0 + b.param.d1 + FLT_MIN = 0 then none
  else some (Vector2.interpolate b.q0 b.q1 (b.param.d0 / (b.param.d0 + b.param.d1 + FLT_MIN)))

/-- `Biarc::midTangent`: `q0().directionTo(q1())`.  The source asserts
`0 <= param.d0 || 0 == param.d1` (debug builds only). -/
def midTangent (sqrt : F → F) (b : Biarc F) : Vector2 F := b.q0.directionTo sqrt b.q1

end Biarc

/-! ## ArcSpline.h / ArcSpline.cpp -/

/-- `class SplineElement` with its two subclasses `SplineArc` and
`SplineSegment`, by their data members. -/
inductive SplineElement (F : Type) where
  /-- `SplineArc`: `circle`, `startAngle`, `sweepAngle`, `idxInBiarc`. -/
  | arc (circle : Circle F) (startAngle sweepAngle : F) (idxInBiarc : Int) : SplineElement F
  /-- `SplineSegment`: `p0`, `p1`, `idxInBiarc`. -/
  | segment (p0 p1 : Vector2 F) (idxInBiarc : Int) : SplineElement F

namespace SplineElement

/-- The constructor `SplineArc::SplineArc(circle, p0, tangentAtP0, p1, idx)`;
`std::atan2f` is the argument `atan2`. -/
def newArc (atan2 : F → F → F) (circle : Circle F) (p0 tangentAtP0 p1 : Vector2 F)
    (idx : Int) : SplineElement F :=
  let arm0 := p0 - circle.center
  let arm1 := p1 - circle.center
  let startAngle := atan2 arm0.y arm0.x * ME_RAD_TO_DEG
  let endAngle := atan2 arm1.y arm1.x * ME_RAD_TO_DEG
  let sweepAngle := endAngle - startAngle
  let sweepAngle1 :=
    if arm0.cross tangentAtP0 * sweepAngle < 0 then
      sweepAngle + (if sweepAngle < 0 then 360 else -360)
    else sweepAngle
  arc circle startAngle sweepAngle1 idx

/-- The constructor `SplineSegment::SplineSegment(p0, p1, idx = -1)`. -/
def newSegment (p0 p1 : Vector2 F) (idx : Int) : SplineElement F := segment p0 p1 idx

/-- A segment whose `idxInBiarc` is the default `-1`: one "identified
independently", not a part of a biarc. -/
def isIndependentSegment : SplineElement F → Bool
  | segment _ _ idx => decide (idx = -1)
  | arc _ _ _ _ => false

end SplineElement

/-- The loop `for (const Range& c : corners)` of `findCornersAndSegments`
over the corners still to visit (terminal included), from `prevCorner` with
the segments collected so far; `none` when `isSegment` is undefined. -/
def segmentLoop (sqrt : F → F) (fuel : Nat) (line : FreeformLine F) (input : SegmentsInput F) :
    List (Range F) → F → List (Range F) → Option (List (Range F))
  | [], _, segments => some segments
  | c :: rest, prevCorner, segments =>
    let segment : Range F := { start := prevCorner, end_ := c.start }
    if ME_MAX_SPLINE_GAP < segment.length then
      match isSegment sqrt fuel line segment input with
      | none => none
      | some (true, _) => segmentLoop sqrt fuel line input rest c.end_ (segments ++ [segment])
      | some (false, _) => segmentLoop sqrt fuel line input rest c.end_ segments
    else segmentLoop sqrt fuel line input rest c.end_ segments

/-- `std::sort(result->begin(), result->end(), Range::isLess)`.  `isLess` is a
strict total order on ranges, so every sorting algorithm returns the same
list; insertion sort stands for it. -/
def sortRanges (l : List (Range F)) : List (Range F) :=
  l.insertionSort (fun a b => ¬ Range.isLess b a)

/-- `ArcSpline::findCornersAndSegments`, returning the line (its bounds are
set) and the vector written to `*result` (empty on entry). -/
def findCornersAndSegments (sqrt : F → F) (atan2 : F → F → F) (ceil : F → F) (fuel : Nat)
    (processingInput : ProcessingInput F) (line : FreeformLine F) :
    Option (FreeformLine F × List (Range F)) :=
  let fullLineBounds : Range F := { start := 0, end_ := line.length }
  let line1 := line.setBounds fullLineBounds
  match findCorners sqrt atan2 ceil fuel line1 processingInput.corners with
  | none => none
  | some corners =>
    match segmentLoop sqrt fuel line1 processingInput.segments
        (corners ++ [{ start := line1.length, end_ := line1.length }]) 0 [] with
    | none => none
    | some segments => some (line1, sortRanges (corners ++ segments))

/-- The loop `for (const auto& b : biarcs)` of `generateBiarcsAndFinalShapes`
over the biarcs still to convert, with the current value of the local `shape`
(a null `ref` is `none`) and the display shapes so far.  A half whose cached
shape is invalid pushes the unchanged `shape`.  `none` when a mid point is
undefined. -/
def biarcShapesLoop (sqrt : F → F) (atan2 : F → F → F) :
    List (Biarc F) → Option (SplineElement F) → List (Option (SplineElement F)) →
    Option (List (Option (SplineElement F)))
  | [], _, out => some out
  | b :: rest, shape, out =>
    match b.midPoint with
    | none => none
    | some mid =>
      let shape1 : Option (SplineElement F) :=
        if ME_MAX_SPLINE_GAP ≤ b.point0.distTo sqrt mid then
          match b.shape0 with
          | CircleOrLine.circle c => some (SplineElement.newArc atan2 c b.point0 b.tangent0 mid 0)
          | CircleOrLine.line _ => some (SplineElement.newSegment b.point0 mid 0)
          | CircleOrLine.invalid => shape
        else shape
      let out1 := if ME_MAX_SPLINE_GAP ≤ b.point0.distTo sqrt mid then out ++ [shape1] else out
      let shape2 : Option (SplineElement F) :=
        if ME_MAX_SPLINE_GAP ≤ b.point1.distTo sqrt mid then
          match b.shape1 with
          | CircleOrLine.circle c =>
            some (SplineElement.newArc atan2 c mid (b.midTangent sqrt) b.point1 1)
          | CircleOrLine.line _ => some (SplineElement.newSegment mid b.point1 1)
          | CircleOrLine.invalid => shape1
        else shape1
      let out2 := if ME_MAX_SPLINE_GAP ≤ b.point1.distTo sqrt mid then out1 ++ [shape2] else out1
      biarcShapesLoop sqrt atan2 rest shape2 out2

/-- The variables `generateBiarcsAndFinalShapes` updates: the line (its
bounds), the shared `ProcessingInput` (its `biarcs.tBounds`), the marker
vector and the two output vectors. -/
structure SplineState (F : Type) where
  line : FreeformLine F
  processingInput : ProcessingInput F
  markers : List (Range F)
  outCorners : List (Vector2 F)
  outDisplayShapes : List (Option (SplineElement F))

/-- The first `if` of the body of the marker loop of
`generateBiarcsAndFinalShapes`: biarcs and their display shapes for the gap
`boundsBetweenMarkers` before a marker.  `convertLineToBiarcs` stands for
`ArcSplineUtil::convertLineToBiarcs`, whose body is not part of the
repository: the vector it writes for a line and a `BiarcsInput`. -/
def gapStep (sqrt : F → F) (atan2 : F → F → F)
    (convertLineToBiarcs : FreeformLine F → BiarcsInput F → List (Biarc F))
    (boundsBetweenMarkers : Range F) (st : SplineState F) : Option (SplineState F) :=
  if boundsBetweenMarkers.length > ME_MAX_SPLINE_GAP then
    let biarcsInput1 : BiarcsInput F :=
      { st.processingInput.biarcs with tBounds := boundsBetweenMarkers }
    let line1 := st.line.setBounds boundsBetweenMarkers
    let biarcs := convertLineToBiarcs line1 biarcsInput1
    match biarcShapesLoop sqrt atan2 biarcs none st.outDisplayShapes with
    | none => none
    | some shapes =>
      some { st with line := line1
                     processingInput := { st.processingInput with biarcs := biarcsInput1 }
                     outDisplayShapes := shapes }
  else some st

/-- The second part of the body of the marker loop: the display object for
the marker `s` itself (a segment for `s.length() > ME_MAX_SPLINE_GAP`, a
corner point for `s.length() == 0`). -/
def markerOwnStep (s : Range F) (st : SplineState F) : Option (SplineState F) :=
  if s.length > ME_MAX_SPLINE_GAP then
    match st.line.getPointAt s.start, st.line.getPointAt s.end_ with
    | some p0, some p1 =>
      some { st with
        outDisplayShapes := st.outDisplayShapes ++ [some (SplineElement.newSegment p0 p1 (-1))] }
    | _, _ => none
  else if s.length = 0 then
    match st.line.getPointAt s.start with
    | some p => some { st with outCorners := st.outCorners ++ [p] }
    | none => none
  else some st

/-- The body of the marker loop of `generateBiarcsAndFinalShapes` for the
marker `s` after `prevMarker`. -/
def markerStep (sqrt : F → F) (atan2 : F → F → F)
    (convertLineToBiarcs : FreeformLine F → BiarcsInput F → List (Biarc F))
    (prevMarker s : Range F) (st : SplineState F) : Option (SplineState F) :=
  match gapStep sqrt atan2 convertLineToBiarcs { start := prevMarker.end_, end_ := s.start } st with
  | none => none
  | some st1 => markerOwnStep s st1

/-- The marker loop `for (const Range& s : *mutableCornersAndSegments)` over
the markers still to visit. -/
def markerLoop (sqrt : F → F) (atan2 : F → F → F)
    (convertLineToBiarcs : FreeformLine F → BiarcsInput F → List (Biarc F)) :
    List (Range F) → Range F → SplineState F → Option (SplineState F)
  | [], _, st => some st
  | s :: rest, prevMarker, st =>
    match markerStep sqrt atan2 convertLineToBiarcs prevMarker s st with
    | none => none
    | some st1 => markerLoop sqrt atan2 convertLineToBiarcs rest s st1

/-- `ArcSpline::generateBiarcsAndFinalShapes` on the state holding the line,
the `ProcessingInput`, `*mutableCornersAndSegments`, `*outCorners` and
`*outDisplayShapes`. -/
def generateBiarcsAndFinalShapes (sqrt : F → F) (atan2 : F → F → F)
    (convertLineToBiarcs : FreeformLine F → BiarcsInput F → List (Biarc F))
    (st : SplineState F) : Option (SplineState F) :=
  let withTerminal := st.markers ++ [{ start := st.line.length, end_ := st.line.length + 1 }]
  match markerLoop sqrt atan2 convertLineToBiarcs withTerminal { start := -1, end_ := 0 }
      { st with markers := withTerminal } with
  | none => none
  | some st1 => some { st1 with markers := st1.markers.dropLast }

/-- `class ArcSpline`: the data members. -/
structure ArcSpline (F : Type) where
  sourceLine : FreeformLine F
  processingInput : ProcessingInput F
  displayShapes : List (Option (SplineElement F))
  debugCorners : List (Vector2 F)

/-- `ArcSpline::recreateSpline(processingInput)`; a null argument is `none`,
for which the `ProcessingInput` the spline already holds is used. -/
def recreateSpline (sqrt : F → F) (atan2 : F → F → F) (ceil : F → F)
    (convertLineToBiarcs : FreeformLine F → BiarcsInput F → List (Biarc F)) (fuel : Nat)
    (spline : ArcSpline F) (processingInput : Option (ProcessingInput F)) :
    Option (ArcSpline F) :=
  let input := processingInput.getD spline.processingInput
  let lineCopy := spline.sourceLine
  match findCornersAndSegments sqrt atan2 ceil fuel input lineCopy with
  | none => none
  | some (line1, cornersAndSegments) =>
    match generateBiarcsAndFinalShapes sqrt atan2 convertLineToBiarcs
        { line := line1, processingInput := input, markers := cornersAndSegments
          outCorners := [], outDisplayShapes := [] } with
    | none => none
    | some st =>
      some { sourceLine := spline.sourceLine, processingInput := st.processingInput
             displayShapes := st.outDisplayShapes, debugCorners := st.outCorners }

/-! ## What the marker loop produces for one marker -/

/-- An entry of the display-shape vector that is a segment with the default
`idxInBiarc` of `-1` (a null entry is not). -/
def isMarkerSegment : Option (SplineElement F) → Bool
  | some e => e.isIndependentSegment
  | none => false

/-- The corner point the marker loop records for the marker `s`: the point at
`s.start` for a zero-length marker, nothing otherwise. -/
def markerCorner (line : FreeformLine F) (s : Range F) : Option (Vector2 F) :=
  if s.length = 0 then line.getPointAt s.start else none

/-- The display shape the marker loop creates for the marker `s` itself: a
`SplineSegment` with the default index between the points at `s.start` and
`s.end` for a marker longer than `ME_MAX_SPLINE_GAP`, nothing otherwise. -/
def markerShape (line : FreeformLine F) (s : Range F) : Option (Option (SplineElement F)) :=
  if s.length > ME_MAX_SPLINE_GAP then
    match line.getPointAt s.start, line.getPointAt s.end_ with
    | some p0, some p1 => some (some (SplineElement.newSegment p0 p1 (-1)))
    | _, _ => none
  else none

/-! ## Secants behind the tangents -/

/-- The secant whose direction `getTangentAt(t)` returns, for a polyline
whose point at the parameter `s` is `path s`: `b - a` with `a` the point at
the clamped `t - halfSmoothingSpread` and `b` the point at the clamped
`t + halfSmoothingSpread`. -/
def tangentSecant (path : F → Vector2 F) (line : FreeformLine F) (t : F) : Vector2 F :=
  path (line.tangentSampleB t) - path (line.tangentSampleA t)

/-- The map of a polyline of length `L` all of whose samples lie on the
curve `path`, parametrised by the distance travelled: the entries with a key
in `[0, L]` hold `path key`, the two sentinels hold the first and the last
point, and every key of the list `ks` is present. -/
structure CurveInv (path : F → Vector2 F) (L : F) (ks : List F) (line : FreeformLine F) :
    Prop where
  sorted : SortedKeys line.points
  shape : ∃ pre, line.points = pre ++ [(L, path L), (ME_A_LOT, path L)]
  head : ∃ rest, rest ≠ [] ∧ line.points = (-ME_A_LOT, path 0) :: (0, path 0) :: rest
  val : ∀ e ∈ line.points, 0 ≤ e.1 → e.1 ≤ L → e.2 = path e.1
  has : ∀ k ∈ ks, ∃ e ∈ line.points, e.1 = k
  len : line.cachedLength = L
  spread : line.halfSmoothingSpread = 10

/-- A polyline whose bounds are set to its full length `L`, with the default
smoothing spread, and whose point at every `t` up to `L` is `path t`. -/
structure Fitted (path : F → Vector2 F) (L : F) (line : FreeformLine F) : Prop where
  spread : line.halfSmoothingSpread = 10
  clip : line.clippingRange = { start := 0, end_ := L }
  margin : line.clippingMargin = min 20 L
  len : line.cachedLength = L
  point : ∀ t, -ME_A_LOT ≤ t → t ≤ L → line.getPointAt t = some (path t)

/-- The point at the distance `t` from `p0` along the direction `u`; the
start point itself for `t ≤ 0`. -/
def linePath (p0 u : Vector2 F) (t : F) : Vector2 F := p0 + u * max t 0

/-- The point at the distance `t` along the L-shaped stroke that runs from
`(0,0)` to `(50,0)` and on to `(50,50)`; the start point for `t ≤ 0`. -/
def lPath (t : F) : Vector2 F := ⟨min (max t 0) 50, max (t - 50) 0⟩

/-- The L-shaped stroke sampled at unit spacing: `(0,0)`, `(1,0)`, ...,
`(50,0)`, then `(50,1)`, ..., `(50,50)`. -/
def lStrokePoints : List (Vector2 F) :=
  (List.range 51).map (fun i : Nat => (⟨(i : F), 0⟩ : Vector2 F)) ++
    (List.range 50).map (fun i : Nat => (⟨50, (i : F) + 1⟩ : Vector2 F))

/-- The default `CornersInput` with `tStep = 1/2` and
`minNumberTestPositivesInSeries = 20`. -/
def halfStepCorners : CornersInput F :=
  { tStep := 1 / 2, innerMinAngleInDeg := 45, outerMaxAngleInDeg := 25
    minNumberTestPositivesInSeries := 20, maxDistBetweenCornersToMerge := 4
    innerInterMeasurementFactor := 1, outerInterMeasurementFactor := 2 }

/-- The point at the distance `t` along the stroke `(0,0)`, `(12,0)`,
`(12,4)`, `(-4,4)`, `(-4,14)` (a short step between two long runs in opposite
directions, then a turn upward); the start point for `t ≤ 0`. -/
def hairpinPath (t : F) : Vector2 F :=
  ⟨min (max t 0) 12 - min (max (t - 16) 0) 16, min (max (t - 12) 0) 4 + max (t - 32) 0⟩

/-- The bent stroke `(0,0)`, `(4,0)`, `(4,3)` by arc length: 4 units to the
right, then up. -/
def bentPath (t : F) : Vector2 F := ⟨min (max t 0) 4, max (t - 4) 0⟩

namespace Biarc

/-- `Biarc::calcCachedShapes`: the two child shapes are fitted through the
mid point and the dividing line is `Line::fromPointAndNormal(midPoint,
midTangent())`.  The source asserts that both shapes are valid (debug builds
only).  `none` when the mid point is undefined. -/
def calcCachedShapes (sqrt : F → F) (b : Biarc F) : Option (Biarc F) :=
  match b.midPoint with
  | none => none
  | some midPoint =>
    some { b with
      shape0 := CircleOrLine.fitCircleOrLine sqrt b.point0 b.tangent0 midPoint
      shape1 := CircleOrLine.fitCircleOrLine sqrt b.point1 b.tangent1 midPoint
      divLine := Line.fromPointAndNormal midPoint (b.midTangent sqrt) }

/-- `Biarc::signedDistTo`.  The source asserts `0 <= param.d1` (debug builds
only). -/
def signedDistTo (sqrt : F → F) (b : Biarc F) (point : Vector2 F) : F :=
  let sign := b.divLine.signedDistTo b.point0 * b.divLine.signedDistTo point
  let sign1 := sign * b.param.d1
  (if sign1 ≥ 0 then b.shape0 else b.shape1).signedDistTo sqrt point

end Biarc

namespace SplineSegment

/-- The local `closestPoint` of `SplineSegment::distTo` for the segment from
`p0` to `p1` when the `do { } while (false)` block is left. -/
def closestPoint (p0 p1 point : Vector2 F) : Vector2 F :=
  let u := point - p0
  let v := p1 - p0
  let c1 := u.dot v
  if c1 ≤ 0 then p0
  else
    let c2 := v.dot v
    if c2 ≤ c1 then p1
    else
      let t := c1 / c2
      p0 + v * t

/-- `SplineSegment::distTo` for the segment from `p0` to `p1`. -/
def distTo (sqrt : F → F) (p0 p1 point : Vector2 F) : F :=
  (closestPoint p0 p1 point).distTo sqrt point

/-- `SplineSegment::distToEndPoint`:
`std::fmin(point.distTo(p0), point.distTo(p1))`. -/
def distToEndPoint (sqrt : F → F) (p0 p1 point : Vector2 F) : F :=
  min (point.distTo sqrt p0) (point.distTo sqrt p1)

end SplineSegment

/-- The biarc from `(0,0)` with tangent `(1,0)` to `(0,2)` with tangent
`(-1,0)` and the parameters `d0 = d1 = 1` (a half turn). -/
def unitTurnBiarc : Biarc F :=
  { Biarc.ofPointsAndTangents (⟨0, 0⟩ : Vector2 F) ⟨1, 0⟩ ⟨0, 2⟩ ⟨-1, 0⟩ with
    param := { d0 := 1, d1 := 1 } }

/-! ## FreeformLine.cpp: operator<< and operator>> -/

/-- One whitespace-separated number of the text stream: a `float` written or
read with the stream operators, or the `int` point count. -/
inductive Token (F : Type) where
  | float : F → Token F
  | int : Int → Token F

/-- The extraction `stream >> numPoints` for the `int numPoints`; `none` when
the stream is exhausted or the next number is not written as an integer. -/
def readInt : List (Token F) → Option (Int × List (Token F))
  | Token.int i :: rest => some (i, rest)
  | _ => none

/-! ## The type `float`: rounding of a result to 24 significant bits -/

/-- The integer nearest to `x`, the even one of the two when `x` lies half
way between two integers (the rounding mode of IEEE 754 arithmetic). -/
def roundHalfEven [FloorRing F] (x : F) : Int :=
  if 2 * Int.fract x < 1 then ⌊x⌋
  else if 1 < 2 * Int.fract x then ⌊x⌋ + 1
  else if ⌊x⌋ % 2 = 0 then ⌊x⌋ else ⌊x⌋ + 1

/-- The `float` a result `x` is rounded to: the nearest multiple of
`2 ^ (e - 23)`, where `2 ^ e <= |x| < 2 ^ (e + 1)` (24 significant bits), ties
to the even multiple.  The exponent range of the type is not modelled (no
overflow to infinity, no subnormal numbers). -/
def float32 [FloorRing F] (x : F) : F :=
  (roundHalfEven (x / 2 ^ (Int.log 2 |x| - 23)) : F) * 2 ^ (Int.log 2 |x| - 23)

/-- `Range::length` with the float subtraction `end - start` passed as the
argument `minus`. -/
def Range.lengthWith (minus : F → F → F) (r : Range F) : F :=
  if r.isValid then minus r.end_ r.start else 0

/-- `FreeformLine::setBounds` with the float subtraction of `range.length()`
passed as the argument `minus`. -/
def FreeformLine.setBoundsWith (minus : F → F → F) (line : FreeformLine F) (range : Range F) :
    FreeformLine F :=
  { line with
    clippingRange := range
    clippingMargin := min (2 * line.halfSmoothingSpread) (range.lengthWith minus) }

/-- `Biarc::midPoint` with the float addition of the guard `FLT_MIN` to
`param.d0 + param.d1` passed as the argument `plus`. -/
def Biarc.midPointWith (plus : F → F → F) (b : Biarc F) : Option (Vector2 F) :=
  if plus (b.param.d0 + b.param.d1) FLT_MIN = 0 then none
  else some (Vector2.interpolate b.q0 b.q1 (b.param.d0 / plus (b.param.d0 + b.param.d1) FLT_MIN))

/-- `ArcSpline::generateBiarcsAndFinalShapes` with the float addition
`line.length() + 1.0f` of the terminal passed as the argument `plus`. -/
def generateBiarcsAndFinalShapesWith (plus : F → F → F) (sqrt : F → F) (atan2 : F → F → F)
    (convertLineToBiarcs : FreeformLine F → BiarcsInput F → List (Biarc F))
    (st : SplineState F) : Option (SplineState F) :=
  let withTerminal := st.markers ++ [{ start := st.line.length, end_ := plus st.line.length 1 }]
  match markerLoop sqrt atan2 convertLineToBiarcs withTerminal { start := -1, end_ := 0 }
      { st with markers := withTerminal } with
  | none => none
  | some st1 => some { st1 with markers := st1.markers.dropLast }

/-- `ArcSpline::recreateSpline(processingInput)` with the float addition
`line.length() + 1.0f` of the terminal passed as the argument `plus`. -/
def recreateSplineWith (plus : F → F → F) (sqrt : F → F) (atan2 : F → F → F) (ceil : F → F)
    (convertLineToBiarcs : FreeformLine F → BiarcsInput F → List (Biarc F)) (fuel : Nat)
    (spline : ArcSpline F) (processingInput : Option (ProcessingInput F)) :
    Option (ArcSpline F) :=
  let input := processingInput.getD spline.processingInput
  let lineCopy := spline.sourceLine
  match findCornersAndSegments sqrt atan2 ceil fuel input lineCopy with
  | none => none
  | some (line1, cornersAndSegments) =>
    match generateBiarcsAndFinalShapesWith plus sqrt atan2 convertLineToBiarcs
        { line := line1, processingInput := input, markers := cornersAndSegments
          outCorners := [], outDisplayShapes := [] } with
    | none => none
    | some st =>
      some { sourceLine := spline.sourceLine, processingInput := st.processingInput
             displayShapes := st.outDisplayShapes, debugCorners := st.outCorners }

/-! ## FreeformLine.cpp: addPoint with its float operations as arguments -/

namespace FreeformLine

/-- `FreeformLine::addPoint` with the two float operations of the expression
`lastPoint.first + lastPoint.second.distTo(point)` passed as arguments: `plus`
is the float addition and `dist` is `Vector2::distTo`.  The rest is as in
`addPoint`. -/
def addPointWith (plus : F → F → F) (dist : Vector2 F → Vector2 F → F)
    (line : FreeformLine F) (point : Vector2 F) : Option (FreeformLine F) :=
  if line.points.length ≠ 0 then
    match secondLast line.points with
    | some lastPoint =>
      let length := plus lastPoint.1 (dist lastPoint.2 point)
      let points1 := mapSet length point line.points
      let points2 := setLastValue point points1
      some { line with points := points2, cachedLength := length }
    | none => none
  else
    some { line with
      points := mapSet ME_A_LOT point (mapSet 0 point (mapSet (-ME_A_LOT) point [])) }

/-- A polyline built from an empty `FreeformLine` by calling `addPoint` on
each point of the list in order, with the float operations `plus` and `dist`. -/
def buildWith (plus : F → F → F) (dist : Vector2 F → Vector2 F → F)
    (pts : List (Vector2 F)) : Option (FreeformLine F) :=
  pts.foldl (fun acc p => acc.bind (fun line => addPointWith plus dist line p)) (some new)

end FreeformLine

/-- The `(t, point)` pairs that the `addPoint` calls for the points `more`
compute after the pair `(t, p)`: each `t` is the previous one plus the
distance from the previous point, as `plus` and `dist` evaluate them. -/
def samplesWith (plus : F → F → F) (dist : Vector2 F → Vector2 F → F) :
    F → Vector2 F → List (Vector2 F) → List (F × Vector2 F)
  | t, p, [] => [(t, p)]
  | t, p, q :: rest => (t, p) :: samplesWith plus dist (plus t (dist p q)) q rest

/-- What holds of the last two entries of the map after any sequence of
`addPoint` calls: either the closing sentinel is still the last entry, and the
entry before it carries `length()` whenever `length()` is below `ME_A_LOT`; or
`length()` has reached `ME_A_LOT` and so has the key before the last one. -/
structure TailInv (line : FreeformLine F) : Prop where
  sorted : SortedKeys line.points
  tail : (∃ pre a q, line.points = pre ++ [a, (ME_A_LOT, q)] ∧ a.1 < ME_A_LOT ∧
            (line.cachedLength < ME_A_LOT → a.1 = line.cachedLength)) ∨
         (ME_A_LOT ≤ line.cachedLength ∧
            ∃ pre a b, line.points = pre ++ [a, b] ∧ ME_A_LOT ≤ a.1)

/-! ## FreeformLine.cpp: operator<< and operator>> on the numbers of the text -/

/-- The extraction `stream >> x` for a `float x`: the float `parse y` read
from the next number `y` of the text; `none` when the stream is exhausted.
`parse` stands for the conversion of a decimal text to a `float`. -/
def readFloat (parse : F → F) : List (Token F) → Option (F × List (Token F))
  | [] => none
  | Token.float y :: rest => some (parse y, rest)
  | Token.int i :: rest => some (parse (i : F), rest)

/-- The loop of `operator<<`: `pt.first`, `pt.second.x`, `pt.second.y` for
every entry of the map, in key order.  `fmt x` is the number that the decimal
text written for the float `x` denotes (`operator<<` writes six significant
digits unless the stream is told otherwise). -/
def pointTokens (fmt : F → F) : List (F × Vector2 F) → List (Token F)
  | [] => []
  | pt :: rest =>
    Token.float (fmt pt.1) :: Token.float (fmt pt.2.x) :: Token.float (fmt pt.2.y) ::
      pointTokens fmt rest

/-- The numbers `operator<<` writes for a polyline: `halfSmoothingSpread`,
`(int)points.size()`, then the loop over `points`. -/
def FreeformLine.streamOut (fmt : F → F) (line : FreeformLine F) : List (Token F) :=
  Token.float (fmt line.halfSmoothingSpread) :: Token.int (line.points.length : Int) ::
    pointTokens fmt line.points

/-- The loop of `operator>>`: `numPoints` times read `t`, `v.x`, `v.y` and
store `points[t] = v`. -/
def readPoints (parse : F → F) : Nat → List (Token F) → List (F × Vector2 F) →
    Option (List (F × Vector2 F) × List (Token F))
  | 0, toks, m => some (m, toks)
  | n + 1, toks, m =>
    match readFloat parse toks with
    | none => none
    | some (t, r1) =>
      match readFloat parse r1 with
      | none => none
      | some (x, r2) =>
        match readFloat parse r2 with
        | none => none
        | some (y, r3) => readPoints parse n r3 (mapSet t ⟨x, y⟩ m)

/-- The function `operator>>` on the numbers of the text, returning the
polyline read and the rest of the stream.  `points` is cleared, then
`halfSmoothingSpread`, `numPoints` and the points are read (no iteration for
`numPoints <= 0`); `cachedLength` is the key of `*++points.rbegin()` for a
non-empty map (undefined, `none`, for a map of one entry) and 0 for an empty
one.  A failed extraction is `none`. -/
def FreeformLine.streamIn (parse : F → F) (toks : List (Token F)) (line : FreeformLine F) :
    Option (FreeformLine F × List (Token F)) :=
  match readFloat parse toks with
  | none => none
  | some (spread, r1) =>
    match readInt r1 with
    | none => none
    | some (numPoints, r2) =>
      match readPoints parse numPoints.toNat r2 [] with
      | none => none
      | some (points, r3) =>
        if points.length ≠ 0 then
          match secondLast points with
          | some e =>
            some ({ line with
              halfSmoothingSpread := spread, points := points, cachedLength := e.1 }, r3)
          | none => none
        else
          some ({ line with
            halfSmoothingSpread := spread, points := points, cachedLength := 0 }, r3)

/-! ## Example strokes -/

/-- The map that `addPoint` builds for the straight stroke `(0,0)`, `(5,0)`. -/
def straightStroke : FreeformLine F :=
  { (FreeformLine.new : FreeformLine F) with
    points := [(-ME_A_LOT, ⟨0, 0⟩), (0, ⟨0, 0⟩), (5, ⟨5, 0⟩), (ME_A_LOT, ⟨5, 0⟩)]
    cachedLength := 5 }

/-- The map that `addPoint` builds for the bent stroke `(0,0)`, `(4,0)`, `(4,3)`. -/
def bentStroke : FreeformLine F :=
  { (FreeformLine.new : FreeformLine F) with
    points := [(-ME_A_LOT, ⟨0, 0⟩), (0, ⟨0, 0⟩), (4, ⟨4, 0⟩), (7, ⟨4, 3⟩), (ME_A_LOT, ⟨4, 3⟩)]
    cachedLength := 7 }

end Defs

section RealDefs

/-- The shape of the map of a polyline whose first added point is `p0` and
whose most recently added point is `q`. -/
structure LineInv (p0 q : Vector2 ℝ) (line : FreeformLine ℝ) : Prop where
  sorted : SortedKeys line.points
  head : ∃ rest, rest ≠ [] ∧ line.points = (-ME_A_LOT, p0) :: (0, p0) :: rest
  tail : (∃ pre a, line.points = pre ++ [a, (ME_A_LOT, q)] ∧ a.1 < ME_A_LOT ∧
            line.cachedLength ≤ ME_A_LOT ∧
            (line.cachedLength < ME_A_LOT → a = (line.cachedLength, q))) ∨
         (ME_A_LOT ≤ line.cachedLength ∧
            ∃ pre a b, line.points = pre ++ [a, b] ∧ ME_A_LOT ≤ a.1)

/-- The map of a polyline built from `pts` (whose last point is `q`) when the
cumulative path length stays below the sentinel. -/
structure PathInv (pts : List (Vector2 ℝ)) (q : Vector2 ℝ) (line : FreeformLine ℝ) : Prop where
  sorted : SortedKeys line.points
  shape : ∃ pre, line.points = pre ++ [(pathLength Real.sqrt pts, q), (ME_A_LOT, q)]
  len : line.cachedLength = pathLength Real.sqrt pts
  stored : ∀ k, k < pts.length →
    mapFind (pathLength Real.sqrt (pts.take (k + 1))) line.points = pts[k]?

end RealDefs

/-! # Lemmas -/

section VectorLemmas

variable {F : Type} [LinearOrderedField F]

namespace Vector2

@[simp] theorem add_x (a b : Vector2 F) : (a + b).x = a.x + b.x := rfl
@[simp] theorem add_y (a b : Vector2 F) : (a + b).y = a.y + b.y := rfl
@[simp] theorem sub_x (a b : Vector2 F) : (a - b).x = a.x - b.x := rfl
@[simp] theorem sub_y (a b : Vector2 F) : (a - b).y = a.y - b.y := rfl
@[simp] theorem neg_x (a : Vector2 F) : (-a).x = -a.x := rfl
@[simp] theorem neg_y (a : Vector2 F) : (-a).y = -a.y := rfl
@[simp] theorem mul_x (a : Vector2 F) (b : F) : (a * b).x = a.x * b := rfl
@[simp] theorem mul_y (a : Vector2 F) (b : F) : (a * b).y = a.y * b := rfl
@[simp] theorem div_x (a : Vector2 F) (b : F) : (a / b).x = a.x * (1 / b) := rfl
@[simp] theorem div_y (a : Vector2 F) (b : F) : (a / b).y = a.y * (1 / b) := rfl

theorem interpolate_self (a : Vector2 F) (t : F) : interpolate a a t = a := by
  ext <;> simp [interpolate] <;> ring

theorem interpolate_zero (a b : Vector2 F) : interpolate a b 0 = a := by
  ext <;> simp [interpolate]

theorem norm2_nonneg (a : Vector2 F) : 0 ≤ a.norm2 := by
  unfold norm2; nlinarith [mul_self_nonneg a.x, mul_self_nonneg a.y]

theorem norm2_sub_comm (a b : Vector2 F) : (a - b).norm2 = (b - a).norm2 := by
  simp [norm2]; ring

theorem eq_of_norm2_sub_eq_zero {a b : Vector2 F} (h : (a - b).norm2 = 0) : a = b := by
  simp only [norm2, sub_x, sub_y] at h
  have hx : (a.x - b.x) * (a.x - b.x) = 0 := by
    nlinarith [mul_self_nonneg (a.x - b.x), mul_self_nonneg (a.y - b.y)]
  have hy : (a.y - b.y) * (a.y - b.y) = 0 := by
    nlinarith [mul_self_nonneg (a.x - b.x), mul_self_nonneg (a.y - b.y)]
  ext
  · exact sub_eq_zero.mp (mul_self_eq_zero.mp hx)
  · exact sub_eq_zero.mp (mul_self_eq_zero.mp hy)

end Vector2

theorem FLT_MIN_pos : (0 : F) < FLT_MIN := by
  unfold FLT_MIN; positivity

theorem ME_A_LOT_pos : (0 : F) < ME_A_LOT := by
  unfold ME_A_LOT; positivity

theorem ME_EPSILON_pos : (0 : F) < ME_EPSILON := by
  unfold ME_EPSILON; positivity

end VectorLemmas

section MapLemmas

variable {F : Type} [LinearOrderedField F]

theorem upper_bound_append (t : F) (pre : List (F × Vector2 F)) (next : F × Vector2 F)
    (post : List (F × Vector2 F)) (hpre : ∀ e ∈ pre, e.1 ≤ t) (hnext : t < next.1) :
    upper_bound t (pre ++ next :: post) = pre.length := by
  induction pre with
  | nil => simp [upper_bound, hnext]
  | cons e rest ih =>
    have he : ¬ t < e.1 := not_lt.mpr (hpre e (List.mem_cons_self _ _))
    have := ih (fun x hx => hpre x (List.mem_cons_of_mem _ hx))
    simp [upper_bound, he, this]

theorem upper_bound_all_le (t : F) (m : List (F × Vector2 F)) (h : ∀ e ∈ m, e.1 ≤ t) :
    upper_bound t m = m.length := by
  induction m with
  | nil => simp [upper_bound]
  | cons e rest ih =>
    have he : ¬ t < e.1 := not_lt.mpr (h e (List.mem_cons_self _ _))
    have := ih (fun x hx => h x (List.mem_cons_of_mem _ hx))
    simp [upper_bound, he, this]

/-- The value `getPointAt` computes when `t` falls between two adjacent entries. -/
theorem getPointAt_between (line : FreeformLine F) (t : F)
    (pre post : List (F × Vector2 F)) (prev next : F × Vector2 F)
    (hpts : line.points = pre ++ prev :: next :: post)
    (hpre : ∀ e ∈ pre, e.1 ≤ t) (hprev : prev.1 ≤ t) (hnext : t < next.1) :
    line.getPointAt t =
      some (Vector2.interpolate prev.2 next.2 ((t - prev.1) / (next.1 - prev.1))) := by
  have hub : upper_bound t line.points = (pre ++ [prev]).length := by
    have h2 : line.points = (pre ++ [prev]) ++ next :: post := by simp [hpts]
    rw [h2]
    apply upper_bound_append
    · intro e he
      rcases List.mem_append.mp he with h | h
      · exact hpre e h
      · simp at h; rw [h]; exact hprev
    · exact hnext
  have hlen : (pre ++ [prev]).length = pre.length + 1 := by simp
  unfold FreeformLine.getPointAt
  rw [hub, hlen, hpts]
  have h1 : (pre ++ prev :: next :: post)[pre.length + 1]? = some next := by
    have : pre ++ prev :: next :: post = (pre ++ [prev]) ++ next :: post := by simp
    rw [this, List.getElem?_append_right (by simp)]
    simp
  have h2 : (pre ++ prev :: next :: post)[pre.length + 1 - 1]? = some prev := by
    rw [Nat.add_sub_cancel, List.getElem?_append_right (le_refl _)]
    simp
  simp only [h1, h2]
  simp

/-- The source dereferences `end()` when no key is greater than `t`. -/
theorem getPointAt_past_end (line : FreeformLine F) (t : F)
    (h : ∀ e ∈ line.points, e.1 ≤ t) : line.getPointAt t = none := by
  unfold FreeformLine.getPointAt
  simp [upper_bound_all_le t line.points h]

theorem mapSet_append_of_lt (k : F) (v : Vector2 F) (l r : List (F × Vector2 F))
    (h : ∀ e ∈ l, e.1 < k) : mapSet k v (l ++ r) = l ++ mapSet k v r := by
  induction l with
  | nil => simp
  | cons e rest ih =>
    have he : e.1 < k := h e (List.mem_cons_self _ _)
    have h1 : ¬ k < e.1 := not_lt.mpr he.le
    have h2 : ¬ k = e.1 := ne_of_gt he
    have := ih (fun x hx => h x (List.mem_cons_of_mem _ hx))
    simp [mapSet, h1, h2, this]

omit [LinearOrderedField F] in
theorem setLastValue_append_singleton (v : Vector2 F) (l : List (F × Vector2 F))
    (e : F × Vector2 F) : setLastValue v (l ++ [e]) = l ++ [(e.1, v)] := by
  induction l with
  | nil => simp [setLastValue]
  | cons a rest ih =>
    cases rest with
    | nil => simp [setLastValue]
    | cons b rest2 =>
      simp only [List.cons_append] at ih ⊢
      simp [setLastValue, ih]

omit [LinearOrderedField F] in
theorem secondLast_append_pair (l : List (F × Vector2 F)) (a b : F × Vector2 F) :
    secondLast (l ++ [a, b]) = some a := by
  unfold secondLast
  have h : (l ++ [a, b]).length - 2 = l.length := by simp
  rw [h, List.getElem?_append_right (le_refl _)]
  simp

theorem mapFind_append (k : F) (l r : List (F × Vector2 F)) :
    mapFind k (l ++ r) = (mapFind k l).orElse (fun _ => mapFind k r) := by
  induction l with
  | nil => simp [mapFind]
  | cons e rest ih =>
    by_cases h : e.1 = k
    · simp [mapFind, h]
    · simp [mapFind, h, ih]

theorem mapFind_none_of_lt (k : F) (l : List (F × Vector2 F)) (h : ∀ e ∈ l, e.1 < k) :
    mapFind k l = none := by
  induction l with
  | nil => simp [mapFind]
  | cons e rest ih =>
    have he : e.1 ≠ k := ne_of_lt (h e (List.mem_cons_self _ _))
    simp [mapFind, he, ih (fun x hx => h x (List.mem_cons_of_mem _ hx))]

theorem mem_mapSet (k : F) (v : Vector2 F) (m : List (F × Vector2 F)) (x : F × Vector2 F)
    (hx : x ∈ mapSet k v m) : x = (k, v) ∨ x ∈ m := by
  induction m with
  | nil => simp [mapSet] at hx; exact Or.inl hx
  | cons e rest ih =>
    unfold mapSet at hx
    split_ifs at hx with h1 h2
    · rcases List.mem_cons.mp hx with h | h
      · exact Or.inl h
      · exact Or.inr h
    · rcases List.mem_cons.mp hx with h | h
      · exact Or.inl h
      · exact Or.inr (List.mem_cons_of_mem _ h)
    · rcases List.mem_cons.mp hx with h | h
      · exact Or.inr (h ▸ List.mem_cons_self _ _)
      · rcases ih h with h3 | h3
        · exact Or.inl h3
        · exact Or.inr (List.mem_cons_of_mem _ h3)

theorem mapSet_sorted (k : F) (v : Vector2 F) (m : List (F × Vector2 F))
    (hs : SortedKeys m) : SortedKeys (mapSet k v m) := by
  induction m with
  | nil => simp [mapSet, SortedKeys]
  | cons e rest ih =>
    have hs2 := List.pairwise_cons.mp hs
    unfold mapSet
    split_ifs with h1 h2
    · refine List.pairwise_cons.mpr ⟨?_, hs⟩
      intro x hx
      rcases List.mem_cons.mp hx with h | h
      · rw [h]; exact h1
      · exact lt_trans h1 (hs2.1 x h)
    · refine List.pairwise_cons.mpr ⟨?_, hs2.2⟩
      intro x hx
      show k < x.1
      rw [h2]; exact hs2.1 x hx
    · refine List.pairwise_cons.mpr ⟨?_, ih hs2.2⟩
      intro x hx
      rcases mem_mapSet k v rest x hx with h | h
      · rw [h]
        exact lt_of_le_of_ne (not_lt.mp h1) (fun h3 => h2 h3.symm)
      · exact hs2.1 x h

omit [LinearOrderedField F] in
theorem setLastValue_keys (v : Vector2 F) (m : List (F × Vector2 F)) :
    (setLastValue v m).map Prod.fst = m.map Prod.fst := by
  induction m with
  | nil => simp [setLastValue]
  | cons a rest ih =>
    cases rest with
    | nil => simp [setLastValue]
    | cons b rest2 => simp [setLastValue, ih]

theorem setLastValue_sorted (v : Vector2 F) (m : List (F × Vector2 F))
    (hs : SortedKeys m) : SortedKeys (setLastValue v m) := by
  have h1 : ∀ l : List (F × Vector2 F),
      SortedKeys l ↔ (l.map Prod.fst).Pairwise (fun a b => a < b) := by
    intro l; unfold SortedKeys; rw [List.pairwise_map]
  rw [h1, setLastValue_keys, ← h1]
  exact hs

/-- One `addPoint` on a map ending in the two entries `a`, `b`: the new key
`L = a.key + |a.value - point|` lands in one of four places. -/
theorem addPoint_cases (sqrt : F → F) (line : FreeformLine F) (p : Vector2 F)
    (pre : List (F × Vector2 F)) (a b : F × Vector2 F)
    (hpts : line.points = pre ++ [a, b]) (hs : SortedKeys line.points)
    (hd : 0 ≤ a.2.distTo sqrt p) :
    ∃ pts, FreeformLine.addPoint sqrt line p =
        some { line with points := pts, cachedLength := a.1 + a.2.distTo sqrt p } ∧
      SortedKeys pts ∧
      ((a.1 + a.2.distTo sqrt p = a.1 ∧ pts = pre ++ [(a.1, p), (b.1, p)]) ∨
       (a.1 < a.1 + a.2.distTo sqrt p ∧ a.1 + a.2.distTo sqrt p < b.1 ∧
          pts = pre ++ [a, (a.1 + a.2.distTo sqrt p, p), (b.1, p)]) ∨
       (a.1 + a.2.distTo sqrt p = b.1 ∧ pts = pre ++ [a, (b.1, p)]) ∨
       (b.1 < a.1 + a.2.distTo sqrt p ∧
          pts = pre ++ [a, b, (a.1 + a.2.distTo sqrt p, p)])) := by
  set L := a.1 + a.2.distTo sqrt p with hL
  have hlen : line.points.length ≠ 0 := by rw [hpts]; simp
  have hsl : secondLast line.points = some a := by rw [hpts]; exact secondLast_append_pair _ _ _
  have hadd : FreeformLine.addPoint sqrt line p =
      some { line with points := setLastValue p (mapSet L p line.points), cachedLength := L } := by
    unfold FreeformLine.addPoint
    rw [if_pos hlen, hsl]
  refine ⟨setLastValue p (mapSet L p line.points), hadd,
    setLastValue_sorted _ _ (mapSet_sorted _ _ _ hs), ?_⟩
  have hs2 : SortedKeys (pre ++ [a, b]) := hpts ▸ hs
  have hsa := List.pairwise_append.mp hs2
  have hpre : ∀ e ∈ pre, e.1 < L := by
    intro e he
    have : e.1 < a.1 := hsa.2.2 e he a (by simp)
    linarith
  have hab : a.1 < b.1 := by
    have := hsa.2.1
    simp at this
    exact this
  rw [hpts, mapSet_append_of_lt L p pre [a, b] hpre]
  rcases lt_trichotomy L b.1 with h1 | h1 | h1
  · rcases eq_or_lt_of_le (show a.1 ≤ L by linarith) with h2 | h2
    · left
      refine ⟨h2.symm, ?_⟩
      have e1 : mapSet L p [a, b] = [(L, p), b] := by
        simp [mapSet, h2.symm]
      rw [e1]
      have := setLastValue_append_singleton p (pre ++ [(L, p)]) b
      simp only [List.append_assoc, List.singleton_append] at this
      rw [this, ← h2]
    · right; left
      refine ⟨h2, h1, ?_⟩
      have e1 : mapSet L p [a, b] = [a, (L, p), b] := by
        simp [mapSet, not_lt.mpr h2.le, ne_of_gt h2, h1]
      rw [e1]
      have := setLastValue_append_singleton p (pre ++ [a, (L, p)]) b
      simp only [List.append_assoc, List.cons_append, List.nil_append] at this
      exact this
  · right; right; left
    refine ⟨h1, ?_⟩
    have h2 : a.1 < L := by rw [h1]; exact hab
    have e1 : mapSet L p [a, b] = [a, (L, p)] := by
      simp [mapSet, h1, not_lt.mpr hab.le, ne_of_gt hab]
    rw [e1]
    have := setLastValue_append_singleton p (pre ++ [a]) (L, p)
    simp only [List.append_assoc, List.cons_append, List.nil_append] at this
    rw [this, h1]
  · right; right; right
    refine ⟨h1, ?_⟩
    have h2 : a.1 < L := lt_trans hab h1
    have e1 : mapSet L p [a, b] = [a, b, (L, p)] := by
      simp [mapSet, not_lt.mpr h2.le, ne_of_gt h2, not_lt.mpr h1.le, ne_of_gt h1]
    rw [e1]
    have := setLastValue_append_singleton p (pre ++ [a, b]) (L, p)
    simp only [List.append_assoc, List.cons_append, List.nil_append] at this
    exact this

/-- `addPoint` when the new key falls strictly between the last two keys. -/
theorem addPoint_insert (sqrt : F → F) (line : FreeformLine F) (p : Vector2 F)
    (pre : List (F × Vector2 F)) (a b : F × Vector2 F) (L : F)
    (hpts : line.points = pre ++ [a, b]) (hs : SortedKeys line.points)
    (hL : a.1 + a.2.distTo sqrt p = L) (h1 : a.1 < L) (h2 : L < b.1) :
    FreeformLine.addPoint sqrt line p =
      some { line with points := pre ++ [a, (L, p), (b.1, p)], cachedLength := L } := by
  subst hL
  obtain ⟨pts, hadd, _, hc⟩ := addPoint_cases sqrt line p pre a b hpts hs (by linarith)
  rcases hc with ⟨c1, _⟩ | ⟨_, _, c3⟩ | ⟨c1, _⟩ | ⟨c1, _⟩
  · linarith
  · rw [hadd, c3]
  · linarith
  · linarith

/-- `addPoint` when the new key is past the last key of the map. -/
theorem addPoint_append (sqrt : F → F) (line : FreeformLine F) (p : Vector2 F)
    (pre : List (F × Vector2 F)) (a b : F × Vector2 F) (L : F)
    (hpts : line.points = pre ++ [a, b]) (hs : SortedKeys line.points)
    (hL : a.1 + a.2.distTo sqrt p = L) (h1 : a.1 ≤ L) (h2 : b.1 < L) :
    FreeformLine.addPoint sqrt line p =
      some { line with points := pre ++ [a, b, (L, p)], cachedLength := L } := by
  subst hL
  obtain ⟨pts, hadd, _, hc⟩ := addPoint_cases sqrt line p pre a b hpts hs (by linarith)
  have hab : a.1 < b.1 := by
    have := (List.pairwise_append.mp (hpts ▸ hs)).2.1
    simp at this
    exact this
  rcases hc with ⟨c1, _⟩ | ⟨_, c2, _⟩ | ⟨c1, _⟩ | ⟨_, c3⟩
  · linarith
  · linarith
  · linarith
  · rw [hadd, c3]

/-- `addPoint` when the new key equals the last key of the map. -/
theorem addPoint_hit (sqrt : F → F) (line : FreeformLine F) (p : Vector2 F)
    (pre : List (F × Vector2 F)) (a b : F × Vector2 F) (L : F)
    (hpts : line.points = pre ++ [a, b]) (hs : SortedKeys line.points)
    (hL : a.1 + a.2.distTo sqrt p = L) (h1 : a.1 ≤ L) (h2 : L = b.1) :
    FreeformLine.addPoint sqrt line p =
      some { line with points := pre ++ [a, (b.1, p)], cachedLength := L } := by
  subst hL
  obtain ⟨pts, hadd, _, hc⟩ := addPoint_cases sqrt line p pre a b hpts hs (by linarith)
  have hab : a.1 < b.1 := by
    have := (List.pairwise_append.mp (hpts ▸ hs)).2.1
    simp at this
    exact this
  rcases hc with ⟨c1, _⟩ | ⟨_, c2, _⟩ | ⟨_, c3⟩ | ⟨c1, _⟩
  · linarith
  · linarith
  · rw [hadd, c3]
  · linarith

/-- `addPoint` when the new key equals the key before the last. -/
theorem addPoint_same (sqrt : F → F) (line : FreeformLine F) (p : Vector2 F)
    (pre : List (F × Vector2 F)) (a b : F × Vector2 F) (L : F)
    (hpts : line.points = pre ++ [a, b]) (hs : SortedKeys line.points)
    (hL : a.1 + a.2.distTo sqrt p = L) (h1 : L = a.1) :
    FreeformLine.addPoint sqrt line p =
      some { line with points := pre ++ [(a.1, p), (b.1, p)], cachedLength := L } := by
  subst hL
  obtain ⟨pts, hadd, _, hc⟩ := addPoint_cases sqrt line p pre a b hpts hs (by linarith)
  have hab : a.1 < b.1 := by
    have := (List.pairwise_append.mp (hpts ▸ hs)).2.1
    simp at this
    exact this
  rcases hc with ⟨_, c2⟩ | ⟨c1, _, _⟩ | ⟨c1, _⟩ | ⟨c1, _⟩
  · rw [hadd, c2]
  · linarith
  · linarith
  · linarith

omit [LinearOrderedField F] in
theorem split_at_adjacent (m : List (F × Vector2 F)) (i : Nat) (a b : F × Vector2 F)
    (ha : m[i]? = some a) (hb : m[i + 1]? = some b) :
    ∃ pre post, m = pre ++ a :: b :: post := by
  induction m generalizing i with
  | nil => simp at ha
  | cons x xs ih =>
    cases i with
    | zero =>
      simp at ha hb
      cases xs with
      | nil => simp at hb
      | cons y ys =>
        simp at hb
        exact ⟨[], ys, by simp [ha, hb]⟩
    | succ j =>
      simp at ha hb
      obtain ⟨pre, post, h⟩ := ih j ha hb
      exact ⟨x :: pre, post, by simp [h]⟩

theorem getPointAt_congr (l1 l2 : FreeformLine F)
    (h : l1.points = l2.points) (t : F) : l1.getPointAt t = l2.getPointAt t := by
  unfold FreeformLine.getPointAt
  rw [h]

theorem getTangentAt_congr (sqrt : F → F) (line : FreeformLine F) (t u : F)
    (hA : line.tangentSampleA t = line.tangentSampleA u)
    (hB : line.tangentSampleB t = line.tangentSampleB u) :
    line.getTangentAt sqrt t = line.getTangentAt sqrt u := by
  unfold FreeformLine.getTangentAt
  simp only [hA, hB]

/-- After `setBounds` with a valid range and a non-negative smoothing spread
both clamped sample parameters lie inside the range. -/
theorem tangentSamples_in_range (line : FreeformLine F) (range : Range F)
    (hv : range.isValid) (hh : 0 ≤ line.halfSmoothingSpread) (t : F) :
    range.start ≤ (line.setBounds range).tangentSampleA t ∧
    (line.setBounds range).tangentSampleA t ≤ range.end_ ∧
    range.start ≤ (line.setBounds range).tangentSampleB t ∧
    (line.setBounds range).tangentSampleB t ≤ range.end_ := by
  have hv2 : range.start ≤ range.end_ := hv
  have hlen : range.length = range.end_ - range.start := by
    unfold Range.length; rw [if_pos hv]
  simp only [FreeformLine.setBounds, FreeformLine.tangentSampleA, FreeformLine.tangentSampleB,
    getClipped, hlen]
  have hm1 : min (2 * line.halfSmoothingSpread) (range.end_ - range.start) ≤
      range.end_ - range.start := min_le_right _ _
  have hm0 : 0 ≤ min (2 * line.halfSmoothingSpread) (range.end_ - range.start) :=
    le_min (by linarith) (by linarith)
  refine ⟨le_min (le_max_left _ _) (by linarith), ?_, ?_, min_le_right _ _⟩
  · exact le_trans (min_le_right _ _) (by linarith)
  · exact le_min (le_trans (by linarith) (le_max_left _ _)) hv2

end MapLemmas

section BuildLemmas

variable {F : Type} [LinearOrderedField F]

theorem build_snoc (sqrt : F → F) (pts : List (Vector2 F)) (p : Vector2 F) :
    FreeformLine.build sqrt (pts ++ [p]) =
      (FreeformLine.build sqrt pts).bind (fun line => FreeformLine.addPoint sqrt line p) := by
  unfold FreeformLine.build
  rw [List.foldl_append]
  rfl

theorem build_single (sqrt : F → F) (p : Vector2 F) :
    FreeformLine.build sqrt [p] =
      some { (FreeformLine.new : FreeformLine F) with
        points := [(-ME_A_LOT, p), (0, p), (ME_A_LOT, p)] } := by
  have h1 : (0 : F) < ME_A_LOT := ME_A_LOT_pos
  have h2 : ¬ (0 : F) < -ME_A_LOT := by linarith
  have h3 : ¬ (0 : F) = -ME_A_LOT := by linarith
  have h4 : ¬ (ME_A_LOT : F) < -ME_A_LOT := by linarith
  have h5 : ¬ (ME_A_LOT : F) = -ME_A_LOT := by linarith
  have h6 : ¬ (ME_A_LOT : F) < 0 := by linarith
  have h7 : ¬ (ME_A_LOT : F) = 0 := by linarith
  simp [FreeformLine.build, FreeformLine.addPoint, FreeformLine.new, mapSet, h2, h3, h4, h5, h6, h7]

omit [LinearOrderedField F] in
theorem prefix_of_head_shape (pre rest : List (F × Vector2 F)) (a b x y : F × Vector2 F)
    (h : pre ++ [a, b] = x :: y :: rest) (hr : rest ≠ []) :
    ∃ r2, pre ++ [a] = x :: y :: r2 := by
  rcases pre with _ | ⟨c, _ | ⟨d, pre2⟩⟩
  · simp at h
    exact absurd h.2.2 hr
  · simp at h
    exact ⟨[], by simp [h.1, h.2.1]⟩
  · simp at h
    exact ⟨pre2 ++ [a], by simp [h.1, h.2.1]⟩

end BuildLemmas

section RealLine

theorem distTo_nonneg (a b : Vector2 ℝ) : 0 ≤ a.distTo Real.sqrt b :=
  Real.sqrt_nonneg _

theorem eq_of_distTo_eq_zero {a b : Vector2 ℝ} (h : a.distTo Real.sqrt b = 0) : a = b := by
  unfold Vector2.distTo Vector2.norm at h
  have h2 := Real.sqrt_eq_zero'.mp h
  exact Vector2.eq_of_norm2_sub_eq_zero (le_antisymm h2 (Vector2.norm2_nonneg _))

theorem LineInv_single (p : Vector2 ℝ) :
    LineInv p p { (FreeformLine.new : FreeformLine ℝ) with
        points := [(-ME_A_LOT, p), (0, p), (ME_A_LOT, p)] } := by
  have h1 : (0 : ℝ) < ME_A_LOT := ME_A_LOT_pos
  refine ⟨?_, ⟨[(ME_A_LOT, p)], by simp, rfl⟩, Or.inl ⟨[(-ME_A_LOT, p)], (0, p), rfl, h1, ?_, ?_⟩⟩
  · unfold SortedKeys
    refine List.pairwise_cons.mpr ⟨?_, List.pairwise_cons.mpr ⟨?_, by simp⟩⟩
    · intro x hx
      simp at hx
      rcases hx with h | h <;> rw [h] <;> simp <;> linarith
    · intro x hx
      simp at hx
      rw [hx]; exact h1
  · simp [FreeformLine.new]; exact h1.le
  · intro _; simp [FreeformLine.new]

theorem LineInv_step (p0 q p : Vector2 ℝ) (line : FreeformLine ℝ) (hinv : LineInv p0 q line) :
    ∃ next, FreeformLine.addPoint Real.sqrt line p = some next ∧ LineInv p0 p next := by
  obtain ⟨rest, hrest, hhead⟩ := hinv.head
  -- both shapes of the tail end in two entries `a`, `b`
  have hab : ∃ pre a b, line.points = pre ++ [a, b] := by
    rcases hinv.tail with ⟨pre, a, h, _⟩ | ⟨_, pre, a, b, h, _⟩
    · exact ⟨pre, a, _, h⟩
    · exact ⟨pre, a, b, h⟩
  obtain ⟨pre, a, b, hpts⟩ := hab
  obtain ⟨pts, hadd, hsorted, hcases⟩ :=
    addPoint_cases Real.sqrt line p pre a b hpts hinv.sorted (distTo_nonneg _ _)
  set L := a.1 + a.2.distTo Real.sqrt p with hL
  have hd : 0 ≤ a.2.distTo Real.sqrt p := distTo_nonneg _ _
  -- every case keeps `pre ++ [a]` as a prefix
  have hkeep : ∃ tl, tl ≠ [] ∧ pts = (pre ++ [a]) ++ tl := by
    rcases hcases with ⟨h1, h2⟩ | ⟨_, _, h2⟩ | ⟨_, h2⟩ | ⟨_, h2⟩
    · have hd0 : a.2.distTo Real.sqrt p = 0 := by linarith
      have hap : a.2 = p := eq_of_distTo_eq_zero hd0
      refine ⟨[(b.1, p)], by simp, ?_⟩
      rw [h2, ← hap]
      simp
    · exact ⟨[(L, p), (b.1, p)], by simp, by rw [h2]; simp⟩
    · exact ⟨[(b.1, p)], by simp, by rw [h2]; simp⟩
    · exact ⟨[b, (L, p)], by simp, by rw [h2]; simp⟩
  refine ⟨_, hadd, ⟨hsorted, ?_, ?_⟩⟩
  · obtain ⟨tl, htl, hpts2⟩ := hkeep
    obtain ⟨r2, hr2⟩ := prefix_of_head_shape pre rest a b _ _ (hpts ▸ hhead) hrest
    refine ⟨r2 ++ tl, by simp [htl], ?_⟩
    show pts = _
    rw [hpts2, hr2]
    simp
  · show (∃ pre2 a2, pts = pre2 ++ [a2, (ME_A_LOT, p)] ∧ a2.1 < ME_A_LOT ∧ L ≤ ME_A_LOT ∧
            (L < ME_A_LOT → a2 = (L, p))) ∨
         (ME_A_LOT ≤ L ∧ ∃ pre2 a2 b2, pts = pre2 ++ [a2, b2] ∧ ME_A_LOT ≤ a2.1)
    rcases hinv.tail with ⟨pre1, a1, h1, ha1, _, _⟩ | ⟨hK, pre1, a1, b1, h1, ha1⟩
    · -- regular shape: `b` is the sentinel
      have heq : pre ++ [a, b] = pre1 ++ [a1, (ME_A_LOT, q)] := by rw [← hpts, h1]
      have heq2 : (pre ++ [a]) ++ [b] = (pre1 ++ [a1]) ++ [(ME_A_LOT, q)] := by
        simpa using heq
      have hb : b = (ME_A_LOT, q) := (List.append_inj_right' heq2 rfl) |> List.singleton_inj.mp
      have hpa : pre ++ [a] = pre1 ++ [a1] := List.append_inj_left' heq2 rfl
      have ha : a = a1 := (List.append_inj_right' hpa rfl) |> List.singleton_inj.mp
      have haA : a.1 < ME_A_LOT := ha ▸ ha1
      have hbk : b.1 = ME_A_LOT := by rw [hb]
      rcases hcases with ⟨c1, c2⟩ | ⟨c1, c2, c3⟩ | ⟨c1, c2⟩ | ⟨c1, c2⟩
      · have hd0 : a.2.distTo Real.sqrt p = 0 := by linarith
        have hap : a.2 = p := eq_of_distTo_eq_zero hd0
        left
        refine ⟨pre, a, ?_, haA, by linarith, ?_⟩
        · rw [c2, hbk, ← hap]
        · intro _
          rw [c1, ← hap]
      · left
        refine ⟨pre ++ [a], (L, p), ?_, by rw [← hbk]; exact c2, by rw [← hbk]; exact c2.le, ?_⟩
        · rw [c3, hbk]; simp
        · intro _; rfl
      · left
        refine ⟨pre, a, ?_, haA, by rw [c1, hbk], ?_⟩
        · rw [c2, hbk]
        · intro h; rw [c1, hbk] at h; exact absurd h (lt_irrefl _)
      · right
        refine ⟨by rw [← hbk]; exact c1.le, pre ++ [a], b, (L, p), ?_, by rw [hbk]⟩
        rw [c2]; simp
    · -- overshoot shape: the key before the last is already past the sentinel
      have heq : pre ++ [a, b] = pre1 ++ [a1, b1] := by rw [← hpts, h1]
      have heq2 : (pre ++ [a]) ++ [b] = (pre1 ++ [a1]) ++ [b1] := by simpa using heq
      have hpa : pre ++ [a] = pre1 ++ [a1] := List.append_inj_left' heq2 rfl
      have ha : a = a1 := (List.append_inj_right' hpa rfl) |> List.singleton_inj.mp
      have haA : ME_A_LOT ≤ a.1 := ha ▸ ha1
      have hLA : ME_A_LOT ≤ L := by linarith
      have hs2 : SortedKeys (pre ++ [a, b]) := hpts ▸ hinv.sorted
      have hab2 : a.1 < b.1 := by
        have := (List.pairwise_append.mp hs2).2.1
        simp at this
        exact this
      right
      refine ⟨hLA, ?_⟩
      rcases hcases with ⟨c1, c2⟩ | ⟨c1, c2, c3⟩ | ⟨c1, c2⟩ | ⟨c1, c2⟩
      · exact ⟨pre, (a.1, p), (b.1, p), c2, haA⟩
      · exact ⟨pre ++ [a], (L, p), (b.1, p), by rw [c3]; simp, hLA⟩
      · exact ⟨pre, a, (b.1, p), c2, haA⟩
      · exact ⟨pre ++ [a], b, (L, p), by rw [c2]; simp, by linarith⟩

theorem build_inv (p0 : Vector2 ℝ) (more : List (Vector2 ℝ)) :
    ∃ line, FreeformLine.build Real.sqrt (p0 :: more) = some line ∧
      LineInv p0 ((p0 :: more).getLast (List.cons_ne_nil _ _)) line := by
  induction more using List.reverseRecOn with
  | nil => exact ⟨_, build_single Real.sqrt p0, LineInv_single p0⟩
  | append_singleton init p ih =>
    obtain ⟨line, hb, hinv⟩ := ih
    obtain ⟨next, hadd, hinv2⟩ := LineInv_step p0 _ p line hinv
    refine ⟨next, ?_, ?_⟩
    · have : p0 :: (init ++ [p]) = (p0 :: init) ++ [p] := by simp
      rw [this, build_snoc, hb]
      exact hadd
    · have : (p0 :: (init ++ [p])).getLast (List.cons_ne_nil _ _) = p := by
        simp [List.getLast_cons]
      rw [this]
      exact hinv2

theorem LineInv.getPointAt_zero {p0 q : Vector2 ℝ} {line : FreeformLine ℝ}
    (hinv : LineInv p0 q line) : line.getPointAt 0 = some p0 := by
  obtain ⟨rest, hrest, hhead⟩ := hinv.head
  obtain ⟨nxt, rest2, rfl⟩ := List.exists_cons_of_ne_nil hrest
  have hs : SortedKeys ((-ME_A_LOT, p0) :: (0, p0) :: nxt :: rest2) := hhead ▸ hinv.sorted
  have hn : (0 : ℝ) < nxt.1 := by
    have h1 := (List.pairwise_cons.mp (List.pairwise_cons.mp hs).2).1
    exact h1 nxt (List.mem_cons_self _ _)
  have hA : (0 : ℝ) < ME_A_LOT := ME_A_LOT_pos
  have h := getPointAt_between line 0 [(-ME_A_LOT, p0)] rest2 (0, p0) nxt
    (by rw [hhead]; rfl)
    (by intro e he; simp at he; rw [he]; simp; exact hA.le) (le_refl _) hn
  rw [h]
  simp [Vector2.interpolate_zero]

theorem LineInv.getPointAt_neg {p0 q : Vector2 ℝ} {line : FreeformLine ℝ}
    (hinv : LineInv p0 q line) (t : ℝ) (h1 : -ME_A_LOT ≤ t) (h2 : t < 0) :
    line.getPointAt t = some p0 := by
  obtain ⟨rest, _, hhead⟩ := hinv.head
  have h := getPointAt_between line t [] rest (-ME_A_LOT, p0) (0, p0)
    (by rw [hhead]; rfl) (by simp) h1 h2
  rw [h, Vector2.interpolate_self]

theorem LineInv.getPointAt_tail {p0 q : Vector2 ℝ} {line : FreeformLine ℝ}
    (hinv : LineInv p0 q line) (hlen : line.cachedLength < ME_A_LOT) (t : ℝ)
    (h1 : line.cachedLength ≤ t) (h2 : t < ME_A_LOT) :
    line.getPointAt t = some q := by
  rcases hinv.tail with ⟨pre, a, hpts, _, _, ha⟩ | ⟨hK, _⟩
  · have ha2 := ha hlen
    subst ha2
    have hs : SortedKeys (pre ++ [(line.cachedLength, q), (ME_A_LOT, q)]) := hpts ▸ hinv.sorted
    have hpre : ∀ e ∈ pre, e.1 ≤ t := by
      intro e he
      have := (List.pairwise_append.mp hs).2.2 e he (line.cachedLength, q) (by simp)
      simp at this
      linarith
    have h := getPointAt_between line t pre [] (line.cachedLength, q) (ME_A_LOT, q)
      hpts hpre h1 h2
    rw [h, Vector2.interpolate_self]
  · exact absurd hlen (not_lt.mpr hK)

theorem distTo_axis (a c : ℝ) :
    Vector2.distTo Real.sqrt ⟨a, 0⟩ ⟨c, 0⟩ = |c - a| := by
  unfold Vector2.distTo Vector2.norm Vector2.norm2
  simp only [Vector2.sub_x, Vector2.sub_y, sub_self, mul_zero, add_zero]
  rw [show (a - c) * (a - c) = (c - a) ^ 2 by ring]
  exact Real.sqrt_sq_eq_abs _

theorem sorted_three (u v w : Vector2 ℝ) :
    SortedKeys [((-ME_A_LOT : ℝ), u), (0, v), (ME_A_LOT, w)] := by
  have h1 : (0 : ℝ) < ME_A_LOT := ME_A_LOT_pos
  unfold SortedKeys
  refine List.pairwise_cons.mpr ⟨?_, List.pairwise_cons.mpr ⟨?_, by simp⟩⟩
  · intro x hx
    simp at hx
    rcases hx with h | h <;> rw [h] <;> simp <;> linarith
  · intro x hx
    simp at hx
    rw [hx]; exact h1

theorem sorted_single (p : Vector2 ℝ) :
    SortedKeys [((-ME_A_LOT : ℝ), p), (0, p), (ME_A_LOT, p)] :=
  sorted_three p p p

/-- The polyline with the two points `(0,0)` and `(c,0)`, `0 < c < ME_A_LOT`. -/
theorem build_two_points (c : ℝ) (h0 : 0 < c) (hc : c < ME_A_LOT) :
    FreeformLine.build Real.sqrt [⟨0, 0⟩, ⟨c, 0⟩] =
      some { (FreeformLine.new : FreeformLine ℝ) with
        points := [(-ME_A_LOT, ⟨0, 0⟩), (0, ⟨0, 0⟩), (c, ⟨c, 0⟩), (ME_A_LOT, ⟨c, 0⟩)]
        cachedLength := c } := by
  have h := build_snoc Real.sqrt [(⟨0, 0⟩ : Vector2 ℝ)] ⟨c, 0⟩
  rw [build_single] at h
  simp only [List.singleton_append, Option.some_bind] at h
  rw [h]
  have hd : (0 : ℝ) + Vector2.distTo Real.sqrt ⟨0, 0⟩ ⟨c, 0⟩ = c := by
    rw [distTo_axis, sub_zero, abs_of_pos h0, zero_add]
  exact addPoint_insert Real.sqrt _ ⟨c, 0⟩ [(-ME_A_LOT, ⟨0, 0⟩)] (0, ⟨0, 0⟩) (ME_A_LOT, ⟨0, 0⟩) c
    rfl (sorted_single _) hd h0 hc

/-- The polyline with the two points `(0,0)` and `(c,0)`, `ME_A_LOT < c`:
the second point is stored past the sentinel. -/
theorem build_two_points_far (c : ℝ) (hc : ME_A_LOT < c) :
    FreeformLine.build Real.sqrt [⟨0, 0⟩, ⟨c, 0⟩] =
      some { (FreeformLine.new : FreeformLine ℝ) with
        points := [(-ME_A_LOT, ⟨0, 0⟩), (0, ⟨0, 0⟩), (ME_A_LOT, ⟨0, 0⟩), (c, ⟨c, 0⟩)]
        cachedLength := c } := by
  have hA : (0 : ℝ) < ME_A_LOT := ME_A_LOT_pos
  have h := build_snoc Real.sqrt [(⟨0, 0⟩ : Vector2 ℝ)] ⟨c, 0⟩
  rw [build_single] at h
  simp only [List.singleton_append, Option.some_bind] at h
  rw [h]
  have hd : (0 : ℝ) + Vector2.distTo Real.sqrt ⟨0, 0⟩ ⟨c, 0⟩ = c := by
    rw [distTo_axis, sub_zero, abs_of_pos (by linarith), zero_add]
  exact addPoint_append Real.sqrt _ ⟨c, 0⟩ [(-ME_A_LOT, ⟨0, 0⟩)] (0, ⟨0, 0⟩) (ME_A_LOT, ⟨0, 0⟩) c
    rfl (sorted_single _) hd (by simp; linarith) hc

/-! ### Cumulative path length and the stored samples -/

theorem pathLength_nonneg (pts : List (Vector2 ℝ)) : 0 ≤ pathLength Real.sqrt pts := by
  induction pts with
  | nil => simp [pathLength]
  | cons a rest ih =>
    cases rest with
    | nil => simp [pathLength]
    | cons b rest2 =>
      have : 0 ≤ (b - a).norm Real.sqrt := Real.sqrt_nonneg _
      simp only [pathLength]
      linarith

theorem pathLength_cons_cons (a b : Vector2 ℝ) (rest : List (Vector2 ℝ)) :
    pathLength Real.sqrt (a :: b :: rest) =
      (b - a).norm Real.sqrt + pathLength Real.sqrt (b :: rest) := rfl

theorem pathLength_snoc (l : List (Vector2 ℝ)) (q p : Vector2 ℝ) :
    pathLength Real.sqrt (l ++ [q] ++ [p]) =
      pathLength Real.sqrt (l ++ [q]) + (p - q).norm Real.sqrt := by
  induction l with
  | nil => simp [pathLength]
  | cons a rest ih =>
    cases rest with
    | nil => simp [pathLength]
    | cons b rest2 =>
      simp only [List.cons_append] at ih ⊢
      rw [pathLength_cons_cons, pathLength_cons_cons, ih]; ring

theorem pathLength_take_le (pts : List (Vector2 ℝ)) (k : Nat) :
    pathLength Real.sqrt (pts.take (k + 1)) ≤ pathLength Real.sqrt pts := by
  induction pts generalizing k with
  | nil => simp
  | cons a rest ih =>
    cases rest with
    | nil => simp
    | cons b rest2 =>
      cases k with
      | zero =>
        simp only [zero_add, List.take_succ_cons, List.take_zero]
        exact pathLength_nonneg _
      | succ k2 =>
        have h := ih k2
        simp only [List.take_succ_cons] at h ⊢
        simp only [pathLength]
        linarith

theorem distTo_eq_norm_sub (a b : Vector2 ℝ) :
    a.distTo Real.sqrt b = (b - a).norm Real.sqrt := by
  unfold Vector2.distTo Vector2.norm
  rw [Vector2.norm2_sub_comm]

theorem PathInv_single (p : Vector2 ℝ) :
    PathInv [p] p { (FreeformLine.new : FreeformLine ℝ) with
        points := [(-ME_A_LOT, p), (0, p), (ME_A_LOT, p)] } := by
  have h1 : (0 : ℝ) < ME_A_LOT := ME_A_LOT_pos
  refine ⟨sorted_single p, ⟨[(-ME_A_LOT, p)], by simp [pathLength]⟩, by simp [pathLength, FreeformLine.new], ?_⟩
  intro k hk
  have hk0 : k = 0 := by simpa using hk
  subst hk0
  have h2 : ¬ (-ME_A_LOT : ℝ) = 0 := by linarith
  simp [pathLength, mapFind, h2]

theorem PathInv_step (l : List (Vector2 ℝ)) (q p : Vector2 ℝ) (line : FreeformLine ℝ)
    (hinv : PathInv (l ++ [q]) q line)
    (hlt : pathLength Real.sqrt (l ++ [q] ++ [p]) < ME_A_LOT) :
    ∃ next, FreeformLine.addPoint Real.sqrt line p = some next ∧
      PathInv (l ++ [q] ++ [p]) p next := by
  obtain ⟨pre, hpts⟩ := hinv.shape
  set T := pathLength Real.sqrt (l ++ [q]) with hT
  set T2 := pathLength Real.sqrt (l ++ [q] ++ [p]) with hT2
  have hd : 0 ≤ q.distTo Real.sqrt p := distTo_nonneg _ _
  have hsnoc : T2 = T + q.distTo Real.sqrt p := by
    rw [hT2, pathLength_snoc, distTo_eq_norm_sub]
  have hL : (T, q).1 + (T, q).2.distTo Real.sqrt p = T2 := hsnoc.symm
  have hTle : T ≤ T2 := by linarith
  have hs : SortedKeys (pre ++ [(T, q), (ME_A_LOT, q)]) := hpts ▸ hinv.sorted
  have hpre : ∀ e ∈ pre, e.1 < T := by
    intro e he
    exact (List.pairwise_append.mp hs).2.2 e he (T, q) (by simp)
  -- the two possible new maps
  have hnew : ∃ pts2, FreeformLine.addPoint Real.sqrt line p =
        some { line with points := pts2, cachedLength := T2 } ∧
      SortedKeys pts2 ∧
      ((T2 = T ∧ p = q ∧ pts2 = pre ++ [(T, q), (ME_A_LOT, q)]) ∨
       (T < T2 ∧ pts2 = pre ++ [(T, q), (T2, p), (ME_A_LOT, p)])) := by
    obtain ⟨pts2, hadd, hsorted, hc⟩ :=
      addPoint_cases Real.sqrt line p pre (T, q) (ME_A_LOT, q) hpts hinv.sorted hd
    simp only [hL] at hadd hc
    refine ⟨pts2, hadd, hsorted, ?_⟩
    rcases hc with ⟨c1, c2⟩ | ⟨c1, _, c3⟩ | ⟨c1, _⟩ | ⟨c1, _⟩
    · have hd0 : q.distTo Real.sqrt p = 0 := by linarith
      have hqp : q = p := eq_of_distTo_eq_zero hd0
      exact Or.inl ⟨c1, hqp.symm, by rw [c2, hqp]⟩
    · exact Or.inr ⟨c1, c3⟩
    · exact absurd c1 (ne_of_lt hlt)
    · exact absurd c1 (not_lt.mpr hlt.le)
  obtain ⟨pts2, hadd, hsorted, hc⟩ := hnew
  refine ⟨_, hadd, ⟨hsorted, ?_, rfl, ?_⟩⟩
  · rcases hc with ⟨c1, c2, c3⟩ | ⟨_, c3⟩
    · exact ⟨pre, by
        show pts2 = pre ++ [(T2, p), (ME_A_LOT, p)]
        rw [c3, c1, c2]⟩
    · exact ⟨pre ++ [(T, q)], by
        show pts2 = (pre ++ [(T, q)]) ++ [(T2, p), (ME_A_LOT, p)]
        rw [c3, List.append_assoc]
        rfl⟩
  · intro k hk
    show mapFind _ pts2 = _
    have hlen : (l ++ [q] ++ [p]).length = (l ++ [q]).length + 1 := by simp
    rcases Nat.lt_or_ge k (l ++ [q]).length with hk1 | hk1
    · -- an earlier sample: its key is at most `T`
      have htake : (l ++ [q] ++ [p]).take (k + 1) = (l ++ [q]).take (k + 1) :=
        List.take_append_of_le_length hk1
      have hget : (l ++ [q] ++ [p])[k]? = (l ++ [q])[k]? :=
        List.getElem?_append_left hk1
      rw [htake, hget, ← hinv.stored k hk1, hpts]
      have hkT : pathLength Real.sqrt ((l ++ [q]).take (k + 1)) ≤ T := pathLength_take_le _ _
      set Tk := pathLength Real.sqrt ((l ++ [q]).take (k + 1)) with hTk
      rcases hc with ⟨c1, c2, c3⟩ | ⟨c1, c3⟩
      · rw [c3]
      · rw [c3, mapFind_append, mapFind_append]
        congr 1
        funext _
        by_cases h : T = Tk
        · simp [mapFind, h]
        · have h2 : ¬ T2 = Tk := by intro h3; apply h; linarith
          have h3 : ¬ (ME_A_LOT : ℝ) = Tk := by intro h4; linarith
          simp [mapFind, h, h2, h3]
    · -- the new sample
      have hk2 : k = (l ++ [q]).length := by omega
      have htake : (l ++ [q] ++ [p]).take (k + 1) = l ++ [q] ++ [p] := by
        apply List.take_of_length_le
        rw [hlen, hk2]
      have hget : (l ++ [q] ++ [p])[k]? = some p := by
        rw [hk2, List.getElem?_append_right (le_refl _)]
        simp
      rw [htake, hget]
      have hpre2 : mapFind T2 pre = none :=
        mapFind_none_of_lt T2 pre (fun e he => lt_of_lt_of_le (hpre e he) hTle)
      rcases hc with ⟨c1, c2, c3⟩ | ⟨c1, c3⟩
      · rw [c3, mapFind_append, hpre2, ← hT2, c1, c2]
        simp [mapFind]
      · rw [c3, mapFind_append, hpre2, ← hT2]
        have h : ¬ T = T2 := ne_of_lt c1
        simp [mapFind, h]

theorem build_path_inv (l : List (Vector2 ℝ)) (q : Vector2 ℝ)
    (hlt : pathLength Real.sqrt (l ++ [q]) < ME_A_LOT) :
    ∃ line, FreeformLine.build Real.sqrt (l ++ [q]) = some line ∧ PathInv (l ++ [q]) q line := by
  induction l using List.reverseRecOn generalizing q with
  | nil => exact ⟨_, build_single Real.sqrt q, PathInv_single q⟩
  | append_singleton init q2 ih =>
    have hle : pathLength Real.sqrt (init ++ [q2]) ≤ pathLength Real.sqrt (init ++ [q2] ++ [q]) := by
      rw [pathLength_snoc]
      have : 0 ≤ (q - q2).norm Real.sqrt := Real.sqrt_nonneg _
      linarith
    obtain ⟨line, hb, hinv⟩ := ih q2 (lt_of_le_of_lt hle hlt)
    obtain ⟨next, hadd, hinv2⟩ := PathInv_step init q2 q line hinv hlt
    refine ⟨next, ?_, hinv2⟩
    rw [build_snoc, hb]
    exact hadd

theorem norm_normalized (v : Vector2 ℝ) :
    (v.normalized Real.sqrt).norm Real.sqrt =
      v.norm Real.sqrt / (v.norm Real.sqrt + FLT_MIN) := by
  have hd : 0 ≤ v.norm Real.sqrt := Real.sqrt_nonneg _
  have hm : (0 : ℝ) < FLT_MIN := FLT_MIN_pos
  have hk : 0 ≤ 1 / (v.norm Real.sqrt + FLT_MIN) := by positivity
  have h2 : (v.normalized Real.sqrt).norm2 =
      (1 / (v.norm Real.sqrt + FLT_MIN)) * (1 / (v.norm Real.sqrt + FLT_MIN)) * v.norm2 := by
    simp only [Vector2.normalized, Vector2.norm2, Vector2.div_x, Vector2.div_y]
    ring
  show Real.sqrt (v.normalized Real.sqrt).norm2 = _
  rw [h2, Real.sqrt_mul (mul_self_nonneg _), Real.sqrt_mul_self hk]
  show _ * v.norm Real.sqrt = _
  field_simp

theorem norm_normalized_lt_one (v : Vector2 ℝ) :
    (v.normalized Real.sqrt).norm Real.sqrt < 1 := by
  have hd : 0 ≤ v.norm Real.sqrt := Real.sqrt_nonneg _
  have hm : (0 : ℝ) < FLT_MIN := FLT_MIN_pos
  rw [norm_normalized, div_lt_one (by linarith)]
  linarith

/-- The out-and-back stroke `(0,0)`, `(10,0)`, `(0,0)`. -/
theorem build_there_and_back :
    FreeformLine.build Real.sqrt [⟨0, 0⟩, ⟨10, 0⟩, ⟨0, 0⟩] =
      some { (FreeformLine.new : FreeformLine ℝ) with
        points := [(-ME_A_LOT, ⟨0, 0⟩), (0, ⟨0, 0⟩), (10, ⟨10, 0⟩), (20, ⟨0, 0⟩),
          (ME_A_LOT, ⟨0, 0⟩)]
        cachedLength := 20 } := by
  have hA : (10 : ℝ) < ME_A_LOT := by unfold ME_A_LOT; norm_num
  have hA2 : (20 : ℝ) < ME_A_LOT := by unfold ME_A_LOT; norm_num
  have h := build_snoc Real.sqrt [(⟨0, 0⟩ : Vector2 ℝ), ⟨10, 0⟩] ⟨0, 0⟩
  rw [build_two_points 10 (by norm_num) hA] at h
  simp only [List.cons_append, List.nil_append, Option.some_bind] at h
  rw [h]
  have hd : (10 : ℝ) + Vector2.distTo Real.sqrt ⟨10, 0⟩ ⟨0, 0⟩ = 20 := by
    rw [distTo_axis]; norm_num
  have hs : SortedKeys [((-ME_A_LOT : ℝ), (⟨0, 0⟩ : Vector2 ℝ)), (0, ⟨0, 0⟩), (10, ⟨10, 0⟩),
      (ME_A_LOT, ⟨10, 0⟩)] := by
    have h0 : (0 : ℝ) < ME_A_LOT := ME_A_LOT_pos
    unfold SortedKeys
    simp only [List.pairwise_cons, List.mem_cons, List.mem_singleton, forall_eq_or_imp, forall_eq]
    simp
    refine ⟨⟨by linarith, by linarith, by linarith⟩, ⟨h0, hA⟩⟩
  exact addPoint_insert Real.sqrt _ ⟨0, 0⟩ [(-ME_A_LOT, ⟨0, 0⟩), (0, ⟨0, 0⟩)] (10, ⟨10, 0⟩)
    (ME_A_LOT, ⟨10, 0⟩) 20 rfl hs hd (by norm_num) hA2

theorem norm_axis (a c : ℝ) :
    Vector2.norm Real.sqrt ((⟨c, 0⟩ : Vector2 ℝ) - ⟨a, 0⟩) = |c - a| := by
  rw [← distTo_eq_norm_sub, distTo_axis]

/-- The polyline `(0,0)`, `(ME_A_LOT,0)`, `(0,0)`: the second point lands on
the sentinel key, so the third `addPoint` measures from the entry at key 0. -/
theorem build_out_and_back :
    FreeformLine.build Real.sqrt [⟨0, 0⟩, ⟨ME_A_LOT, 0⟩, ⟨0, 0⟩] =
      some { (FreeformLine.new : FreeformLine ℝ) with
        points := [(-ME_A_LOT, ⟨0, 0⟩), (0, ⟨0, 0⟩), (ME_A_LOT, ⟨0, 0⟩)]
        cachedLength := 0 } := by
  have hA : (0 : ℝ) < ME_A_LOT := ME_A_LOT_pos
  have h2 : FreeformLine.build Real.sqrt [(⟨0, 0⟩ : Vector2 ℝ), ⟨ME_A_LOT, 0⟩] =
      some { (FreeformLine.new : FreeformLine ℝ) with
        points := [(-ME_A_LOT, ⟨0, 0⟩), (0, ⟨0, 0⟩), (ME_A_LOT, ⟨ME_A_LOT, 0⟩)]
        cachedLength := ME_A_LOT } := by
    have h := build_snoc Real.sqrt [(⟨0, 0⟩ : Vector2 ℝ)] ⟨ME_A_LOT, 0⟩
    rw [build_single] at h
    simp only [List.singleton_append, Option.some_bind] at h
    rw [h]
    have hd : (0 : ℝ) + Vector2.distTo Real.sqrt ⟨0, 0⟩ ⟨ME_A_LOT, 0⟩ = ME_A_LOT := by
      rw [distTo_axis, sub_zero, abs_of_pos hA, zero_add]
    exact addPoint_hit Real.sqrt _ ⟨ME_A_LOT, 0⟩ [(-ME_A_LOT, ⟨0, 0⟩)] (0, ⟨0, 0⟩)
      (ME_A_LOT, ⟨0, 0⟩) ME_A_LOT rfl (sorted_single _) hd hA.le rfl
  have h := build_snoc Real.sqrt [(⟨0, 0⟩ : Vector2 ℝ), ⟨ME_A_LOT, 0⟩] ⟨0, 0⟩
  rw [h2] at h
  simp only [List.cons_append, List.nil_append, Option.some_bind] at h
  rw [h]
  have hd : (0 : ℝ) + Vector2.distTo Real.sqrt ⟨0, 0⟩ ⟨0, 0⟩ = 0 := by
    rw [distTo_axis, sub_zero, abs_zero, zero_add]
  exact addPoint_same Real.sqrt _ ⟨0, 0⟩ [(-ME_A_LOT, ⟨0, 0⟩)] (0, ⟨0, 0⟩)
    (ME_A_LOT, ⟨ME_A_LOT, 0⟩) 0 rfl (sorted_three _ _ _) hd rfl

end RealLine

section GeometryLemmas

open CircleOrLine

/-- `Line::between(p0, p1)` has signed distance 0 to both points, whatever the
square-root function. -/
theorem between_signedDist {F : Type} [LinearOrderedField F] (sqrt : F → F)
    (p0 p1 : Vector2 F) :
    (Line.between sqrt p0 p1).signedDistTo p0 = 0 ∧
    (Line.between sqrt p0 p1).signedDistTo p1 = 0 := by
  constructor <;>
    simp [Line.between, Line.fromPointAndNormal, Line.signedDistTo, Line.normal,
      Vector2.directionTo, Vector2.normalized, Vector2.rotate90, Vector2.dot] <;> ring

/-- The three outcomes of `fitCircleOrLine`. -/
theorem fitCircleOrLine_cases {F : Type} [LinearOrderedField F] (sqrt : F → F)
    (p0 t p1 : Vector2 F) :
    (¬ (p1 - p0).norm2 > ME_EPSILON2 ∧
      fitCircleOrLine sqrt p0 t p1 = circle { x := p0.x, y := p0.y, radius := 0 }) ∨
    ((p1 - p0).norm2 > ME_EPSILON2 ∧ (fitLead p0 t p1).norm2 > ME_EPSILON2 ∧
      (fitRadius sqrt p0 t p1 ≤ ME_MAX_ARC_RADIUS ∧
        fitRadius sqrt p0 t p1 * fitRadius sqrt p0 t p1 <
          ME_MAX_ARC_RADIUS_TO_CHORD_LENGTH_RATIO * ME_MAX_ARC_RADIUS_TO_CHORD_LENGTH_RATIO
            * (p1 - p0).norm2) ∧
      fitCircleOrLine sqrt p0 t p1 =
        circle { x := (fitCenter p0 t p1).x, y := (fitCenter p0 t p1).y,
                 radius := fitRadius sqrt p0 t p1 }) ∨
    ((p1 - p0).norm2 > ME_EPSILON2 ∧
      ¬ ((fitLead p0 t p1).norm2 > ME_EPSILON2 ∧
        (fitRadius sqrt p0 t p1 ≤ ME_MAX_ARC_RADIUS ∧
          fitRadius sqrt p0 t p1 * fitRadius sqrt p0 t p1 <
            ME_MAX_ARC_RADIUS_TO_CHORD_LENGTH_RATIO * ME_MAX_ARC_RADIUS_TO_CHORD_LENGTH_RATIO
              * (p1 - p0).norm2)) ∧
      fitCircleOrLine sqrt p0 t p1 = line (Line.between sqrt p0 p1)) := by
  unfold fitCircleOrLine
  by_cases h1 : (p1 - p0).norm2 > ME_EPSILON2
  · by_cases h2 : (fitLead p0 t p1).norm2 > ME_EPSILON2
    · by_cases h3 : (fitRadius sqrt p0 t p1 ≤ ME_MAX_ARC_RADIUS ∧
          fitRadius sqrt p0 t p1 * fitRadius sqrt p0 t p1 <
            ME_MAX_ARC_RADIUS_TO_CHORD_LENGTH_RATIO * ME_MAX_ARC_RADIUS_TO_CHORD_LENGTH_RATIO
              * (p1 - p0).norm2)
      · right; left
        refine ⟨h1, h2, h3, ?_⟩
        simp only [if_pos h1, if_pos h2, if_pos h3]
      · right; right
        refine ⟨h1, fun h => h3 h.2, ?_⟩
        simp only [if_pos h1, if_pos h2, if_neg h3]
    · right; right
      refine ⟨h1, fun h => h2 h.1, ?_⟩
      simp only [if_pos h1, if_neg h2]
  · left
    exact ⟨h1, by simp only [if_neg h1]⟩

theorem ME_EPSILON2_pos {F : Type} [LinearOrderedField F] : (0 : F) < ME_EPSILON2 := by
  unfold ME_EPSILON2 ME_EPSILON; positivity

theorem fit_algebra (a b tx ty s lx ly k : ℝ) (hu : tx * tx + ty * ty = 1)
    (hs : s = tx * a + ty * b) (hlx : lx = a - tx * s) (hly : ly = b - ty * s)
    (hne : lx * lx + ly * ly ≠ 0) (hk : k = 1 + s * s / (lx * lx + ly * ly)) :
    (2 * a - lx * k) * (2 * a - lx * k) + (2 * b - ly * k) * (2 * b - ly * k) =
      (lx * k) * (lx * k) + (ly * k) * (ly * k) ∧
    (lx * k) * tx + (ly * k) * ty = 0 := by
  have hL2 : lx * lx + ly * ly = a * a + b * b - s * s := by
    rw [hlx, hly, hs]
    linear_combination ((tx * a + ty * b) * (tx * a + ty * b)) * hu
  have hkL : k * (lx * lx + ly * ly) = a * a + b * b := by
    rw [hk]; field_simp; linarith
  have hM : a * lx + b * ly = lx * lx + ly * ly := by
    rw [hL2, hlx, hly, hs]; ring
  have hperp : lx * tx + ly * ty = 0 := by
    rw [hlx, hly, hs]
    linear_combination (-(tx * a + ty * b)) * hu
  constructor
  · linear_combination (-4 * k) * hM - 4 * hkL
  · linear_combination k * hperp

theorem fitLead_x (p0 t p1 : Vector2 ℝ) :
    (fitLead p0 t p1).x = (p1.x - p0.x) * (1 / 2) -
      t.x * (t.x * ((p1.x - p0.x) * (1 / 2)) + t.y * ((p1.y - p0.y) * (1 / 2))) := by
  simp [fitLead, fitLine0, fitMid, Line.project, Line.signedDistTo, Line.normal,
      Line.fromPointAndNormal, Vector2.dot]
  ring

theorem fitLead_y (p0 t p1 : Vector2 ℝ) :
    (fitLead p0 t p1).y = (p1.y - p0.y) * (1 / 2) -
      t.y * (t.x * ((p1.x - p0.x) * (1 / 2)) + t.y * ((p1.y - p0.y) * (1 / 2))) := by
  simp [fitLead, fitLine0, fitMid, Line.project, Line.signedDistTo, Line.normal,
      Line.fromPointAndNormal, Vector2.dot]
  ring

theorem fitCenter_sub (p0 t p1 : Vector2 ℝ) :
    fitCenter p0 t p1 - p0 = fitLead p0 t p1 *
      (1 + (t.x * ((p1.x - p0.x) * (1 / 2)) + t.y * ((p1.y - p0.y) * (1 / 2))) *
        (t.x * ((p1.x - p0.x) * (1 / 2)) + t.y * ((p1.y - p0.y) * (1 / 2))) /
          (fitLead p0 t p1).norm2) := by
  have hc : fitCenter p0 t p1 = (fitLead p0 t p1 + p0) + fitLead p0 t p1 *
      ((fitLine0 p0 t).signedDistTo (fitMid p0 p1) * (fitLine0 p0 t).signedDistTo (fitMid p0 p1)
        / (fitLead p0 t p1).norm2) := by
    ext <;> simp [fitCenter, fitLead]
  have hd : (fitLine0 p0 t).signedDistTo (fitMid p0 p1) =
      -(t.x * ((p1.x - p0.x) * (1 / 2)) + t.y * ((p1.y - p0.y) * (1 / 2))) := by
    simp [fitLine0, fitMid, Line.signedDistTo, Line.normal, Line.fromPointAndNormal, Vector2.dot]
    ring
  rw [hc, hd]
  ext <;> simp <;> ring

theorem fit_center_equidistant (p0 t p1 : Vector2 ℝ) (hunit : t.norm2 = 1)
    (hlead : (fitLead p0 t p1).norm2 ≠ 0) :
    (p1 - fitCenter p0 t p1).norm2 = (fitCenter p0 t p1 - p0).norm2 ∧
    (fitCenter p0 t p1 - p0).dot t = 0 := by
  have h := fit_algebra ((p1.x - p0.x) * (1 / 2)) ((p1.y - p0.y) * (1 / 2)) t.x t.y _
    (fitLead p0 t p1).x (fitLead p0 t p1).y _ hunit rfl (fitLead_x p0 t p1) (fitLead_y p0 t p1)
    hlead rfl
  have hsub := fitCenter_sub p0 t p1
  have h1 : p1 - fitCenter p0 t p1 = (p1 - p0) - (fitCenter p0 t p1 - p0) := by
    ext <;> simp
  rw [h1, hsub]
  constructor
  · simp only [Vector2.norm2, Vector2.sub_x, Vector2.sub_y, Vector2.mul_x, Vector2.mul_y]
    rw [← h.1]
    ring
  · simp only [Vector2.dot, Vector2.mul_x, Vector2.mul_y]
    exact h.2

/-- The fit through `(0,0)` with tangent `(1,0)` and `(2,2)`: centre `(0,2)`,
radius 2. -/
theorem fit_example :
    fitCircleOrLine Real.sqrt ⟨0, 0⟩ ⟨1, 0⟩ ⟨2, 2⟩ =
      (circle { x := 0, y := 2, radius := 2 } : CircleOrLine ℝ) := by
  have hlx := fitLead_x ⟨0, 0⟩ ⟨1, 0⟩ ⟨2, 2⟩
  have hly := fitLead_y ⟨0, 0⟩ ⟨1, 0⟩ ⟨2, 2⟩
  norm_num at hlx hly
  have hl2 : (fitLead (⟨0, 0⟩ : Vector2 ℝ) ⟨1, 0⟩ ⟨2, 2⟩).norm2 = 1 := by
    simp [Vector2.norm2, hlx, hly]
  have hcs := fitCenter_sub ⟨0, 0⟩ ⟨1, 0⟩ ⟨2, 2⟩
  rw [hl2] at hcs
  have hcx : (fitCenter (⟨0, 0⟩ : Vector2 ℝ) ⟨1, 0⟩ ⟨2, 2⟩).x = 0 := by
    have := congrArg Vector2.x hcs
    simp [hlx] at this
    exact this
  have hcy : (fitCenter (⟨0, 0⟩ : Vector2 ℝ) ⟨1, 0⟩ ⟨2, 2⟩).y = 2 := by
    have := congrArg Vector2.y hcs
    simp [hly] at this
    linarith
  have hr : fitRadius Real.sqrt (⟨0, 0⟩ : Vector2 ℝ) ⟨1, 0⟩ ⟨2, 2⟩ = 2 := by
    unfold fitRadius
    simp only [Vector2.norm2, Vector2.sub_x, Vector2.sub_y, hcx, hcy]
    rw [show ((0 : ℝ) - 0) * (0 - 0) + (2 - 0) * (2 - 0) = 2 ^ 2 by norm_num]
    exact Real.sqrt_sq (by norm_num)
  rcases fitCircleOrLine_cases Real.sqrt (⟨0, 0⟩ : Vector2 ℝ) ⟨1, 0⟩ ⟨2, 2⟩ with
    ⟨h, _⟩ | ⟨_, _, _, h⟩ | ⟨_, h, _⟩
  · exfalso; apply h
    simp [Vector2.norm2, ME_EPSILON2, ME_EPSILON]
    norm_num
  · rw [h, hcx, hcy, hr]
  · exfalso; apply h
    rw [hl2, hr]
    simp [Vector2.norm2, ME_EPSILON2, ME_EPSILON, ME_MAX_ARC_RADIUS,
      ME_MAX_ARC_RADIUS_TO_CHORD_LENGTH_RATIO]
    norm_num

/-- A circle accepted by `fitCircleOrLine` (unit tangent) has its centre at
distance `radius` from both points, on the normal to the tangent at `point0`. -/
theorem fit_circle_geometry (p0 t p1 : Vector2 ℝ) (hunit : t.norm2 = 1)
    (hlead : (fitLead p0 t p1).norm2 > ME_EPSILON2) :
    Vector2.norm Real.sqrt (p0 - fitCenter p0 t p1) = fitRadius Real.sqrt p0 t p1 ∧
    Vector2.norm Real.sqrt (p1 - fitCenter p0 t p1) = fitRadius Real.sqrt p0 t p1 ∧
    (fitCenter p0 t p1 - p0).dot t = 0 := by
  have hne : (fitLead p0 t p1).norm2 ≠ 0 := ne_of_gt (lt_trans ME_EPSILON2_pos hlead)
  obtain ⟨h1, h2⟩ := fit_center_equidistant p0 t p1 hunit hne
  refine ⟨?_, ?_, h2⟩
  · unfold Vector2.norm fitRadius
    rw [Vector2.norm2_sub_comm]
  · unfold Vector2.norm fitRadius
    rw [h1]

/-- A tangent parallel to the chord has no lead off the chord. -/
theorem fitLead_parallel (p0 t p1 : Vector2 ℝ) (hunit : t.norm2 = 1)
    (hpar : t.cross (p1 - p0) = 0) : (fitLead p0 t p1).norm2 = 0 := by
  have hu : t.x * t.x + t.y * t.y = 1 := hunit
  have hc : t.x * (p1.y - p0.y) - t.y * (p1.x - p0.x) = 0 := hpar
  have hx : (fitLead p0 t p1).x = 0 := by
    rw [fitLead_x]
    linear_combination (-((p1.x - p0.x) * (1 / 2))) * hu + (-t.y / 2) * hc
  have hy : (fitLead p0 t p1).y = 0 := by
    rw [fitLead_y]
    linear_combination (-((p1.y - p0.y) * (1 / 2))) * hu + (t.x / 2) * hc
  simp [Vector2.norm2, hx, hy]

end GeometryLemmas

section RangeLemmas

variable {F : Type} [LinearOrderedField F]

theorem FLT_MAX_pos : (0 : F) < FLT_MAX := by
  unfold FLT_MAX
  have h : (1 : F) / 2 ^ 23 < 2 := by
    rw [div_lt_iff₀ (by positivity)]
    have : (1 : F) ≤ 2 ^ 23 := one_le_pow₀ (by norm_num)
    linarith
  have h2 : (0 : F) < 2 - 1 / 2 ^ 23 := by linarith
  positivity

theorem Range.invalidate_not_valid (r : Range F) : ¬ (r.invalidate).isValid := by
  have h := FLT_MAX_pos (F := F)
  simp only [Range.invalidate, Range.isValid, not_le]
  linarith

theorem Range.length_nonneg (r : Range F) : 0 ≤ r.length := by
  unfold Range.length
  split_ifs with h
  · have : r.start ≤ r.end_ := h
    linarith
  · exact le_refl _

end RangeLemmas

section SegmentLemmas

variable {F : Type} [LinearOrderedField F]

/-- What a defined result of `isSegment` consists of. -/
theorem isSegment_eq_some (sqrt : F → F) (fuel : Nat) (line : FreeformLine F)
    (bounds : Range F) (input : SegmentsInput F) (b : Bool) (e : F)
    (h : isSegment sqrt fuel line bounds input = some (b, e)) :
    ∃ p0 p1, line.getPointAt bounds.start = some p0 ∧ line.getPointAt bounds.end_ = some p1 ∧
      input.referenceSegmentLength ≠ 0 ∧
      calcMeanSquaredError fuel line bounds.start input.tStep bounds.end_
        (Line.between sqrt p0 p1).signedDistTo = some e ∧
      b = decide (e ≤ input.maxMeanErrorAtReferenceLength * input.maxMeanErrorAtReferenceLength *
        (p0.distTo sqrt p1 / input.referenceSegmentLength)) := by
  unfold isSegment at h
  cases hp0 : line.getPointAt bounds.start with
  | none => rw [hp0] at h; simp at h
  | some p0 =>
    cases hp1 : line.getPointAt bounds.end_ with
    | none => rw [hp0, hp1] at h; simp at h
    | some p1 =>
      rw [hp0, hp1] at h
      simp only at h
      cases hc : calcMeanSquaredError fuel line bounds.start input.tStep bounds.end_
          (Line.between sqrt p0 p1).signedDistTo with
      | none => rw [hc] at h; simp at h
      | some m =>
        rw [hc] at h
        simp only at h
        by_cases href : input.referenceSegmentLength = 0
        · rw [if_pos href] at h; simp at h
        · rw [if_neg href] at h
          have h2 := Option.some.inj h
          have hb : decide (m ≤ input.maxMeanErrorAtReferenceLength *
              input.maxMeanErrorAtReferenceLength *
              (p0.distTo sqrt p1 / input.referenceSegmentLength)) = b := congrArg Prod.fst h2
          have he : m = e := congrArg Prod.snd h2
          subst he
          exact ⟨p0, p1, rfl, rfl, href, hc, hb.symm⟩

/-- The value of `isSegment` from its ingredients. -/
theorem isSegment_of_parts (sqrt : F → F) (fuel : Nat) (line : FreeformLine F)
    (bounds : Range F) (input : SegmentsInput F) (p0 p1 : Vector2 F) (e : F)
    (hp0 : line.getPointAt bounds.start = some p0) (hp1 : line.getPointAt bounds.end_ = some p1)
    (href : input.referenceSegmentLength ≠ 0)
    (hc : calcMeanSquaredError fuel line bounds.start input.tStep bounds.end_
        (Line.between sqrt p0 p1).signedDistTo = some e) :
    isSegment sqrt fuel line bounds input =
      some (decide (e ≤ input.maxMeanErrorAtReferenceLength *
        input.maxMeanErrorAtReferenceLength *
        (p0.distTo sqrt p1 / input.referenceSegmentLength)), e) := by
  unfold isSegment
  rw [hp0, hp1]
  simp only [hc, if_neg href]

/-- The loop of `calcMeanSquaredError` over a known list of samples. -/
theorem calcMeanSquaredErrorLoop_eval (sd : Vector2 F → F) (line : FreeformLine F)
    (tStep tEnd : F) (samples : List (Vector2 F)) :
    ∀ (fuel : Nat) (tCurr num sum : F), samples.length ≤ fuel →
      (∀ i, i < samples.length →
        tCurr + (i : F) * tStep < tEnd ∧
        line.getPointAt (tCurr + (i : F) * tStep) = samples[i]?) →
      ¬ (tCurr + (samples.length : F) * tStep < tEnd) →
      calcMeanSquaredErrorLoop sd line tStep tEnd fuel tCurr num sum =
        some ((sum + (samples.map (fun p => sd p * sd p)).sum) / (num + (samples.length : F))) := by
  induction samples with
  | nil =>
    intro fuel tCurr num sum _ _ hend
    simp only [List.length_nil, Nat.cast_zero, zero_mul, add_zero] at hend
    cases fuel <;> simp [calcMeanSquaredErrorLoop, hend]
  | cons p ps ih =>
    intro fuel tCurr num sum hfuel hs hend
    obtain ⟨fuel2, rfl⟩ : ∃ k, fuel = k + 1 := ⟨fuel - 1, by simp at hfuel; omega⟩
    have h0 := hs 0 (by simp)
    simp only [Nat.cast_zero, zero_mul, add_zero, List.getElem?_cons_zero] at h0
    unfold calcMeanSquaredErrorLoop
    rw [if_pos h0.1, h0.2]
    simp only
    rw [ih fuel2 (tCurr + tStep) (num + 1) (sum + sd p * sd p) (by simp at hfuel; omega)]
    · congr 1
      simp only [List.map_cons, List.sum_cons, List.length_cons, Nat.cast_add, Nat.cast_one]
      ring
    · intro i hi
      have h := hs (i + 1) (by simp; omega)
      simp only [List.getElem?_cons_succ, Nat.cast_add, Nat.cast_one] at h
      have e : tCurr + tStep + (i : F) * tStep = tCurr + ((i : F) + 1) * tStep := by ring
      rw [e]
      exact h
    · have e : tCurr + tStep + (ps.length : F) * tStep =
          tCurr + ((p :: ps).length : F) * tStep := by
        simp only [List.length_cons, Nat.cast_add, Nat.cast_one]; ring
      rw [e]
      exact hend

end SegmentLemmas

section NormalFormLemmas

/-- The squared length of the normal of `Line::between`. -/
theorem between_norm2 (p0 p1 : Vector2 ℝ) :
    (Line.between Real.sqrt p0 p1).a * (Line.between Real.sqrt p0 p1).a +
      (Line.between Real.sqrt p0 p1).b * (Line.between Real.sqrt p0 p1).b =
    ((p1 - p0).norm Real.sqrt / ((p1 - p0).norm Real.sqrt + FLT_MIN)) ^ 2 := by
  have h1 : (Line.between Real.sqrt p0 p1).a * (Line.between Real.sqrt p0 p1).a +
      (Line.between Real.sqrt p0 p1).b * (Line.between Real.sqrt p0 p1).b =
      ((p1 - p0).normalized Real.sqrt).norm2 := by
    simp only [Line.between, Line.fromPointAndNormal, Vector2.directionTo, Vector2.rotate90,
      Vector2.norm2]
    ring
  rw [h1, ← norm_normalized]
  unfold Vector2.norm
  rw [Real.sq_sqrt (Vector2.norm2_nonneg _)]

end NormalFormLemmas

section SegmentExamples

theorem distTo_axis_y (x a c : ℝ) :
    Vector2.distTo Real.sqrt ⟨x, a⟩ ⟨x, c⟩ = |c - a| := by
  unfold Vector2.distTo Vector2.norm Vector2.norm2
  simp only [Vector2.sub_x, Vector2.sub_y, sub_self, mul_zero, zero_add]
  rw [show (a - c) * (a - c) = (c - a) ^ 2 by ring]
  exact Real.sqrt_sq_eq_abs _

theorem build_straightStroke :
    FreeformLine.build Real.sqrt [⟨0, 0⟩, ⟨5, 0⟩] = some (straightStroke : FreeformLine ℝ) :=
  build_two_points 5 (by norm_num) (by unfold ME_A_LOT; norm_num)

theorem straightStroke_getPointAt_zero : (straightStroke : FreeformLine ℝ).getPointAt 0 = some ⟨0, 0⟩ := by
  have hA0 : (0 : ℝ) < ME_A_LOT := ME_A_LOT_pos
  rw [getPointAt_between (straightStroke : FreeformLine ℝ) 0 [(-ME_A_LOT, ⟨0, 0⟩)] [(ME_A_LOT, ⟨5, 0⟩)]
    (0, ⟨0, 0⟩) (5, ⟨5, 0⟩) rfl
    (by intro e he; simp at he; rw [he]; simp; exact hA0.le) (le_refl _) (by norm_num)]
  simp [Vector2.interpolate_zero]

theorem straightStroke_getPointAt_five : (straightStroke : FreeformLine ℝ).getPointAt 5 = some ⟨5, 0⟩ := by
  have hA0 : (0 : ℝ) < ME_A_LOT := ME_A_LOT_pos
  have hA : (5 : ℝ) < ME_A_LOT := by unfold ME_A_LOT; norm_num
  rw [getPointAt_between (straightStroke : FreeformLine ℝ) 5 [(-ME_A_LOT, ⟨0, 0⟩), (0, ⟨0, 0⟩)] []
    (5, ⟨5, 0⟩) (ME_A_LOT, ⟨5, 0⟩) rfl
    (by
      intro e he
      simp at he
      rcases he with h | h <;> rw [h] <;> simp
      linarith)
    (le_refl _) hA]
  rw [Vector2.interpolate_self]

theorem bentStroke_getPointAt_four : (bentStroke : FreeformLine ℝ).getPointAt 4 = some ⟨4, 0⟩ := by
  have hA0 : (0 : ℝ) < ME_A_LOT := ME_A_LOT_pos
  rw [getPointAt_between (bentStroke : FreeformLine ℝ) 4 [(-ME_A_LOT, ⟨0, 0⟩), (0, ⟨0, 0⟩)] [(ME_A_LOT, ⟨4, 3⟩)]
    (4, ⟨4, 0⟩) (7, ⟨4, 3⟩) rfl
    (by
      intro e he
      simp at he
      rcases he with h | h <;> rw [h] <;> simp
      linarith)
    (le_refl _) (by norm_num)]
  simp [Vector2.interpolate_zero]

/-- `isSegment` on the straight stroke with the default input: one sample, at
`t = 0`, on the line; the error is 0 and the span is accepted. -/
theorem isSegment_straightStroke :
    isSegment Real.sqrt 1 (straightStroke : FreeformLine ℝ) { start := 0, end_ := 5 } SegmentsInput.default =
      some (true, 0) := by
  have hsd := (between_signedDist Real.sqrt (⟨0, 0⟩ : Vector2 ℝ) ⟨5, 0⟩).1
  have hloop := calcMeanSquaredErrorLoop_eval
    (Line.between Real.sqrt (⟨0, 0⟩ : Vector2 ℝ) ⟨5, 0⟩).signedDistTo (straightStroke : FreeformLine ℝ) 15 5
    [⟨0, 0⟩] 1 0 FLT_MIN 0 (by simp)
    (by
      intro i hi
      have hi0 : i = 0 := by simpa using hi
      subst hi0
      simp only [Nat.cast_zero, zero_mul, add_zero, List.getElem?_cons_zero]
      exact ⟨by norm_num, straightStroke_getPointAt_zero⟩)
    (by simp; norm_num)
  simp only [List.map_cons, List.map_nil, List.sum_cons, List.sum_nil, hsd, mul_zero, add_zero,
    zero_div] at hloop
  have h := isSegment_of_parts Real.sqrt 1 (straightStroke : FreeformLine ℝ) { start := 0, end_ := 5 }
    SegmentsInput.default ⟨0, 0⟩ ⟨5, 0⟩ 0 straightStroke_getPointAt_zero
    straightStroke_getPointAt_five (by simp [SegmentsInput.default]) hloop
  rw [h]
  have hlim : (0 : ℝ) ≤ (SegmentsInput.default : SegmentsInput ℝ).maxMeanErrorAtReferenceLength *
      (SegmentsInput.default : SegmentsInput ℝ).maxMeanErrorAtReferenceLength *
      (Vector2.distTo Real.sqrt (⟨0, 0⟩ : Vector2 ℝ) ⟨5, 0⟩ /
        (SegmentsInput.default : SegmentsInput ℝ).referenceSegmentLength) := by
    rw [distTo_axis]
    simp [SegmentsInput.default]
    norm_num
  simp [hlim]

/-- The sample positions of `calcMeanSquaredError` for a positive step. -/
theorem exists_sample_count (tStart tStep tEnd : ℝ) (hstep : 0 < tStep) :
    ∃ n : Nat, (∀ i, i < n → tStart + (i : ℝ) * tStep < tEnd) ∧
      ¬ (tStart + (n : ℝ) * tStep < tEnd) := by
  refine ⟨⌈(tEnd - tStart) / tStep⌉₊, ?_, ?_⟩
  · intro i hi
    have h := Nat.lt_ceil.mp hi
    rw [lt_div_iff₀ hstep] at h
    linarith
  · have h := Nat.le_ceil ((tEnd - tStart) / tStep)
    rw [div_le_iff₀ hstep] at h
    linarith

end SegmentExamples

section BiarcLemmas

open Biarc

variable {F : Type} [LinearOrderedField F]

/-- Every pair the ratio loop appends comes from a pass that reached the end
of the body with `ME_EPSILON < d1`, and is `(r * d1, d1)` for that pass's
ratio. -/
theorem ratioLoop_pairs (sqrt : F → F) (t0 t1 v : Vector2 F) (rs : List F) :
    ∀ (result out : List (DParam F)), ratioLoop sqrt t0 t1 v rs result = some out →
      ∃ added, out = result ++ added ∧
        ∀ p ∈ added, ∃ r ∈ rs, ∃ found,
          ratioStep sqrt t0 t1 v r = RatioStep.finished p.d1 found ∧
          ME_EPSILON < p.d1 ∧ p.d0 = r * p.d1 := by
  induction rs with
  | nil =>
    intro result out h
    simp only [ratioLoop, Option.some.injEq] at h
    exact ⟨[], by simp [h], by simp⟩
  | cons r rest ih =>
    intro result out h
    unfold ratioLoop at h
    cases hstep : ratioStep sqrt t0 t1 v r with
    | skipped =>
      rw [hstep] at h
      obtain ⟨added, hout, hp⟩ := ih result out h
      refine ⟨added, hout, ?_⟩
      intro p hpm
      obtain ⟨r2, hr2, found, h1, h2, h3⟩ := hp p hpm
      exact ⟨r2, List.mem_cons_of_mem _ hr2, found, h1, h2, h3⟩
    | nonFinite =>
      rw [hstep] at h
      simp at h
    | finished d1 found =>
      rw [hstep] at h
      simp only at h
      by_cases hd : ME_EPSILON < d1
      · rw [if_pos hd] at h
        obtain ⟨added, hout, hp⟩ := ih _ out h
        refine ⟨{ d0 := r * d1, d1 := d1 } :: added, by rw [hout]; simp, ?_⟩
        intro p hpm
        rcases List.mem_cons.mp hpm with h1 | h1
        · subst h1
          exact ⟨r, List.mem_cons_self _ _, found, hstep, hd, rfl⟩
        · obtain ⟨r2, hr2, found2, h2, h3, h4⟩ := hp p h1
          exact ⟨r2, List.mem_cons_of_mem _ hr2, found2, h2, h3, h4⟩
      · rw [if_neg hd] at h
        obtain ⟨added, hout, hp⟩ := ih result out h
        refine ⟨added, hout, ?_⟩
        intro p hpm
        obtain ⟨r2, hr2, found2, h1, h2, h3⟩ := hp p hpm
        exact ⟨r2, List.mem_cons_of_mem _ hr2, found2, h1, h2, h3⟩

theorem ratioSeries_length (m : F) (n : Nat) (r : F) : (ratioSeries m n r).length = n := by
  induction n generalizing r with
  | zero => rfl
  | succ k ih => simp [ratioSeries, ih]

theorem ratioSeries_getElem (m : F) (n : Nat) (r : F) (i : Nat) (hi : i < n) :
    (ratioSeries m n r)[i]? = some (r * m ^ i) := by
  induction n generalizing r i with
  | zero => exact absurd hi (Nat.not_lt_zero i)
  | succ k ih =>
    cases i with
    | zero => simp [ratioSeries]
    | succ j =>
      simp only [ratioSeries, List.getElem?_cons_succ]
      rw [ih (r * m) j (by omega)]
      congr 1
      ring

theorem ratioSeries_mem (m : F) (n : Nat) (r x : F) (hx : x ∈ ratioSeries m n r) :
    ∃ i, i < n ∧ x = r * m ^ i := by
  obtain ⟨i, hi, hget⟩ := List.getElem_of_mem hx
  rw [ratioSeries_length] at hi
  have h := ratioSeries_getElem m n r i hi
  rw [List.getElem?_eq_getElem (by rw [ratioSeries_length]; exact hi)] at h
  exact ⟨i, hi, by rw [← hget]; exact Option.some.inj h⟩

/-- What a defined result of `findPossibleBiarcParams` consists of. -/
theorem findPossibleBiarcParams_eq_some (sqrt : F → F) (powf : F → F → F) (biarc : Biarc F)
    (rLower rUpper : F) (n : Int) (add : Bool) (result : List (DParam F))
    (h : findPossibleBiarcParams sqrt powf biarc rLower rUpper n add = some result) :
    ∃ main, ratioLoop sqrt biarc.tangent0 biarc.tangent1 (biarc.point1 - biarc.point0)
        (ratiosTried powf rLower rUpper n) [] = some main ∧
      ((add = false ∧ result = main) ∨
       (add = true ∧ (biarc.point1 - biarc.point0).dot biarc.tangent0 ≠ 0 ∧
        result = if ¬ isEqual 0 ((biarc.point1 - biarc.point0).dot (biarc.point1 - biarc.point0) /
            (2 * (biarc.point1 - biarc.point0).dot biarc.tangent0)) ME_EPSILON then
          main ++ [{ d0 := (biarc.point1 - biarc.point0).dot (biarc.point1 - biarc.point0) /
            (2 * (biarc.point1 - biarc.point0).dot biarc.tangent0), d1 := 0 }]
          else main)) := by
  unfold findPossibleBiarcParams at h
  by_cases h0 : n > 1 ∧ rLower = 0
  · simp only [if_pos h0] at h
    cases h
  · simp only [if_neg h0] at h
    cases hloop : ratioLoop sqrt biarc.tangent0 biarc.tangent1 (biarc.point1 - biarc.point0)
        (ratiosTried powf rLower rUpper n) [] with
    | none => simp only [hloop] at h; cases h
    | some main =>
      simp only [hloop] at h
      refine ⟨main, rfl, ?_⟩
      cases add with
      | false =>
        simp only [Bool.false_eq_true, if_false] at h
        exact Or.inl ⟨rfl, (Option.some.inj h).symm⟩
      | true =>
        simp only [if_true] at h
        by_cases hz : (biarc.point1 - biarc.point0).dot biarc.tangent0 = 0
        · simp only [if_pos hz] at h
          cases h
        · simp only [if_neg hz] at h
          exact Or.inr ⟨rfl, hz, (Option.some.inj h).symm⟩

/-- The result of `findPossibleBiarcParams` from the result of its ratio loop. -/
theorem findPossibleBiarcParams_of_loop (sqrt : F → F) (powf : F → F → F) (biarc : Biarc F)
    (rLower rUpper : F) (n : Int) (main : List (DParam F))
    (hdef : ¬ (n > 1 ∧ rLower = 0))
    (hloop : ratioLoop sqrt biarc.tangent0 biarc.tangent1 (biarc.point1 - biarc.point0)
        (ratiosTried powf rLower rUpper n) [] = some main) :
    findPossibleBiarcParams sqrt powf biarc rLower rUpper n false = some main ∧
    ((biarc.point1 - biarc.point0).dot biarc.tangent0 ≠ 0 →
      findPossibleBiarcParams sqrt powf biarc rLower rUpper n true =
        some (if ¬ isEqual 0 ((biarc.point1 - biarc.point0).dot (biarc.point1 - biarc.point0) /
            (2 * (biarc.point1 - biarc.point0).dot biarc.tangent0)) ME_EPSILON then
          main ++ [{ d0 := (biarc.point1 - biarc.point0).dot (biarc.point1 - biarc.point0) /
            (2 * (biarc.point1 - biarc.point0).dot biarc.tangent0), d1 := 0 }]
          else main)) := by
  constructor
  · unfold findPossibleBiarcParams
    simp only [if_neg hdef, hloop, Bool.false_eq_true, if_false]
  · intro hz
    unfold findPossibleBiarcParams
    simp only [if_neg hdef, hloop, if_true, if_neg hz]

end BiarcLemmas

section BiarcRealLemmas

open Biarc

theorem ratiosTried_one (powf : ℝ → ℝ → ℝ) (rLower rUpper : ℝ) :
    ratiosTried powf rLower rUpper 1 = [1] := by
  simp [ratiosTried, ratioSeries]

/-- The ratio pass for tangents `(1,0)`, `(0,1)`, chord `(20000, 60000)` and
`r = 1`: the quadratic root 20000 is not below `ME_MAX_D_PARAM`, the fallback
overwrites `d1` with `-c / b = 25000`, and `foundSolution` stays false. -/
theorem ratioStep_far_example :
    ratioStep Real.sqrt (⟨1, 0⟩ : Vector2 ℝ) ⟨0, 1⟩ ⟨20000, 60000⟩ 1 =
      RatioStep.finished 25000 false := by
  have hA : coeffA (⟨1, 0⟩ : Vector2 ℝ) ⟨0, 1⟩ 1 = 1 := by
    simp [coeffA, Vector2.dot]
  have hB : coeffB (⟨1, 0⟩ : Vector2 ℝ) ⟨0, 1⟩ ⟨20000, 60000⟩ 1 = 80000 := by
    simp [coeffB, Vector2.dot]; norm_num
  have hC : coeffC (⟨20000, 60000⟩ : Vector2 ℝ) = -2000000000 := by
    simp [coeffC, Vector2.dot]; norm_num
  have hdelta : (80000 : ℝ) * 80000 - 4 * 1 * -2000000000 = 120000 ^ 2 := by norm_num
  have hsqrt : Real.sqrt ((80000 : ℝ) * 80000 - 4 * 1 * -2000000000) = 120000 := by
    rw [hdelta]; exact Real.sqrt_sq (by norm_num)
  unfold ratioStep
  simp only [hA, hB, hC, hsqrt]
  have h1 : |(1 : ℝ)| > ME_EPSILON := by
    rw [abs_one]; unfold ME_EPSILON; norm_num
  have h2 : (80000 : ℝ) * 80000 - 4 * 1 * -2000000000 ≥ 0 := by norm_num
  have h3 : max ((-80000 - 120000) / (2 * 1)) ((-80000 + 120000) / (2 * 1)) = (20000 : ℝ) := by
    norm_num
  rw [if_pos h1, if_pos h2, h3]
  have h4 : ¬ ((80000 : ℝ) * 80000 - 4 * 1 * -2000000000 < 0 ∨ (20000 : ℝ) < 0) := by norm_num
  have h5 : ¬ ((20000 : ℝ) < ME_MAX_D_PARAM) := by unfold ME_MAX_D_PARAM; norm_num
  rw [if_neg h4, if_neg h5]
  unfold linearFallback
  have h6 : |Vector2.dot (⟨20000, 60000⟩ : Vector2 ℝ) ⟨0, 1⟩| > FLT_MIN := by
    simp [Vector2.dot, FLT_MIN]; norm_num
  have h7 : ¬ ((80000 : ℝ) = 0) := by norm_num
  rw [if_pos h6, if_neg h7]
  have h8 : -(-2000000000 : ℝ) / 80000 = 25000 := by norm_num
  rw [h8]
  have h9 : ¬ ((25000 : ℝ) < ME_MAX_D_PARAM) := by unfold ME_MAX_D_PARAM; norm_num
  simp [h9]

/-- The ratio pass for equal tangents `(1,0)`, chord `(-1, 1)` and `r = 1`:
the linear solution is `-1/2`. -/
theorem ratioStep_back_example :
    ratioStep Real.sqrt (⟨1, 0⟩ : Vector2 ℝ) ⟨1, 0⟩ ⟨-1, 1⟩ 1 =
      RatioStep.finished (-1 / 2) true := by
  have hA : coeffA (⟨1, 0⟩ : Vector2 ℝ) ⟨1, 0⟩ 1 = 0 := by
    simp [coeffA, Vector2.dot]
  have hB : coeffB (⟨1, 0⟩ : Vector2 ℝ) ⟨1, 0⟩ ⟨-1, 1⟩ 1 = -2 := by
    simp [coeffB, Vector2.dot]; norm_num
  have hC : coeffC (⟨-1, 1⟩ : Vector2 ℝ) = -1 := by
    simp [coeffC, Vector2.dot]; norm_num
  unfold ratioStep
  simp only [hA, hB, hC]
  have h1 : ¬ (|(0 : ℝ)| > ME_EPSILON) := by
    rw [abs_zero]; unfold ME_EPSILON; norm_num
  rw [if_neg h1]
  unfold linearFallback
  have h6 : |Vector2.dot (⟨-1, 1⟩ : Vector2 ℝ) ⟨1, 0⟩| > FLT_MIN := by
    simp [Vector2.dot, FLT_MIN]; norm_num
  have h7 : ¬ ((-2 : ℝ) = 0) := by norm_num
  rw [if_pos h6, if_neg h7]
  have h8 : -(-1 : ℝ) / -2 = -1 / 2 := by norm_num
  rw [h8]
  have h9 : (-1 / 2 : ℝ) < ME_MAX_D_PARAM := by unfold ME_MAX_D_PARAM; norm_num
  simp [h9]

theorem ratioLoop_far_example :
    ratioLoop Real.sqrt (⟨1, 0⟩ : Vector2 ℝ) ⟨0, 1⟩ ⟨20000, 60000⟩ [1] [] =
      some [{ d0 := 25000, d1 := 25000 }] := by
  have heps : (ME_EPSILON : ℝ) < 25000 := by unfold ME_EPSILON; norm_num
  unfold ratioLoop
  rw [ratioStep_far_example]
  simp only [if_pos heps, ratioLoop, List.nil_append, one_mul]

theorem findPossibleBiarcParams_far_example :
    findPossibleBiarcParams Real.sqrt (fun x y => x ^ y)
      (Biarc.ofPointsAndTangents (⟨0, 0⟩ : Vector2 ℝ) ⟨1, 0⟩ ⟨20000, 60000⟩ ⟨0, 1⟩)
      (1 / 5) 5 1 false = some [{ d0 := 25000, d1 := 25000 }] := by
  have hv : ((⟨20000, 60000⟩ : Vector2 ℝ) - ⟨0, 0⟩) = ⟨20000, 60000⟩ := by
    ext <;> simp
  unfold findPossibleBiarcParams
  simp only [Biarc.ofPointsAndTangents, hv, ratiosTried_one, ratioLoop_far_example]
  norm_num

theorem ratioLoop_back_example :
    ratioLoop Real.sqrt (⟨1, 0⟩ : Vector2 ℝ) ⟨1, 0⟩ ⟨-1, 1⟩ [1] [] = some [] := by
  have heps : ¬ ((ME_EPSILON : ℝ) < -1 / 2) := by unfold ME_EPSILON; norm_num
  unfold ratioLoop
  rw [ratioStep_back_example]
  simp only [if_neg heps, ratioLoop]

theorem findPossibleBiarcParams_back_example :
    findPossibleBiarcParams Real.sqrt (fun x y => x ^ y)
      (Biarc.ofPointsAndTangents (⟨0, 0⟩ : Vector2 ℝ) ⟨1, 0⟩ ⟨-1, 1⟩ ⟨1, 0⟩)
      (1 / 5) 5 1 true = some [{ d0 := -1, d1 := 0 }] := by
  have hv : ((⟨-1, 1⟩ : Vector2 ℝ) - ⟨0, 0⟩) = ⟨-1, 1⟩ := by
    ext <;> simp
  unfold findPossibleBiarcParams
  simp only [Biarc.ofPointsAndTangents, hv, ratiosTried_one, ratioLoop_back_example]
  norm_num [Vector2.dot, isEqual, ME_EPSILON]

/-- With positive bounds every ratio tried is positive. -/
theorem ratiosTried_pos (rLower rUpper : ℝ) (n : Int) (hl : 0 < rLower) (hu : 0 < rUpper)
    (r : ℝ) (hr : r ∈ ratiosTried (fun x y => x ^ y) rLower rUpper n) : 0 < r := by
  unfold ratiosTried at hr
  obtain ⟨i, _, hri⟩ := ratioSeries_mem _ _ _ _ hr
  rw [hri]
  by_cases hn : n > 1
  · simp only [if_pos hn]
    have hq : 0 < rUpper / rLower := div_pos hu hl
    have hm : 0 < (rUpper / rLower) ^ (1 / (((n - 1 : Int) : ℝ) + ME_EPSILON)) :=
      Real.rpow_pos_of_pos hq _
    positivity
  · simp only [if_neg hn]
    norm_num

end BiarcRealLemmas

section ListLemmas

theorem chain_replace_last {α : Type} (R : α → α → Prop) (l : List α) (b b2 : α)
    (hR : ∀ a, R a b → R a b2) (h : (l ++ [b]).Chain' R) : (l ++ [b2]).Chain' R := by
  rw [List.chain'_append] at h ⊢
  refine ⟨h.1, List.chain'_singleton _, ?_⟩
  intro x hx y hy
  simp only [List.head?_cons, Option.mem_def, Option.some.injEq] at hy
  subst hy
  exact hR x (h.2.2 x hx b (by simp))

theorem eq_dropLast_append_of_getLast? {α : Type} (l : List α) (b : α)
    (h : l.getLast? = some b) : l = l.dropLast ++ [b] := by
  have hne : l ≠ [] := by
    intro h0
    rw [h0] at h
    simp at h
  have h2 := List.dropLast_append_getLast hne
  rw [List.getLast?_eq_getLast l hne] at h
  rw [Option.some.inj h] at h2
  exact h2.symm

end ListLemmas

section ScanLemmas

variable {F : Type} [LinearOrderedField F]

/-- One pass of the scan loop keeps consecutive sections more than
`maxDistBetweenCornersToMerge` apart. -/
theorem scanStep_chain (input : CornersInput F) (q : Bool) (t : F) (st : CornerScan F)
    (h : st.result.Chain'
      (fun a b => a.end_ + (input.maxDistBetweenCornersToMerge : F) < b.start)) :
    (scanStep input q t st).result.Chain'
      (fun a b => a.end_ + (input.maxDistBetweenCornersToMerge : F) < b.start) := by
  unfold scanStep
  by_cases h1 : q = true
  · rw [if_pos h1]
    exact h
  · rw [if_neg h1]
    by_cases h2 : st.cornerSection.length ≥ (input.minNumberTestPositivesInSeries : F)
    · rw [if_pos h2]
      cases hl : st.result.getLast? with
      | none =>
        have h0 : st.result = [] := List.getLast?_eq_none_iff.mp hl
        simp [h0]
      | some back =>
        simp only
        by_cases h3 : back.end_ + (input.maxDistBetweenCornersToMerge : F) ≥
            st.cornerSection.start
        · rw [if_pos h3]
          have hdl := eq_dropLast_append_of_getLast? st.result back hl
          rw [hdl] at h
          exact chain_replace_last _ _ back _ (fun a ha => ha) h
        · rw [if_neg h3]
          rw [List.chain'_append]
          refine ⟨h, List.chain'_singleton _, ?_⟩
          intro x hx y hy
          rw [hl] at hx
          simp only [Option.mem_def, Option.some.injEq] at hx
          simp only [List.head?_cons, Option.mem_def, Option.some.injEq] at hy
          subst hx
          subst hy
          exact not_le.mp h3
    · rw [if_neg h2]
      exact h

theorem scanLoop_chain (sqrt : F → F) (atan2 : F → F → F) (line : FreeformLine F)
    (input : CornersInput F) (tEnd : F) :
    ∀ (fuel : Nat) (t : F) (st out : CornerScan F),
      st.result.Chain' (fun a b => a.end_ + (input.maxDistBetweenCornersToMerge : F) < b.start) →
      scanLoop sqrt atan2 line input tEnd fuel t st = some out →
      out.result.Chain'
        (fun a b => a.end_ + (input.maxDistBetweenCornersToMerge : F) < b.start) := by
  intro fuel
  induction fuel with
  | zero =>
    intro t st out h hres
    unfold scanLoop at hres
    by_cases ht : t ≤ tEnd
    · rw [if_pos ht] at hres
      cases hres
    · rw [if_neg ht] at hres
      cases hres
      exact h
  | succ n ih =>
    intro t st out h hres
    unfold scanLoop at hres
    by_cases ht : t ≤ tEnd
    · rw [if_pos ht] at hres
      cases ha : cornerAngles sqrt atan2 line input t with
      | none =>
        rw [ha] at hres
        cases hres
      | some angles =>
        rw [ha] at hres
        exact ih _ _ _ (scanStep_chain input _ t st h) hres
    · rw [if_neg ht] at hres
      cases hres
      exact h

theorem findCornerSections_eq_some (sqrt : F → F) (atan2 : F → F → F) (ceil : F → F) (fuel : Nat)
    (line : FreeformLine F) (input : CornersInput F) (sections : List (Range F))
    (h : findCornerSections sqrt atan2 ceil fuel line input = some sections) :
    ∃ st, scanLoop sqrt atan2 line input (line.clippingRange.end_ - cornerMargin ceil input) fuel
        (line.clippingRange.start + cornerMargin ceil input)
        { cornerSection := Range.new, result := [] } = some st ∧ st.result = sections := by
  unfold findCornerSections at h
  cases hs : scanLoop sqrt atan2 line input (line.clippingRange.end_ - cornerMargin ceil input) fuel
      (line.clippingRange.start + cornerMargin ceil input)
      { cornerSection := Range.new, result := [] } with
  | none =>
    rw [hs] at h
    cases h
  | some st =>
    rw [hs] at h
    exact ⟨st, rfl, Option.some.inj h⟩

theorem findCornerSections_chain (sqrt : F → F) (atan2 : F → F → F) (ceil : F → F) (fuel : Nat)
    (line : FreeformLine F) (input : CornersInput F) (sections : List (Range F))
    (h : findCornerSections sqrt atan2 ceil fuel line input = some sections) :
    sections.Chain'
      (fun a b => a.end_ + (input.maxDistBetweenCornersToMerge : F) < b.start) := by
  obtain ⟨st, hst, hr⟩ := findCornerSections_eq_some sqrt atan2 ceil fuel line input sections h
  rw [← hr]
  exact scanLoop_chain sqrt atan2 line input _ fuel _ _ st List.chain'_nil hst

end ScanLemmas

section SortLemmas

variable {F : Type} [LinearOrderedField F]

theorem Range.isLess_irrefl (a : Range F) : ¬ a.isLess a := by
  unfold Range.isLess
  intro h
  rcases h with h | ⟨_, h⟩ <;> exact lt_irrefl _ h

theorem Range.isLess_trans {a b c : Range F} (h1 : a.isLess b) (h2 : b.isLess c) :
    a.isLess c := by
  unfold Range.isLess at *
  rcases h1 with h1 | ⟨e1, h1⟩ <;> rcases h2 with h2 | ⟨e2, h2⟩
  · exact Or.inl (lt_trans h1 h2)
  · exact Or.inl (e2 ▸ h1)
  · exact Or.inl (e1 ▸ h2)
  · exact Or.inr ⟨e1.trans e2, lt_trans h1 h2⟩

theorem Range.isLess_trichotomy (a b : Range F) : a.isLess b ∨ a = b ∨ b.isLess a := by
  unfold Range.isLess
  rcases lt_trichotomy a.start b.start with h | h | h
  · exact Or.inl (Or.inl h)
  · rcases lt_trichotomy a.end_ b.end_ with h2 | h2 | h2
    · exact Or.inl (Or.inr ⟨h, h2⟩)
    · right; left
      cases a; cases b
      simp only [Range.mk.injEq]
      exact ⟨h, h2⟩
    · exact Or.inr (Or.inr (Or.inr ⟨h.symm, h2⟩))
  · exact Or.inr (Or.inr (Or.inl h))

theorem Range.not_isLess_iff (a b : Range F) :
    ¬ b.isLess a ↔ a.start < b.start ∨ (a.start = b.start ∧ a.end_ ≤ b.end_) := by
  unfold Range.isLess
  constructor
  · intro h
    rw [not_or, not_and] at h
    rcases lt_or_eq_of_le (not_lt.mp h.1) with h1 | h1
    · exact Or.inl h1
    · exact Or.inr ⟨h1, not_lt.mp (h.2 h1.symm)⟩
  · intro h hc
    rcases h with h | ⟨e, h⟩ <;> rcases hc with hc | ⟨e2, hc⟩
    · exact lt_irrefl _ (lt_trans h hc)
    · rw [e2] at h; exact lt_irrefl _ h
    · rw [e] at hc; exact lt_irrefl _ hc
    · exact lt_irrefl _ (lt_of_lt_of_le hc h)

theorem sortRanges_perm (l : List (Range F)) : (sortRanges l).Perm l :=
  List.perm_insertionSort _ l

theorem sortRanges_sorted (l : List (Range F)) :
    (sortRanges l).Pairwise
      (fun a b => a.start < b.start ∨ (a.start = b.start ∧ a.end_ ≤ b.end_)) := by
  haveI : IsTotal (Range F) (fun a b => ¬ Range.isLess b a) :=
    ⟨fun a b => by
      rcases Range.isLess_trichotomy a b with h | h | h
      · exact Or.inl (fun hc => Range.isLess_irrefl a (Range.isLess_trans h hc))
      · subst h; exact Or.inl (Range.isLess_irrefl a)
      · exact Or.inr (fun hc => Range.isLess_irrefl a (Range.isLess_trans hc h))⟩
  haveI : IsTrans (Range F) (fun a b => ¬ Range.isLess b a) :=
    ⟨fun a b c hab hbc hca => by
      rcases Range.isLess_trichotomy a b with h | h | h
      · exact hbc (Range.isLess_trans hca h)
      · subst h; exact hbc hca
      · exact hab h⟩
  have h := List.sorted_insertionSort (fun a b : Range F => ¬ Range.isLess b a) l
  exact List.Pairwise.imp (fun {a b} hab => (Range.not_isLess_iff a b).mp hab) h

/-- The segments `segmentLoop` adds are spans longer than the display gap
that `isSegment` accepted. -/
theorem segmentLoop_accepted (sqrt : F → F) (fuel : Nat) (line : FreeformLine F)
    (input : SegmentsInput F) :
    ∀ (cs : List (Range F)) (prev : F) (acc out : List (Range F)),
      segmentLoop sqrt fuel line input cs prev acc = some out →
      ∃ added, out = acc ++ added ∧
        ∀ s ∈ added, ME_MAX_SPLINE_GAP < s.length ∧
          ∃ e, isSegment sqrt fuel line s input = some (true, e) := by
  intro cs
  induction cs with
  | nil =>
    intro prev acc out h
    unfold segmentLoop at h
    cases h
    exact ⟨[], by simp, by simp⟩
  | cons c rest ih =>
    intro prev acc out h
    unfold segmentLoop at h
    simp only at h
    by_cases hg : ME_MAX_SPLINE_GAP < ({ start := prev, end_ := c.start } : Range F).length
    · rw [if_pos hg] at h
      cases hseg : isSegment sqrt fuel line { start := prev, end_ := c.start } input with
      | none =>
        rw [hseg] at h
        cases h
      | some r =>
        obtain ⟨b, e⟩ := r
        rw [hseg] at h
        cases b
        · exact ih _ _ _ h
        · obtain ⟨added, hout, hall⟩ := ih _ _ _ h
          refine ⟨{ start := prev, end_ := c.start } :: added, by simp [hout], ?_⟩
          intro s hs
          rcases List.mem_cons.mp hs with h1 | h1
          · subst h1
            exact ⟨hg, e, hseg⟩
          · exact hall s h1
    · rw [if_neg hg] at h
      exact ih _ _ _ h

theorem findCornersAndSegments_eq_some (sqrt : F → F) (atan2 : F → F → F) (ceil : F → F)
    (fuel : Nat) (input : ProcessingInput F) (line line1 : FreeformLine F)
    (result : List (Range F))
    (h : findCornersAndSegments sqrt atan2 ceil fuel input line = some (line1, result)) :
    line1 = line.setBounds { start := 0, end_ := line.length } ∧
    ∃ corners segments,
      findCorners sqrt atan2 ceil fuel line1 input.corners = some corners ∧
      segmentLoop sqrt fuel line1 input.segments
        (corners ++ [{ start := line1.length, end_ := line1.length }]) 0 [] = some segments ∧
      result = sortRanges (corners ++ segments) := by
  unfold findCornersAndSegments at h
  simp only at h
  cases hc : findCorners sqrt atan2 ceil fuel
      (line.setBounds { start := 0, end_ := line.length }) input.corners with
  | none =>
    rw [hc] at h
    cases h
  | some corners =>
    rw [hc] at h
    simp only at h
    cases hs : segmentLoop sqrt fuel (line.setBounds { start := 0, end_ := line.length })
        input.segments
        (corners ++ [{ start := (line.setBounds { start := 0, end_ := line.length }).length,
                       end_ := (line.setBounds { start := 0, end_ := line.length }).length }])
        0 [] with
    | none =>
      rw [hs] at h
      cases h
    | some segments =>
      rw [hs] at h
      simp only [Option.some.injEq, Prod.mk.injEq] at h
      obtain ⟨h1, h2⟩ := h
      subst h1
      exact ⟨rfl, corners, segments, hc, hs, h2.symm⟩

end SortLemmas

section MarkerSegmentLemmas

variable {F : Type}

theorem nonmarker_ite (c : Prop) [Decidable c] (x y : Option (SplineElement F))
    (hx : isMarkerSegment x = false) (hy : isMarkerSegment y = false) :
    isMarkerSegment (if c then x else y) = false := by
  split_ifs
  · exact hx
  · exact hy

theorem nonmarker_match (sh : CircleOrLine F) (f : Circle F → SplineElement F)
    (g : SplineElement F) (prev : Option (SplineElement F))
    (hf : ∀ c, (f c).isIndependentSegment = false) (hg : g.isIndependentSegment = false)
    (hp : isMarkerSegment prev = false) :
    isMarkerSegment (match sh with
      | CircleOrLine.circle c => some (f c)
      | CircleOrLine.line _ => some g
      | CircleOrLine.invalid => prev) = false := by
  cases sh with
  | invalid => exact hp
  | circle c => exact hf c
  | line l => exact hg

theorem filter_append_nonmarker (c : Prop) [Decidable c] (out : List (Option (SplineElement F)))
    (x : Option (SplineElement F)) (hx : isMarkerSegment x = false) :
    (if c then out ++ [x] else out).filter isMarkerSegment = out.filter isMarkerSegment := by
  split_ifs
  · rw [List.filter_append]
    simp [hx]
  · rfl

end MarkerSegmentLemmas

section GenerateLemmas

variable {F : Type} [LinearOrderedField F]

theorem biarcShapesLoop_filter (sqrt : F → F) (atan2 : F → F → F) :
    ∀ (biarcs : List (Biarc F)) (shape : Option (SplineElement F))
      (out res : List (Option (SplineElement F))),
      isMarkerSegment shape = false →
      biarcShapesLoop sqrt atan2 biarcs shape out = some res →
      res.filter isMarkerSegment = out.filter isMarkerSegment := by
  intro biarcs
  induction biarcs with
  | nil =>
    intro shape out res _ h
    unfold biarcShapesLoop at h
    cases h
    rfl
  | cons b rest ih =>
    intro shape out res hshape h
    unfold biarcShapesLoop at h
    cases hm : b.midPoint with
    | none =>
      rw [hm] at h
      cases h
    | some mid =>
      rw [hm] at h
      simp only at h
      have h1 : isMarkerSegment (if ME_MAX_SPLINE_GAP ≤ b.point0.distTo sqrt mid then
          match b.shape0 with
          | CircleOrLine.circle c => some (SplineElement.newArc atan2 c b.point0 b.tangent0 mid 0)
          | CircleOrLine.line _ => some (SplineElement.newSegment b.point0 mid 0)
          | CircleOrLine.invalid => shape
        else shape) = false :=
        nonmarker_ite _ _ _
          (nonmarker_match b.shape0 (fun c => SplineElement.newArc atan2 c b.point0 b.tangent0 mid 0)
            (SplineElement.newSegment b.point0 mid 0) shape (fun _ => rfl)
            (by simp [SplineElement.newSegment, SplineElement.isIndependentSegment]) hshape)
          hshape
      have h2 := nonmarker_ite (ME_MAX_SPLINE_GAP ≤ b.point1.distTo sqrt mid) _ _
          (nonmarker_match b.shape1
            (fun c => SplineElement.newArc atan2 c mid (b.midTangent sqrt) b.point1 1)
            (SplineElement.newSegment mid b.point1 1) _ (fun _ => rfl)
            (by simp [SplineElement.newSegment, SplineElement.isIndependentSegment]) h1)
          h1
      have h3 := ih _ _ _ h2 h
      rw [h3]
      exact (filter_append_nonmarker _ _ _ h2).trans (filter_append_nonmarker _ _ _ h1)

theorem biarcShapesLoop_isSome (sqrt : F → F) (atan2 : F → F → F) :
    ∀ (biarcs : List (Biarc F)) (shape : Option (SplineElement F))
      (out : List (Option (SplineElement F))),
      (∀ b ∈ biarcs, b.param.d0 + b.param.d1 + FLT_MIN ≠ 0) →
      ∃ res, biarcShapesLoop sqrt atan2 biarcs shape out = some res := by
  intro biarcs
  induction biarcs with
  | nil =>
    intro shape out _
    exact ⟨out, by unfold biarcShapesLoop; rfl⟩
  | cons b rest ih =>
    intro shape out hall
    have hb := hall b (List.mem_cons_self _ _)
    unfold biarcShapesLoop
    have hm : b.midPoint = some (Vector2.interpolate b.q0 b.q1
        (b.param.d0 / (b.param.d0 + b.param.d1 + FLT_MIN))) := by
      unfold Biarc.midPoint
      rw [if_neg hb]
    rw [hm]
    exact ih _ _ (fun x hx => hall x (List.mem_cons_of_mem _ hx))

theorem markerCorner_congr (l1 l2 : FreeformLine F) (h : l1.points = l2.points) (s : Range F) :
    markerCorner l1 s = markerCorner l2 s := by
  unfold markerCorner
  rw [getPointAt_congr l1 l2 h]

theorem markerShape_congr (l1 l2 : FreeformLine F) (h : l1.points = l2.points) (s : Range F) :
    markerShape l1 s = markerShape l2 s := by
  unfold markerShape
  rw [getPointAt_congr l1 l2 h, getPointAt_congr l1 l2 h]

/-- What the gap part of one pass of the marker loop changes. -/
theorem gapStep_eq_some (sqrt : F → F) (atan2 : F → F → F)
    (convert : FreeformLine F → BiarcsInput F → List (Biarc F))
    (gap : Range F) (st st1 : SplineState F)
    (h : gapStep sqrt atan2 convert gap st = some st1) :
    st1.line.points = st.line.points ∧
    st1.line.cachedLength = st.line.cachedLength ∧
    st1.markers = st.markers ∧
    st1.outCorners = st.outCorners ∧
    st1.processingInput.corners = st.processingInput.corners ∧
    st1.processingInput.segments = st.processingInput.segments ∧
    st1.processingInput.biarcs =
      { st.processingInput.biarcs with tBounds := st1.processingInput.biarcs.tBounds } ∧
    (gap.length > ME_MAX_SPLINE_GAP → st1.processingInput.biarcs.tBounds = gap) ∧
    (¬ gap.length > ME_MAX_SPLINE_GAP → st1 = st) ∧
    st1.outDisplayShapes.filter isMarkerSegment =
      st.outDisplayShapes.filter isMarkerSegment := by
  unfold gapStep at h
  by_cases hg : gap.length > ME_MAX_SPLINE_GAP
  · rw [if_pos hg] at h
    simp only at h
    cases hb : biarcShapesLoop sqrt atan2
        (convert (st.line.setBounds gap) { st.processingInput.biarcs with tBounds := gap })
        none st.outDisplayShapes with
    | none =>
      rw [hb] at h
      cases h
    | some shapes =>
      rw [hb] at h
      simp only [Option.some.injEq] at h
      subst h
      exact ⟨rfl, rfl, rfl, rfl, rfl, rfl, rfl, fun _ => rfl, fun hn => absurd hg hn,
        biarcShapesLoop_filter sqrt atan2 _ none _ _ rfl hb⟩
  · rw [if_neg hg] at h
    simp only [Option.some.injEq] at h
    subst h
    exact ⟨rfl, rfl, rfl, rfl, rfl, rfl, rfl, fun hn => absurd hn hg, fun _ => rfl, rfl⟩

/-- What the marker part of one pass of the marker loop changes. -/
theorem markerOwnStep_eq_some (s : Range F) (st st1 : SplineState F)
    (h : markerOwnStep s st = some st1) :
    st1.line = st.line ∧ st1.markers = st.markers ∧
    st1.processingInput = st.processingInput ∧
    st1.outCorners = st.outCorners ++ (markerCorner st.line s).toList ∧
    st1.outDisplayShapes.filter isMarkerSegment =
      st.outDisplayShapes.filter isMarkerSegment ++ (markerShape st.line s).toList := by
  unfold markerOwnStep at h
  by_cases hlen : s.length > ME_MAX_SPLINE_GAP
  · rw [if_pos hlen] at h
    have hne : ¬ s.length = 0 := by
      intro h0
      rw [h0] at hlen
      unfold ME_MAX_SPLINE_GAP at hlen
      exact absurd hlen (by norm_num)
    cases h0 : st.line.getPointAt s.start with
    | none =>
      rw [h0] at h
      cases h
    | some p0 =>
      cases h1 : st.line.getPointAt s.end_ with
      | none =>
        rw [h0, h1] at h
        cases h
      | some p1 =>
        rw [h0, h1] at h
        simp only [Option.some.injEq] at h
        subst h
        refine ⟨rfl, rfl, rfl, ?_, ?_⟩
        · simp [markerCorner, hne]
        · simp only [markerShape, if_pos hlen, h0, h1, Option.toList_some, List.filter_append]
          simp [isMarkerSegment, SplineElement.newSegment, SplineElement.isIndependentSegment]
  · rw [if_neg hlen] at h
    by_cases hz : s.length = 0
    · rw [if_pos hz] at h
      cases h0 : st.line.getPointAt s.start with
      | none =>
        rw [h0] at h
        cases h
      | some p =>
        rw [h0] at h
        simp only [Option.some.injEq] at h
        subst h
        refine ⟨rfl, rfl, rfl, ?_, ?_⟩
        · simp [markerCorner, hz, h0]
        · simp [markerShape, hlen]
    · rw [if_neg hz] at h
      simp only [Option.some.injEq] at h
      subst h
      refine ⟨rfl, rfl, rfl, ?_, ?_⟩
      · simp [markerCorner, hz]
      · simp [markerShape, hlen]

/-- What one pass of the marker loop of `generateBiarcsAndFinalShapes`
changes. -/
theorem markerStep_eq_some (sqrt : F → F) (atan2 : F → F → F)
    (convert : FreeformLine F → BiarcsInput F → List (Biarc F))
    (prev s : Range F) (st st1 : SplineState F)
    (h : markerStep sqrt atan2 convert prev s st = some st1) :
    st1.line.points = st.line.points ∧
    st1.line.cachedLength = st.line.cachedLength ∧
    st1.markers = st.markers ∧
    st1.processingInput.corners = st.processingInput.corners ∧
    st1.processingInput.segments = st.processingInput.segments ∧
    st1.processingInput.biarcs =
      { st.processingInput.biarcs with tBounds := st1.processingInput.biarcs.tBounds } ∧
    (({ start := prev.end_, end_ := s.start } : Range F).length > ME_MAX_SPLINE_GAP →
      st1.processingInput.biarcs.tBounds = { start := prev.end_, end_ := s.start }) ∧
    (¬ ({ start := prev.end_, end_ := s.start } : Range F).length > ME_MAX_SPLINE_GAP →
      st1.processingInput = st.processingInput) ∧
    st1.outCorners = st.outCorners ++ (markerCorner st.line s).toList ∧
    st1.outDisplayShapes.filter isMarkerSegment =
      st.outDisplayShapes.filter isMarkerSegment ++ (markerShape st.line s).toList := by
  unfold markerStep at h
  cases hg : gapStep sqrt atan2 convert { start := prev.end_, end_ := s.start } st with
  | none =>
    rw [hg] at h
    cases h
  | some st0 =>
    rw [hg] at h
    simp only at h
    obtain ⟨hp, hl, hmk, hoc, hci, hsi, hbi, htb, hsame, hfilt⟩ :=
      gapStep_eq_some sqrt atan2 convert _ st st0 hg
    obtain ⟨kl, kmk, kpi, koc, kfilt⟩ := markerOwnStep_eq_some s st0 st1 h
    rw [kl, kmk, kpi, koc, kfilt, markerCorner_congr st0.line st.line hp,
      markerShape_congr st0.line st.line hp, hoc, hfilt]
    exact ⟨hp, hl, hmk, hci, hsi, hbi, htb, fun hn => by rw [hsame hn], rfl, rfl⟩

/-- What the marker loop changes. -/
theorem markerLoop_eq_some (sqrt : F → F) (atan2 : F → F → F)
    (convert : FreeformLine F → BiarcsInput F → List (Biarc F)) :
    ∀ (ms : List (Range F)) (prev : Range F) (st st1 : SplineState F),
      markerLoop sqrt atan2 convert ms prev st = some st1 →
      st1.line.points = st.line.points ∧
      st1.line.cachedLength = st.line.cachedLength ∧
      st1.markers = st.markers ∧
      st1.processingInput.corners = st.processingInput.corners ∧
      st1.processingInput.segments = st.processingInput.segments ∧
      st1.processingInput.biarcs =
        { st.processingInput.biarcs with tBounds := st1.processingInput.biarcs.tBounds } ∧
      st1.outCorners = st.outCorners ++ ms.filterMap (markerCorner st.line) ∧
      st1.outDisplayShapes.filter isMarkerSegment =
        st.outDisplayShapes.filter isMarkerSegment ++ ms.filterMap (markerShape st.line) := by
  intro ms
  induction ms with
  | nil =>
    intro prev st st1 h
    unfold markerLoop at h
    simp only [Option.some.injEq] at h
    subst h
    simp
  | cons s rest ih =>
    intro prev st st1 h
    unfold markerLoop at h
    cases hs : markerStep sqrt atan2 convert prev s st with
    | none =>
      rw [hs] at h
      cases h
    | some st0 =>
      rw [hs] at h
      simp only at h
      obtain ⟨hp, hl, hmk, hci, hsi, hbi, _, _, hoc, hfilt⟩ :=
        markerStep_eq_some sqrt atan2 convert prev s st st0 hs
      obtain ⟨kp, kl, kmk, kci, ksi, kbi, koc, kfilt⟩ := ih s st0 st1 h
      have e1 : markerCorner st0.line = markerCorner st.line :=
        funext (markerCorner_congr st0.line st.line hp)
      have e2 : markerShape st0.line = markerShape st.line :=
        funext (markerShape_congr st0.line st.line hp)
      refine ⟨kp.trans hp, kl.trans hl, kmk.trans hmk, kci.trans hci, ksi.trans hsi, ?_, ?_, ?_⟩
      · rw [kbi, hbi]
      · rw [koc, hoc, e1, List.append_assoc]
        cases hc : markerCorner st.line s <;> simp [List.filterMap_cons, hc]
      · rw [kfilt, hfilt, e2, List.append_assoc]
        cases hc : markerShape st.line s <;> simp [List.filterMap_cons, hc]

theorem terminal_length (len : F) :
    ({ start := len, end_ := len + 1 } : Range F).length = 1 := by
  unfold Range.length Range.isValid
  rw [if_pos (by simp)]
  simp

/-- What `generateBiarcsAndFinalShapes` changes: the marker vector is given
back as it was, each marker of length 0 adds its point to the corners, each
marker longer than `ME_MAX_SPLINE_GAP` adds one segment with the default
index, in the order of the markers; of the `ProcessingInput` only
`biarcs.tBounds` can change. -/
theorem generate_eq_some (sqrt : F → F) (atan2 : F → F → F)
    (convert : FreeformLine F → BiarcsInput F → List (Biarc F)) (st st1 : SplineState F)
    (h : generateBiarcsAndFinalShapes sqrt atan2 convert st = some st1) :
    st1.markers = st.markers ∧
    st1.line.points = st.line.points ∧
    st1.processingInput.corners = st.processingInput.corners ∧
    st1.processingInput.segments = st.processingInput.segments ∧
    st1.processingInput.biarcs =
      { st.processingInput.biarcs with tBounds := st1.processingInput.biarcs.tBounds } ∧
    st1.outCorners = st.outCorners ++ st.markers.filterMap (markerCorner st.line) ∧
    st1.outDisplayShapes.filter isMarkerSegment =
      st.outDisplayShapes.filter isMarkerSegment ++ st.markers.filterMap (markerShape st.line) := by
  unfold generateBiarcsAndFinalShapes at h
  simp only at h
  cases hl : markerLoop sqrt atan2 convert
      (st.markers ++ [{ start := st.line.length, end_ := st.line.length + 1 }])
      { start := -1, end_ := 0 }
      { st with markers := st.markers ++ [{ start := st.line.length, end_ := st.line.length + 1 }] }
      with
  | none =>
    rw [hl] at h
    cases h
  | some st0 =>
    rw [hl] at h
    simp only [Option.some.injEq] at h
    subst h
    obtain ⟨hp, _, hmk, hci, hsi, hbi, hoc, hfilt⟩ := markerLoop_eq_some sqrt atan2 convert _ _ _ _ hl
    have ht1 : markerCorner st.line { start := st.line.length, end_ := st.line.length + 1 } =
        none := by
      unfold markerCorner
      rw [terminal_length, if_neg one_ne_zero]
    have ht2 : markerShape st.line { start := st.line.length, end_ := st.line.length + 1 } =
        none := by
      unfold markerShape
      rw [terminal_length, if_neg (by unfold ME_MAX_SPLINE_GAP; exact lt_irrefl _)]
    simp only [List.filterMap_append, List.filterMap_cons, List.filterMap_nil, ht1, ht2,
      List.append_nil] at hoc hfilt
    refine ⟨?_, hp, hci, hsi, hbi, hoc, hfilt⟩
    simp only [hmk, List.dropLast_concat]

theorem gapStep_isSome (sqrt : F → F) (atan2 : F → F → F)
    (convert : FreeformLine F → BiarcsInput F → List (Biarc F))
    (hmid : ∀ l i, ∀ b ∈ convert l i, b.param.d0 + b.param.d1 + FLT_MIN ≠ 0)
    (gap : Range F) (st : SplineState F) :
    ∃ st1, gapStep sqrt atan2 convert gap st = some st1 := by
  unfold gapStep
  by_cases hg : gap.length > ME_MAX_SPLINE_GAP
  · rw [if_pos hg]
    simp only
    obtain ⟨res, hres⟩ := biarcShapesLoop_isSome sqrt atan2
      (convert (st.line.setBounds gap) { st.processingInput.biarcs with tBounds := gap })
      none st.outDisplayShapes (hmid _ _)
    rw [hres]
    exact ⟨_, rfl⟩
  · rw [if_neg hg]
    exact ⟨st, rfl⟩

theorem markerOwnStep_isSome (s : Range F) (st : SplineState F)
    (h1 : s.length > ME_MAX_SPLINE_GAP →
      (∃ p, st.line.getPointAt s.start = some p) ∧ (∃ p, st.line.getPointAt s.end_ = some p))
    (h0 : s.length = 0 → ∃ p, st.line.getPointAt s.start = some p) :
    ∃ st1, markerOwnStep s st = some st1 := by
  unfold markerOwnStep
  by_cases hlen : s.length > ME_MAX_SPLINE_GAP
  · rw [if_pos hlen]
    obtain ⟨⟨p0, hp0⟩, ⟨p1, hp1⟩⟩ := h1 hlen
    rw [hp0, hp1]
    exact ⟨_, rfl⟩
  · rw [if_neg hlen]
    by_cases hz : s.length = 0
    · rw [if_pos hz]
      obtain ⟨p, hp⟩ := h0 hz
      rw [hp]
      exact ⟨_, rfl⟩
    · rw [if_neg hz]
      exact ⟨st, rfl⟩

/-- The marker loop returns when the biarcs handed back by the fitter have a
mid point and the polyline is defined at the markers it turns into shapes. -/
theorem markerLoop_isSome (sqrt : F → F) (atan2 : F → F → F)
    (convert : FreeformLine F → BiarcsInput F → List (Biarc F))
    (hmid : ∀ l i, ∀ b ∈ convert l i, b.param.d0 + b.param.d1 + FLT_MIN ≠ 0)
    (line0 : FreeformLine F) :
    ∀ (ms : List (Range F)) (prev : Range F) (st : SplineState F),
      st.line.points = line0.points →
      (∀ s ∈ ms, (s.length > ME_MAX_SPLINE_GAP →
          (∃ p, line0.getPointAt s.start = some p) ∧ (∃ p, line0.getPointAt s.end_ = some p)) ∧
        (s.length = 0 → ∃ p, line0.getPointAt s.start = some p)) →
      ∃ st1, markerLoop sqrt atan2 convert ms prev st = some st1 := by
  intro ms
  induction ms with
  | nil =>
    intro prev st _ _
    exact ⟨st, by unfold markerLoop; rfl⟩
  | cons s rest ih =>
    intro prev st hpts hdef
    obtain ⟨st0, hst0⟩ := gapStep_isSome sqrt atan2 convert hmid
      { start := prev.end_, end_ := s.start } st
    have hp0 := (gapStep_eq_some sqrt atan2 convert _ st st0 hst0).1
    have hs := hdef s (List.mem_cons_self _ _)
    have hc : ∀ t, st0.line.getPointAt t = line0.getPointAt t :=
      fun t => getPointAt_congr _ _ (hp0.trans hpts) t
    obtain ⟨st1, hst1⟩ := markerOwnStep_isSome s st0
      (fun hl => by rw [hc, hc]; exact hs.1 hl) (fun hz => by rw [hc]; exact hs.2 hz)
    have hstep : markerStep sqrt atan2 convert prev s st = some st1 := by
      unfold markerStep
      rw [hst0]
      exact hst1
    have hp1 := (markerStep_eq_some sqrt atan2 convert prev s st st1 hstep).1
    obtain ⟨st2, hst2⟩ := ih s st1 (hp1.trans hpts)
      (fun x hx => hdef x (List.mem_cons_of_mem _ hx))
    refine ⟨st2, ?_⟩
    unfold markerLoop
    rw [hstep]
    exact hst2

theorem generate_isSome (sqrt : F → F) (atan2 : F → F → F)
    (convert : FreeformLine F → BiarcsInput F → List (Biarc F))
    (hmid : ∀ l i, ∀ b ∈ convert l i, b.param.d0 + b.param.d1 + FLT_MIN ≠ 0)
    (st : SplineState F)
    (hdef : ∀ s ∈ st.markers, (s.length > ME_MAX_SPLINE_GAP →
        (∃ p, st.line.getPointAt s.start = some p) ∧ (∃ p, st.line.getPointAt s.end_ = some p)) ∧
      (s.length = 0 → ∃ p, st.line.getPointAt s.start = some p)) :
    ∃ st1, generateBiarcsAndFinalShapes sqrt atan2 convert st = some st1 := by
  obtain ⟨st0, hst0⟩ := markerLoop_isSome sqrt atan2 convert hmid st.line
    (st.markers ++ [{ start := st.line.length, end_ := st.line.length + 1 }])
    { start := -1, end_ := 0 }
    { st with markers := st.markers ++ [{ start := st.line.length, end_ := st.line.length + 1 }] }
    rfl
    (by
      intro s hs
      rcases List.mem_append.mp hs with h | h
      · exact hdef s h
      · simp only [List.mem_singleton] at h
        subst h
        rw [terminal_length]
        unfold ME_MAX_SPLINE_GAP
        exact ⟨fun hc => absurd hc (lt_irrefl _), fun hc => absurd hc one_ne_zero⟩)
  unfold generateBiarcsAndFinalShapes
  simp only
  rw [hst0]
  exact ⟨_, rfl⟩

theorem recreateSpline_eq_some (sqrt : F → F) (atan2 : F → F → F) (ceil : F → F)
    (convert : FreeformLine F → BiarcsInput F → List (Biarc F)) (fuel : Nat)
    (spline spline1 : ArcSpline F) (p : Option (ProcessingInput F))
    (h : recreateSpline sqrt atan2 ceil convert fuel spline p = some spline1) :
    ∃ line1 markers st,
      findCornersAndSegments sqrt atan2 ceil fuel (p.getD spline.processingInput)
        spline.sourceLine = some (line1, markers) ∧
      generateBiarcsAndFinalShapes sqrt atan2 convert
        { line := line1, processingInput := p.getD spline.processingInput, markers := markers
          outCorners := [], outDisplayShapes := [] } = some st ∧
      spline1 = { sourceLine := spline.sourceLine, processingInput := st.processingInput
                  displayShapes := st.outDisplayShapes, debugCorners := st.outCorners } := by
  unfold recreateSpline at h
  simp only at h
  cases hf : findCornersAndSegments sqrt atan2 ceil fuel (p.getD spline.processingInput)
      spline.sourceLine with
  | none =>
    rw [hf] at h
    cases h
  | some r =>
    obtain ⟨line1, markers⟩ := r
    rw [hf] at h
    simp only at h
    cases hg : generateBiarcsAndFinalShapes sqrt atan2 convert
        { line := line1, processingInput := p.getD spline.processingInput, markers := markers
          outCorners := [], outDisplayShapes := [] } with
    | none =>
      rw [hg] at h
      cases h
    | some st =>
      rw [hg] at h
      simp only [Option.some.injEq] at h
      exact ⟨line1, markers, st, rfl, hg, h.symm⟩

theorem recreateSpline_of_parts (sqrt : F → F) (atan2 : F → F → F) (ceil : F → F)
    (convert : FreeformLine F → BiarcsInput F → List (Biarc F)) (fuel : Nat)
    (spline : ArcSpline F) (p : Option (ProcessingInput F)) (line1 : FreeformLine F)
    (markers : List (Range F)) (st : SplineState F)
    (hf : findCornersAndSegments sqrt atan2 ceil fuel (p.getD spline.processingInput)
        spline.sourceLine = some (line1, markers))
    (hg : generateBiarcsAndFinalShapes sqrt atan2 convert
        { line := line1, processingInput := p.getD spline.processingInput, markers := markers
          outCorners := [], outDisplayShapes := [] } = some st) :
    recreateSpline sqrt atan2 ceil convert fuel spline p =
      some { sourceLine := spline.sourceLine, processingInput := st.processingInput
             displayShapes := st.outDisplayShapes, debugCorners := st.outCorners } := by
  unfold recreateSpline
  simp only
  rw [hf]
  simp only
  rw [hg]

end GenerateLemmas

section AngleLemmas

theorem ME_PI_bounds : (31415 / 10000 : ℝ) < ME_PI ∧ (ME_PI : ℝ) < 31416 / 10000 := by
  unfold ME_PI
  constructor <;> norm_num

theorem ME_RAD_TO_DEG_pos : (0 : ℝ) < ME_RAD_TO_DEG := by
  unfold ME_RAD_TO_DEG
  have := ME_PI_bounds.1
  positivity

/-- An angle of at most 0.4363 rad is below 25 degrees. -/
theorem deg_lt_25 (α : ℝ) (h : α ≤ 4363 / 10000) : α * ME_RAD_TO_DEG < 25 := by
  have hp := ME_PI_bounds.1
  have hpos : (0 : ℝ) < ME_PI := by linarith
  unfold ME_RAD_TO_DEG
  rw [← mul_div_assoc, div_lt_iff₀ hpos]
  nlinarith

/-- An angle of at least 0.4364 rad is not below 25 degrees. -/
theorem deg_ge_25 (α : ℝ) (h : 4364 / 10000 ≤ α) : 25 ≤ α * ME_RAD_TO_DEG := by
  have hp := ME_PI_bounds.2
  have hpos : (0 : ℝ) < ME_PI := by linarith [ME_PI_bounds.1]
  unfold ME_RAD_TO_DEG
  rw [← mul_div_assoc, le_div_iff₀ hpos]
  nlinarith

/-- An angle of at least 1 rad is above 45 degrees. -/
theorem deg_gt_45 (α : ℝ) (h : 1 ≤ α) : 45 < α * ME_RAD_TO_DEG := by
  have hp := ME_PI_bounds.2
  have hpos : (0 : ℝ) < ME_PI := by linarith [ME_PI_bounds.1]
  unfold ME_RAD_TO_DEG
  rw [← mul_div_assoc, lt_div_iff₀ hpos]
  nlinarith

/-- An angle of at most 0.78 rad is not above 45 degrees. -/
theorem deg_le_45 (α : ℝ) (h : α ≤ 78 / 100) : α * ME_RAD_TO_DEG ≤ 45 := by
  have hp := ME_PI_bounds.1
  have hpos : (0 : ℝ) < ME_PI := by linarith
  unfold ME_RAD_TO_DEG
  rw [← mul_div_assoc, div_le_iff₀ hpos]
  nlinarith

theorem deg_ratio_lt (α β : ℝ) (hβ : 0 < β) :
    α * ME_RAD_TO_DEG / (β * ME_RAD_TO_DEG) < 1 / 3 ↔ 3 * α < β := by
  have hr := ME_RAD_TO_DEG_pos
  rw [mul_div_mul_right _ _ (ne_of_gt hr), div_lt_iff₀ hβ]
  constructor <;> intro h <;> linarith

/-- The corner test with the thresholds 25 and 45 degrees, in radians: it passes when
both outer angles are at most 0.4363 rad and below a third of the inner
angle, which is at least 1 rad. -/
theorem isCornerCandidate_true (input : CornersInput ℝ)
    (ho : input.outerMaxAngleInDeg = 25) (hi : input.innerMinAngleInDeg = 45)
    (α0 α1 α2 : ℝ) (h0 : α0 ≤ 4363 / 10000)
    (h2 : α2 ≤ 4363 / 10000) (h1 : 1 ≤ α1) (hr0 : 3 * α0 < α1) (hr2 : 3 * α2 < α1) :
    isCornerCandidate input
      (α0 * ME_RAD_TO_DEG, α1 * ME_RAD_TO_DEG, α2 * ME_RAD_TO_DEG) = true := by
  have hr := ME_RAD_TO_DEG_pos
  have hpos : 0 < α1 := by linarith
  unfold isCornerCandidate
  rw [decide_eq_true_eq]
  simp only [ho, hi]
  refine ⟨deg_lt_25 α0 h0, deg_gt_45 α1 h1, deg_lt_25 α2 h2, ?_, ?_, ?_⟩
  · exact ne_of_gt (mul_pos hpos hr)
  · exact (deg_ratio_lt α0 α1 hpos).mpr hr0
  · exact (deg_ratio_lt α2 α1 hpos).mpr hr2

/-- The corner test with the thresholds 25 and 45 degrees fails when the inner angle is
at most 0.78 rad. -/
theorem isCornerCandidate_false_inner (input : CornersInput ℝ)
    (ho : input.outerMaxAngleInDeg = 25) (hi : input.innerMinAngleInDeg = 45)
    (α0 α1 α2 : ℝ) (h1 : α1 ≤ 78 / 100) :
    isCornerCandidate input
      (α0 * ME_RAD_TO_DEG, α1 * ME_RAD_TO_DEG, α2 * ME_RAD_TO_DEG) = false := by
  unfold isCornerCandidate
  rw [decide_eq_false_iff_not]
  simp only [ho, hi]
  intro h
  exact absurd h.2.1 (not_lt.mpr (deg_le_45 α1 h1))

/-- The corner test with the thresholds 25 and 45 degrees fails when the first outer
angle is at least 0.4364 rad. -/
theorem isCornerCandidate_false_outer0 (input : CornersInput ℝ)
    (ho : input.outerMaxAngleInDeg = 25) (hi : input.innerMinAngleInDeg = 45)
    (α0 α1 α2 : ℝ) (h0 : 4364 / 10000 ≤ α0) :
    isCornerCandidate input
      (α0 * ME_RAD_TO_DEG, α1 * ME_RAD_TO_DEG, α2 * ME_RAD_TO_DEG) = false := by
  unfold isCornerCandidate
  rw [decide_eq_false_iff_not]
  simp only [ho, hi]
  intro h
  exact absurd h.1 (not_lt.mpr (deg_ge_25 α0 h0))

/-- The corner test with the thresholds 25 and 45 degrees fails when the second outer
angle is at least 0.4364 rad. -/
theorem isCornerCandidate_false_outer2 (input : CornersInput ℝ)
    (ho : input.outerMaxAngleInDeg = 25) (hi : input.innerMinAngleInDeg = 45)
    (α0 α1 α2 : ℝ) (h2 : 4364 / 10000 ≤ α2) :
    isCornerCandidate input
      (α0 * ME_RAD_TO_DEG, α1 * ME_RAD_TO_DEG, α2 * ME_RAD_TO_DEG) = false := by
  unfold isCornerCandidate
  rw [decide_eq_false_iff_not]
  simp only [ho, hi]
  intro h
  exact absurd h.2.2.1 (not_lt.mpr (deg_ge_25 α2 h2))

/-- The corner test fails when the first outer angle is at least a third of
the inner angle. -/
theorem isCornerCandidate_false_ratio0 (input : CornersInput ℝ) (α0 α1 α2 : ℝ) (h1 : 0 ≤ α1)
    (hr : α1 ≤ 3 * α0) :
    isCornerCandidate input
      (α0 * ME_RAD_TO_DEG, α1 * ME_RAD_TO_DEG, α2 * ME_RAD_TO_DEG) = false := by
  have hR := ME_RAD_TO_DEG_pos
  unfold isCornerCandidate
  rw [decide_eq_false_iff_not]
  intro h
  have hne : α1 ≠ 0 := by
    intro h0
    apply h.2.2.2.1
    simp [h0]
  have hpos : 0 < α1 := lt_of_le_of_ne h1 (Ne.symm hne)
  have := (deg_ratio_lt α0 α1 hpos).mp h.2.2.2.2.1
  linarith

/-- The corner test fails when the second outer angle is at least a third of
the inner angle. -/
theorem isCornerCandidate_false_ratio2 (input : CornersInput ℝ) (α0 α1 α2 : ℝ) (h1 : 0 ≤ α1)
    (hr : α1 ≤ 3 * α2) :
    isCornerCandidate input
      (α0 * ME_RAD_TO_DEG, α1 * ME_RAD_TO_DEG, α2 * ME_RAD_TO_DEG) = false := by
  have hR := ME_RAD_TO_DEG_pos
  unfold isCornerCandidate
  rw [decide_eq_false_iff_not]
  intro h
  have hne : α1 ≠ 0 := by
    intro h0
    apply h.2.2.2.1
    simp [h0]
  have hpos : 0 < α1 := lt_of_le_of_ne h1 (Ne.symm hne)
  have := (deg_ratio_lt α2 α1 hpos).mp h.2.2.2.2.2
  linarith

/-! ### `atan2` as the argument of a complex number -/

theorem arg_pos_scale (c x y : ℝ) (hc : 0 < c) :
    Complex.arg ⟨c * x, c * y⟩ = Complex.arg ⟨x, y⟩ := by
  have h : (⟨c * x, c * y⟩ : ℂ) = (c : ℂ) * ⟨x, y⟩ := by
    apply Complex.ext <;> simp
  rw [h, Complex.arg_real_mul _ hc]

theorem absArg_zero (x : ℝ) (hx : 0 ≤ x) : |Complex.arg ⟨x, 0⟩| = 0 := by
  have h : Complex.arg ⟨x, 0⟩ = 0 := Complex.arg_eq_zero_iff.mpr ⟨hx, rfl⟩
  rw [h, abs_zero]

theorem absArg_nonneg (x y : ℝ) : 0 ≤ |Complex.arg ⟨x, y⟩| := abs_nonneg _

theorem absArg_le_pi (x y : ℝ) : |Complex.arg ⟨x, y⟩| ≤ Real.pi := Complex.abs_arg_le_pi _

theorem absArg_ge_half_pi (x y : ℝ) (hx : x ≤ 0) (hne : x ≠ 0 ∨ y ≠ 0) :
    Real.pi / 2 ≤ |Complex.arg ⟨x, y⟩| := by
  rcases lt_or_eq_of_le hx with h | h
  · by_contra hc
    have h2 : |Complex.arg ⟨x, y⟩| ≤ Real.pi / 2 := le_of_lt (not_le.mp hc)
    have := Complex.abs_arg_le_pi_div_two_iff.mp h2
    simp at this
    linarith
  · subst h
    have hy : y ≠ 0 := by
      rcases hne with h | h
      · exact absurd rfl h
      · exact h
    rcases lt_or_gt_of_ne hy with h | h
    · have : Complex.arg ⟨0, y⟩ = -(Real.pi / 2) :=
        Complex.arg_eq_neg_pi_div_two_iff.mpr ⟨rfl, h⟩
      rw [this, abs_neg, abs_of_pos (by positivity)]
    · have : Complex.arg ⟨0, y⟩ = Real.pi / 2 := Complex.arg_eq_pi_div_two_iff.mpr ⟨rfl, h⟩
      rw [this, abs_of_pos (by positivity)]

theorem arg_eq_arctan (x y : ℝ) (hx : 0 < x) : Complex.arg ⟨x, y⟩ = Real.arctan (y / x) := by
  have hr : 0 < Real.sqrt (x ^ 2 + y ^ 2) := Real.sqrt_pos.mpr (by positivity)
  have hθ : Real.arctan (y / x) ∈ Set.Ioc (-Real.pi) Real.pi := by
    constructor
    · have := Real.neg_pi_div_two_lt_arctan (y / x)
      linarith [Real.pi_pos]
    · have := Real.arctan_lt_pi_div_two (y / x)
      linarith [Real.pi_pos]
  have hs : Real.sqrt (1 + (y / x) ^ 2) = Real.sqrt (x ^ 2 + y ^ 2) / x := by
    rw [show 1 + (y / x) ^ 2 = (x ^ 2 + y ^ 2) / x ^ 2 by field_simp, Real.sqrt_div (by positivity),
      Real.sqrt_sq hx.le]
  have hcos : Real.sqrt (x ^ 2 + y ^ 2) * Real.cos (Real.arctan (y / x)) = x := by
    rw [Real.cos_arctan, hs]
    field_simp
  have hsin : Real.sqrt (x ^ 2 + y ^ 2) * Real.sin (Real.arctan (y / x)) = y := by
    rw [Real.sin_arctan, hs]
    field_simp
  have hz : (⟨x, y⟩ : ℂ) = (Real.sqrt (x ^ 2 + y ^ 2) : ℂ) *
      (Complex.cos (Real.arctan (y / x)) + Complex.sin (Real.arctan (y / x)) * Complex.I) := by
    apply Complex.ext
    · simp only [Complex.mul_re, Complex.ofReal_re, Complex.ofReal_im, Complex.add_re,
        Complex.add_im, Complex.mul_im, Complex.I_re, Complex.I_im, ← Complex.ofReal_cos,
        ← Complex.ofReal_sin]
      simp
      exact hcos.symm
    · simp only [Complex.mul_re, Complex.ofReal_re, Complex.ofReal_im, Complex.add_re,
        Complex.add_im, Complex.mul_im, Complex.I_re, Complex.I_im, ← Complex.ofReal_cos,
        ← Complex.ofReal_sin]
      simp
      exact hsin.symm
  rw [hz, Complex.arg_mul_cos_add_sin_mul_I hr hθ]

theorem absArg_eq_arctan (x y : ℝ) (hx : 0 < x) :
    |Complex.arg ⟨x, y⟩| = Real.arctan (|y| / x) := by
  rw [arg_eq_arctan x y hx]
  rcases le_total 0 y with h | h
  · rw [abs_of_nonneg h, abs_of_nonneg]
    rw [← Real.arctan_zero]
    exact Real.arctan_strictMono.monotone (by positivity)
  · rw [abs_of_nonpos h, neg_div, Real.arctan_neg, abs_of_nonpos]
    rw [← Real.arctan_zero]
    exact Real.arctan_strictMono.monotone (div_nonpos_of_nonpos_of_nonneg h hx.le)

/-! ### Bounds on `arctan` -/

theorem arctan_le_self (q : ℝ) (hq : 0 ≤ q) (hq1 : q ≤ 1) : Real.arctan q ≤ q := by
  rcases eq_or_lt_of_le hq with h | h
  · rw [← h, Real.arctan_zero]
  · have hpi : q < Real.pi / 2 := by
      have := Real.pi_gt_three
      linarith
    have habs : |q| ≤ 1 := by rw [abs_of_pos h]; exact hq1
    have hcos : 0 < Real.cos q := Real.cos_pos_of_le_one habs
    have hs := Real.sin_gt_sub_cube h hq1
    have hc := (abs_le.mp (Real.cos_bound habs)).2
    rw [abs_of_pos h] at hc
    have hq2 : q * q ≤ 1 := by nlinarith
    have hq3 : 0 < q ^ 3 := by positivity
    have hq5 : q ^ 5 ≤ q ^ 3 := by
      have : q ^ 5 = q ^ 3 * (q * q) := by ring
      rw [this]
      nlinarith
    have hxc : q * Real.cos q ≤ Real.sin q := by
      have h1 : q * Real.cos q ≤ q * (1 - q ^ 2 / 2 + q ^ 4 * (5 / 96)) :=
        mul_le_mul_of_nonneg_left (by linarith) h.le
      have h2 : q * (1 - q ^ 2 / 2 + q ^ 4 * (5 / 96)) = q - q ^ 3 / 2 + q ^ 5 * (5 / 96) := by
        ring
      linarith
    have ht : q ≤ Real.tan q := by
      rw [Real.tan_eq_sin_div_cos, le_div_iff₀ hcos]
      exact hxc
    have := Real.arctan_strictMono.monotone ht
    rw [Real.arctan_tan (by linarith) hpi] at this
    exact this

theorem arctan_nonneg (q : ℝ) (hq : 0 ≤ q) : 0 ≤ Real.arctan q := by
  rw [← Real.arctan_zero]
  exact Real.arctan_strictMono.monotone hq

/-- `arctan (1/2)` is above 0.4364 rad (25 degrees are about 0.43633 rad). -/
theorem arctan_half_gt : (4364 / 10000 : ℝ) < Real.arctan (1 / 2) := by
  have hpi : (4364 / 10000 : ℝ) < Real.pi / 2 := by
    have := Real.pi_gt_three
    linarith
  have hx0 : (0 : ℝ) < 4364 / 10000 := by norm_num
  have hcos : 1 - (4364 / 10000 : ℝ) ^ 2 / 2 ≤ Real.cos (4364 / 10000) :=
    Real.one_sub_sq_div_two_le_cos
  have hsin : Real.sin (4364 / 10000) < 4364 / 10000 := Real.sin_lt hx0
  have hcpos : 0 < Real.cos (4364 / 10000) := by
    have : (0 : ℝ) < 1 - (4364 / 10000 : ℝ) ^ 2 / 2 := by norm_num
    linarith
  have htan : Real.tan (4364 / 10000) < 1 / 2 := by
    rw [Real.tan_eq_sin_div_cos, div_lt_iff₀ hcpos]
    have : (4364 / 10000 : ℝ) < 1 / 2 * (1 - (4364 / 10000 : ℝ) ^ 2 / 2) := by norm_num
    linarith
  have h := Real.arctan_strictMono htan
  rwa [Real.arctan_tan (by linarith) hpi] at h

theorem arctan_ge_of_half_le (q : ℝ) (h : 1 / 2 ≤ q) : (4364 / 10000 : ℝ) ≤ Real.arctan q :=
  le_trans arctan_half_gt.le (Real.arctan_strictMono.monotone h)

theorem arctan_lt_pi_div_eight (q : ℝ) (h : q ≤ 2 / 5) : Real.arctan q < Real.pi / 8 := by
  have h1 : Real.arctan q ≤ Real.arctan (2 / 5) := Real.arctan_strictMono.monotone h
  have h2 : 2 * Real.arctan (2 / 5) = Real.arctan (2 * (2 / 5) / (1 - (2 / 5) ^ 2)) :=
    Real.two_mul_arctan (by norm_num) (by norm_num)
  have h3 : Real.arctan (2 * (2 / 5) / (1 - (2 / 5) ^ 2)) < Real.arctan 1 :=
    Real.arctan_strictMono (by norm_num)
  rw [Real.arctan_one] at h3
  linarith

theorem pi_div_eight_lt_arctan (q : ℝ) (h : 3 / 7 ≤ q) : Real.pi / 8 < Real.arctan q := by
  have h1 : Real.arctan (3 / 7) ≤ Real.arctan q := Real.arctan_strictMono.monotone h
  have h2 : 2 * Real.arctan (3 / 7) = Real.arctan (2 * (3 / 7) / (1 - (3 / 7) ^ 2)) :=
    Real.two_mul_arctan (by norm_num) (by norm_num)
  have h3 : Real.arctan 1 < Real.arctan (2 * (3 / 7) / (1 - (3 / 7) ^ 2)) :=
    Real.arctan_strictMono (by norm_num)
  rw [Real.arctan_one] at h3
  linarith

theorem pi_div_four_le_arctan (q : ℝ) (h : 1 ≤ q) : Real.pi / 4 ≤ Real.arctan q := by
  rw [← Real.arctan_one]
  exact Real.arctan_strictMono.monotone h

end AngleLemmas

section PathLemmas

variable {F : Type} [LinearOrderedField F]

/-- In a sorted map with a key at most `t` and a key above `t`, two adjacent
entries enclose `t`. -/
theorem exists_adjacent (t : F) :
    ∀ (m : List (F × Vector2 F)), SortedKeys m → (∃ e ∈ m, e.1 ≤ t) → (∃ e ∈ m, t < e.1) →
      ∃ pre prev next post, m = pre ++ prev :: next :: post ∧ (∀ e ∈ pre, e.1 ≤ t) ∧
        prev.1 ≤ t ∧ t < next.1 := by
  intro m
  induction m with
  | nil =>
    intro _ hlo _
    obtain ⟨e, he, _⟩ := hlo
    simp at he
  | cons e rest ih =>
    intro hs hlo hhi
    have hs2 := List.pairwise_cons.mp hs
    have he : e.1 ≤ t := by
      obtain ⟨x, hx, hxt⟩ := hlo
      rcases List.mem_cons.mp hx with h | h
      · rw [← h]; exact hxt
      · exact le_trans (le_of_lt (hs2.1 x h)) hxt
    cases rest with
    | nil =>
      obtain ⟨y, hy, hyt⟩ := hhi
      simp only [List.mem_singleton] at hy
      rw [hy] at hyt
      exact absurd he (not_le.mpr hyt)
    | cons e2 rest2 =>
      by_cases h2 : t < e2.1
      · exact ⟨[], e, e2, rest2, rfl, by simp, he, h2⟩
      · have hhi2 : ∃ y ∈ e2 :: rest2, t < y.1 := by
          obtain ⟨y, hy, hyt⟩ := hhi
          rcases List.mem_cons.mp hy with h | h
          · rw [h] at hyt
            exact absurd he (not_le.mpr hyt)
          · exact ⟨y, h, hyt⟩
        obtain ⟨pre, prev, next, post, hm, hpre, hp, hn⟩ :=
          ih hs2.2 ⟨e2, List.mem_cons_self _ _, not_lt.mp h2⟩ hhi2
        refine ⟨e :: pre, prev, next, post, by rw [hm]; rfl, ?_, hp, hn⟩
        intro x hx
        rcases List.mem_cons.mp hx with h | h
        · rw [h]; exact he
        · exact hpre x h

theorem interpolate_affine (P U : Vector2 F) (k1 k2 t : F) (h : k1 < k2) :
    Vector2.interpolate (P + U * k1) (P + U * k2) ((t - k1) / (k2 - k1)) = P + U * t := by
  have hne : k2 - k1 ≠ 0 := by
    intro h0
    have : k2 = k1 := by linear_combination h0
    rw [this] at h
    exact lt_irrefl _ h
  unfold Vector2.interpolate
  apply Vector2.ext
  · simp only [Vector2.add_x, Vector2.mul_x]
    field_simp
    ring
  · simp only [Vector2.add_y, Vector2.mul_y]
    field_simp
    ring

/-- `getPointAt` between two keys `lo` and `hi` of the map when every entry
from `lo` to `hi` lies on the affine piece `s ↦ P + U s`. -/
theorem getPointAt_affine (line : FreeformLine F) (t lo hi : F) (P U : Vector2 F)
    (hs : SortedKeys line.points)
    (hlo : ∃ e ∈ line.points, e.1 = lo) (hhi : ∃ e ∈ line.points, e.1 = hi)
    (hon : ∀ e ∈ line.points, lo ≤ e.1 → e.1 ≤ hi → e.2 = P + U * e.1)
    (h1 : lo ≤ t) (h2 : t < hi) : line.getPointAt t = some (P + U * t) := by
  obtain ⟨elo, helo, hklo⟩ := hlo
  obtain ⟨ehi, hehi, hkhi⟩ := hhi
  obtain ⟨pre, prev, next, post, hm, hpre, hp, hn⟩ := exists_adjacent t line.points hs
    ⟨elo, helo, by rw [hklo]; exact h1⟩ ⟨ehi, hehi, by rw [hkhi]; exact h2⟩
  have hs2 : SortedKeys (pre ++ prev :: next :: post) := hm ▸ hs
  have hsa := List.pairwise_append.mp hs2
  have hsb := List.pairwise_cons.mp hsa.2.1
  have hsc := List.pairwise_cons.mp hsb.2
  have hpn : prev.1 < next.1 := hsb.1 next (List.mem_cons_self _ _)
  -- the key `lo` is at or before `prev`
  have hlo2 : lo ≤ prev.1 := by
    rw [hm] at helo
    rcases List.mem_append.mp helo with h | h
    · rw [← hklo]; exact le_of_lt (hsa.2.2 elo h prev (List.mem_cons_self _ _))
    · rcases List.mem_cons.mp h with h | h
      · rw [← hklo, h]
      · have : next.1 ≤ elo.1 := by
          rcases List.mem_cons.mp h with h | h
          · rw [h]
          · exact le_of_lt (hsc.1 elo h)
        rw [hklo] at this
        exact absurd (lt_of_lt_of_le hn this) (not_lt.mpr h1)
  -- the key `hi` is at or after `next`
  have hhi2 : next.1 ≤ hi := by
    rw [hm] at hehi
    have hcontra : ehi.1 ≤ t → False := by
      intro h
      rw [hkhi] at h
      exact absurd h2 (not_lt.mpr h)
    rcases List.mem_append.mp hehi with h | h
    · exact absurd (hpre ehi h) hcontra
    · rcases List.mem_cons.mp h with h | h
      · rw [h] at hcontra
        exact absurd hp hcontra
      · rcases List.mem_cons.mp h with h | h
        · rw [← hkhi, h]
        · rw [← hkhi]; exact le_of_lt (hsc.1 ehi h)
  have hprev : prev.2 = P + U * prev.1 :=
    hon prev (by rw [hm]; simp) hlo2 (le_trans hpn.le hhi2)
  have hnext : next.2 = P + U * next.1 :=
    hon next (by rw [hm]; simp) (le_trans hlo2 hpn.le) hhi2
  rw [getPointAt_between line t pre post prev next hm hpre hp hn, hprev, hnext,
    interpolate_affine P U prev.1 next.1 t hpn]

theorem getTangentAt_of_points (sqrt : F → F) (line : FreeformLine F) (t : F) (a b : Vector2 F)
    (ha : line.getPointAt (line.tangentSampleA t) = some a)
    (hb : line.getPointAt (line.tangentSampleB t) = some b) :
    line.getTangentAt sqrt t = some ((b - a).normalized sqrt) := by
  unfold FreeformLine.getTangentAt
  simp only [ha, hb]

/-- `getTangentAt` for a polyline whose points at both clamped samples are
given by `path`. -/
theorem getTangentAt_of_path (sqrt : F → F) (path : F → Vector2 F) (line : FreeformLine F) (t : F)
    (ha : line.getPointAt (line.tangentSampleA t) = some (path (line.tangentSampleA t)))
    (hb : line.getPointAt (line.tangentSampleB t) = some (path (line.tangentSampleB t))) :
    line.getTangentAt sqrt t = some ((tangentSecant path line t).normalized sqrt) :=
  getTangentAt_of_points sqrt line t _ _ ha hb

end PathLemmas

section TangentAngleLemmas

theorem normalized_scale (v : Vector2 ℝ) :
    v.normalized Real.sqrt = v * (1 / (v.norm Real.sqrt + FLT_MIN)) ∧
    0 < 1 / (v.norm Real.sqrt + FLT_MIN) := by
  have hd : 0 ≤ v.norm Real.sqrt := Real.sqrt_nonneg _
  have hm : (0 : ℝ) < FLT_MIN := FLT_MIN_pos
  exact ⟨rfl, by positivity⟩

/-- The angle between two normalised secants is the argument of
`dot + i cross` of the secants themselves. -/
theorem angleTo_normalized (u v : Vector2 ℝ) :
    Vector2.angleTo (fun y x => Complex.arg ⟨x, y⟩) (u.normalized Real.sqrt)
      (v.normalized Real.sqrt) = Complex.arg ⟨u.dot v, u.cross v⟩ := by
  obtain ⟨hu, hcu⟩ := normalized_scale u
  obtain ⟨hv, hcv⟩ := normalized_scale v
  rw [hu, hv]
  unfold Vector2.angleTo
  simp only [Vector2.cross, Vector2.dot, Vector2.mul_x, Vector2.mul_y]
  rw [← arg_pos_scale ((1 / (u.norm Real.sqrt + FLT_MIN)) * (1 / (v.norm Real.sqrt + FLT_MIN)))
    (u.x * v.x + u.y * v.y) (u.x * v.y - u.y * v.x) (mul_pos hcu hcv)]
  congr 1
  apply Complex.ext
  · simp only; ring
  · simp only; ring

/-- The three angles of the corner test at `t`, for a polyline whose points
at the eight clamped samples are given by `path`. -/
theorem cornerAngles_of_path (path : ℝ → Vector2 ℝ) (line : FreeformLine ℝ)
    (input : CornersInput ℝ) (t : ℝ)
    (h : ∀ i, i < 4 →
      line.getPointAt (line.tangentSampleA (t + cornerOffset line input i)) =
        some (path (line.tangentSampleA (t + cornerOffset line input i))) ∧
      line.getPointAt (line.tangentSampleB (t + cornerOffset line input i)) =
        some (path (line.tangentSampleB (t + cornerOffset line input i)))) :
    cornerAngles Real.sqrt (fun y x => Complex.arg ⟨x, y⟩) line input t =
      some (|Complex.arg ⟨(tangentSecant path line (t + cornerOffset line input 0)).dot
              (tangentSecant path line (t + cornerOffset line input 1)),
            (tangentSecant path line (t + cornerOffset line input 0)).cross
              (tangentSecant path line (t + cornerOffset line input 1))⟩| * ME_RAD_TO_DEG,
        |Complex.arg ⟨(tangentSecant path line (t + cornerOffset line input 1)).dot
              (tangentSecant path line (t + cornerOffset line input 2)),
            (tangentSecant path line (t + cornerOffset line input 1)).cross
              (tangentSecant path line (t + cornerOffset line input 2))⟩| * ME_RAD_TO_DEG,
        |Complex.arg ⟨(tangentSecant path line (t + cornerOffset line input 2)).dot
              (tangentSecant path line (t + cornerOffset line input 3)),
            (tangentSecant path line (t + cornerOffset line input 2)).cross
              (tangentSecant path line (t + cornerOffset line input 3))⟩| * ME_RAD_TO_DEG) := by
  unfold cornerAngles
  rw [getTangentAt_of_path Real.sqrt path line _ (h 0 (by norm_num)).1 (h 0 (by norm_num)).2,
    getTangentAt_of_path Real.sqrt path line _ (h 1 (by norm_num)).1 (h 1 (by norm_num)).2,
    getTangentAt_of_path Real.sqrt path line _ (h 2 (by norm_num)).1 (h 2 (by norm_num)).2,
    getTangentAt_of_path Real.sqrt path line _ (h 3 (by norm_num)).1 (h 3 (by norm_num)).2]
  simp only [angleTo_normalized]

end TangentAngleLemmas

section ScanRunLemmas

variable {F : Type} [LinearOrderedField F]

theorem scanLoop_done (sqrt : F → F) (atan2 : F → F → F) (line : FreeformLine F)
    (input : CornersInput F) (tEnd : F) (fuel : Nat) (t : F) (st : CornerScan F)
    (h : ¬ t ≤ tEnd) : scanLoop sqrt atan2 line input tEnd fuel t st = some st := by
  cases fuel with
  | zero => unfold scanLoop; rw [if_neg h]
  | succ n => unfold scanLoop; rw [if_neg h]

theorem scanLoop_step (sqrt : F → F) (atan2 : F → F → F) (line : FreeformLine F)
    (input : CornersInput F) (tEnd : F) (fuel : Nat) (t : F) (st : CornerScan F)
    (angles : F × F × F) (h : t ≤ tEnd)
    (ha : cornerAngles sqrt atan2 line input t = some angles) :
    scanLoop sqrt atan2 line input tEnd (fuel + 1) t st =
      scanLoop sqrt atan2 line input tEnd fuel (t + input.tStep)
        (scanStep input (isCornerCandidate input angles) t st) := by
  rw [scanLoop, if_pos h, ha]

theorem Range.new_length : (Range.new : Range F).length = 0 := by
  have h : ¬ (Range.new : Range F).isValid := Range.invalidate_not_valid _
  unfold Range.length
  rw [if_neg h]

/-- A position that fails the corner test changes nothing in a scan that has
no running section. -/
theorem scanStep_idle (input : CornersInput F) (t : F) (result : List (Range F))
    (hmin : 1 ≤ input.minNumberTestPositivesInSeries) :
    scanStep input false t { cornerSection := Range.new, result := result } =
      { cornerSection := Range.new, result := result } := by
  have h1 : (1 : F) ≤ (input.minNumberTestPositivesInSeries : F) := by exact_mod_cast hmin
  unfold scanStep
  simp only [Bool.false_eq_true, if_false, Range.new_length]
  rw [if_neg (by intro hc; linarith)]
  rfl

/-- A run of `n` consecutive positions that all fail the corner test, met
without a running section, changes nothing. -/
theorem scanLoop_run_false (sqrt : F → F) (atan2 : F → F → F) (line : FreeformLine F)
    (input : CornersInput F) (tEnd : F) (hmin : 1 ≤ input.minNumberTestPositivesInSeries)
    (result : List (Range F)) :
    ∀ (n fuel : Nat) (t : F),
      (∀ k : Nat, k < n → t + (k : F) * input.tStep ≤ tEnd ∧
        ∃ angles, cornerAngles sqrt atan2 line input (t + (k : F) * input.tStep) = some angles ∧
          isCornerCandidate input angles = false) →
      scanLoop sqrt atan2 line input tEnd (n + fuel) t
          { cornerSection := Range.new, result := result } =
        scanLoop sqrt atan2 line input tEnd fuel (t + (n : F) * input.tStep)
          { cornerSection := Range.new, result := result } := by
  intro n
  induction n with
  | zero =>
    intro fuel t _
    simp
  | succ m ih =>
    intro fuel t h
    obtain ⟨h0, angles, ha, hc⟩ := h 0 (Nat.succ_pos m)
    simp only [Nat.cast_zero, zero_mul, add_zero] at h0 ha
    rw [show m + 1 + fuel = (m + fuel) + 1 by omega,
      scanLoop_step sqrt atan2 line input tEnd (m + fuel) t _ angles h0 ha, hc,
      scanStep_idle input t result hmin, ih fuel (t + input.tStep)]
    · congr 1
      push_cast
      ring
    · intro k hk
      have := h (k + 1) (Nat.succ_lt_succ hk)
      rw [show t + ((k + 1 : Nat) : F) * input.tStep = t + input.tStep + (k : F) * input.tStep by
        push_cast; ring] at this
      exact this

theorem Range.new_include (t : F) (h1 : -FLT_MAX ≤ t) (h2 : t ≤ FLT_MAX) :
    (Range.new : Range F).include_ t = { start := t, end_ := t } := by
  simp only [Range.new, Range.invalidate, Range.include_, min_eq_left h2, max_eq_right h1]

theorem Range.include_right (a b t : F) (h1 : a ≤ t) (h2 : b ≤ t) :
    ({ start := a, end_ := b } : Range F).include_ t = { start := a, end_ := t } := by
  simp only [Range.include_, min_eq_right h1, max_eq_right h2]

/-- A run of `n` consecutive positions that all pass the corner test extends
a running section `{a, b}` that lies before them to `{a, last position}`. -/
theorem scanLoop_run_true (sqrt : F → F) (atan2 : F → F → F) (line : FreeformLine F)
    (input : CornersInput F) (tEnd : F) (hstep : 0 ≤ input.tStep) (result : List (Range F)) :
    ∀ (n fuel : Nat) (t a b : F), a ≤ t → b ≤ t →
      (∀ k : Nat, k < n + 1 → t + (k : F) * input.tStep ≤ tEnd ∧
        ∃ angles, cornerAngles sqrt atan2 line input (t + (k : F) * input.tStep) = some angles ∧
          isCornerCandidate input angles = true) →
      scanLoop sqrt atan2 line input tEnd (n + 1 + fuel) t
          { cornerSection := { start := a, end_ := b }, result := result } =
        scanLoop sqrt atan2 line input tEnd fuel (t + ((n + 1 : Nat) : F) * input.tStep)
          { cornerSection := { start := a, end_ := t + (n : F) * input.tStep },
            result := result } := by
  intro n
  induction n with
  | zero =>
    intro fuel t a b hat hbt h
    obtain ⟨h0, angles, ha, hc⟩ := h 0 (by norm_num)
    simp only [Nat.cast_zero, zero_mul, add_zero] at h0 ha
    rw [show 0 + 1 + fuel = fuel + 1 by omega,
      scanLoop_step sqrt atan2 line input tEnd fuel t _ angles h0 ha, hc]
    simp only [scanStep, if_true, Range.include_right a b t hat hbt]
    simp
  | succ m ih =>
    intro fuel t a b hat hbt h
    obtain ⟨h0, angles, ha, hc⟩ := h 0 (by norm_num)
    simp only [Nat.cast_zero, zero_mul, add_zero] at h0 ha
    rw [show m + 1 + 1 + fuel = (m + 1 + fuel) + 1 by omega,
      scanLoop_step sqrt atan2 line input tEnd (m + 1 + fuel) t _ angles h0 ha, hc]
    simp only [scanStep, if_true, Range.include_right a b t hat hbt]
    rw [ih fuel (t + input.tStep) a t (by linarith) (by linarith)]
    · have e1 : t + input.tStep + ((m + 1 : Nat) : F) * input.tStep =
          t + ((m + 1 + 1 : Nat) : F) * input.tStep := by
        push_cast
        ring
      have e2 : t + input.tStep + (m : F) * input.tStep =
          t + ((m + 1 : Nat) : F) * input.tStep := by
        push_cast
        ring
      rw [e1, e2]
    · intro k hk
      have := h (k + 1) (Nat.succ_lt_succ hk)
      rw [show t + ((k + 1 : Nat) : F) * input.tStep = t + input.tStep + (k : F) * input.tStep by
        push_cast; ring] at this
      exact this

end ScanRunLemmas

section CurveLemmas
variable {F : Type} [LinearOrderedField F]

theorem CurveInv_single (path : F → Vector2 F) :
    CurveInv path 0 []
      { (FreeformLine.new : FreeformLine F) with
        points := [(-ME_A_LOT, path 0), (0, path 0), (ME_A_LOT, path 0)] } := by
  have hA : (0 : F) < ME_A_LOT := ME_A_LOT_pos
  refine ⟨?_, ⟨[(-ME_A_LOT, path 0)], rfl⟩, ⟨[(ME_A_LOT, path 0)], by simp, rfl⟩, ?_, ?_, rfl, rfl⟩
  · unfold SortedKeys
    simp only [List.pairwise_cons, List.mem_cons, List.mem_singleton, forall_eq_or_imp, forall_eq,
      List.not_mem_nil, IsEmpty.forall_iff, implies_true, List.Pairwise.nil, and_true]
    refine ⟨⟨by linarith, by linarith⟩, hA⟩
  · intro e he h0 h1
    simp only [List.mem_cons, List.mem_singleton, List.not_mem_nil, or_false] at he
    rcases he with h | h | h
    · rw [h] at h0; simp only at h0; linarith
    · rw [h]
    · rw [h] at h1; simp only at h1; linarith
  · intro k hk
    simp at hk

theorem CurveInv.mono {path : F → Vector2 F} {L : F} {ks ks2 : List F} {line : FreeformLine F}
    (hinv : CurveInv path L ks line) (h : ∀ k ∈ ks2, k ∈ ks) : CurveInv path L ks2 line :=
  ⟨hinv.sorted, hinv.shape, hinv.head, hinv.val, fun k hk => hinv.has k (h k hk), hinv.len,
    hinv.spread⟩

theorem CurveInv.pre_lt {path : F → Vector2 F} {L : F} {ks : List F} {line : FreeformLine F}
    (hinv : CurveInv path L ks line) (pre : List (F × Vector2 F))
    (hpts : line.points = pre ++ [(L, path L), (ME_A_LOT, path L)]) :
    (∀ e ∈ pre, e.1 < L) ∧ L < ME_A_LOT := by
  have hs := hinv.sorted
  unfold SortedKeys at hs
  rw [hpts, List.pairwise_append] at hs
  refine ⟨fun e he => hs.2.2 e he (L, path L) (by simp), ?_⟩
  have h2 := hs.2.1
  simp only [List.pairwise_cons, List.mem_singleton, forall_eq, List.not_mem_nil,
    IsEmpty.forall_iff, implies_true, List.Pairwise.nil, and_true] at h2
  exact h2

/-- Adding the next sample of the curve, at the distance `d` from the last
one, keeps the invariant. -/
theorem CurveInv_step (sqrt : F → F) (path : F → Vector2 F) (L d : F) (ks : List F)
    (line : FreeformLine F) (p : Vector2 F)
    (hinv : CurveInv path L ks line) (hd : 0 ≤ d)
    (hdist : (path L).distTo sqrt p = d) (hp : p = path (L + d)) (hA : L + d < ME_A_LOT) :
    ∃ next, FreeformLine.addPoint sqrt line p = some next ∧
      CurveInv path (L + d) ((L + d) :: ks) next := by
  obtain ⟨pre, hshape⟩ := hinv.shape
  obtain ⟨hpre, hLA⟩ := hinv.pre_lt pre hshape
  obtain ⟨rest, hrest, hhead⟩ := hinv.head
  obtain ⟨pts, hadd, hsorted, hcase⟩ := addPoint_cases sqrt line p pre (L, path L)
    (ME_A_LOT, path L) hshape hinv.sorted (by simp only [hdist]; exact hd)
  simp only [hdist] at hadd hcase
  have hmem_old : ∀ e, e ∈ pre ∨ e = (L, path L) → e ∈ line.points := by
    intro e he
    rw [hshape]
    rcases he with h | h
    · exact List.mem_append_left _ h
    · rw [h]; simp
  obtain ⟨r2, hr2⟩ := prefix_of_head_shape pre rest (L, path L) (ME_A_LOT, path L)
    (-ME_A_LOT, path 0) (0, path 0) (by rw [← hshape, hhead]) hrest
  rcases hcase with ⟨h1, hpts⟩ | ⟨h1, h2, hpts⟩ | ⟨h1, _⟩ | ⟨h1, _⟩
  · -- the new point repeats the last one
    have hd0 : d = 0 := by linarith
    have hpL : p = path L := by rw [hp, hd0, add_zero]
    have hLd : L + d = L := by rw [hd0, add_zero]
    have hpts2 : pts = line.points := by rw [hpts, hshape, hpL]
    refine ⟨_, hadd, ?_⟩
    rw [hLd]
    refine ⟨?_, ?_, ?_, ?_, ?_, rfl, hinv.spread⟩
    · simpa [hpts2] using hinv.sorted
    · exact ⟨pre, by simp only [hpts2]; exact hshape⟩
    · exact ⟨rest, hrest, by simp only [hpts2]; exact hhead⟩
    · intro e he
      simp only [hpts2] at he
      exact hinv.val e he
    · intro k hk
      simp only [hpts2]
      rcases List.mem_cons.mp hk with h | h
      · exact ⟨(L, path L), hmem_old _ (Or.inr rfl), h.symm⟩
      · exact hinv.has k h
  · -- the new point is inserted before the sentinel
    refine ⟨_, hadd, ?_⟩
    refine ⟨hsorted, ?_, ?_, ?_, ?_, rfl, hinv.spread⟩
    · refine ⟨pre ++ [(L, path L)], ?_⟩
      simp only [hpts, ← hp, List.append_assoc, List.singleton_append]
    · refine ⟨r2 ++ [(L + d, p), (ME_A_LOT, p)], by simp, ?_⟩
      simp only [hpts]
      rw [show pre ++ [(L, path L), (L + d, p), (ME_A_LOT, p)] =
        (pre ++ [(L, path L)]) ++ [(L + d, p), (ME_A_LOT, p)] by simp, hr2]
      simp
    · intro e he h0 hle
      simp only [hpts, List.mem_append, List.mem_cons, List.mem_singleton, List.not_mem_nil,
        or_false] at he
      rcases he with h | h | h | h
      · exact hinv.val e (hmem_old e (Or.inl h)) h0 (hpre e h).le
      · rw [h]
      · rw [h, hp]
      · rw [h] at hle
        simp only at hle
        linarith
    · intro k hk
      simp only [hpts]
      rcases List.mem_cons.mp hk with h | h
      · exact ⟨(L + d, p), by simp, h.symm⟩
      · obtain ⟨e, he, hek⟩ := hinv.has k h
        rw [hshape] at he
        simp only [List.mem_append, List.mem_cons, List.mem_singleton, List.not_mem_nil,
          or_false] at he
        rcases he with h | h | h
        · exact ⟨e, by simp [h], hek⟩
        · exact ⟨e, by simp [h], hek⟩
        · exact ⟨(ME_A_LOT, p), by simp, by rw [← hek, h]⟩
  · linarith
  · linarith

theorem CurveInv.getPointAt_before {path : F → Vector2 F} {L : F} {ks : List F}
    {line : FreeformLine F} (hinv : CurveInv path L ks line) (t : F)
    (h1 : -ME_A_LOT ≤ t) (h2 : t < 0) : line.getPointAt t = some (path 0) := by
  obtain ⟨rest, _, hhead⟩ := hinv.head
  rw [getPointAt_between line t [] rest (-ME_A_LOT, path 0) (0, path 0) (by simpa using hhead)
    (by simp) h1 h2]
  simp only [Vector2.interpolate_self]

theorem CurveInv.getPointAt_last {path : F → Vector2 F} {L : F} {ks : List F}
    {line : FreeformLine F} (hinv : CurveInv path L ks line) :
    line.getPointAt L = some (path L) := by
  obtain ⟨pre, hshape⟩ := hinv.shape
  obtain ⟨hpre, hLA⟩ := hinv.pre_lt pre hshape
  rw [getPointAt_between line L pre [] (L, path L) (ME_A_LOT, path L) (by simpa using hshape)
    (fun e he => (hpre e he).le) (le_refl _) hLA]
  simp only [Vector2.interpolate_self]

/-- The point at `t` on a piece `[lo, hi]` of the curve that is affine and
whose ends are keys of the map. -/
theorem CurveInv.getPointAt_piece {path : F → Vector2 F} {L : F} {ks : List F}
    {line : FreeformLine F} (hinv : CurveInv path L ks line) (lo hi t : F) (P U : Vector2 F)
    (hlo : ∃ e ∈ line.points, e.1 = lo) (hhi : ∃ e ∈ line.points, e.1 = hi)
    (h0 : 0 ≤ lo) (hL : hi ≤ L)
    (hpath : ∀ s, lo ≤ s → s ≤ hi → path s = P + U * s)
    (h1 : lo ≤ t) (h2 : t < hi) : line.getPointAt t = some (path t) := by
  rw [hpath t h1 h2.le]
  refine getPointAt_affine line t lo hi P U hinv.sorted hlo hhi ?_ h1 h2
  intro e he hle hge
  rw [hinv.val e he (le_trans h0 hle) (le_trans hge hL)]
  exact hpath e.1 hle hge

theorem CurveInv.has_zero {path : F → Vector2 F} {L : F} {ks : List F}
    {line : FreeformLine F} (hinv : CurveInv path L ks line) : ∃ e ∈ line.points, e.1 = 0 := by
  obtain ⟨rest, _, hhead⟩ := hinv.head
  exact ⟨(0, path 0), by rw [hhead]; simp, rfl⟩

theorem CurveInv.has_last {path : F → Vector2 F} {L : F} {ks : List F}
    {line : FreeformLine F} (hinv : CurveInv path L ks line) : ∃ e ∈ line.points, e.1 = L := by
  obtain ⟨pre, hshape⟩ := hinv.shape
  exact ⟨(L, path L), by rw [hshape]; simp, rfl⟩

/-- Setting the bounds of a polyline to its full length. -/
theorem CurveInv.fitted {path : F → Vector2 F} {L : F} {ks : List F}
    {line : FreeformLine F} (hinv : CurveInv path L ks line) (hL : 0 ≤ L)
    (hpoint : ∀ t, -ME_A_LOT ≤ t → t ≤ L → line.getPointAt t = some (path t)) :
    Fitted path L (line.setBounds { start := 0, end_ := line.length }) := by
  have hlen : line.length = L := hinv.len
  rw [hlen]
  refine ⟨hinv.spread, rfl, ?_, hinv.len, ?_⟩
  · have hv : ({ start := 0, end_ := L } : Range F).isValid := hL
    simp only [FreeformLine.setBounds, Range.length, if_pos hv, hinv.spread, sub_zero]
    norm_num
  · intro t h1 h2
    rw [getPointAt_congr (line.setBounds { start := 0, end_ := L }) line rfl]
    exact hpoint t h1 h2

end CurveLemmas

section ClipLemmas
variable {F : Type} [LinearOrderedField F]

theorem getClipped_mid (v lo hi : F) (h1 : lo ≤ v) (h2 : v ≤ hi) : getClipped v lo hi = v := by
  unfold getClipped
  rw [max_eq_right h1, min_eq_left h2]

theorem getClipped_lo (v lo hi : F) (h1 : v ≤ lo) (h2 : lo ≤ hi) : getClipped v lo hi = lo := by
  unfold getClipped
  rw [max_eq_left h1, min_eq_left h2]

theorem getClipped_hi (v lo hi : F) (h1 : hi ≤ v) : getClipped v lo hi = hi := by
  unfold getClipped
  exact min_eq_right (le_trans h1 (le_max_right _ _))

theorem getClipped_mem (v lo hi : F) (h : lo ≤ hi) :
    lo ≤ getClipped v lo hi ∧ getClipped v lo hi ≤ hi := by
  unfold getClipped
  exact ⟨le_min (le_max_left _ _) h, min_le_right _ _⟩

theorem Fitted.sampleA {path : F → Vector2 F} {L : F} {line : FreeformLine F}
    (hfit : Fitted path L line) (s : F) :
    line.tangentSampleA s = getClipped (s - 10) 0 (L - min 20 L) := by
  unfold FreeformLine.tangentSampleA
  rw [hfit.spread, hfit.clip, hfit.margin]

theorem Fitted.sampleB {path : F → Vector2 F} {L : F} {line : FreeformLine F}
    (hfit : Fitted path L line) (s : F) :
    line.tangentSampleB s = getClipped (s + 10) (0 + min 20 L) L := by
  unfold FreeformLine.tangentSampleB
  rw [hfit.spread, hfit.clip, hfit.margin]

theorem Fitted.sample_mem {path : F → Vector2 F} {L : F} {line : FreeformLine F}
    (hfit : Fitted path L line) (hL : 0 ≤ L) (s : F) :
    (0 ≤ line.tangentSampleA s ∧ line.tangentSampleA s ≤ L) ∧
    (0 ≤ line.tangentSampleB s ∧ line.tangentSampleB s ≤ L) := by
  have hm0 : (0 : F) ≤ min 20 L := le_min (by norm_num) hL
  have hmL : min 20 L ≤ L := min_le_right _ _
  rw [hfit.sampleA, hfit.sampleB]
  have hA := getClipped_mem (s - 10) 0 (L - min 20 L) (by linarith)
  have hB := getClipped_mem (s + 10) (0 + min 20 L) L (by linarith)
  exact ⟨⟨hA.1, by linarith [hA.2]⟩, ⟨by linarith [hB.1], hB.2⟩⟩

/-- Near the start of a polyline of length at least 20 the tangent window is
frozen at `[0, 20]`. -/
theorem Fitted.secant_lo {path : F → Vector2 F} {L : F} {line : FreeformLine F}
    (hfit : Fitted path L line) (hL : 20 ≤ L) (s : F) (h : s ≤ 10) :
    tangentSecant path line s = path 20 - path 0 := by
  unfold tangentSecant
  rw [hfit.sampleA, hfit.sampleB, min_eq_left hL,
    getClipped_lo (s - 10) 0 (L - 20) (by linarith) (by linarith),
    getClipped_lo (s + 10) (0 + 20) L (by linarith) (by linarith)]
  norm_num

/-- Away from both ends the tangent window is `[s - 10, s + 10]`. -/
theorem Fitted.secant_mid {path : F → Vector2 F} {L : F} {line : FreeformLine F}
    (hfit : Fitted path L line) (hL : 20 ≤ L) (s : F) (h1 : 10 ≤ s) (h2 : s ≤ L - 10) :
    tangentSecant path line s = path (s + 10) - path (s - 10) := by
  unfold tangentSecant
  rw [hfit.sampleA, hfit.sampleB, min_eq_left hL,
    getClipped_mid (s - 10) 0 (L - 20) (by linarith) (by linarith),
    getClipped_mid (s + 10) (0 + 20) L (by linarith) (by linarith)]

/-- Near the end of a polyline of length at least 20 the tangent window is
frozen at `[L - 20, L]`. -/
theorem Fitted.secant_hi {path : F → Vector2 F} {L : F} {line : FreeformLine F}
    (hfit : Fitted path L line) (hL : 20 ≤ L) (s : F) (h : L - 10 ≤ s) :
    tangentSecant path line s = path L - path (L - 20) := by
  unfold tangentSecant
  rw [hfit.sampleA, hfit.sampleB, min_eq_left hL,
    getClipped_hi (s - 10) 0 (L - 20) (by linarith),
    getClipped_hi (s + 10) (0 + 20) L (by linarith)]

/-- On a polyline shorter than 20 every tangent window is the whole line. -/
theorem Fitted.secant_short {path : F → Vector2 F} {L : F} {line : FreeformLine F}
    (hfit : Fitted path L line) (hL : L ≤ 20) (s : F) :
    tangentSecant path line s = path L - path 0 := by
  unfold tangentSecant
  rw [hfit.sampleA, hfit.sampleB, min_eq_right hL]
  have hA : getClipped (s - 10) 0 (L - L) = 0 := by
    have := getClipped_mem (s - 10) 0 (L - L) (by simp)
    rw [sub_self] at this ⊢
    exact le_antisymm this.2 this.1
  have hB : getClipped (s + 10) (0 + L) L = L := by
    have := getClipped_mem (s + 10) (0 + L) L (by simp)
    rw [zero_add] at this ⊢
    exact le_antisymm this.2 this.1
  rw [hA, hB]

theorem Fitted.cornerOffset_eq {path : F → Vector2 F} {L : F} {line : FreeformLine F}
    (hfit : Fitted path L line) (input : CornersInput F)
    (hin : input.innerInterMeasurementFactor = 1) (hout : input.outerInterMeasurementFactor = 2) :
    cornerOffset line input 0 = -30 ∧ cornerOffset line input 1 = -10 ∧
    cornerOffset line input 2 = 10 ∧ cornerOffset line input 3 = 30 := by
  simp only [CodeSample.cornerOffset, hin, hout, hfit.spread]
  norm_num

end ClipLemmas

section FittedAngles

/-- The three angles of the corner test on a fitted polyline, with the
default measurement factors. -/
theorem Fitted.cornerAngles_eq {path : ℝ → Vector2 ℝ} {L : ℝ} {line : FreeformLine ℝ}
    (hfit : Fitted path L line) (hL : 0 ≤ L) (input : CornersInput ℝ)
    (hin : input.innerInterMeasurementFactor = 1) (hout : input.outerInterMeasurementFactor = 2)
    (t : ℝ) :
    CodeSample.cornerAngles Real.sqrt (fun y x => Complex.arg ⟨x, y⟩) line input t =
      some (|Complex.arg ⟨(tangentSecant path line (t + -30)).dot (tangentSecant path line (t + -10)),
            (tangentSecant path line (t + -30)).cross (tangentSecant path line (t + -10))⟩| *
              ME_RAD_TO_DEG,
        |Complex.arg ⟨(tangentSecant path line (t + -10)).dot (tangentSecant path line (t + 10)),
            (tangentSecant path line (t + -10)).cross (tangentSecant path line (t + 10))⟩| *
              ME_RAD_TO_DEG,
        |Complex.arg ⟨(tangentSecant path line (t + 10)).dot (tangentSecant path line (t + 30)),
            (tangentSecant path line (t + 10)).cross (tangentSecant path line (t + 30))⟩| *
              ME_RAD_TO_DEG) := by
  have hA : (0 : ℝ) < ME_A_LOT := ME_A_LOT_pos
  obtain ⟨h0, h1, h2, h3⟩ := hfit.cornerOffset_eq input hin hout
  have h := cornerAngles_of_path path line input t (by
    intro i _
    have hm := hfit.sample_mem hL (t + CodeSample.cornerOffset line input i)
    exact ⟨hfit.point _ (by linarith [hm.1.1]) hm.1.2, hfit.point _ (by linarith [hm.2.1]) hm.2.2⟩)
  rw [h0, h1, h2, h3] at h
  exact h

end FittedAngles

section CriteriaLemmas

theorem absArg_le_of_ratio (d c q : ℝ) (hd : 0 < d) (hq : |c| ≤ q * d) (hq1 : q ≤ 1) :
    |Complex.arg ⟨d, c⟩| ≤ q := by
  rw [absArg_eq_arctan d c hd]
  have h1 : |c| / d ≤ q := by rw [div_le_iff₀ hd]; exact hq
  exact le_trans (arctan_le_self _ (div_nonneg (abs_nonneg c) hd.le) (le_trans h1 hq1)) h1

theorem absArg_lt_pi_div_eight (d c : ℝ) (hd : 0 < d) (h : 5 * |c| ≤ 2 * d) :
    |Complex.arg ⟨d, c⟩| < Real.pi / 8 := by
  rw [absArg_eq_arctan d c hd]
  apply arctan_lt_pi_div_eight
  rw [div_le_iff₀ hd]
  linarith

theorem pi_div_eight_lt_absArg (d c : ℝ) (h : 3 * d ≤ 7 * |c|) (hne : d ≠ 0 ∨ c ≠ 0) :
    Real.pi / 8 < |Complex.arg ⟨d, c⟩| := by
  rcases le_or_lt d 0 with hd | hd
  · have := absArg_ge_half_pi d c hd hne
    have hpi := Real.pi_pos
    linarith
  · rw [absArg_eq_arctan d c hd]
    apply pi_div_eight_lt_arctan
    rw [le_div_iff₀ hd]
    linarith

theorem outer_le_absArg (d c : ℝ) (h : d ≤ 2 * |c|) (hne : d ≠ 0 ∨ c ≠ 0) :
    (4364 / 10000 : ℝ) ≤ |Complex.arg ⟨d, c⟩| := by
  rcases le_or_lt d 0 with hd | hd
  · have := absArg_ge_half_pi d c hd hne
    have hpi := Real.pi_gt_three
    linarith
  · rw [absArg_eq_arctan d c hd]
    apply arctan_ge_of_half_le
    rw [le_div_iff₀ hd]
    linarith

theorem absArg_lt_three_pi_div_eight (d c : ℝ) (hd : 0 < d) (h : 3 * |c| ≤ 7 * d) :
    |Complex.arg ⟨d, c⟩| < 3 * Real.pi / 8 := by
  have hpi := Real.pi_pos
  rw [absArg_eq_arctan d c hd]
  rcases eq_or_lt_of_le (abs_nonneg c) with h0 | h0
  · rw [← h0, zero_div, Real.arctan_zero]
    linarith
  · have hq : 0 < |c| / d := div_pos h0 hd
    have hinv := Real.arctan_inv_of_pos hq
    have h2 : Real.pi / 8 < Real.arctan (|c| / d)⁻¹ := by
      apply pi_div_eight_lt_arctan
      rw [inv_div, le_div_iff₀ h0]
      linarith
    linarith

theorem three_pi_div_eight_lt_absArg (d c : ℝ) (h : 5 * d ≤ 2 * |c|) (hne : d < 0 ∨ c ≠ 0) :
    3 * Real.pi / 8 < |Complex.arg ⟨d, c⟩| := by
  have hpi := Real.pi_pos
  rcases le_or_lt d 0 with hd | hd
  · have hne2 : d ≠ 0 ∨ c ≠ 0 := by
      rcases hne with h1 | h1
      · exact Or.inl (ne_of_lt h1)
      · exact Or.inr h1
    have := absArg_ge_half_pi d c hd hne2
    linarith
  · rw [absArg_eq_arctan d c hd]
    have hc : 0 < |c| := by
      rcases hne with h1 | h1
      · linarith
      · exact abs_pos.mpr h1
    have hq : 0 < |c| / d := div_pos hc hd
    have hinv := Real.arctan_inv_of_pos hq
    have h2 : Real.arctan (|c| / d)⁻¹ < Real.pi / 8 := by
      apply arctan_lt_pi_div_eight
      rw [inv_div, div_le_iff₀ hc]
      linarith
    linarith

end CriteriaLemmas

section PositionLemmas

variable {path : ℝ → Vector2 ℝ} {L : ℝ} {line : FreeformLine ℝ}

/-- A scan position fails the corner test when its inner angle is small. -/
theorem Fitted.pos_false_inner (hfit : Fitted path L line) (hL : 0 ≤ L) (input : CornersInput ℝ)
    (hin : input.innerInterMeasurementFactor = 1) (hout : input.outerInterMeasurementFactor = 2)
    (ho : input.outerMaxAngleInDeg = 25) (hi : input.innerMinAngleInDeg = 45)
    (t : ℝ) (T1 T2 : Vector2 ℝ)
    (h1 : tangentSecant path line (t + -10) = T1) (h2 : tangentSecant path line (t + 10) = T2)
    (hd : 0 < T1.dot T2) (hc : |T1.cross T2| ≤ 78 / 100 * T1.dot T2) :
    ∃ angles, CodeSample.cornerAngles Real.sqrt (fun y x => Complex.arg ⟨x, y⟩) line input t =
        some angles ∧ isCornerCandidate input angles = false := by
  refine ⟨_, hfit.cornerAngles_eq hL input hin hout t, ?_⟩
  rw [h1, h2]
  exact isCornerCandidate_false_inner input ho hi _ _ _ (absArg_le_of_ratio _ _ _ hd hc (by norm_num))

/-- A scan position fails the corner test when its first outer angle is large. -/
theorem Fitted.pos_false_outer0 (hfit : Fitted path L line) (hL : 0 ≤ L)
    (input : CornersInput ℝ)
    (hin : input.innerInterMeasurementFactor = 1) (hout : input.outerInterMeasurementFactor = 2)
    (ho : input.outerMaxAngleInDeg = 25) (hi : input.innerMinAngleInDeg = 45)
    (t : ℝ) (T0 T1 : Vector2 ℝ)
    (h0 : tangentSecant path line (t + -30) = T0) (h1 : tangentSecant path line (t + -10) = T1)
    (hd : T0.dot T1 ≤ 2 * |T0.cross T1|) (hne : T0.dot T1 ≠ 0 ∨ T0.cross T1 ≠ 0) :
    ∃ angles, CodeSample.cornerAngles Real.sqrt (fun y x => Complex.arg ⟨x, y⟩) line input t =
        some angles ∧ isCornerCandidate input angles = false := by
  refine ⟨_, hfit.cornerAngles_eq hL input hin hout t, ?_⟩
  rw [h0, h1]
  exact isCornerCandidate_false_outer0 input ho hi _ _ _ (outer_le_absArg _ _ hd hne)

/-- A scan position fails the corner test when its second outer angle is large. -/
theorem Fitted.pos_false_outer2 (hfit : Fitted path L line) (hL : 0 ≤ L)
    (input : CornersInput ℝ)
    (hin : input.innerInterMeasurementFactor = 1) (hout : input.outerInterMeasurementFactor = 2)
    (ho : input.outerMaxAngleInDeg = 25) (hi : input.innerMinAngleInDeg = 45)
    (t : ℝ) (T2 T3 : Vector2 ℝ)
    (h2 : tangentSecant path line (t + 10) = T2) (h3 : tangentSecant path line (t + 30) = T3)
    (hd : T2.dot T3 ≤ 2 * |T2.cross T3|) (hne : T2.dot T3 ≠ 0 ∨ T2.cross T3 ≠ 0) :
    ∃ angles, CodeSample.cornerAngles Real.sqrt (fun y x => Complex.arg ⟨x, y⟩) line input t =
        some angles ∧ isCornerCandidate input angles = false := by
  refine ⟨_, hfit.cornerAngles_eq hL input hin hout t, ?_⟩
  rw [h2, h3]
  exact isCornerCandidate_false_outer2 input ho hi _ _ _ (outer_le_absArg _ _ hd hne)

/-- A scan position fails the corner test when its first outer angle is at
least a third of the inner one. -/
theorem Fitted.pos_false_ratio0 (hfit : Fitted path L line) (hL : 0 ≤ L)
    (input : CornersInput ℝ)
    (hin : input.innerInterMeasurementFactor = 1) (hout : input.outerInterMeasurementFactor = 2)
    (t : ℝ) (T0 T1 T2 : Vector2 ℝ)
    (h0 : tangentSecant path line (t + -30) = T0) (h1 : tangentSecant path line (t + -10) = T1)
    (h2 : tangentSecant path line (t + 10) = T2)
    (hd1 : 0 < T1.dot T2) (hc1 : 3 * |T1.cross T2| ≤ 7 * T1.dot T2)
    (hd0 : 3 * T0.dot T1 ≤ 7 * |T0.cross T1|) (hne : T0.dot T1 ≠ 0 ∨ T0.cross T1 ≠ 0) :
    ∃ angles, CodeSample.cornerAngles Real.sqrt (fun y x => Complex.arg ⟨x, y⟩) line input t =
        some angles ∧ isCornerCandidate input angles = false := by
  refine ⟨_, hfit.cornerAngles_eq hL input hin hout t, ?_⟩
  rw [h0, h1, h2]
  have ha := absArg_lt_three_pi_div_eight _ _ hd1 hc1
  have hb := pi_div_eight_lt_absArg _ _ hd0 hne
  exact isCornerCandidate_false_ratio0 input _ _ _ (abs_nonneg _) (by linarith)

/-- A scan position fails the corner test when its second outer angle is at
least a third of the inner one. -/
theorem Fitted.pos_false_ratio2 (hfit : Fitted path L line) (hL : 0 ≤ L)
    (input : CornersInput ℝ)
    (hin : input.innerInterMeasurementFactor = 1) (hout : input.outerInterMeasurementFactor = 2)
    (t : ℝ) (T1 T2 T3 : Vector2 ℝ)
    (h1 : tangentSecant path line (t + -10) = T1) (h2 : tangentSecant path line (t + 10) = T2)
    (h3 : tangentSecant path line (t + 30) = T3)
    (hd1 : 0 < T1.dot T2) (hc1 : 3 * |T1.cross T2| ≤ 7 * T1.dot T2)
    (hd2 : 3 * T2.dot T3 ≤ 7 * |T2.cross T3|) (hne : T2.dot T3 ≠ 0 ∨ T2.cross T3 ≠ 0) :
    ∃ angles, CodeSample.cornerAngles Real.sqrt (fun y x => Complex.arg ⟨x, y⟩) line input t =
        some angles ∧ isCornerCandidate input angles = false := by
  refine ⟨_, hfit.cornerAngles_eq hL input hin hout t, ?_⟩
  rw [h1, h2, h3]
  have ha := absArg_lt_three_pi_div_eight _ _ hd1 hc1
  have hb := pi_div_eight_lt_absArg _ _ hd2 hne
  exact isCornerCandidate_false_ratio2 input _ _ _ (abs_nonneg _) (by linarith)

/-- A scan position passes the corner test when both outer angles are below
`π/8` and the inner angle is above `3π/8`. -/
theorem Fitted.pos_true_fine (hfit : Fitted path L line) (hL : 0 ≤ L) (input : CornersInput ℝ)
    (hin : input.innerInterMeasurementFactor = 1) (hout : input.outerInterMeasurementFactor = 2)
    (ho : input.outerMaxAngleInDeg = 25) (hi : input.innerMinAngleInDeg = 45)
    (t : ℝ) (T0 T1 T2 T3 : Vector2 ℝ)
    (h0 : tangentSecant path line (t + -30) = T0) (h1 : tangentSecant path line (t + -10) = T1)
    (h2 : tangentSecant path line (t + 10) = T2) (h3 : tangentSecant path line (t + 30) = T3)
    (hd0 : 0 < T0.dot T1) (hc0 : 5 * |T0.cross T1| ≤ 2 * T0.dot T1)
    (hd2 : 0 < T2.dot T3) (hc2 : 5 * |T2.cross T3| ≤ 2 * T2.dot T3)
    (hd1 : 5 * T1.dot T2 ≤ 2 * |T1.cross T2|) (hne : T1.dot T2 < 0 ∨ T1.cross T2 ≠ 0) :
    ∃ angles, CodeSample.cornerAngles Real.sqrt (fun y x => Complex.arg ⟨x, y⟩) line input t =
        some angles ∧ isCornerCandidate input angles = true := by
  refine ⟨_, hfit.cornerAngles_eq hL input hin hout t, ?_⟩
  rw [h0, h1, h2, h3]
  have hpi := Real.pi_gt_three
  have ha0 := absArg_lt_pi_div_eight _ _ hd0 hc0
  have ha2 := absArg_lt_pi_div_eight _ _ hd2 hc2
  have ha1 := three_pi_div_eight_lt_absArg _ _ hd1 hne
  have hb0 := absArg_le_of_ratio (T0.dot T1) (T0.cross T1) (2 / 5) hd0 (by linarith)
    (by norm_num)
  have hb2 := absArg_le_of_ratio (T2.dot T3) (T2.cross T3) (2 / 5) hd2 (by linarith)
    (by norm_num)
  exact isCornerCandidate_true input ho hi _ _ _ (by linarith) (by linarith) (by linarith)
    (by linarith) (by linarith)

/-- A scan position passes the corner test when both outer angles are at
most 0.4363 rad and the inner angle is at least a right angle. -/
theorem Fitted.pos_true_coarse (hfit : Fitted path L line) (hL : 0 ≤ L)
    (input : CornersInput ℝ)
    (hin : input.innerInterMeasurementFactor = 1) (hout : input.outerInterMeasurementFactor = 2)
    (ho : input.outerMaxAngleInDeg = 25) (hi : input.innerMinAngleInDeg = 45)
    (t : ℝ) (T0 T1 T2 T3 : Vector2 ℝ)
    (h0 : tangentSecant path line (t + -30) = T0) (h1 : tangentSecant path line (t + -10) = T1)
    (h2 : tangentSecant path line (t + 10) = T2) (h3 : tangentSecant path line (t + 30) = T3)
    (hd0 : 0 < T0.dot T1) (hc0 : |T0.cross T1| ≤ 4363 / 10000 * T0.dot T1)
    (hd2 : 0 < T2.dot T3) (hc2 : |T2.cross T3| ≤ 4363 / 10000 * T2.dot T3)
    (hd1 : T1.dot T2 ≤ 0) (hne : T1.dot T2 ≠ 0 ∨ T1.cross T2 ≠ 0) :
    ∃ angles, CodeSample.cornerAngles Real.sqrt (fun y x => Complex.arg ⟨x, y⟩) line input t =
        some angles ∧ isCornerCandidate input angles = true := by
  refine ⟨_, hfit.cornerAngles_eq hL input hin hout t, ?_⟩
  rw [h0, h1, h2, h3]
  have hpi := Real.pi_gt_three
  have ha1 := absArg_ge_half_pi _ _ hd1 hne
  have hb0 := absArg_le_of_ratio _ _ (4363 / 10000) hd0 hc0 (by norm_num)
  have hb2 := absArg_le_of_ratio _ _ (4363 / 10000) hd2 hc2 (by norm_num)
  exact isCornerCandidate_true input ho hi _ _ _ hb0 hb2 (by linarith)
    (by linarith) (by linarith)

end PositionLemmas

section BestPointLemmas
variable {F : Type} [LinearOrderedField F]

theorem bestPointLoop_done (line : FreeformLine F) (dir : Vector2 F) (tEnd : F) (fuel : Nat)
    (t tBest far : F) (h : ¬ t ≤ tEnd) :
    bestPointLoop line dir tEnd fuel t tBest far = some tBest := by
  cases fuel with
  | zero => unfold bestPointLoop; rw [if_neg h]
  | succ n => unfold bestPointLoop; rw [if_neg h]

/-- A run of `n` positions none of which lies further along the search
direction than the best so far changes nothing. -/
theorem bestPointLoop_run_flat (line : FreeformLine F) (dir : Vector2 F) (tEnd : F)
    (path : F → Vector2 F) (tBest far : F) :
    ∀ (n fuel : Nat) (t : F),
      (∀ k : Nat, k < n → t + (k : F) ≤ tEnd ∧
        line.getPointAt (t + (k : F)) = some (path (t + (k : F))) ∧
        dir.dot (path (t + (k : F))) ≤ far) →
      bestPointLoop line dir tEnd (n + fuel) t tBest far =
        bestPointLoop line dir tEnd fuel (t + (n : F)) tBest far := by
  intro n
  induction n with
  | zero =>
    intro fuel t _
    simp
  | succ m ih =>
    intro fuel t h
    obtain ⟨h0, hp, hv⟩ := h 0 (Nat.succ_pos m)
    simp only [Nat.cast_zero, add_zero] at h0 hp hv
    rw [show m + 1 + fuel = (m + fuel) + 1 by omega, bestPointLoop, if_pos h0, hp]
    simp only
    rw [if_neg (not_lt.mpr hv), ih fuel (t + 1)]
    · congr 1
      push_cast
      ring
    · intro k hk
      have := h (k + 1) (Nat.succ_lt_succ hk)
      rw [show t + ((k + 1 : Nat) : F) = t + 1 + (k : F) by push_cast; ring] at this
      exact this

/-- A run of `n + 1` positions each lying further along the search direction
than everything before it moves the best position to the last of them. -/
theorem bestPointLoop_run_up (line : FreeformLine F) (dir : Vector2 F) (tEnd : F)
    (path : F → Vector2 F) :
    ∀ (n fuel : Nat) (t tBest far : F),
      (∀ k : Nat, k < n + 1 → t + (k : F) ≤ tEnd ∧
        line.getPointAt (t + (k : F)) = some (path (t + (k : F)))) →
      far < dir.dot (path t) →
      (∀ k : Nat, k < n → dir.dot (path (t + (k : F))) < dir.dot (path (t + (k : F) + 1))) →
      bestPointLoop line dir tEnd (n + 1 + fuel) t tBest far =
        bestPointLoop line dir tEnd fuel (t + ((n + 1 : Nat) : F)) (t + (n : F))
          (dir.dot (path (t + (n : F)))) := by
  intro n
  induction n with
  | zero =>
    intro fuel t tBest far h hfar _
    obtain ⟨h0, hp⟩ := h 0 (by norm_num)
    simp only [Nat.cast_zero, add_zero] at h0 hp
    rw [show 0 + 1 + fuel = fuel + 1 by omega, bestPointLoop, if_pos h0, hp]
    simp only
    rw [if_pos hfar]
    simp
  | succ m ih =>
    intro fuel t tBest far h hfar hup
    obtain ⟨h0, hp⟩ := h 0 (by norm_num)
    simp only [Nat.cast_zero, add_zero] at h0 hp
    rw [show m + 1 + 1 + fuel = (m + 1 + fuel) + 1 by omega, bestPointLoop, if_pos h0, hp]
    simp only
    rw [if_pos hfar, ih fuel (t + 1) t (dir.dot (path t))]
    · have e1 : t + 1 + ((m + 1 : Nat) : F) = t + ((m + 1 + 1 : Nat) : F) := by
        push_cast
        ring
      have e2 : t + 1 + (m : F) = t + ((m + 1 : Nat) : F) := by
        push_cast
        ring
      rw [e1, e2]
    · intro k hk
      have := h (k + 1) (Nat.succ_lt_succ hk)
      rw [show t + ((k + 1 : Nat) : F) = t + 1 + (k : F) by push_cast; ring] at this
      exact this
    · have := hup 0 (Nat.succ_pos m)
      simpa using this
    · intro k hk
      have := hup (k + 1) (Nat.succ_lt_succ hk)
      rw [show t + ((k + 1 : Nat) : F) = t + 1 + (k : F) by push_cast; ring] at this
      exact this

end BestPointLemmas

section ScanTotalLemmas

/-- The positions a scan with a positive step visits. -/
theorem exists_scan_count (t0 tStep tEnd : ℝ) (hstep : 0 < tStep) :
    ∃ n : Nat, (∀ k, k < n → t0 + (k : ℝ) * tStep ≤ tEnd) ∧
      ¬ (t0 + (n : ℝ) * tStep ≤ tEnd) := by
  by_cases h : t0 ≤ tEnd
  · have hx : 0 ≤ (tEnd - t0) / tStep := div_nonneg (by linarith) hstep.le
    refine ⟨⌊(tEnd - t0) / tStep⌋₊ + 1, ?_, ?_⟩
    · intro k hk
      have hk2 : k ≤ ⌊(tEnd - t0) / tStep⌋₊ := Nat.lt_succ_iff.mp hk
      have h1 := (Nat.le_floor_iff hx).mp hk2
      rw [le_div_iff₀ hstep] at h1
      linarith
    · have h := Nat.lt_floor_add_one ((tEnd - t0) / tStep)
      rw [div_lt_iff₀ hstep] at h
      push_cast
      linarith
  · refine ⟨0, fun k hk => absurd hk (Nat.not_lt_zero k), ?_⟩
    simpa using h

/-- A scan all of whose positions fail the corner test ends, with enough
fuel, without any section. -/
theorem scanLoop_all_false (line : FreeformLine ℝ) (input : CornersInput ℝ) (t0 tEnd : ℝ)
    (hstep : 0 < input.tStep) (hmin : 1 ≤ input.minNumberTestPositivesInSeries)
    (hall : ∀ t, ∃ angles,
      cornerAngles Real.sqrt (fun y x => Complex.arg ⟨x, y⟩) line input t = some angles ∧
      isCornerCandidate input angles = false) :
    ∃ N : Nat, ∀ fuel, N ≤ fuel →
      scanLoop Real.sqrt (fun y x => Complex.arg ⟨x, y⟩) line input tEnd fuel t0
        { cornerSection := Range.new, result := [] } =
        some { cornerSection := Range.new, result := [] } := by
  obtain ⟨n, hlt, hend⟩ := exists_scan_count t0 input.tStep tEnd hstep
  refine ⟨n, fun fuel hf => ?_⟩
  obtain ⟨r, rfl⟩ : ∃ r, fuel = n + r := ⟨fuel - n, by omega⟩
  rw [scanLoop_run_false Real.sqrt _ line input tEnd hmin [] n r t0
    (fun k hk => ⟨hlt k hk, hall _⟩)]
  exact scanLoop_done _ _ line input tEnd r _ _ hend

theorem findCorners_of_sections {F : Type} [LinearOrderedField F] (sqrt : F → F)
    (atan2 : F → F → F) (ceil : F → F) (fuel : Nat) (line : FreeformLine F)
    (input : CornersInput F) (sections : List (Range F))
    (h : findCornerSections sqrt atan2 ceil fuel line input = some sections) :
    findCorners sqrt atan2 ceil fuel line input = reduceCorners sqrt fuel line input sections := by
  unfold findCorners
  rw [h]

theorem findCornerSections_of_scan {F : Type} [LinearOrderedField F] (sqrt : F → F)
    (atan2 : F → F → F) (ceil : F → F) (fuel : Nat) (line : FreeformLine F)
    (input : CornersInput F) (st : CornerScan F)
    (h : scanLoop sqrt atan2 line input (line.clippingRange.end_ - cornerMargin ceil input) fuel
      (line.clippingRange.start + cornerMargin ceil input)
      { cornerSection := Range.new, result := [] } = some st) :
    findCornerSections sqrt atan2 ceil fuel line input = some st.result := by
  unfold findCornerSections
  rw [h]

/-- The `margin` of `findCorners` for the default measurement factors. -/
theorem cornerMargin_eq_three (input : CornersInput ℝ)
    (hin : input.innerInterMeasurementFactor = 1) (hout : input.outerInterMeasurementFactor = 2) :
    cornerMargin (fun x => ((⌈x⌉ : ℤ) : ℝ)) input = 3 := by
  unfold cornerMargin
  rw [hin, hout]
  have h : ⌈((2 : ℝ) + 1 / 2 * 1)⌉ = 3 := by
    rw [Int.ceil_eq_iff]
    constructor <;> norm_num
  simp only [h]
  norm_num

end ScanTotalLemmas

section ContiguousLemmas
variable {F : Type} [LinearOrderedField F]

theorem markerOwnStep_eval (s : Range F) (st : SplineState F)
    (h1 : s.length > ME_MAX_SPLINE_GAP →
      (∃ p, st.line.getPointAt s.start = some p) ∧ (∃ p, st.line.getPointAt s.end_ = some p))
    (h0 : s.length = 0 → ∃ p, st.line.getPointAt s.start = some p) :
    markerOwnStep s st = some { st with
      outCorners := st.outCorners ++ (markerCorner st.line s).toList
      outDisplayShapes := st.outDisplayShapes ++ (markerShape st.line s).toList } := by
  have hgap : (0 : F) < ME_MAX_SPLINE_GAP := by unfold ME_MAX_SPLINE_GAP; norm_num
  unfold markerOwnStep markerCorner markerShape
  by_cases hlen : s.length > ME_MAX_SPLINE_GAP
  · have hz : ¬ s.length = 0 := by
      intro h
      rw [h] at hlen
      exact absurd hlen (not_lt.mpr hgap.le)
    obtain ⟨⟨p0, hp0⟩, ⟨p1, hp1⟩⟩ := h1 hlen
    simp [if_pos hlen, if_neg hz, hp0, hp1]
  · by_cases hz : s.length = 0
    · obtain ⟨p, hp⟩ := h0 hz
      simp [if_neg hlen, if_pos hz, hp]
    · simp [if_neg hlen, if_neg hz]

/-- The marker loop over markers between which no gap is longer than
`ME_MAX_SPLINE_GAP`: the biarc fitter is never called, and each marker adds
its own corner point or segment. -/
theorem markerLoop_contiguous (sqrt : F → F) (atan2 : F → F → F)
    (convert : FreeformLine F → BiarcsInput F → List (Biarc F)) :
    ∀ (ms : List (Range F)) (prev : Range F) (st : SplineState F),
      List.Chain (fun a b : Range F =>
        ¬ ({ start := a.end_, end_ := b.start } : Range F).length > ME_MAX_SPLINE_GAP) prev ms →
      (∀ s ∈ ms, (s.length > ME_MAX_SPLINE_GAP →
          (∃ p, st.line.getPointAt s.start = some p) ∧ (∃ p, st.line.getPointAt s.end_ = some p)) ∧
        (s.length = 0 → ∃ p, st.line.getPointAt s.start = some p)) →
      markerLoop sqrt atan2 convert ms prev st = some { st with
        outCorners := st.outCorners ++ ms.filterMap (markerCorner st.line)
        outDisplayShapes := st.outDisplayShapes ++ ms.filterMap (markerShape st.line) } := by
  intro ms
  induction ms with
  | nil =>
    intro prev st _ _
    simp [markerLoop]
  | cons s rest ih =>
    intro prev st hch hdef
    rw [List.chain_cons] at hch
    have hs := hdef s (List.mem_cons_self _ _)
    unfold markerLoop markerStep gapStep
    rw [if_neg hch.1]
    simp only
    rw [markerOwnStep_eval s st hs.1 hs.2]
    simp only
    have hrest := ih s { st with
      outCorners := st.outCorners ++ (markerCorner st.line s).toList
      outDisplayShapes := st.outDisplayShapes ++ (markerShape st.line s).toList } hch.2
      (fun x hx => hdef x (List.mem_cons_of_mem _ hx))
    rw [hrest]
    simp only [List.filterMap_cons, List.append_assoc]
    cases hc : markerCorner st.line s <;> cases hsh : markerShape st.line s <;> simp

/-- The body of `generateBiarcsAndFinalShapes` when no gap between markers
(terminal included) is longer than `ME_MAX_SPLINE_GAP`. -/
theorem generate_contiguous (sqrt : F → F) (atan2 : F → F → F)
    (convert : FreeformLine F → BiarcsInput F → List (Biarc F)) (st : SplineState F)
    (hch : List.Chain (fun a b : Range F =>
        ¬ ({ start := a.end_, end_ := b.start } : Range F).length > ME_MAX_SPLINE_GAP)
      { start := -1, end_ := 0 }
      (st.markers ++ [{ start := st.line.length, end_ := st.line.length + 1 }]))
    (hdef : ∀ s ∈ st.markers, (s.length > ME_MAX_SPLINE_GAP →
        (∃ p, st.line.getPointAt s.start = some p) ∧ (∃ p, st.line.getPointAt s.end_ = some p)) ∧
      (s.length = 0 → ∃ p, st.line.getPointAt s.start = some p)) :
    generateBiarcsAndFinalShapes sqrt atan2 convert st = some { st with
      outCorners := st.outCorners ++ st.markers.filterMap (markerCorner st.line)
      outDisplayShapes := st.outDisplayShapes ++ st.markers.filterMap (markerShape st.line) } := by
  have hgap : (0 : F) < ME_MAX_SPLINE_GAP := by unfold ME_MAX_SPLINE_GAP; norm_num
  have hterm := terminal_length st.line.length
  have hne : ¬ ({ start := st.line.length, end_ := st.line.length + 1 } : Range F).length >
      ME_MAX_SPLINE_GAP := by
    rw [hterm]
    unfold ME_MAX_SPLINE_GAP
    exact lt_irrefl _
  have hnz : ¬ ({ start := st.line.length, end_ := st.line.length + 1 } : Range F).length = 0 := by
    rw [hterm]
    norm_num
  unfold generateBiarcsAndFinalShapes
  simp only
  rw [markerLoop_contiguous sqrt atan2 convert _ _ _ hch]
  · simp only [List.filterMap_append, List.filterMap_cons, List.filterMap_nil, markerCorner,
      markerShape, if_neg hne, if_neg hnz, List.append_nil, List.dropLast_concat]
  · intro s hs
    rcases List.mem_append.mp hs with h | h
    · exact hdef s h
    · rw [List.mem_singleton.mp h]
      exact ⟨fun hc => absurd hc hne, fun hc => absurd hc hnz⟩

end ContiguousLemmas

section ChordLemmas

/-- The signed distance to the chord of an affine piece is 0 on the piece. -/
theorem between_signedDist_affine {F : Type} [LinearOrderedField F] (sqrt : F → F)
    (P U : Vector2 F) (a b t : F) :
    (Line.between sqrt (P + U * a) (P + U * b)).signedDistTo (P + U * t) = 0 := by
  simp [Line.between, Line.fromPointAndNormal, Line.signedDistTo, Line.normal,
    Vector2.directionTo, Vector2.normalized, Vector2.rotate90, Vector2.dot]
  ring

/-- A span of the polyline that lies on one affine piece is accepted by
`isSegment`, with error 0. -/
theorem isSegment_on_chord (line : FreeformLine ℝ) (a b : ℝ) (P U : Vector2 ℝ)
    (input : SegmentsInput ℝ) (hstep : 0 < input.tStep)
    (href : 0 < input.referenceSegmentLength) (hab : a ≤ b)
    (hpt : ∀ t, a ≤ t → t ≤ b → line.getPointAt t = some (P + U * t)) :
    ∃ N : Nat, ∀ fuel, N ≤ fuel →
      isSegment Real.sqrt fuel line { start := a, end_ := b } input = some (true, 0) := by
  obtain ⟨n, hlt, hend⟩ := exists_sample_count a input.tStep b hstep
  refine ⟨n, fun fuel hf => ?_⟩
  have hloop := calcMeanSquaredErrorLoop_eval
    (Line.between Real.sqrt (P + U * a) (P + U * b)).signedDistTo line input.tStep b
    ((List.range n).map (fun i : Nat => P + U * (a + (i : ℝ) * input.tStep))) fuel a FLT_MIN 0
    (by simpa using hf)
    (by
      intro i hi
      simp only [List.length_map, List.length_range] at hi
      have hnn : 0 ≤ (i : ℝ) * input.tStep := mul_nonneg (Nat.cast_nonneg i) hstep.le
      refine ⟨hlt i hi, ?_⟩
      rw [hpt _ (by linarith) (hlt i hi).le]
      simp [List.getElem?_map, List.getElem?_range hi])
    (by simpa using hend)
  have hsum : (((List.range n).map (fun i : Nat => P + U * (a + (i : ℝ) * input.tStep))).map
      (fun p => (Line.between Real.sqrt (P + U * a) (P + U * b)).signedDistTo p *
        (Line.between Real.sqrt (P + U * a) (P + U * b)).signedDistTo p)).sum = 0 := by
    apply List.sum_eq_zero
    intro x hx
    simp only [List.mem_map, List.mem_range] at hx
    obtain ⟨p, ⟨i, _, hp⟩, hx⟩ := hx
    rw [← hx, ← hp, between_signedDist_affine]
    ring
  rw [hsum, add_zero, zero_div] at hloop
  have h := isSegment_of_parts Real.sqrt fuel line { start := a, end_ := b } input
    (P + U * a) (P + U * b) 0 (hpt a (le_refl _) hab) (hpt b hab (le_refl _)) (ne_of_gt href)
    hloop
  rw [h]
  have hlim : (0 : ℝ) ≤ input.maxMeanErrorAtReferenceLength *
      input.maxMeanErrorAtReferenceLength *
      (Vector2.distTo Real.sqrt (P + U * a) (P + U * b) / input.referenceSegmentLength) :=
    mul_nonneg (mul_self_nonneg _) (div_nonneg (distTo_nonneg _ _) href.le)
  simp [hlim]

theorem isSegment_congr {F : Type} [LinearOrderedField F] (sqrt : F → F) (fuel : Nat)
    (l1 l2 : FreeformLine F) (h : l1.points = l2.points) (bounds : Range F)
    (input : SegmentsInput F) :
    isSegment sqrt fuel l1 bounds input = isSegment sqrt fuel l2 bounds input := by
  have hloop : ∀ (sd : Vector2 F → F) (tStep tEnd : F) (fuel : Nat) (t num sum : F),
      calcMeanSquaredErrorLoop sd l1 tStep tEnd fuel t num sum =
        calcMeanSquaredErrorLoop sd l2 tStep tEnd fuel t num sum := by
    intro sd tStep tEnd fuel
    induction fuel with
    | zero => intro t num sum; simp [calcMeanSquaredErrorLoop]
    | succ k ih =>
      intro t num sum
      unfold calcMeanSquaredErrorLoop
      rw [getPointAt_congr l1 l2 h t]
      split_ifs
      · cases l2.getPointAt t with
        | none => rfl
        | some p => exact ih _ _ _
      · rfl
  unfold isSegment calcMeanSquaredError
  rw [getPointAt_congr l1 l2 h, getPointAt_congr l1 l2 h]
  simp only [hloop]

end ChordLemmas

section CollinearLemmas

theorem linePath_of_nonneg {F : Type} [LinearOrderedField F] (p0 u : Vector2 F) (t : F)
    (h : 0 ≤ t) : linePath p0 u t = p0 + u * t := by
  unfold linePath
  rw [max_eq_left h]

theorem linePath_of_nonpos {F : Type} [LinearOrderedField F] (p0 u : Vector2 F) (t : F)
    (h : t ≤ 0) : linePath p0 u t = linePath p0 u 0 := by
  unfold linePath
  rw [max_eq_right h, max_self]

theorem linePath_zero {F : Type} [LinearOrderedField F] (p0 u : Vector2 F) :
    linePath p0 u 0 = p0 := by
  unfold linePath
  ext <;> simp

theorem linePath_dist (p0 u : Vector2 ℝ) (hu : u.norm2 = 1) (L d : ℝ) (hL : 0 ≤ L)
    (hd : 0 ≤ d) :
    (linePath p0 u L).distTo Real.sqrt (linePath p0 u (L + d)) = d := by
  rw [linePath_of_nonneg p0 u L hL, linePath_of_nonneg p0 u (L + d) (by linarith)]
  unfold Vector2.distTo Vector2.norm
  have h : (p0 + u * L - (p0 + u * (L + d))).norm2 = d ^ 2 := by
    simp only [Vector2.norm2, Vector2.sub_x, Vector2.sub_y, Vector2.add_x, Vector2.add_y,
      Vector2.mul_x, Vector2.mul_y] at hu ⊢
    have : (p0.x + u.x * L - (p0.x + u.x * (L + d))) * (p0.x + u.x * L - (p0.x + u.x * (L + d))) +
        (p0.y + u.y * L - (p0.y + u.y * (L + d))) * (p0.y + u.y * L - (p0.y + u.y * (L + d))) =
        d ^ 2 * (u.x * u.x + u.y * u.y) := by ring
    rw [this, hu, mul_one]
  rw [h, Real.sqrt_sq hd]

/-- Building a polyline from points that advance along one direction. -/
theorem build_collinear (p0 u : Vector2 ℝ) (hu : u.norm2 = 1) (ss : List ℝ) :
    (0 :: ss).Pairwise (fun a b => a ≤ b) → ss.getLastD 0 < ME_A_LOT →
    ∃ line, FreeformLine.build Real.sqrt (p0 :: ss.map (fun s => p0 + u * s)) = some line ∧
      CurveInv (linePath p0 u) (ss.getLastD 0) [] line := by
  induction ss using List.reverseRecOn with
  | nil =>
    intro _ _
    refine ⟨_, build_single Real.sqrt p0, ?_⟩
    have h := CurveInv_single (linePath p0 u)
    rw [linePath_zero] at h
    exact h
  | append_singleton l a ih =>
    intro hsorted hA
    rw [List.getLastD_concat] at hA ⊢
    have hsplit : (0 :: (l ++ [a])) = (0 :: l) ++ [a] := by simp
    rw [hsplit, List.pairwise_append] at hsorted
    obtain ⟨hl, _, hle⟩ := hsorted
    have hlast : l.getLastD 0 ≤ a := hle _ (List.getLastD_mem_cons l 0) a (by simp)
    have hlast0 : 0 ≤ l.getLastD 0 := by
      have hmem := List.getLastD_mem_cons l 0
      rcases List.mem_cons.mp hmem with h | h
      · rw [h]
      · exact (List.pairwise_cons.mp hl).1 _ h
    obtain ⟨line, hb, hinv⟩ := ih hl (lt_of_le_of_lt hlast hA)
    have hbuild : FreeformLine.build Real.sqrt (p0 :: (l ++ [a]).map (fun s => p0 + u * s)) =
        (FreeformLine.build Real.sqrt (p0 :: l.map (fun s => p0 + u * s))).bind
          (fun line => FreeformLine.addPoint Real.sqrt line (p0 + u * a)) := by
      rw [List.map_append, List.map_singleton, ← List.cons_append]
      exact build_snoc Real.sqrt _ _
    rw [hbuild, hb]
    simp only [Option.some_bind]
    have ha0 : 0 ≤ a := le_trans hlast0 hlast
    have hstep := CurveInv_step Real.sqrt (linePath p0 u) (l.getLastD 0) (a - l.getLastD 0) []
      line (p0 + u * a) hinv (by linarith)
      (by
        have := linePath_dist p0 u hu (l.getLastD 0) (a - l.getLastD 0) hlast0 (by linarith)
        rw [show l.getLastD 0 + (a - l.getLastD 0) = a by ring,
          linePath_of_nonneg p0 u a ha0] at this
        exact this)
      (by
        rw [show l.getLastD 0 + (a - l.getLastD 0) = a by ring]
        exact (linePath_of_nonneg p0 u a ha0).symm)
      (by linarith)
    rw [show l.getLastD 0 + (a - l.getLastD 0) = a by ring] at hstep
    obtain ⟨next, hadd, hnext⟩ := hstep
    exact ⟨next, hadd, hnext.mono (by simp)⟩

/-- The points of a polyline built along one direction, after the bounds are
set to the full length. -/
theorem collinear_fitted {F : Type} [LinearOrderedField F] (p0 u : Vector2 F) (L : F)
    (line : FreeformLine F) (hinv : CurveInv (linePath p0 u) L [] line) (hL : 0 ≤ L) :
    Fitted (linePath p0 u) L (line.setBounds { start := 0, end_ := line.length }) := by
  apply hinv.fitted hL
  intro t h1 h2
  rcases lt_or_le t 0 with h | h
  · rw [hinv.getPointAt_before t h1 h, linePath_of_nonpos p0 u t h.le]
  · rcases eq_or_lt_of_le h2 with h3 | h3
    · rw [h3]
      exact hinv.getPointAt_last
    · exact hinv.getPointAt_piece 0 L t p0 u hinv.has_zero hinv.has_last (le_refl _) (le_refl _)
        (fun s hs _ => linePath_of_nonneg p0 u s hs) h h3

/-- Every tangent window of a straight polyline spans the same vector. -/
theorem collinear_secant {F : Type} [LinearOrderedField F] (p0 u : Vector2 F) (L : F)
    (line : FreeformLine F) (hfit : Fitted (linePath p0 u) L line) (hL : 0 ≤ L) (s : F) :
    tangentSecant (linePath p0 u) line s = u * min 20 L := by
  rcases le_total L 20 with h20 | h20
  · rw [hfit.secant_short h20, min_eq_right h20, linePath_of_nonneg p0 u L hL, linePath_zero]
    ext <;> simp
  · rw [min_eq_left h20]
    rcases le_total s 10 with h1 | h1
    · rw [hfit.secant_lo h20 s h1, linePath_of_nonneg p0 u 20 (by norm_num), linePath_zero]
      ext <;> simp
    · rcases le_total s (L - 10) with h2 | h2
      · rw [hfit.secant_mid h20 s h1 h2, linePath_of_nonneg p0 u (s + 10) (by linarith),
          linePath_of_nonneg p0 u (s - 10) (by linarith)]
        ext <;> simp <;> ring
      · rw [hfit.secant_hi h20 s h2, linePath_of_nonneg p0 u L hL,
          linePath_of_nonneg p0 u (L - 20) (by linarith)]
        ext <;> simp <;> ring

/-- No position of a straight polyline passes the corner test. -/
theorem collinear_not_candidate (p0 u : Vector2 ℝ) (hu : u.norm2 = 1) (L : ℝ)
    (line : FreeformLine ℝ) (hfit : Fitted (linePath p0 u) L line) (hL : 0 < L)
    (input : CornersInput ℝ)
    (hin : input.innerInterMeasurementFactor = 1) (hout : input.outerInterMeasurementFactor = 2)
    (ho : input.outerMaxAngleInDeg = 25) (hi : input.innerMinAngleInDeg = 45) (t : ℝ) :
    ∃ angles, cornerAngles Real.sqrt (fun y x => Complex.arg ⟨x, y⟩) line input t =
        some angles ∧ isCornerCandidate input angles = false := by
  have hm : (0 : ℝ) < min 20 L := lt_min (by norm_num) hL
  have hdot : (u * min 20 L).dot (u * min 20 L) = min 20 L * min 20 L := by
    simp only [Vector2.dot, Vector2.mul_x, Vector2.mul_y, Vector2.norm2] at hu ⊢
    have : u.x * min 20 L * (u.x * min 20 L) + u.y * min 20 L * (u.y * min 20 L) =
        min 20 L * min 20 L * (u.x * u.x + u.y * u.y) := by ring
    rw [this, hu, mul_one]
  have hcross : (u * min 20 L).cross (u * min 20 L) = 0 := by
    simp only [Vector2.cross, Vector2.mul_x, Vector2.mul_y]
    ring
  refine hfit.pos_false_inner hL.le input hin hout ho hi t _ _
    (collinear_secant p0 u L line hfit hL.le _) (collinear_secant p0 u L line hfit hL.le _) ?_ ?_
  · rw [hdot]
    positivity
  · rw [hcross, hdot, abs_zero]
    positivity

end CollinearLemmas

section PipelineLemmas

theorem findCornersAndSegments_of_parts {F : Type} [LinearOrderedField F] (sqrt : F → F)
    (atan2 : F → F → F) (ceil : F → F) (fuel : Nat) (input : ProcessingInput F)
    (line : FreeformLine F) (corners segments : List (Range F))
    (hc : findCorners sqrt atan2 ceil fuel (line.setBounds { start := 0, end_ := line.length })
      input.corners = some corners)
    (hs : segmentLoop sqrt fuel (line.setBounds { start := 0, end_ := line.length })
      input.segments
      (corners ++ [{ start := (line.setBounds { start := 0, end_ := line.length }).length,
                     end_ := (line.setBounds { start := 0, end_ := line.length }).length }])
      0 [] = some segments) :
    findCornersAndSegments sqrt atan2 ceil fuel input line =
      some (line.setBounds { start := 0, end_ := line.length },
        sortRanges (corners ++ segments)) := by
  unfold findCornersAndSegments
  simp only [hc, hs]

theorem Range.length_of_le {F : Type} [LinearOrderedField F] (a b : F) (h : a ≤ b) :
    ({ start := a, end_ := b } : Range F).length = b - a := by
  have hv : ({ start := a, end_ := b } : Range F).isValid := h
  unfold Range.length
  rw [if_pos hv]

theorem Range.length_of_gt {F : Type} [LinearOrderedField F] (a b : F) (h : b < a) :
    ({ start := a, end_ := b } : Range F).length = 0 := by
  have hv : ¬ ({ start := a, end_ := b } : Range F).isValid := not_le.mpr h
  unfold Range.length
  rw [if_neg hv]

/-- The corner scan of a straight polyline finds nothing. -/
theorem collinear_findCorners (p0 u : Vector2 ℝ) (hu : u.norm2 = 1) (L : ℝ)
    (line : FreeformLine ℝ) (hfit : Fitted (linePath p0 u) L line) (hL : 0 < L)
    (input : CornersInput ℝ)
    (hin : input.innerInterMeasurementFactor = 1) (hout : input.outerInterMeasurementFactor = 2)
    (ho : input.outerMaxAngleInDeg = 25) (hi : input.innerMinAngleInDeg = 45)
    (hstep : 0 < input.tStep) (hmin : 1 ≤ input.minNumberTestPositivesInSeries)
    (ceil : ℝ → ℝ) :
    ∃ N : Nat, ∀ fuel, N ≤ fuel →
      findCorners Real.sqrt (fun y x => Complex.arg ⟨x, y⟩) ceil fuel line input = some [] := by
  obtain ⟨N, hN⟩ := scanLoop_all_false line input (line.clippingRange.start + cornerMargin ceil input)
    (line.clippingRange.end_ - cornerMargin ceil input) hstep hmin
    (collinear_not_candidate p0 u hu L line hfit hL input hin hout ho hi)
  refine ⟨N, fun fuel hf => ?_⟩
  rw [findCorners_of_sections _ _ _ _ _ _ _
    (findCornerSections_of_scan _ _ _ _ _ _ _ (hN fuel hf))]
  rfl

/-- The full span of a straight polyline is accepted as a segment. -/
theorem collinear_isSegment (p0 u : Vector2 ℝ) (L : ℝ)
    (line : FreeformLine ℝ) (hfit : Fitted (linePath p0 u) L line) (hL : 0 ≤ L)
    (input : SegmentsInput ℝ) (hstep : 0 < input.tStep)
    (href : 0 < input.referenceSegmentLength) :
    ∃ N : Nat, ∀ fuel, N ≤ fuel →
      isSegment Real.sqrt fuel line { start := 0, end_ := L } input = some (true, 0) := by
  have hA : (0 : ℝ) < ME_A_LOT := ME_A_LOT_pos
  exact isSegment_on_chord line 0 L p0 u input hstep href hL
    (fun t h1 h2 => by rw [hfit.point t (by linarith) h2, linePath_of_nonneg p0 u t h1])

/-- The markers of a straight polyline longer than the display gap: the one
segment `{0, L}`. -/
theorem collinear_markers (p0 u : Vector2 ℝ) (hu : u.norm2 = 1) (L : ℝ)
    (line : FreeformLine ℝ) (hinv : CurveInv (linePath p0 u) L [] line) (hL : 1 < L)
    (input : ProcessingInput ℝ)
    (hin : input.corners.innerInterMeasurementFactor = 1)
    (hout : input.corners.outerInterMeasurementFactor = 2)
    (ho : input.corners.outerMaxAngleInDeg = 25) (hi : input.corners.innerMinAngleInDeg = 45)
    (hstep : 0 < input.corners.tStep)
    (hmin : 1 ≤ input.corners.minNumberTestPositivesInSeries)
    (hsstep : 0 < input.segments.tStep) (href : 0 < input.segments.referenceSegmentLength)
    (ceil : ℝ → ℝ) :
    ∃ N : Nat, ∀ fuel, N ≤ fuel →
      findCornersAndSegments Real.sqrt (fun y x => Complex.arg ⟨x, y⟩) ceil fuel input line =
        some (line.setBounds { start := 0, end_ := line.length },
          [{ start := 0, end_ := L }]) := by
  have hL0 : (0 : ℝ) ≤ L := by linarith
  have hfit := collinear_fitted p0 u L line hinv hL0
  obtain ⟨N1, h1⟩ := collinear_findCorners p0 u hu L _ hfit (by linarith) input.corners hin hout
    ho hi hstep hmin ceil
  obtain ⟨N2, h2⟩ := collinear_isSegment p0 u L _ hfit hL0 input.segments hsstep href
  refine ⟨max N1 N2, fun fuel hf => ?_⟩
  have hlen : (line.setBounds { start := 0, end_ := line.length }).length = L := hfit.len
  have hseg : segmentLoop Real.sqrt fuel (line.setBounds { start := 0, end_ := line.length })
      input.segments
      ([] ++ [{ start := (line.setBounds { start := 0, end_ := line.length }).length,
                end_ := (line.setBounds { start := 0, end_ := line.length }).length }])
      0 [] = some [{ start := 0, end_ := L }] := by
    rw [hlen]
    simp only [List.nil_append, segmentLoop]
    rw [Range.length_of_le 0 L hL0, sub_zero, if_pos (by unfold ME_MAX_SPLINE_GAP; exact hL),
      h2 fuel (le_trans (le_max_right _ _) hf)]
  rw [findCornersAndSegments_of_parts _ _ _ _ _ _ [] [{ start := 0, end_ := L }]
    (h1 fuel (le_trans (le_max_left _ _) hf)) hseg]
  simp [sortRanges]

/-- The spline of a straight polyline longer than the display gap: a single
segment between its end points, and no corner. -/
theorem collinear_spline (p0 u : Vector2 ℝ) (hu : u.norm2 = 1) (L : ℝ)
    (line : FreeformLine ℝ) (hinv : CurveInv (linePath p0 u) L [] line) (hL : 1 < L)
    (input : ProcessingInput ℝ)
    (hin : input.corners.innerInterMeasurementFactor = 1)
    (hout : input.corners.outerInterMeasurementFactor = 2)
    (ho : input.corners.outerMaxAngleInDeg = 25) (hi : input.corners.innerMinAngleInDeg = 45)
    (hstep : 0 < input.corners.tStep)
    (hmin : 1 ≤ input.corners.minNumberTestPositivesInSeries)
    (hsstep : 0 < input.segments.tStep) (href : 0 < input.segments.referenceSegmentLength)
    (ceil : ℝ → ℝ) :
    ∃ N : Nat, ∀ fuel, N ≤ fuel →
      ∀ (convert : FreeformLine ℝ → BiarcsInput ℝ → List (Biarc ℝ)) (old : ProcessingInput ℝ)
        (shapes : List (Option (SplineElement ℝ))) (corners : List (Vector2 ℝ)),
        recreateSpline Real.sqrt (fun y x => Complex.arg ⟨x, y⟩) ceil convert fuel
          { sourceLine := line, processingInput := old, displayShapes := shapes,
            debugCorners := corners } (some input) =
        some { sourceLine := line, processingInput := input
               displayShapes := [some (SplineElement.newSegment p0 (p0 + u * L) (-1))]
               debugCorners := [] } := by
  have hA : (0 : ℝ) < ME_A_LOT := ME_A_LOT_pos
  have hL0 : (0 : ℝ) ≤ L := by linarith
  have hfit := collinear_fitted p0 u L line hinv hL0
  have hlen : (line.setBounds { start := 0, end_ := line.length }).length = L := hfit.len
  have hp0 : (line.setBounds { start := 0, end_ := line.length }).getPointAt 0 = some p0 := by
    rw [hfit.point 0 (by linarith) hL0, linePath_zero]
  have hpL : (line.setBounds { start := 0, end_ := line.length }).getPointAt L =
      some (p0 + u * L) := by
    rw [hfit.point L (by linarith) (le_refl _), linePath_of_nonneg p0 u L hL0]
  have hlenL : ({ start := 0, end_ := L } : Range ℝ).length = L := by
    rw [Range.length_of_le 0 L hL0, sub_zero]
  have hgapL : ({ start := 0, end_ := L } : Range ℝ).length > ME_MAX_SPLINE_GAP := by
    rw [hlenL]
    unfold ME_MAX_SPLINE_GAP
    exact hL
  obtain ⟨N, hN⟩ := collinear_markers p0 u hu L line hinv hL input hin hout ho hi hstep hmin
    hsstep href ceil
  refine ⟨N, fun fuel hf convert old shapes corners => ?_⟩
  have hgen := generate_contiguous Real.sqrt (fun y x => Complex.arg ⟨x, y⟩) convert
    { line := line.setBounds { start := 0, end_ := line.length }, processingInput := input
      markers := [{ start := 0, end_ := L }], outCorners := [], outDisplayShapes := [] }
    (by
      simp only [hlen, List.singleton_append, List.chain_cons, List.Chain.nil, and_true]
      refine ⟨?_, ?_⟩
      · rw [Range.length_of_le (0 : ℝ) 0 (le_refl _)]
        unfold ME_MAX_SPLINE_GAP
        norm_num
      · rw [Range.length_of_le L L (le_refl _)]
        unfold ME_MAX_SPLINE_GAP
        norm_num)
    (by
      intro s hs
      simp only [List.mem_singleton] at hs
      subst hs
      exact ⟨fun _ => ⟨⟨_, hp0⟩, ⟨_, hpL⟩⟩, fun _ => ⟨_, hp0⟩⟩)
  have hz : ¬ ({ start := 0, end_ := L } : Range ℝ).length = 0 := by
    rw [hlenL]
    linarith
  simp only [List.filterMap_cons, List.filterMap_nil, markerCorner, markerShape, if_neg hz,
    if_pos hgapL, hp0, hpL, List.nil_append] at hgen
  rw [recreateSpline_of_parts Real.sqrt _ ceil convert fuel _ (some input) _ _ _
    (by simpa using hN fuel hf) (by simpa using hgen)]

end PipelineLemmas

section StraightStrokeLemmas

theorem straightStroke_getPointAt_half :
    (straightStroke : FreeformLine ℝ).getPointAt (1 / 2) = some ⟨1 / 2, 0⟩ := by
  have hA0 : (0 : ℝ) < ME_A_LOT := ME_A_LOT_pos
  rw [getPointAt_between (straightStroke : FreeformLine ℝ) (1 / 2) [(-ME_A_LOT, ⟨0, 0⟩)]
    [(ME_A_LOT, ⟨5, 0⟩)] (0, ⟨0, 0⟩) (5, ⟨5, 0⟩) rfl
    (by intro e he; simp at he; rw [he]; simp; linarith) (by norm_num) (by norm_num)]
  congr 1
  ext <;> simp [Vector2.interpolate]
  norm_num

end StraightStrokeLemmas

section ScanBlockLemmas
variable {F : Type} [LinearOrderedField F]

/-- A run that ends long enough and far enough from the last kept section is
appended. -/
theorem scanStep_close_append (input : CornersInput F) (t a b : F) (res : List (Range F))
    (hab : a ≤ b) (hlen : (input.minNumberTestPositivesInSeries : F) ≤ b - a)
    (hfar : ∀ back, res.getLast? = some back →
      back.end_ + (input.maxDistBetweenCornersToMerge : F) < a) :
    scanStep input false t { cornerSection := { start := a, end_ := b }, result := res } =
      { cornerSection := Range.new, result := res ++ [{ start := a, end_ := b }] } := by
  have hl : ({ start := a, end_ := b } : Range F).length ≥
      (input.minNumberTestPositivesInSeries : F) := by
    rw [Range.length_of_le a b hab]
    exact hlen
  unfold scanStep
  simp only [Bool.false_eq_true, if_false, if_pos hl]
  cases hb : res.getLast? with
  | none => rfl
  | some back =>
    simp only
    rw [if_neg (not_le.mpr (hfar back hb))]
    rfl

/-- A run that ends too short is dropped. -/
theorem scanStep_close_drop (input : CornersInput F) (t a b : F) (res : List (Range F))
    (hab : a ≤ b) (hlen : b - a < (input.minNumberTestPositivesInSeries : F)) :
    scanStep input false t { cornerSection := { start := a, end_ := b }, result := res } =
      { cornerSection := Range.new, result := res } := by
  have hl : ¬ ({ start := a, end_ := b } : Range F).length ≥
      (input.minNumberTestPositivesInSeries : F) := by
    rw [Range.length_of_le a b hab]
    exact not_le.mpr hlen
  unfold scanStep
  simp only [Bool.false_eq_true, if_false, if_neg hl]
  rfl

/-- A run of `n + 1` consecutive positions that all pass the corner test,
met without a running section, leaves the section `{first, last}`. -/
theorem scanLoop_run_true_new (sqrt : F → F) (atan2 : F → F → F) (line : FreeformLine F)
    (input : CornersInput F) (tEnd : F) (hstep : 0 ≤ input.tStep) (result : List (Range F))
    (n fuel : Nat) (t : F) (h1 : -FLT_MAX ≤ t) (h2 : t ≤ FLT_MAX)
    (h : ∀ k : Nat, k < n + 1 → t + (k : F) * input.tStep ≤ tEnd ∧
      ∃ angles, cornerAngles sqrt atan2 line input (t + (k : F) * input.tStep) = some angles ∧
        isCornerCandidate input angles = true) :
    scanLoop sqrt atan2 line input tEnd (n + 1 + fuel) t
        { cornerSection := Range.new, result := result } =
      scanLoop sqrt atan2 line input tEnd fuel (t + ((n + 1 : Nat) : F) * input.tStep)
        { cornerSection := { start := t, end_ := t + (n : F) * input.tStep },
          result := result } := by
  obtain ⟨h0, angles, ha, hc⟩ := h 0 (by norm_num)
  simp only [Nat.cast_zero, zero_mul, add_zero] at h0 ha
  rw [show n + 1 + fuel = (n + fuel) + 1 by omega,
    scanLoop_step sqrt atan2 line input tEnd (n + fuel) t _ angles h0 ha, hc]
  simp only [scanStep, if_true, Range.new_include t h1 h2]
  cases n with
  | zero => simp
  | succ m =>
    rw [scanLoop_run_true sqrt atan2 line input tEnd hstep result m fuel (t + input.tStep) t t
      (by linarith) (by linarith)]
    · have e1 : t + input.tStep + ((m + 1 : Nat) : F) * input.tStep =
          t + ((m + 1 + 1 : Nat) : F) * input.tStep := by
        push_cast
        ring
      have e2 : t + input.tStep + (m : F) * input.tStep =
          t + ((m + 1 : Nat) : F) * input.tStep := by
        push_cast
        ring
      rw [e1, e2]
    · intro k hk
      have := h (k + 1) (Nat.succ_lt_succ hk)
      rw [show t + ((k + 1 : Nat) : F) * input.tStep = t + input.tStep + (k : F) * input.tStep by
        push_cast; ring] at this
      exact this

/-- One block of the scan: `n1` failing positions, `n2 + 1` passing ones and
the failing position that ends the run. -/
theorem scanLoop_block (sqrt : F → F) (atan2 : F → F → F) (line : FreeformLine F)
    (input : CornersInput F) (tEnd : F) (hstep : 0 ≤ input.tStep)
    (hmin : 1 ≤ input.minNumberTestPositivesInSeries)
    (res : List (Range F)) (st2 : CornerScan F) (n1 n2 fuel : Nat) (t : F)
    (hb1 : -FLT_MAX ≤ t + (n1 : F) * input.tStep) (hb2 : t + (n1 : F) * input.tStep ≤ FLT_MAX)
    (hfalse : ∀ k : Nat, k < n1 → t + (k : F) * input.tStep ≤ tEnd ∧
      ∃ angles, cornerAngles sqrt atan2 line input (t + (k : F) * input.tStep) = some angles ∧
        isCornerCandidate input angles = false)
    (htrue : ∀ k : Nat, k < n2 + 1 → t + ((n1 + k : Nat) : F) * input.tStep ≤ tEnd ∧
      ∃ angles, cornerAngles sqrt atan2 line input (t + ((n1 + k : Nat) : F) * input.tStep) =
          some angles ∧ isCornerCandidate input angles = true)
    (hclose : t + ((n1 + n2 + 1 : Nat) : F) * input.tStep ≤ tEnd ∧
      ∃ angles, cornerAngles sqrt atan2 line input
          (t + ((n1 + n2 + 1 : Nat) : F) * input.tStep) = some angles ∧
        isCornerCandidate input angles = false)
    (hres : scanStep input false (t + ((n1 + n2 + 1 : Nat) : F) * input.tStep)
        { cornerSection := { start := t + (n1 : F) * input.tStep,
                             end_ := t + ((n1 + n2 : Nat) : F) * input.tStep },
          result := res } = st2) :
    scanLoop sqrt atan2 line input tEnd (n1 + (n2 + 1 + (fuel + 1))) t
        { cornerSection := Range.new, result := res } =
      scanLoop sqrt atan2 line input tEnd fuel (t + ((n1 + n2 + 2 : Nat) : F) * input.tStep)
        st2 := by
  rw [scanLoop_run_false sqrt atan2 line input tEnd hmin res n1 (n2 + 1 + (fuel + 1)) t hfalse,
    scanLoop_run_true_new sqrt atan2 line input tEnd hstep res n2 (fuel + 1)
      (t + (n1 : F) * input.tStep) hb1 hb2
      (by
        intro k hk
        have := htrue k hk
        rw [show t + ((n1 + k : Nat) : F) * input.tStep =
          t + (n1 : F) * input.tStep + (k : F) * input.tStep by push_cast; ring] at this
        exact this)]
  obtain ⟨hc0, angles, hca, hcc⟩ := hclose
  have e1 : t + (n1 : F) * input.tStep + ((n2 + 1 : Nat) : F) * input.tStep =
      t + ((n1 + n2 + 1 : Nat) : F) * input.tStep := by
    push_cast
    ring
  have e2 : t + (n1 : F) * input.tStep + (n2 : F) * input.tStep =
      t + ((n1 + n2 : Nat) : F) * input.tStep := by
    push_cast
    ring
  rw [e1, e2, scanLoop_step sqrt atan2 line input tEnd fuel _ _ angles hc0 hca, hcc, hres]
  congr 1
  push_cast
  ring

end ScanBlockLemmas

section ReduceLemmas

theorem Fitted.tangent {F : Type} [LinearOrderedField F] {path : F → Vector2 F} {L : F}
    {line : FreeformLine F} (hfit : Fitted path L line) (hL : 0 ≤ L) (sqrt : F → F) (s : F) :
    line.getTangentAt sqrt s = some ((tangentSecant path line s).normalized sqrt) := by
  have hA : (0 : F) < ME_A_LOT := ME_A_LOT_pos
  have hm := hfit.sample_mem hL s
  exact getTangentAt_of_path sqrt path line s
    (hfit.point _ (by linarith [hm.1.1]) hm.1.2) (hfit.point _ (by linarith [hm.2.1]) hm.2.2)

/-- The second loop of `findCorners` on one section, from the two secants
behind its tangents and the outcome of the search. -/
theorem reduceCorner_eval {path : ℝ → Vector2 ℝ} {L : ℝ} {line : FreeformLine ℝ}
    (hfit : Fitted path L line) (hL : 0 ≤ L) (input : CornersInput ℝ)
    (hin : input.innerInterMeasurementFactor = 1) (hout : input.outerInterMeasurementFactor = 2)
    (fuel : Nat) (c : Range ℝ) (T0 T1 dir : Vector2 ℝ) (best : ℝ)
    (h0 : tangentSecant path line (c.start + -10) = T0)
    (h1 : tangentSecant path line (c.end_ + 10) = T1)
    (hdir : T0.normalized Real.sqrt - T1.normalized Real.sqrt = dir)
    (hnorm : dir.norm2 > ME_EPSILON2)
    (hbest : bestPointLoop line dir (c.end_ + 20) fuel (c.start - 20)
      (1 / 2 * (c.start + c.end_)) (-FLT_MAX) = some best) :
    reduceCorner Real.sqrt fuel line input c = some { start := best, end_ := best } := by
  obtain ⟨_, ho1, ho2, _⟩ := hfit.cornerOffset_eq input hin hout
  unfold reduceCorner
  rw [ho1, ho2, hfit.tangent hL, hfit.tangent hL, h0, h1]
  simp only [hdir, if_pos hnorm, Range.inflate, hin, hfit.spread]
  rw [show (2 : ℝ) * 1 * 10 = 20 by norm_num, hbest]

end ReduceLemmas

section CornerStrokeLemmas

theorem lPath_nonpos {F : Type} [LinearOrderedField F] (s : F) (h : s ≤ 0) :
    lPath s = ⟨0, 0⟩ := by
  unfold lPath
  rw [max_eq_right h, min_eq_left (by norm_num), max_eq_right (by linarith)]

theorem lPath_low {F : Type} [LinearOrderedField F] (s : F) (h0 : 0 ≤ s) (h : s ≤ 50) :
    lPath s = ⟨s, 0⟩ := by
  unfold lPath
  rw [max_eq_left h0, min_eq_left h, max_eq_right (by linarith)]

theorem lPath_high {F : Type} [LinearOrderedField F] (s : F) (h : 50 ≤ s) :
    lPath s = ⟨50, s - 50⟩ := by
  unfold lPath
  rw [max_eq_left (by linarith), min_eq_right h, max_eq_left (by linarith)]

/-- A map that holds the L-shaped stroke with its bend as a key, after the
bounds are set to the full length. -/
theorem l_fitted {F : Type} [LinearOrderedField F] (ks : List F) (line : FreeformLine F)
    (hinv : CurveInv lPath 100 ks line) (h50 : (50 : F) ∈ ks) :
    Fitted lPath 100 (line.setBounds { start := 0, end_ := line.length }) := by
  apply hinv.fitted (by norm_num)
  intro t h1 h2
  rcases lt_or_le t 0 with h | h
  · rw [hinv.getPointAt_before t h1 h, lPath_nonpos t h.le, lPath_nonpos 0 (le_refl _)]
  · rcases lt_or_le t 50 with h3 | h3
    · exact hinv.getPointAt_piece 0 50 t ⟨0, 0⟩ ⟨1, 0⟩ hinv.has_zero (hinv.has 50 h50)
        (le_refl _) (by norm_num)
        (fun s hs0 hs1 => by rw [lPath_low s hs0 hs1]; ext <;> simp) h h3
    · rcases eq_or_lt_of_le h2 with h4 | h4
      · rw [h4]
        exact hinv.getPointAt_last
      · exact hinv.getPointAt_piece 50 100 t ⟨50, -50⟩ ⟨0, 1⟩ (hinv.has 50 h50) hinv.has_last
          (by norm_num) (le_refl _)
          (fun s hs0 _ => by
            rw [lPath_high s hs0]
            ext <;> simp
            ring) h3 h4

variable {F : Type} [LinearOrderedField F] {line : FreeformLine F}

/-- The tangent windows of the L-shaped stroke that end before the bend. -/
theorem l_secant_low (hfit : Fitted lPath 100 line) (s : F) (h : s ≤ 40) :
    tangentSecant lPath line s = ⟨20, 0⟩ := by
  rcases le_total s 10 with h1 | h1
  · rw [hfit.secant_lo (by norm_num) s h1, lPath_low 20 (by norm_num) (by norm_num),
      lPath_low 0 (le_refl _) (by norm_num)]
    ext <;> simp
  · rw [hfit.secant_mid (by norm_num) s h1 (by linarith),
      lPath_low (s + 10) (by linarith) (by linarith),
      lPath_low (s - 10) (by linarith) (by linarith)]
    ext <;> simp
    ring

/-- The tangent windows of the L-shaped stroke that hold the bend. -/
theorem l_secant_mid (hfit : Fitted lPath 100 line) (s : F) (h1 : 40 ≤ s) (h2 : s ≤ 60) :
    tangentSecant lPath line s = ⟨60 - s, s - 40⟩ := by
  rw [hfit.secant_mid (by norm_num) s (by linarith) (by linarith),
    lPath_high (s + 10) (by linarith), lPath_low (s - 10) (by linarith) (by linarith)]
  ext <;> simp <;> ring

/-- The tangent windows of the L-shaped stroke that start after the bend. -/
theorem l_secant_high (hfit : Fitted lPath 100 line) (s : F) (h : 60 ≤ s) :
    tangentSecant lPath line s = ⟨0, 20⟩ := by
  rcases le_total s 90 with h1 | h1
  · rw [hfit.secant_mid (by norm_num) s (by linarith) (by linarith),
      lPath_high (s + 10) (by linarith), lPath_high (s - 10) (by linarith)]
    ext <;> simp
    ring
  · rw [hfit.secant_hi (by norm_num) s (by linarith), lPath_high 100 (by norm_num),
      lPath_high (100 - 20) (by norm_num)]
    ext <;> simp

end CornerStrokeLemmas

section CornerStrokeScan

variable {line : FreeformLine ℝ}

/-- Positions up to 44 of the L-shaped stroke fail the corner test. -/
theorem l_false_low (hfit : Fitted lPath 100 line) (input : CornersInput ℝ)
    (hin : input.innerInterMeasurementFactor = 1) (hout : input.outerInterMeasurementFactor = 2)
    (ho : input.outerMaxAngleInDeg = 25) (hi : input.innerMinAngleInDeg = 45)
    (t : ℝ) (h : t ≤ 44) :
    ∃ angles, cornerAngles Real.sqrt (fun y x => Complex.arg ⟨x, y⟩) line input t =
        some angles ∧ isCornerCandidate input angles = false := by
  rcases le_total t 30 with h1 | h1
  · refine hfit.pos_false_inner (by norm_num) input hin hout ho hi t ⟨20, 0⟩ ⟨20, 0⟩
      (l_secant_low hfit _ (by linarith)) (l_secant_low hfit _ (by linarith)) ?_ ?_
    · simp only [Vector2.dot]
      norm_num
    · simp only [Vector2.dot, Vector2.cross]
      norm_num
  · refine hfit.pos_false_ratio2 (by norm_num) input hin hout t ⟨20, 0⟩
      ⟨60 - (t + 10), t + 10 - 40⟩ ⟨0, 20⟩
      (l_secant_low hfit _ (by linarith)) (l_secant_mid hfit _ (by linarith) (by linarith))
      (l_secant_high hfit _ (by linarith)) ?_ ?_ ?_ ?_
    · simp only [Vector2.dot]
      linarith
    · simp only [Vector2.dot, Vector2.cross]
      rw [abs_of_nonneg (by linarith)]
      linarith
    · simp only [Vector2.dot, Vector2.cross]
      rw [abs_of_nonneg (by linarith)]
      linarith
    · right
      simp only [Vector2.cross]
      intro hc
      linarith

/-- Positions from 56 on of the L-shaped stroke fail the corner test. -/
theorem l_false_high (hfit : Fitted lPath 100 line) (input : CornersInput ℝ)
    (hin : input.innerInterMeasurementFactor = 1) (hout : input.outerInterMeasurementFactor = 2)
    (ho : input.outerMaxAngleInDeg = 25) (hi : input.innerMinAngleInDeg = 45)
    (t : ℝ) (h : 56 ≤ t) :
    ∃ angles, cornerAngles Real.sqrt (fun y x => Complex.arg ⟨x, y⟩) line input t =
        some angles ∧ isCornerCandidate input angles = false := by
  rcases le_total t 70 with h1 | h1
  · refine hfit.pos_false_ratio0 (by norm_num) input hin hout t ⟨20, 0⟩
      ⟨60 - (t + -10), t + -10 - 40⟩ ⟨0, 20⟩
      (l_secant_low hfit _ (by linarith)) (l_secant_mid hfit _ (by linarith) (by linarith))
      (l_secant_high hfit _ (by linarith)) ?_ ?_ ?_ ?_
    · simp only [Vector2.dot]
      linarith
    · simp only [Vector2.dot, Vector2.cross]
      rw [abs_of_nonneg (by linarith)]
      linarith
    · simp only [Vector2.dot, Vector2.cross]
      rw [abs_of_nonneg (by linarith)]
      linarith
    · right
      simp only [Vector2.cross]
      intro hc
      linarith
  · refine hfit.pos_false_inner (by norm_num) input hin hout ho hi t ⟨0, 20⟩ ⟨0, 20⟩
      (l_secant_high hfit _ (by linarith)) (l_secant_high hfit _ (by linarith)) ?_ ?_
    · simp only [Vector2.dot]
      norm_num
    · simp only [Vector2.dot, Vector2.cross]
      norm_num

/-- Positions around the bend of the L-shaped stroke pass the corner test. -/
theorem l_true (hfit : Fitted lPath 100 line) (input : CornersInput ℝ)
    (hin : input.innerInterMeasurementFactor = 1) (hout : input.outerInterMeasurementFactor = 2)
    (ho : input.outerMaxAngleInDeg = 25) (hi : input.innerMinAngleInDeg = 45)
    (t : ℝ) (h1 : 310 ≤ 7 * t) (h2 : 7 * t ≤ 390) :
    ∃ angles, cornerAngles Real.sqrt (fun y x => Complex.arg ⟨x, y⟩) line input t =
        some angles ∧ isCornerCandidate input angles = true := by
  rcases le_total t 50 with h3 | h3
  · refine hfit.pos_true_fine (by norm_num) input hin hout ho hi t ⟨20, 0⟩ ⟨20, 0⟩
      ⟨60 - (t + 10), t + 10 - 40⟩ ⟨0, 20⟩
      (l_secant_low hfit _ (by linarith)) (l_secant_low hfit _ (by linarith))
      (l_secant_mid hfit _ (by linarith) (by linarith)) (l_secant_high hfit _ (by linarith))
      ?_ ?_ ?_ ?_ ?_ ?_
    · simp only [Vector2.dot]
      norm_num
    · simp only [Vector2.dot, Vector2.cross]
      norm_num
    · simp only [Vector2.dot]
      linarith
    · simp only [Vector2.dot, Vector2.cross]
      rw [abs_of_nonneg (by linarith)]
      linarith
    · simp only [Vector2.dot, Vector2.cross]
      rw [abs_of_nonneg (by linarith)]
      linarith
    · right
      simp only [Vector2.cross]
      intro hc
      linarith
  · refine hfit.pos_true_fine (by norm_num) input hin hout ho hi t ⟨20, 0⟩
      ⟨60 - (t + -10), t + -10 - 40⟩ ⟨0, 20⟩ ⟨0, 20⟩
      (l_secant_low hfit _ (by linarith)) (l_secant_mid hfit _ (by linarith) (by linarith))
      (l_secant_high hfit _ (by linarith)) (l_secant_high hfit _ (by linarith))
      ?_ ?_ ?_ ?_ ?_ ?_
    · simp only [Vector2.dot]
      linarith
    · simp only [Vector2.dot, Vector2.cross]
      rw [abs_of_nonneg (by linarith)]
      linarith
    · simp only [Vector2.dot]
      norm_num
    · simp only [Vector2.dot, Vector2.cross]
      norm_num
    · simp only [Vector2.dot, Vector2.cross]
      rw [abs_of_nonneg (by linarith)]
      linarith
    · right
      simp only [Vector2.cross]
      intro hc
      linarith

end CornerStrokeScan

section CornerStrokeRuns

variable {line : FreeformLine ℝ}

theorem FLT_MAX_large {F : Type} [LinearOrderedField F] : (1000 : F) ≤ FLT_MAX := by
  unfold FLT_MAX
  norm_num

/-- The scan of the L-shaped stroke with step 1 and a minimum run length of
2: the single section `{45, 55}`. -/
theorem l_scan_unit (hfit : Fitted lPath 100 line) (input : CornersInput ℝ)
    (hin : input.innerInterMeasurementFactor = 1) (hout : input.outerInterMeasurementFactor = 2)
    (ho : input.outerMaxAngleInDeg = 25) (hi : input.innerMinAngleInDeg = 45)
    (hstep : input.tStep = 1) (hmin : input.minNumberTestPositivesInSeries = 2) (r : Nat) :
    scanLoop Real.sqrt (fun y x => Complex.arg ⟨x, y⟩) line input 97
        (42 + (10 + 1 + ((41 + r) + 1))) 3 { cornerSection := Range.new, result := [] } =
      some { cornerSection := Range.new, result := [{ start := 45, end_ := 55 }] } := by
  have hF := FLT_MAX_large (F := ℝ)
  rw [scanLoop_block Real.sqrt _ line input 97 (by rw [hstep]; norm_num) (by rw [hmin]; norm_num)
    [] { cornerSection := Range.new, result := [{ start := 45, end_ := 55 }] } 42 10 (41 + r) 3
    (by rw [hstep]; norm_num; linarith) (by rw [hstep]; norm_num; linarith)
    (by
      intro k hk
      have hk2 : (k : ℝ) ≤ 41 := by exact_mod_cast Nat.lt_succ_iff.mp hk
      rw [hstep, mul_one]
      exact ⟨by linarith, l_false_low hfit input hin hout ho hi _ (by linarith)⟩)
    (by
      intro k hk
      have hk2 : (k : ℝ) ≤ 10 := by exact_mod_cast Nat.lt_succ_iff.mp hk
      have hk0 : (0 : ℝ) ≤ (k : ℝ) := Nat.cast_nonneg k
      rw [hstep, mul_one]
      push_cast
      exact ⟨by linarith, l_true hfit input hin hout ho hi _ (by linarith) (by linarith)⟩)
    (by
      rw [hstep, mul_one]
      push_cast
      exact ⟨by norm_num, l_false_high hfit input hin hout ho hi _ (by norm_num)⟩)
    (by
      rw [scanStep_close_append input _ _ _ [] (by rw [hstep]; norm_num)
        (by rw [hstep, hmin]; norm_num) (by intro back hb; simp at hb)]
      simp only [hstep, List.nil_append]
      norm_num)]
  rw [scanLoop_run_false Real.sqrt _ line input 97 (by rw [hmin]; norm_num) _ 41 r _
    (by
      intro k hk
      have hk2 : (k : ℝ) ≤ 40 := by exact_mod_cast Nat.lt_succ_iff.mp hk
      have hk0 : (0 : ℝ) ≤ (k : ℝ) := Nat.cast_nonneg k
      rw [hstep, mul_one, mul_one]
      push_cast
      exact ⟨by linarith, l_false_high hfit input hin hout ho hi _ (by linarith)⟩)]
  apply scanLoop_done
  rw [hstep]
  norm_num

/-- The search of the second loop of `findCorners` on the section `{45, 55}`
of the L-shaped stroke ends at the bend. -/
theorem l_best (hfit : Fitted lPath 100 line) (c : ℝ) (hc : 0 < c) (r : Nat) :
    bestPointLoop line ⟨20 * c, -(20 * c)⟩ (55 + 20) (25 + 1 + (25 + r)) (45 - 20)
      (1 / 2 * (45 + 55)) (-FLT_MAX) = some 50 := by
  have hA : (0 : ℝ) < ME_A_LOT := ME_A_LOT_pos
  have hF := FLT_MAX_large (F := ℝ)
  rw [bestPointLoop_run_up line _ _ lPath 25 (25 + r) _ _ _
    (by
      intro k hk
      have hk2 : (k : ℝ) ≤ 25 := by exact_mod_cast Nat.lt_succ_iff.mp hk
      have hk0 : (0 : ℝ) ≤ (k : ℝ) := Nat.cast_nonneg k
      exact ⟨by linarith, hfit.point _ (by linarith) (by linarith)⟩)
    (by
      rw [lPath_low _ (by norm_num) (by norm_num)]
      simp only [Vector2.dot]
      nlinarith)
    (by
      intro k hk
      have hk2 : (k : ℝ) ≤ 24 := by exact_mod_cast Nat.lt_succ_iff.mp hk
      have hk0 : (0 : ℝ) ≤ (k : ℝ) := Nat.cast_nonneg k
      rw [lPath_low _ (by linarith) (by linarith), lPath_low _ (by linarith) (by linarith)]
      simp only [Vector2.dot]
      nlinarith)]
  rw [bestPointLoop_run_flat line _ _ lPath _ _ 25 r _
    (by
      intro k hk
      have hk2 : (k : ℝ) ≤ 24 := by exact_mod_cast Nat.lt_succ_iff.mp hk
      have hk0 : (0 : ℝ) ≤ (k : ℝ) := Nat.cast_nonneg k
      push_cast
      refine ⟨by linarith, hfit.point _ (by linarith) (by linarith), ?_⟩
      rw [lPath_high _ (by linarith), lPath_low _ (by norm_num) (by norm_num)]
      simp only [Vector2.dot]
      nlinarith)]
  rw [bestPointLoop_done _ _ _ _ _ _ _ (by push_cast; norm_num)]
  norm_num

theorem norm_twenty_x : Vector2.norm Real.sqrt (⟨20, 0⟩ : Vector2 ℝ) = 20 := by
  unfold Vector2.norm Vector2.norm2
  rw [show (20 : ℝ) * 20 + 0 * 0 = 20 ^ 2 by norm_num, Real.sqrt_sq (by norm_num)]

theorem norm_twenty_y : Vector2.norm Real.sqrt (⟨0, 20⟩ : Vector2 ℝ) = 20 := by
  unfold Vector2.norm Vector2.norm2
  rw [show (0 : ℝ) * 0 + 20 * 20 = 20 ^ 2 by norm_num, Real.sqrt_sq (by norm_num)]

/-- The corner of the L-shaped stroke that `findCorners` reports for the
section `{45, 55}`: the bend. -/
theorem l_reduce (hfit : Fitted lPath 100 line) (input : CornersInput ℝ)
    (hin : input.innerInterMeasurementFactor = 1) (hout : input.outerInterMeasurementFactor = 2)
    (r : Nat) :
    reduceCorner Real.sqrt (25 + 1 + (25 + r)) line input { start := 45, end_ := 55 } =
      some { start := 50, end_ := 50 } := by
  have hm : (0 : ℝ) < FLT_MIN := FLT_MIN_pos
  have hm1 : (FLT_MIN : ℝ) ≤ 1 := by
    unfold FLT_MIN
    rw [div_le_one (by positivity)]
    exact one_le_pow₀ (by norm_num)
  have hc : (0 : ℝ) < 1 / (20 + FLT_MIN) := by positivity
  have hc2 : (1 : ℝ) / 21 ≤ 1 / (20 + FLT_MIN) :=
    one_div_le_one_div_of_le (by positivity) (by linarith)
  refine reduceCorner_eval hfit (by norm_num) input hin hout _ _ ⟨20, 0⟩ ⟨0, 20⟩
    ⟨20 * (1 / (20 + FLT_MIN)), -(20 * (1 / (20 + FLT_MIN)))⟩ 50
    (l_secant_low hfit _ (by norm_num)) (l_secant_high hfit _ (by norm_num)) ?_ ?_
    (l_best hfit _ hc r)
  · rw [(normalized_scale _).1, (normalized_scale _).1, norm_twenty_x, norm_twenty_y]
    ext <;> simp
  · simp only [Vector2.norm2, ME_EPSILON2, ME_EPSILON]
    have : (1 : ℝ) / 10 ^ 6 * (1 / 10 ^ 6) < 1 / 21 * (1 / 21) := by norm_num
    nlinarith

/-- `findCorners` on the L-shaped stroke with step 1 and a minimum run length
of 2: the single corner `{50, 50}`, for every fuel from 95 on. -/
theorem l_findCorners (hfit : Fitted lPath 100 line) (input : CornersInput ℝ)
    (hin : input.innerInterMeasurementFactor = 1) (hout : input.outerInterMeasurementFactor = 2)
    (ho : input.outerMaxAngleInDeg = 25) (hi : input.innerMinAngleInDeg = 45)
    (hstep : input.tStep = 1) (hmin : input.minNumberTestPositivesInSeries = 2)
    (fuel : Nat) (hf : 95 ≤ fuel) :
    findCornerSections Real.sqrt (fun y x => Complex.arg ⟨x, y⟩) (fun x => ((⌈x⌉ : ℤ) : ℝ))
      fuel line input = some [{ start := 45, end_ := 55 }] ∧
    findCorners Real.sqrt (fun y x => Complex.arg ⟨x, y⟩) (fun x => ((⌈x⌉ : ℤ) : ℝ)) fuel line
      input = some [{ start := 50, end_ := 50 }] := by
  have hsec : findCornerSections Real.sqrt (fun y x => Complex.arg ⟨x, y⟩)
      (fun x => ((⌈x⌉ : ℤ) : ℝ)) fuel line input = some [{ start := 45, end_ := 55 }] := by
    obtain ⟨r, rfl⟩ : ∃ r, fuel = 42 + (10 + 1 + ((41 + r) + 1)) := ⟨fuel - 95, by omega⟩
    have h := findCornerSections_of_scan Real.sqrt (fun y x => Complex.arg ⟨x, y⟩)
      (fun x => ((⌈x⌉ : ℤ) : ℝ)) (42 + (10 + 1 + ((41 + r) + 1))) line input
      { cornerSection := Range.new, result := [{ start := 45, end_ := 55 }] }
      (by
        rw [hfit.clip, cornerMargin_eq_three input hin hout]
        simp only
        rw [show (100 : ℝ) - 3 = 97 by norm_num, show (0 : ℝ) + 3 = 3 by norm_num]
        exact l_scan_unit hfit input hin hout ho hi hstep hmin r)
    exact h
  refine ⟨hsec, ?_⟩
  rw [findCorners_of_sections _ _ _ _ _ _ _ hsec]
  obtain ⟨r, rfl⟩ : ∃ r, fuel = 25 + 1 + (25 + r) := ⟨fuel - 51, by omega⟩
  simp only [reduceCorners, l_reduce hfit input hin hout r]

end CornerStrokeRuns

section CornerStrokeBuild

theorem CurveInv.with_last {F : Type} [LinearOrderedField F] {path : F → Vector2 F} {L : F}
    {ks : List F} {line : FreeformLine F} (hinv : CurveInv path L ks line) :
    CurveInv path L (L :: ks) line :=
  ⟨hinv.sorted, hinv.shape, hinv.head, hinv.val,
    fun k hk => by
      rcases List.mem_cons.mp hk with h | h
      · rw [h]
        exact hinv.has_last
      · exact hinv.has k h,
    hinv.len, hinv.spread⟩

theorem ME_A_LOT_large {F : Type} [LinearOrderedField F] : (1000 : F) < ME_A_LOT := by
  unfold ME_A_LOT
  norm_num

/-- Building the first leg of the unit-sampled L-shaped stroke. -/
theorem build_l_first_leg : ∀ n : Nat, n ≤ 50 →
    ∃ line, FreeformLine.build Real.sqrt
        ((List.range (n + 1)).map (fun i : Nat => (⟨(i : ℝ), 0⟩ : Vector2 ℝ))) = some line ∧
      CurveInv lPath (n : ℝ) [] line := by
  have hA := ME_A_LOT_large (F := ℝ)
  intro n
  induction n with
  | zero =>
    intro _
    refine ⟨_, build_single Real.sqrt _, ?_⟩
    have h := CurveInv_single (lPath : ℝ → Vector2 ℝ)
    rw [lPath_nonpos (0 : ℝ) (le_refl _)] at h
    simpa using h
  | succ m ih =>
    intro hm
    obtain ⟨line, hb, hinv⟩ := ih (by omega)
    have hm2 : (m : ℝ) ≤ 49 := by exact_mod_cast Nat.lt_succ_iff.mp hm
    have hm0 : (0 : ℝ) ≤ (m : ℝ) := Nat.cast_nonneg m
    rw [List.range_succ, List.map_append, List.map_singleton, build_snoc, hb]
    simp only [Option.some_bind]
    obtain ⟨next, hadd, hnext⟩ := CurveInv_step Real.sqrt lPath (m : ℝ) 1 [] line
      ⟨((m + 1 : Nat) : ℝ), 0⟩ hinv (by norm_num)
      (by
        rw [lPath_low _ hm0 (by linarith), distTo_axis]
        push_cast
        norm_num)
      (by
        rw [lPath_low _ (by linarith) (by linarith)]
        push_cast
        rfl)
      (by linarith)
    refine ⟨next, hadd, ?_⟩
    have hcast : ((m + 1 : Nat) : ℝ) = (m : ℝ) + 1 := by push_cast; rfl
    rw [hcast]
    exact hnext.mono (by simp)

/-- Building the unit-sampled L-shaped stroke up to the `m`-th sample of its
second leg. -/
theorem build_l_second_leg : ∀ m : Nat, m ≤ 50 →
    ∃ line, FreeformLine.build Real.sqrt
        ((List.range 51).map (fun i : Nat => (⟨(i : ℝ), 0⟩ : Vector2 ℝ)) ++
          (List.range m).map (fun i : Nat => (⟨50, (i : ℝ) + 1⟩ : Vector2 ℝ))) = some line ∧
      CurveInv lPath (50 + (m : ℝ)) [50] line := by
  have hA := ME_A_LOT_large (F := ℝ)
  intro m
  induction m with
  | zero =>
    intro _
    obtain ⟨line, hb, hinv⟩ := build_l_first_leg 50 (le_refl _)
    refine ⟨line, by simpa using hb, ?_⟩
    have h := hinv.with_last
    simpa using h
  | succ k ih =>
    intro hk
    obtain ⟨line, hb, hinv⟩ := ih (by omega)
    have hk2 : (k : ℝ) ≤ 49 := by exact_mod_cast Nat.lt_succ_iff.mp hk
    have hk0 : (0 : ℝ) ≤ (k : ℝ) := Nat.cast_nonneg k
    rw [show List.range (k + 1) = List.range k ++ [k] from List.range_succ k,
      List.map_append, List.map_singleton, ← List.append_assoc, build_snoc, hb]
    simp only [Option.some_bind]
    obtain ⟨next, hadd, hnext⟩ := CurveInv_step Real.sqrt lPath (50 + (k : ℝ)) 1 [50] line
      ⟨50, (k : ℝ) + 1⟩ hinv (by norm_num)
      (by
        rw [lPath_high _ (by linarith), distTo_axis_y]
        rw [show (k : ℝ) + 1 - (50 + (k : ℝ) - 50) = 1 by ring]
        norm_num)
      (by
        rw [lPath_high _ (by linarith)]
        ext <;> simp
        ring)
      (by linarith)
    refine ⟨next, hadd, ?_⟩
    have hcast : (50 : ℝ) + ((k + 1 : Nat) : ℝ) = 50 + (k : ℝ) + 1 := by push_cast; ring
    rw [hcast]
    exact hnext.mono (by simp)

/-- The unit-sampled L-shaped stroke builds, and its map holds the bend. -/
theorem build_lStroke :
    ∃ line, FreeformLine.build Real.sqrt (lStrokePoints : List (Vector2 ℝ)) = some line ∧
      CurveInv lPath 100 [50] line := by
  obtain ⟨line, hb, hinv⟩ := build_l_second_leg 50 (le_refl _)
  refine ⟨line, hb, ?_⟩
  have h : (50 : ℝ) + ((50 : Nat) : ℝ) = 100 := by norm_num
  rw [h] at hinv
  exact hinv

/-- The L-shaped stroke given by its three vertices builds, and its map holds
the bend. -/
theorem build_lVertices :
    ∃ line, FreeformLine.build Real.sqrt [⟨0, 0⟩, ⟨50, 0⟩, ⟨50, 50⟩] = some line ∧
      CurveInv lPath 100 [50] line := by
  have hA := ME_A_LOT_large (F := ℝ)
  have h0 := CurveInv_single (lPath : ℝ → Vector2 ℝ)
  rw [lPath_nonpos (0 : ℝ) (le_refl _)] at h0
  obtain ⟨l1, hadd1, hinv1⟩ := CurveInv_step Real.sqrt lPath 0 50 [] _ ⟨50, 0⟩ h0 (by norm_num)
    (by
      rw [lPath_nonpos (0 : ℝ) (le_refl _), distTo_axis]
      norm_num)
    (by
      rw [lPath_low _ (by norm_num) (by norm_num)]
      ext <;> simp)
    (by linarith)
  rw [show (0 : ℝ) + 50 = 50 by norm_num] at hinv1
  obtain ⟨l2, hadd2, hinv2⟩ := CurveInv_step Real.sqrt lPath 50 50 _ l1 ⟨50, 50⟩ hinv1
    (by norm_num)
    (by
      rw [lPath_low _ (by norm_num) (by norm_num), distTo_axis_y]
      norm_num)
    (by
      rw [lPath_high _ (by norm_num)]
      ext <;> simp)
    (by linarith)
  rw [show (50 : ℝ) + 50 = 100 by norm_num] at hinv2
  refine ⟨l2, ?_, hinv2.mono (by simp)⟩
  have hb := build_snoc Real.sqrt [(⟨0, 0⟩ : Vector2 ℝ), ⟨50, 0⟩] ⟨50, 50⟩
  have hb1 := build_snoc Real.sqrt [(⟨0, 0⟩ : Vector2 ℝ)] ⟨50, 0⟩
  rw [build_single] at hb1
  simp only [List.cons_append, List.nil_append, Option.some_bind] at hb1 hb
  rw [hb, hb1, hadd1]
  simp only [Option.some_bind]
  exact hadd2

end CornerStrokeBuild

section CornerStrokePipeline

/-- The markers of the L-shaped stroke: the two legs as segments and the bend
as a corner. -/
theorem l_markers (ks : List ℝ) (line : FreeformLine ℝ) (hinv : CurveInv lPath 100 ks line)
    (h50 : (50 : ℝ) ∈ ks) (input : ProcessingInput ℝ)
    (hin : input.corners.innerInterMeasurementFactor = 1)
    (hout : input.corners.outerInterMeasurementFactor = 2)
    (ho : input.corners.outerMaxAngleInDeg = 25) (hi : input.corners.innerMinAngleInDeg = 45)
    (hstep : input.corners.tStep = 1)
    (hmin : input.corners.minNumberTestPositivesInSeries = 2)
    (hsstep : 0 < input.segments.tStep) (href : 0 < input.segments.referenceSegmentLength) :
    ∃ N : Nat, ∀ fuel, N ≤ fuel →
      findCornersAndSegments Real.sqrt (fun y x => Complex.arg ⟨x, y⟩)
        (fun x => ((⌈x⌉ : ℤ) : ℝ)) fuel input line =
        some (line.setBounds { start := 0, end_ := line.length },
          [{ start := 0, end_ := 50 }, { start := 50, end_ := 50 },
           { start := 50, end_ := 100 }]) := by
  have hA : (0 : ℝ) < ME_A_LOT := ME_A_LOT_pos
  have hfit := l_fitted ks line hinv h50
  have hlen : (line.setBounds { start := 0, end_ := line.length }).length = 100 := hfit.len
  obtain ⟨N1, h1⟩ := isSegment_on_chord (line.setBounds { start := 0, end_ := line.length })
    0 50 ⟨0, 0⟩ ⟨1, 0⟩ input.segments hsstep href (by norm_num)
    (fun t ht0 ht1 => by
      rw [hfit.point t (by linarith) (by linarith), lPath_low t ht0 ht1]
      congr 1
      ext <;> simp)
  obtain ⟨N2, h2⟩ := isSegment_on_chord (line.setBounds { start := 0, end_ := line.length })
    50 100 ⟨50, -50⟩ ⟨0, 1⟩ input.segments hsstep href (by norm_num)
    (fun t ht0 ht1 => by
      rw [hfit.point t (by linarith) ht1, lPath_high t ht0]
      congr 1
      ext <;> simp
      ring)
  refine ⟨max 95 (max N1 N2), fun fuel hf => ?_⟩
  have hf95 : 95 ≤ fuel := le_trans (le_max_left _ _) hf
  have hf1 : N1 ≤ fuel := le_trans (le_trans (le_max_left _ _) (le_max_right _ _)) hf
  have hf2 : N2 ≤ fuel := le_trans (le_trans (le_max_right _ _) (le_max_right _ _)) hf
  have hc := (l_findCorners hfit input.corners hin hout ho hi hstep hmin fuel hf95).2
  have hgap : (ME_MAX_SPLINE_GAP : ℝ) < 50 := by unfold ME_MAX_SPLINE_GAP; norm_num
  have hseg : segmentLoop Real.sqrt fuel (line.setBounds { start := 0, end_ := line.length })
      input.segments
      ([{ start := 50, end_ := 50 }] ++
        [{ start := (line.setBounds { start := 0, end_ := line.length }).length,
           end_ := (line.setBounds { start := 0, end_ := line.length }).length }])
      0 [] = some [{ start := 0, end_ := 50 }, { start := 50, end_ := 100 }] := by
    rw [hlen]
    simp only [List.singleton_append, segmentLoop]
    rw [Range.length_of_le (0 : ℝ) 50 (by norm_num), sub_zero, if_pos hgap, h1 fuel hf1]
    simp only
    rw [Range.length_of_le (50 : ℝ) 100 (by norm_num),
      if_pos (by rw [show (100 : ℝ) - 50 = 50 by norm_num]; exact hgap), h2 fuel hf2]
    simp
  rw [findCornersAndSegments_of_parts _ _ _ _ _ _ _ _ hc hseg]
  congr 2
  simp only [sortRanges, List.singleton_append, List.insertionSort, List.orderedInsert,
    Range.isLess]
  norm_num

/-- The spline of the L-shaped stroke: the two legs as segments meeting at
the bend, and the bend as the only corner point. -/
theorem l_spline (ks : List ℝ) (line : FreeformLine ℝ) (hinv : CurveInv lPath 100 ks line)
    (h50 : (50 : ℝ) ∈ ks) (input : ProcessingInput ℝ)
    (hin : input.corners.innerInterMeasurementFactor = 1)
    (hout : input.corners.outerInterMeasurementFactor = 2)
    (ho : input.corners.outerMaxAngleInDeg = 25) (hi : input.corners.innerMinAngleInDeg = 45)
    (hstep : input.corners.tStep = 1)
    (hmin : input.corners.minNumberTestPositivesInSeries = 2)
    (hsstep : 0 < input.segments.tStep) (href : 0 < input.segments.referenceSegmentLength) :
    ∃ N : Nat, ∀ fuel, N ≤ fuel →
      ∀ (convert : FreeformLine ℝ → BiarcsInput ℝ → List (Biarc ℝ)) (old : ProcessingInput ℝ)
        (shapes : List (Option (SplineElement ℝ))) (corners : List (Vector2 ℝ)),
        recreateSpline Real.sqrt (fun y x => Complex.arg ⟨x, y⟩) (fun x => ((⌈x⌉ : ℤ) : ℝ))
          convert fuel
          { sourceLine := line, processingInput := old, displayShapes := shapes,
            debugCorners := corners } (some input) =
        some { sourceLine := line, processingInput := input
               displayShapes := [some (SplineElement.segment ⟨0, 0⟩ ⟨50, 0⟩ (-1)),
                                 some (SplineElement.segment ⟨50, 0⟩ ⟨50, 50⟩ (-1))]
               debugCorners := [⟨50, 0⟩] } := by
  have hA : (0 : ℝ) < ME_A_LOT := ME_A_LOT_pos
  have hfit := l_fitted ks line hinv h50
  have hlen : (line.setBounds { start := 0, end_ := line.length }).length = 100 := hfit.len
  have hp0 : (line.setBounds { start := 0, end_ := line.length }).getPointAt 0 =
      some ⟨0, 0⟩ := by
    rw [hfit.point 0 (by linarith) (by norm_num), lPath_nonpos 0 (le_refl _)]
  have hp50 : (line.setBounds { start := 0, end_ := line.length }).getPointAt 50 =
      some ⟨50, 0⟩ := by
    rw [hfit.point 50 (by linarith) (by norm_num), lPath_low 50 (by norm_num) (le_refl _)]
  have hp100 : (line.setBounds { start := 0, end_ := line.length }).getPointAt 100 =
      some ⟨50, 50⟩ := by
    rw [hfit.point 100 (by linarith) (le_refl _), lPath_high 100 (by norm_num)]
    norm_num
  have hl1 : ({ start := 0, end_ := 50 } : Range ℝ).length = 50 := by
    rw [Range.length_of_le _ _ (by norm_num)]
    norm_num
  have hl2 : ({ start := 50, end_ := 50 } : Range ℝ).length = 0 := by
    rw [Range.length_of_le _ _ (le_refl _)]
    norm_num
  have hl3 : ({ start := 50, end_ := 100 } : Range ℝ).length = 50 := by
    rw [Range.length_of_le _ _ (by norm_num)]
    norm_num
  obtain ⟨N, hN⟩ := l_markers ks line hinv h50 input hin hout ho hi hstep hmin hsstep href
  refine ⟨N, fun fuel hf convert old shapes corners => ?_⟩
  have hgen := generate_contiguous Real.sqrt (fun y x => Complex.arg ⟨x, y⟩) convert
    { line := line.setBounds { start := 0, end_ := line.length }, processingInput := input
      markers := [{ start := 0, end_ := 50 }, { start := 50, end_ := 50 },
        { start := 50, end_ := 100 }]
      outCorners := [], outDisplayShapes := [] }
    (by
      simp only [hlen, List.cons_append, List.nil_append, List.chain_cons, List.Chain.nil,
        and_true]
      refine ⟨?_, ?_, ?_, ?_⟩ <;>
      · rw [Range.length_of_le _ _ (le_refl _)]
        unfold ME_MAX_SPLINE_GAP
        norm_num)
    (by
      intro s hs
      simp only [List.mem_cons, List.mem_singleton, List.not_mem_nil, or_false] at hs
      rcases hs with h | h | h <;> subst h
      · exact ⟨fun _ => ⟨⟨_, hp0⟩, ⟨_, hp50⟩⟩, fun _ => ⟨_, hp0⟩⟩
      · exact ⟨fun _ => ⟨⟨_, hp50⟩, ⟨_, hp50⟩⟩, fun _ => ⟨_, hp50⟩⟩
      · exact ⟨fun _ => ⟨⟨_, hp50⟩, ⟨_, hp100⟩⟩, fun _ => ⟨_, hp50⟩⟩)
  have hg : (50 : ℝ) > ME_MAX_SPLINE_GAP := by unfold ME_MAX_SPLINE_GAP; norm_num
  have hg0 : ¬ (0 : ℝ) > ME_MAX_SPLINE_GAP := by unfold ME_MAX_SPLINE_GAP; norm_num
  simp only [List.filterMap_cons, List.filterMap_nil, markerCorner, markerShape, hl1, hl2, hl3,
    if_pos hg, if_neg hg0, hp0, hp50, hp100, List.nil_append, SplineElement.newSegment] at hgen
  norm_num at hgen
  rw [recreateSpline_of_parts Real.sqrt _ _ convert fuel _ (some input) _ _ _
    (by simpa using hN fuel hf) (by simpa using hgen)]

end CornerStrokePipeline

section CornerStrokeHalfStep

variable {line : FreeformLine ℝ}

/-- The scan of the L-shaped stroke with step 1/2 and a minimum run length of
20: the run of the 23 positions 44.5, 45, ..., 55.5 is dropped. -/
theorem l_scan_half (hfit : Fitted lPath 100 line) (input : CornersInput ℝ)
    (hin : input.innerInterMeasurementFactor = 1) (hout : input.outerInterMeasurementFactor = 2)
    (ho : input.outerMaxAngleInDeg = 25) (hi : input.innerMinAngleInDeg = 45)
    (hstep : input.tStep = 1 / 2) (hmin : input.minNumberTestPositivesInSeries = 20)
    (r : Nat) :
    scanLoop Real.sqrt (fun y x => Complex.arg ⟨x, y⟩) line input 97
        (83 + (22 + 1 + ((82 + r) + 1))) 3 { cornerSection := Range.new, result := [] } =
      some { cornerSection := Range.new, result := [] } := by
  have hF := FLT_MAX_large (F := ℝ)
  rw [scanLoop_block Real.sqrt _ line input 97 (by rw [hstep]; norm_num) (by rw [hmin]; norm_num)
    [] { cornerSection := Range.new, result := [] } 83 22 (82 + r) 3
    (by rw [hstep]; norm_num; linarith) (by rw [hstep]; norm_num; linarith)
    (by
      intro k hk
      have hk2 : (k : ℝ) ≤ 82 := by exact_mod_cast Nat.lt_succ_iff.mp hk
      rw [hstep]
      exact ⟨by linarith, l_false_low hfit input hin hout ho hi _ (by linarith)⟩)
    (by
      intro k hk
      have hk2 : (k : ℝ) ≤ 22 := by exact_mod_cast Nat.lt_succ_iff.mp hk
      have hk0 : (0 : ℝ) ≤ (k : ℝ) := Nat.cast_nonneg k
      rw [hstep]
      push_cast
      exact ⟨by linarith, l_true hfit input hin hout ho hi _ (by linarith) (by linarith)⟩)
    (by
      rw [hstep]
      push_cast
      exact ⟨by norm_num, l_false_high hfit input hin hout ho hi _ (by norm_num)⟩)
    (by
      rw [scanStep_close_drop input _ _ _ [] (by rw [hstep]; norm_num)
        (by rw [hstep, hmin]; norm_num)])]
  rw [scanLoop_run_false Real.sqrt _ line input 97 (by rw [hmin]; norm_num) _ 82 r _
    (by
      intro k hk
      have hk2 : (k : ℝ) ≤ 81 := by exact_mod_cast Nat.lt_succ_iff.mp hk
      have hk0 : (0 : ℝ) ≤ (k : ℝ) := Nat.cast_nonneg k
      rw [hstep]
      push_cast
      exact ⟨by linarith, l_false_high hfit input hin hout ho hi _ (by linarith)⟩)]
  apply scanLoop_done
  rw [hstep]
  norm_num

end CornerStrokeHalfStep

section HairpinLemmas

theorem hairpinPath_nonpos {F : Type} [LinearOrderedField F] (s : F) (h : s ≤ 0) :
    hairpinPath s = ⟨0, 0⟩ := by
  unfold hairpinPath
  rw [max_eq_right h, min_eq_left (by norm_num), max_eq_right (by linarith),
    min_eq_left (by norm_num), max_eq_right (by linarith), min_eq_left (by norm_num),
    max_eq_right (by linarith)]
  ext <;> simp

theorem hairpinPath_a {F : Type} [LinearOrderedField F] (s : F) (h0 : 0 ≤ s) (h : s ≤ 12) :
    hairpinPath s = ⟨s, 0⟩ := by
  unfold hairpinPath
  rw [max_eq_left h0, min_eq_left h, max_eq_right (by linarith), min_eq_left (by norm_num),
    max_eq_right (by linarith), min_eq_left (by norm_num), max_eq_right (by linarith)]
  ext <;> simp

theorem hairpinPath_b {F : Type} [LinearOrderedField F] (s : F) (h0 : 12 ≤ s) (h : s ≤ 16) :
    hairpinPath s = ⟨12, s - 12⟩ := by
  unfold hairpinPath
  rw [max_eq_left (by linarith), min_eq_right h0, max_eq_right (by linarith),
    min_eq_left (by norm_num), max_eq_left (by linarith), min_eq_left (by linarith),
    max_eq_right (by linarith)]
  ext <;> simp

theorem hairpinPath_c {F : Type} [LinearOrderedField F] (s : F) (h0 : 16 ≤ s) (h : s ≤ 32) :
    hairpinPath s = ⟨28 - s, 4⟩ := by
  unfold hairpinPath
  rw [max_eq_left (by linarith), min_eq_right (by linarith), max_eq_left (by linarith),
    min_eq_left (by linarith), max_eq_left (by linarith), min_eq_right (by linarith),
    max_eq_right (by linarith)]
  ext <;> simp
  ring

theorem hairpinPath_d {F : Type} [LinearOrderedField F] (s : F) (h0 : 32 ≤ s) :
    hairpinPath s = ⟨-4, s - 28⟩ := by
  unfold hairpinPath
  rw [max_eq_left (by linarith), min_eq_right (by linarith), max_eq_left (by linarith),
    min_eq_right (by linarith), max_eq_left (by linarith), min_eq_right (by linarith),
    max_eq_left (by linarith)]
  ext <;> simp
  · norm_num
  · ring

theorem distTo_horizontal (y a c : ℝ) :
    Vector2.distTo Real.sqrt ⟨a, y⟩ ⟨c, y⟩ = |c - a| := by
  unfold Vector2.distTo Vector2.norm Vector2.norm2
  simp only [Vector2.sub_x, Vector2.sub_y, sub_self, mul_zero, add_zero]
  rw [show (a - c) * (a - c) = (c - a) ^ 2 by ring]
  exact Real.sqrt_sq_eq_abs _

/-- The hairpin stroke builds, and its map holds the three inner vertices. -/
theorem build_hairpin :
    ∃ line, FreeformLine.build Real.sqrt [⟨0, 0⟩, ⟨12, 0⟩, ⟨12, 4⟩, ⟨-4, 4⟩, ⟨-4, 14⟩] =
        some line ∧ CurveInv hairpinPath 42 [12, 16, 32] line := by
  have hA := ME_A_LOT_large (F := ℝ)
  have h0 := CurveInv_single (hairpinPath : ℝ → Vector2 ℝ)
  rw [hairpinPath_nonpos (0 : ℝ) (le_refl _)] at h0
  obtain ⟨l1, hadd1, hinv1⟩ := CurveInv_step Real.sqrt hairpinPath 0 12 [] _ ⟨12, 0⟩ h0
    (by norm_num)
    (by rw [hairpinPath_nonpos (0 : ℝ) (le_refl _), distTo_axis]; norm_num)
    (by rw [hairpinPath_a _ (by norm_num) (by norm_num)]; ext <;> simp)
    (by linarith)
  rw [show (0 : ℝ) + 12 = 12 by norm_num] at hinv1
  obtain ⟨l2, hadd2, hinv2⟩ := CurveInv_step Real.sqrt hairpinPath 12 4 _ l1 ⟨12, 4⟩ hinv1
    (by norm_num)
    (by rw [hairpinPath_a _ (by norm_num) (by norm_num), distTo_axis_y]; norm_num)
    (by rw [hairpinPath_b _ (by norm_num) (by norm_num)]; ext <;> simp)
    (by linarith)
  rw [show (12 : ℝ) + 4 = 16 by norm_num] at hinv2
  obtain ⟨l3, hadd3, hinv3⟩ := CurveInv_step Real.sqrt hairpinPath 16 16 _ l2 ⟨-4, 4⟩ hinv2
    (by norm_num)
    (by
      rw [hairpinPath_b _ (by norm_num) (by norm_num), show (16 : ℝ) - 12 = 4 by norm_num,
        distTo_horizontal]
      norm_num)
    (by rw [hairpinPath_c _ (by norm_num) (by norm_num)]; ext <;> simp; norm_num)
    (by linarith)
  rw [show (16 : ℝ) + 16 = 32 by norm_num] at hinv3
  obtain ⟨l4, hadd4, hinv4⟩ := CurveInv_step Real.sqrt hairpinPath 32 10 _ l3 ⟨-4, 14⟩ hinv3
    (by norm_num)
    (by
      rw [hairpinPath_c _ (by norm_num) (by norm_num), show (28 : ℝ) - 32 = -4 by norm_num,
        distTo_axis_y]
      norm_num)
    (by rw [hairpinPath_d _ (by norm_num)]; ext <;> simp; norm_num)
    (by linarith)
  rw [show (32 : ℝ) + 10 = 42 by norm_num] at hinv4
  refine ⟨l4, ?_, hinv4.mono (by simp)⟩
  have hb1 := build_snoc Real.sqrt [(⟨0, 0⟩ : Vector2 ℝ)] ⟨12, 0⟩
  have hb2 := build_snoc Real.sqrt [(⟨0, 0⟩ : Vector2 ℝ), ⟨12, 0⟩] ⟨12, 4⟩
  have hb3 := build_snoc Real.sqrt [(⟨0, 0⟩ : Vector2 ℝ), ⟨12, 0⟩, ⟨12, 4⟩] ⟨-4, 4⟩
  have hb4 := build_snoc Real.sqrt [(⟨0, 0⟩ : Vector2 ℝ), ⟨12, 0⟩, ⟨12, 4⟩, ⟨-4, 4⟩] ⟨-4, 14⟩
  rw [build_single] at hb1
  simp only [List.cons_append, List.nil_append, Option.some_bind] at hb1 hb2 hb3 hb4
  rw [hb4, hb3, hb2, hb1, hadd1]
  simp only [Option.some_bind, hadd2, hadd3]
  exact hadd4

/-- The points of the hairpin stroke after the bounds are set to the full
length. -/
theorem hairpin_fitted {F : Type} [LinearOrderedField F] (ks : List F) (line : FreeformLine F)
    (hinv : CurveInv hairpinPath 42 ks line) (h12 : (12 : F) ∈ ks) (h16 : (16 : F) ∈ ks)
    (h32 : (32 : F) ∈ ks) :
    Fitted hairpinPath 42 (line.setBounds { start := 0, end_ := line.length }) := by
  apply hinv.fitted (by norm_num)
  intro t h1 h2
  rcases lt_or_le t 0 with h | h
  · rw [hinv.getPointAt_before t h1 h, hairpinPath_nonpos t h.le,
      hairpinPath_nonpos 0 (le_refl _)]
  rcases lt_or_le t 12 with ha | ha
  · exact hinv.getPointAt_piece 0 12 t ⟨0, 0⟩ ⟨1, 0⟩ hinv.has_zero (hinv.has 12 h12)
      (le_refl _) (by norm_num)
      (fun s hs0 hs1 => by rw [hairpinPath_a s hs0 hs1]; ext <;> simp) h ha
  rcases lt_or_le t 16 with hb | hb
  · exact hinv.getPointAt_piece 12 16 t ⟨12, -12⟩ ⟨0, 1⟩ (hinv.has 12 h12) (hinv.has 16 h16)
      (by norm_num) (by norm_num)
      (fun s hs0 hs1 => by
        rw [hairpinPath_b s hs0 hs1]
        ext <;> simp
        ring) ha hb
  rcases lt_or_le t 32 with hc | hc
  · exact hinv.getPointAt_piece 16 32 t ⟨28, 4⟩ ⟨-1, 0⟩ (hinv.has 16 h16) (hinv.has 32 h32)
      (by norm_num) (by norm_num)
      (fun s hs0 hs1 => by
        rw [hairpinPath_c s hs0 hs1]
        ext <;> simp
        ring) hb hc
  rcases eq_or_lt_of_le h2 with h4 | h4
  · rw [h4]
    exact hinv.getPointAt_last
  · exact hinv.getPointAt_piece 32 42 t ⟨-4, -28⟩ ⟨0, 1⟩ (hinv.has 32 h32) hinv.has_last
      (by norm_num) (le_refl _)
      (fun s hs0 _ => by
        rw [hairpinPath_d s hs0]
        ext <;> simp
        ring) hc h4

variable {F : Type} [LinearOrderedField F] {line : FreeformLine F}

theorem hairpin_secant_a (hfit : Fitted hairpinPath 42 line) (s : F) (h : s ≤ 10) :
    tangentSecant hairpinPath line s = ⟨8, 4⟩ := by
  rw [hfit.secant_lo (by norm_num) s h, hairpinPath_c 20 (by norm_num) (by norm_num),
    hairpinPath_nonpos 0 (le_refl _)]
  ext <;> simp
  norm_num

theorem hairpin_secant_b (hfit : Fitted hairpinPath 42 line) (s : F) (h1 : 10 ≤ s)
    (h2 : s ≤ 22) : tangentSecant hairpinPath line s = ⟨28 - 2 * s, 4⟩ := by
  rw [hfit.secant_mid (by norm_num) s h1 (by linarith),
    hairpinPath_c (s + 10) (by linarith) (by linarith),
    hairpinPath_a (s - 10) (by linarith) (by linarith)]
  ext <;> simp
  ring

theorem hairpin_secant_c (hfit : Fitted hairpinPath 42 line) (s : F) (h1 : 22 ≤ s)
    (h2 : s ≤ 26) : tangentSecant hairpinPath line s = ⟨-16, 4⟩ := by
  rw [hfit.secant_mid (by norm_num) s (by linarith) (by linarith),
    hairpinPath_d (s + 10) (by linarith),
    hairpinPath_b (s - 10) (by linarith) (by linarith)]
  ext <;> simp
  · norm_num
  · ring

theorem hairpin_secant_d (hfit : Fitted hairpinPath 42 line) (s : F) (h1 : 26 ≤ s)
    (h2 : s ≤ 32) : tangentSecant hairpinPath line s = ⟨s - 42, s - 22⟩ := by
  rw [hfit.secant_mid (by norm_num) s (by linarith) (by linarith),
    hairpinPath_d (s + 10) (by linarith),
    hairpinPath_c (s - 10) (by linarith) (by linarith)]
  ext <;> simp <;> ring

theorem hairpin_secant_e (hfit : Fitted hairpinPath 42 line) (s : F) (h : 32 ≤ s) :
    tangentSecant hairpinPath line s = ⟨-10, 10⟩ := by
  rw [hfit.secant_hi (by norm_num) s (by linarith), hairpinPath_d 42 (by norm_num),
    hairpinPath_c (42 - 20) (by norm_num) (by norm_num)]
  ext <;> simp <;> norm_num

end HairpinLemmas

section HairpinScan

variable {line : FreeformLine ℝ}

/-- Positions 3 to 4 of the hairpin stroke fail the corner test. -/
theorem hairpin_false_a (hfit : Fitted hairpinPath 42 line) (input : CornersInput ℝ)
    (hin : input.innerInterMeasurementFactor = 1) (hout : input.outerInterMeasurementFactor = 2)
    (ho : input.outerMaxAngleInDeg = 25) (hi : input.innerMinAngleInDeg = 45)
    (t : ℝ) (h1 : 3 ≤ t) (h2 : t ≤ 4) :
    ∃ angles, cornerAngles Real.sqrt (fun y x => Complex.arg ⟨x, y⟩) line input t =
        some angles ∧ isCornerCandidate input angles = false := by
  refine hfit.pos_false_outer2 (by norm_num) input hin hout ho hi t ⟨28 - 2 * (t + 10), 4⟩
    ⟨-10, 10⟩ (hairpin_secant_b hfit _ (by linarith) (by linarith))
    (hairpin_secant_e hfit _ (by linarith)) ?_ ?_
  · simp only [Vector2.dot, Vector2.cross]
    rw [abs_of_nonneg (by linarith)]
    linarith
  · right
    simp only [Vector2.cross]
    intro hc
    linarith

/-- Positions 5 to 9 of the hairpin stroke pass the corner test. -/
theorem hairpin_true_a (hfit : Fitted hairpinPath 42 line) (input : CornersInput ℝ)
    (hin : input.innerInterMeasurementFactor = 1) (hout : input.outerInterMeasurementFactor = 2)
    (ho : input.outerMaxAngleInDeg = 25) (hi : input.innerMinAngleInDeg = 45)
    (t : ℝ) (h1 : 5 ≤ t) (h2 : t ≤ 9) :
    ∃ angles, cornerAngles Real.sqrt (fun y x => Complex.arg ⟨x, y⟩) line input t =
        some angles ∧ isCornerCandidate input angles = true := by
  refine hfit.pos_true_coarse (by norm_num) input hin hout ho hi t ⟨8, 4⟩ ⟨8, 4⟩
    ⟨28 - 2 * (t + 10), 4⟩ ⟨-10, 10⟩
    (hairpin_secant_a hfit _ (by linarith)) (hairpin_secant_a hfit _ (by linarith))
    (hairpin_secant_b hfit _ (by linarith) (by linarith))
    (hairpin_secant_e hfit _ (by linarith)) ?_ ?_ ?_ ?_ ?_ ?_
  · simp only [Vector2.dot]
    norm_num
  · simp only [Vector2.dot, Vector2.cross]
    norm_num
  · simp only [Vector2.dot]
    linarith
  · simp only [Vector2.dot, Vector2.cross]
    rw [abs_le]
    constructor <;> linarith
  · simp only [Vector2.dot]
    linarith
  · right
    simp only [Vector2.cross]
    intro hc
    linarith

/-- Positions 10 to 17 of the hairpin stroke fail the corner test. -/
theorem hairpin_false_b (hfit : Fitted hairpinPath 42 line) (input : CornersInput ℝ)
    (hin : input.innerInterMeasurementFactor = 1) (hout : input.outerInterMeasurementFactor = 2)
    (ho : input.outerMaxAngleInDeg = 25) (hi : input.innerMinAngleInDeg = 45)
    (t : ℝ) (h1 : 10 ≤ t) (h2 : t ≤ 17) :
    ∃ angles, cornerAngles Real.sqrt (fun y x => Complex.arg ⟨x, y⟩) line input t =
        some angles ∧ isCornerCandidate input angles = false := by
  rcases le_total t 12 with ha | ha
  · refine hfit.pos_false_outer2 (by norm_num) input hin hout ho hi t ⟨28 - 2 * (t + 10), 4⟩
      ⟨-10, 10⟩ (hairpin_secant_b hfit _ (by linarith) (by linarith))
      (hairpin_secant_e hfit _ (by linarith)) ?_ ?_
    · simp only [Vector2.dot, Vector2.cross]
      rw [abs_of_nonpos (by linarith)]
      linarith
    · left
      simp only [Vector2.dot]
      intro hc
      linarith
  rcases le_total t 16 with hb | hb
  · refine hfit.pos_false_outer2 (by norm_num) input hin hout ho hi t ⟨-16, 4⟩
      ⟨-10, 10⟩ (hairpin_secant_c hfit _ (by linarith) (by linarith))
      (hairpin_secant_e hfit _ (by linarith)) ?_ ?_
    · simp only [Vector2.dot, Vector2.cross]
      norm_num
    · left
      simp only [Vector2.dot]
      norm_num
  · refine hfit.pos_false_outer2 (by norm_num) input hin hout ho hi t
      ⟨t + 10 - 42, t + 10 - 22⟩ ⟨-10, 10⟩
      (hairpin_secant_d hfit _ (by linarith) (by linarith))
      (hairpin_secant_e hfit _ (by linarith)) ?_ ?_
    · simp only [Vector2.dot, Vector2.cross]
      rw [abs_of_nonpos (by linarith)]
      linarith
    · left
      simp only [Vector2.dot]
      intro hc
      linarith

/-- Positions 18 to 22 of the hairpin stroke pass the corner test. -/
theorem hairpin_true_b (hfit : Fitted hairpinPath 42 line) (input : CornersInput ℝ)
    (hin : input.innerInterMeasurementFactor = 1) (hout : input.outerInterMeasurementFactor = 2)
    (ho : input.outerMaxAngleInDeg = 25) (hi : input.innerMinAngleInDeg = 45)
    (t : ℝ) (h1 : 18 ≤ t) (h2 : t ≤ 22) :
    ∃ angles, cornerAngles Real.sqrt (fun y x => Complex.arg ⟨x, y⟩) line input t =
        some angles ∧ isCornerCandidate input angles = true := by
  rcases le_total t 20 with ha | ha
  · refine hfit.pos_true_coarse (by norm_num) input hin hout ho hi t ⟨8, 4⟩ ⟨8, 4⟩
      ⟨t + 10 - 42, t + 10 - 22⟩ ⟨-10, 10⟩
      (hairpin_secant_a hfit _ (by linarith)) (hairpin_secant_a hfit _ (by linarith))
      (hairpin_secant_d hfit _ (by linarith) (by linarith))
      (hairpin_secant_e hfit _ (by linarith)) ?_ ?_ ?_ ?_ ?_ ?_
    · simp only [Vector2.dot]
      norm_num
    · simp only [Vector2.dot, Vector2.cross]
      norm_num
    · simp only [Vector2.dot]
      linarith
    · simp only [Vector2.dot, Vector2.cross]
      rw [abs_le]
      constructor <;> linarith
    · simp only [Vector2.dot]
      linarith
    · right
      simp only [Vector2.cross]
      intro hc
      linarith
  · refine hfit.pos_true_coarse (by norm_num) input hin hout ho hi t ⟨8, 4⟩
      ⟨28 - 2 * (t + -10), 4⟩ ⟨t + 10 - 42, t + 10 - 22⟩ ⟨-10, 10⟩
      (hairpin_secant_a hfit _ (by linarith))
      (hairpin_secant_b hfit _ (by linarith) (by linarith))
      (hairpin_secant_d hfit _ (by linarith) (by linarith))
      (hairpin_secant_e hfit _ (by linarith)) ?_ ?_ ?_ ?_ ?_ ?_
    · simp only [Vector2.dot]
      linarith
    · simp only [Vector2.dot, Vector2.cross]
      rw [abs_le]
      constructor <;> linarith
    · simp only [Vector2.dot]
      linarith
    · simp only [Vector2.dot, Vector2.cross]
      rw [abs_le]
      constructor <;> linarith
    · simp only [Vector2.dot]
      nlinarith [mul_nonneg (sub_nonneg.mpr h2) (by linarith : (0 : ℝ) ≤ 36 - t)]
    · right
      simp only [Vector2.cross]
      intro hc
      nlinarith [mul_nonneg (sub_nonneg.mpr ha) (sub_nonneg.mpr h2)]

/-- Positions 23 to 39 of the hairpin stroke fail the corner test. -/
theorem hairpin_false_c (hfit : Fitted hairpinPath 42 line) (input : CornersInput ℝ)
    (hin : input.innerInterMeasurementFactor = 1) (hout : input.outerInterMeasurementFactor = 2)
    (ho : input.outerMaxAngleInDeg = 25) (hi : input.innerMinAngleInDeg = 45)
    (t : ℝ) (h1 : 23 ≤ t) (h2 : t ≤ 39) :
    ∃ angles, cornerAngles Real.sqrt (fun y x => Complex.arg ⟨x, y⟩) line input t =
        some angles ∧ isCornerCandidate input angles = false := by
  rcases le_total t 32 with ha | ha
  · refine hfit.pos_false_outer0 (by norm_num) input hin hout ho hi t ⟨8, 4⟩
      ⟨28 - 2 * (t + -10), 4⟩ (hairpin_secant_a hfit _ (by linarith))
      (hairpin_secant_b hfit _ (by linarith) (by linarith)) ?_ ?_
    · simp only [Vector2.dot, Vector2.cross]
      rw [abs_of_nonneg (by linarith)]
      linarith
    · right
      simp only [Vector2.cross]
      intro hc
      linarith
  rcases le_total t 36 with hb | hb
  · refine hfit.pos_false_outer0 (by norm_num) input hin hout ho hi t ⟨8, 4⟩
      ⟨-16, 4⟩ (hairpin_secant_a hfit _ (by linarith))
      (hairpin_secant_c hfit _ (by linarith) (by linarith)) ?_ ?_
    · simp only [Vector2.dot, Vector2.cross]
      norm_num
    · left
      simp only [Vector2.dot]
      norm_num
  · refine hfit.pos_false_outer0 (by norm_num) input hin hout ho hi t ⟨8, 4⟩
      ⟨t + -10 - 42, t + -10 - 22⟩ (hairpin_secant_a hfit _ (by linarith))
      (hairpin_secant_d hfit _ (by linarith) (by linarith)) ?_ ?_
    · simp only [Vector2.dot, Vector2.cross]
      rw [abs_of_nonneg (by linarith)]
      linarith
    · left
      simp only [Vector2.dot]
      intro hc
      linarith

/-- The scan of the hairpin stroke with step 1 and the default thresholds:
the sections `{5, 9}` and `{18, 22}`. -/
theorem hairpin_scan (hfit : Fitted hairpinPath 42 line) (input : CornersInput ℝ)
    (hin : input.innerInterMeasurementFactor = 1) (hout : input.outerInterMeasurementFactor = 2)
    (ho : input.outerMaxAngleInDeg = 25) (hi : input.innerMinAngleInDeg = 45)
    (hstep : input.tStep = 1) (hmin : input.minNumberTestPositivesInSeries = 2)
    (hmerge : input.maxDistBetweenCornersToMerge = 4) (r : Nat) :
    scanLoop Real.sqrt (fun y x => Complex.arg ⟨x, y⟩) line input 39
        (2 + (4 + 1 + ((7 + (4 + 1 + ((16 + r) + 1))) + 1))) 3
        { cornerSection := Range.new, result := [] } =
      some { cornerSection := Range.new
             result := [{ start := 5, end_ := 9 }, { start := 18, end_ := 22 }] } := by
  have hF := FLT_MAX_large (F := ℝ)
  rw [scanLoop_block Real.sqrt _ line input 39 (by rw [hstep]; norm_num) (by rw [hmin]; norm_num)
    [] { cornerSection := Range.new, result := [{ start := 5, end_ := 9 }] } 2 4
    (7 + (4 + 1 + ((16 + r) + 1))) 3
    (by rw [hstep]; norm_num; linarith) (by rw [hstep]; norm_num; linarith)
    (by
      intro k hk
      have hk2 : (k : ℝ) ≤ 1 := by exact_mod_cast Nat.lt_succ_iff.mp hk
      have hk0 : (0 : ℝ) ≤ (k : ℝ) := Nat.cast_nonneg k
      rw [hstep, mul_one]
      exact ⟨by linarith, hairpin_false_a hfit input hin hout ho hi _ (by linarith)
        (by linarith)⟩)
    (by
      intro k hk
      have hk2 : (k : ℝ) ≤ 4 := by exact_mod_cast Nat.lt_succ_iff.mp hk
      have hk0 : (0 : ℝ) ≤ (k : ℝ) := Nat.cast_nonneg k
      rw [hstep, mul_one]
      push_cast
      exact ⟨by linarith, hairpin_true_a hfit input hin hout ho hi _ (by linarith)
        (by linarith)⟩)
    (by
      rw [hstep, mul_one]
      push_cast
      exact ⟨by norm_num, hairpin_false_b hfit input hin hout ho hi _ (by norm_num)
        (by norm_num)⟩)
    (by
      rw [scanStep_close_append input _ _ _ [] (by rw [hstep]; norm_num)
        (by rw [hstep, hmin]; norm_num) (by intro back hb; simp at hb)]
      simp only [hstep, List.nil_append]
      norm_num)]
  rw [scanLoop_block Real.sqrt _ line input 39 (by rw [hstep]; norm_num) (by rw [hmin]; norm_num)
    [{ start := 5, end_ := 9 }]
    { cornerSection := Range.new
      result := [{ start := 5, end_ := 9 }, { start := 18, end_ := 22 }] } 7 4 (16 + r) _
    (by rw [hstep]; norm_num; linarith) (by rw [hstep]; norm_num; linarith)
    (by
      intro k hk
      have hk2 : (k : ℝ) ≤ 6 := by exact_mod_cast Nat.lt_succ_iff.mp hk
      have hk0 : (0 : ℝ) ≤ (k : ℝ) := Nat.cast_nonneg k
      rw [hstep, mul_one, mul_one]
      push_cast
      exact ⟨by linarith, hairpin_false_b hfit input hin hout ho hi _ (by linarith)
        (by linarith)⟩)
    (by
      intro k hk
      have hk2 : (k : ℝ) ≤ 4 := by exact_mod_cast Nat.lt_succ_iff.mp hk
      have hk0 : (0 : ℝ) ≤ (k : ℝ) := Nat.cast_nonneg k
      rw [hstep, mul_one, mul_one]
      push_cast
      exact ⟨by linarith, hairpin_true_b hfit input hin hout ho hi _ (by linarith)
        (by linarith)⟩)
    (by
      rw [hstep, mul_one, mul_one]
      push_cast
      exact ⟨by norm_num, hairpin_false_c hfit input hin hout ho hi _ (by norm_num)
        (by norm_num)⟩)
    (by
      rw [scanStep_close_append input _ _ _ [{ start := 5, end_ := 9 }]
        (by rw [hstep]; norm_num) (by rw [hstep, hmin]; norm_num)
        (by
          intro back hb
          simp only [List.getLast?_singleton, Option.some.injEq] at hb
          rw [← hb, hstep, hmerge]
          norm_num)]
      simp only [hstep, List.singleton_append]
      norm_num)]
  rw [scanLoop_run_false Real.sqrt _ line input 39 (by rw [hmin]; norm_num) _ 16 r _
    (by
      intro k hk
      have hk2 : (k : ℝ) ≤ 15 := by exact_mod_cast Nat.lt_succ_iff.mp hk
      have hk0 : (0 : ℝ) ≤ (k : ℝ) := Nat.cast_nonneg k
      rw [hstep, mul_one, mul_one, mul_one]
      push_cast
      exact ⟨by linarith, hairpin_false_c hfit input hin hout ho hi _ (by linarith)
        (by linarith)⟩)]
  apply scanLoop_done
  rw [hstep]
  norm_num

end HairpinScan

section HairpinRuns

variable {line : FreeformLine ℝ}

/-- The search of the second loop of `findCorners` on the section `{5, 9}` of
the hairpin stroke, for a search direction pointing right and up, ends at the
second bend, `t = 16`. -/
theorem hairpin_best_a (hfit : Fitted hairpinPath 42 line) (sx sy : ℝ) (hx : 0 < sx)
    (hy : 0 < sy) (r : Nat) :
    bestPointLoop line ⟨sx, sy⟩ (9 + 20) (0 + 1 + (15 + (15 + 1 + (13 + r)))) (5 - 20)
      (1 / 2 * (5 + 9)) (-FLT_MAX) = some 16 := by
  have hA : (0 : ℝ) < ME_A_LOT := ME_A_LOT_pos
  have hA2 := ME_A_LOT_large (F := ℝ)
  have hF := FLT_MAX_large (F := ℝ)
  rw [bestPointLoop_run_up line _ _ hairpinPath 0 _ _ _ _
    (by
      intro k hk
      have hk2 : (k : ℝ) ≤ 0 := by exact_mod_cast Nat.lt_succ_iff.mp hk
      have hk0 : (0 : ℝ) ≤ (k : ℝ) := Nat.cast_nonneg k
      exact ⟨by linarith, hfit.point _ (by linarith) (by linarith)⟩)
    (by
      rw [hairpinPath_nonpos _ (by norm_num)]
      simp only [Vector2.dot]
      linarith)
    (by
      intro k hk
      exact absurd hk (Nat.not_lt_zero k))]
  rw [bestPointLoop_run_flat line _ _ hairpinPath _ _ 15 _ _
    (by
      intro k hk
      have hk2 : (k : ℝ) ≤ 14 := by exact_mod_cast Nat.lt_succ_iff.mp hk
      have hk0 : (0 : ℝ) ≤ (k : ℝ) := Nat.cast_nonneg k
      push_cast
      refine ⟨by linarith, hfit.point _ (by linarith) (by linarith), ?_⟩
      rw [hairpinPath_nonpos _ (by linarith), hairpinPath_nonpos _ (by norm_num)])]
  rw [bestPointLoop_run_up line _ _ hairpinPath 15 _ _ _ _
    (by
      intro k hk
      have hk2 : (k : ℝ) ≤ 15 := by exact_mod_cast Nat.lt_succ_iff.mp hk
      have hk0 : (0 : ℝ) ≤ (k : ℝ) := Nat.cast_nonneg k
      push_cast
      exact ⟨by linarith, hfit.point _ (by linarith) (by linarith)⟩)
    (by
      push_cast
      rw [hairpinPath_nonpos _ (by norm_num), hairpinPath_a _ (by norm_num) (by norm_num)]
      simp only [Vector2.dot]
      linarith)
    (by
      intro k hk
      have hk2 : (k : ℝ) ≤ 14 := by exact_mod_cast Nat.lt_succ_iff.mp hk
      have hk0 : (0 : ℝ) ≤ (k : ℝ) := Nat.cast_nonneg k
      push_cast
      rcases le_total (k : ℝ) 10 with h | h
      · rw [hairpinPath_a _ (by linarith) (by linarith),
          hairpinPath_a _ (by linarith) (by linarith)]
        simp only [Vector2.dot]
        linarith
      · rcases eq_or_lt_of_le h with h11 | h11
        · rw [← h11, hairpinPath_a _ (by norm_num) (by norm_num),
            hairpinPath_a _ (by norm_num) (by norm_num)]
          simp only [Vector2.dot]
          linarith
        · have h12 : (11 : ℝ) ≤ (k : ℝ) := by
            have : 10 < k := by exact_mod_cast h11
            exact_mod_cast this
          rw [hairpinPath_b _ (by linarith) (by linarith),
            hairpinPath_b _ (by linarith) (by linarith)]
          simp only [Vector2.dot]
          linarith)]
  rw [bestPointLoop_run_flat line _ _ hairpinPath _ _ 13 r _
    (by
      intro k hk
      have hk2 : (k : ℝ) ≤ 12 := by exact_mod_cast Nat.lt_succ_iff.mp hk
      have hk0 : (0 : ℝ) ≤ (k : ℝ) := Nat.cast_nonneg k
      push_cast
      refine ⟨by linarith, hfit.point _ (by linarith) (by linarith), ?_⟩
      rw [hairpinPath_c _ (by linarith) (by linarith),
        hairpinPath_b _ (by norm_num) (by norm_num)]
      simp only [Vector2.dot]
      nlinarith)]
  rw [bestPointLoop_done _ _ _ _ _ _ _ (by push_cast; norm_num)]
  push_cast
  norm_num

/-- The search of the second loop of `findCorners` on the section `{18, 22}`
of the hairpin stroke, for a search direction pointing right and down, ends at
the first bend, `t = 12`. -/
theorem hairpin_best_b (hfit : Fitted hairpinPath 42 line) (sx sy : ℝ) (hx : 0 < sx)
    (hy : sy < 0) (r : Nat) :
    bestPointLoop line ⟨sx, sy⟩ (22 + 20) (0 + 1 + (2 + (11 + 1 + (30 + r)))) (18 - 20)
      (1 / 2 * (18 + 22)) (-FLT_MAX) = some 12 := by
  have hA : (0 : ℝ) < ME_A_LOT := ME_A_LOT_pos
  have hA2 := ME_A_LOT_large (F := ℝ)
  have hF := FLT_MAX_large (F := ℝ)
  rw [bestPointLoop_run_up line _ _ hairpinPath 0 _ _ _ _
    (by
      intro k hk
      have hk2 : (k : ℝ) ≤ 0 := by exact_mod_cast Nat.lt_succ_iff.mp hk
      have hk0 : (0 : ℝ) ≤ (k : ℝ) := Nat.cast_nonneg k
      exact ⟨by linarith, hfit.point _ (by linarith) (by linarith)⟩)
    (by
      rw [hairpinPath_nonpos _ (by norm_num)]
      simp only [Vector2.dot]
      linarith)
    (by
      intro k hk
      exact absurd hk (Nat.not_lt_zero k))]
  rw [bestPointLoop_run_flat line _ _ hairpinPath _ _ 2 _ _
    (by
      intro k hk
      have hk2 : (k : ℝ) ≤ 1 := by exact_mod_cast Nat.lt_succ_iff.mp hk
      have hk0 : (0 : ℝ) ≤ (k : ℝ) := Nat.cast_nonneg k
      push_cast
      refine ⟨by linarith, hfit.point _ (by linarith) (by linarith), ?_⟩
      rw [hairpinPath_nonpos _ (by linarith), hairpinPath_nonpos _ (by norm_num)])]
  rw [bestPointLoop_run_up line _ _ hairpinPath 11 _ _ _ _
    (by
      intro k hk
      have hk2 : (k : ℝ) ≤ 11 := by exact_mod_cast Nat.lt_succ_iff.mp hk
      have hk0 : (0 : ℝ) ≤ (k : ℝ) := Nat.cast_nonneg k
      push_cast
      exact ⟨by linarith, hfit.point _ (by linarith) (by linarith)⟩)
    (by
      push_cast
      rw [hairpinPath_nonpos _ (by norm_num), hairpinPath_a _ (by norm_num) (by norm_num)]
      simp only [Vector2.dot]
      linarith)
    (by
      intro k hk
      have hk2 : (k : ℝ) ≤ 10 := by exact_mod_cast Nat.lt_succ_iff.mp hk
      have hk0 : (0 : ℝ) ≤ (k : ℝ) := Nat.cast_nonneg k
      push_cast
      rw [hairpinPath_a _ (by linarith) (by linarith),
        hairpinPath_a _ (by linarith) (by linarith)]
      simp only [Vector2.dot]
      linarith)]
  rw [bestPointLoop_run_flat line _ _ hairpinPath _ _ 30 r _
    (by
      intro k hk
      have hk2 : (k : ℝ) ≤ 29 := by exact_mod_cast Nat.lt_succ_iff.mp hk
      have hk0 : (0 : ℝ) ≤ (k : ℝ) := Nat.cast_nonneg k
      push_cast
      refine ⟨by linarith, hfit.point _ (by linarith) (by linarith), ?_⟩
      rw [hairpinPath_a (18 - 20 + 1 + 2 + 11) (by norm_num) (by norm_num)]
      rcases le_total (k : ℝ) 3 with h | h
      · rw [hairpinPath_b _ (by linarith) (by linarith)]
        simp only [Vector2.dot]
        nlinarith
      rcases le_total (k : ℝ) 19 with h2 | h2
      · rw [hairpinPath_c _ (by linarith) (by linarith)]
        simp only [Vector2.dot]
        nlinarith
      · rw [hairpinPath_d _ (by linarith)]
        simp only [Vector2.dot]
        nlinarith)]
  rw [bestPointLoop_done _ _ _ _ _ _ _ (by push_cast; norm_num)]
  push_cast
  norm_num

theorem norm_eight_four_bounds :
    8 ≤ Vector2.norm Real.sqrt (⟨8, 4⟩ : Vector2 ℝ) ∧
    Vector2.norm Real.sqrt (⟨8, 4⟩ : Vector2 ℝ) ≤ 9 := by
  unfold Vector2.norm Vector2.norm2
  constructor
  · exact Real.le_sqrt_of_sq_le (by norm_num)
  · rw [Real.sqrt_le_left (by norm_num)]
    norm_num

end HairpinRuns

section HairpinReduce

variable {line : FreeformLine ℝ}

theorem norm_ten_four_bounds :
    10 ≤ Vector2.norm Real.sqrt (⟨-10, 4⟩ : Vector2 ℝ) ∧
    Vector2.norm Real.sqrt (⟨-10, 4⟩ : Vector2 ℝ) ≤ 11 := by
  unfold Vector2.norm Vector2.norm2
  constructor
  · exact Real.le_sqrt_of_sq_le (by norm_num)
  · rw [Real.sqrt_le_left (by norm_num)]
    norm_num

theorem norm_ten_ten_bounds :
    14 ≤ Vector2.norm Real.sqrt (⟨-10, 10⟩ : Vector2 ℝ) ∧
    Vector2.norm Real.sqrt (⟨-10, 10⟩ : Vector2 ℝ) ≤ 15 := by
  unfold Vector2.norm Vector2.norm2
  constructor
  · exact Real.le_sqrt_of_sq_le (by norm_num)
  · rw [Real.sqrt_le_left (by norm_num)]
    norm_num

theorem FLT_MIN_le_one : (FLT_MIN : ℝ) ≤ 1 := by
  unfold FLT_MIN
  rw [div_le_one (by positivity)]
  exact one_le_pow₀ (by norm_num)

/-- The corner of the hairpin stroke that `findCorners` reports for the
first positive run `{5, 9}`: the second bend, at `t = 16`. -/
theorem hairpin_reduce_a (hfit : Fitted hairpinPath 42 line) (input : CornersInput ℝ)
    (hin : input.innerInterMeasurementFactor = 1) (hout : input.outerInterMeasurementFactor = 2)
    (r : Nat) :
    reduceCorner Real.sqrt (0 + 1 + (15 + (15 + 1 + (13 + r)))) line input
      { start := 5, end_ := 9 } = some { start := 16, end_ := 16 } := by
  have hm : (0 : ℝ) < FLT_MIN := FLT_MIN_pos
  have hm1 := FLT_MIN_le_one
  obtain ⟨ha1, ha2⟩ := norm_eight_four_bounds
  obtain ⟨hb1, hb2⟩ := norm_ten_four_bounds
  have ha : (1 : ℝ) / 10 ≤ 1 / (Vector2.norm Real.sqrt (⟨8, 4⟩ : Vector2 ℝ) + FLT_MIN) :=
    one_div_le_one_div_of_le (by positivity) (by linarith)
  have hb : (0 : ℝ) < 1 / (Vector2.norm Real.sqrt (⟨-10, 4⟩ : Vector2 ℝ) + FLT_MIN) := by
    positivity
  have hab : 1 / (Vector2.norm Real.sqrt (⟨-10, 4⟩ : Vector2 ℝ) + FLT_MIN) <
      1 / (Vector2.norm Real.sqrt (⟨8, 4⟩ : Vector2 ℝ) + FLT_MIN) :=
    one_div_lt_one_div_of_lt (by positivity) (by linarith)
  refine reduceCorner_eval hfit (by norm_num) input hin hout _ _ ⟨8, 4⟩ ⟨-10, 4⟩
    ⟨8 * (1 / (Vector2.norm Real.sqrt (⟨8, 4⟩ : Vector2 ℝ) + FLT_MIN)) +
        10 * (1 / (Vector2.norm Real.sqrt (⟨-10, 4⟩ : Vector2 ℝ) + FLT_MIN)),
      4 * (1 / (Vector2.norm Real.sqrt (⟨8, 4⟩ : Vector2 ℝ) + FLT_MIN)) -
        4 * (1 / (Vector2.norm Real.sqrt (⟨-10, 4⟩ : Vector2 ℝ) + FLT_MIN))⟩ 16
    (hairpin_secant_a hfit _ (by norm_num)) ?_ ?_ ?_
    (hairpin_best_a hfit _ _ (by linarith) (by linarith) r)
  · rw [hairpin_secant_b hfit _ (by norm_num) (by norm_num)]
    norm_num
  · rw [(normalized_scale _).1, (normalized_scale _).1]
    ext <;> simp
  · simp only [Vector2.norm2, ME_EPSILON2, ME_EPSILON]
    have : (1 : ℝ) / 10 ^ 6 * (1 / 10 ^ 6) < 1 / 10 * (1 / 10) := by norm_num
    nlinarith

/-- The corner of the hairpin stroke that `findCorners` reports for the
second positive run `{18, 22}`: the first bend, at `t = 12`. -/
theorem hairpin_reduce_b (hfit : Fitted hairpinPath 42 line) (input : CornersInput ℝ)
    (hin : input.innerInterMeasurementFactor = 1) (hout : input.outerInterMeasurementFactor = 2)
    (r : Nat) :
    reduceCorner Real.sqrt (0 + 1 + (2 + (11 + 1 + (30 + r)))) line input
      { start := 18, end_ := 22 } = some { start := 12, end_ := 12 } := by
  have hm : (0 : ℝ) < FLT_MIN := FLT_MIN_pos
  have hm1 := FLT_MIN_le_one
  obtain ⟨ha1, ha2⟩ := norm_eight_four_bounds
  obtain ⟨hb1, hb2⟩ := norm_ten_ten_bounds
  have ha : (1 : ℝ) / 10 ≤ 1 / (Vector2.norm Real.sqrt (⟨8, 4⟩ : Vector2 ℝ) + FLT_MIN) :=
    one_div_le_one_div_of_le (by positivity) (by linarith)
  have ha3 : 1 / (Vector2.norm Real.sqrt (⟨8, 4⟩ : Vector2 ℝ) + FLT_MIN) ≤ 1 / 8 :=
    one_div_le_one_div_of_le (by norm_num) (by linarith)
  have hb : (1 : ℝ) / 16 ≤ 1 / (Vector2.norm Real.sqrt (⟨-10, 10⟩ : Vector2 ℝ) + FLT_MIN) :=
    one_div_le_one_div_of_le (by positivity) (by linarith)
  refine reduceCorner_eval hfit (by norm_num) input hin hout _ _ ⟨8, 4⟩ ⟨-10, 10⟩
    ⟨8 * (1 / (Vector2.norm Real.sqrt (⟨8, 4⟩ : Vector2 ℝ) + FLT_MIN)) +
        10 * (1 / (Vector2.norm Real.sqrt (⟨-10, 10⟩ : Vector2 ℝ) + FLT_MIN)),
      4 * (1 / (Vector2.norm Real.sqrt (⟨8, 4⟩ : Vector2 ℝ) + FLT_MIN)) -
        10 * (1 / (Vector2.norm Real.sqrt (⟨-10, 10⟩ : Vector2 ℝ) + FLT_MIN))⟩ 12
    (hairpin_secant_a hfit _ (by norm_num)) (hairpin_secant_e hfit _ (by norm_num)) ?_ ?_
    (hairpin_best_b hfit _ _ (by linarith) (by linarith) r)
  · rw [(normalized_scale _).1, (normalized_scale _).1]
    ext <;> simp
  · simp only [Vector2.norm2, ME_EPSILON2, ME_EPSILON]
    have : (1 : ℝ) / 10 ^ 6 * (1 / 10 ^ 6) < 1 / 10 * (1 / 10) := by norm_num
    nlinarith

/-- `findCorners` on the hairpin stroke with the default configuration: the
positive runs `{5, 9}` and `{18, 22}`, and the corners `{16, 16}` and
`{12, 12}` in this order, for every fuel from 45 on. -/
theorem hairpin_findCorners (hfit : Fitted hairpinPath 42 line) (input : CornersInput ℝ)
    (hin : input.innerInterMeasurementFactor = 1) (hout : input.outerInterMeasurementFactor = 2)
    (ho : input.outerMaxAngleInDeg = 25) (hi : input.innerMinAngleInDeg = 45)
    (hstep : input.tStep = 1) (hmin : input.minNumberTestPositivesInSeries = 2)
    (hmerge : input.maxDistBetweenCornersToMerge = 4)
    (fuel : Nat) (hf : 45 ≤ fuel) :
    findCornerSections Real.sqrt (fun y x => Complex.arg ⟨x, y⟩) (fun x => ((⌈x⌉ : ℤ) : ℝ))
      fuel line input = some [{ start := 5, end_ := 9 }, { start := 18, end_ := 22 }] ∧
    findCorners Real.sqrt (fun y x => Complex.arg ⟨x, y⟩) (fun x => ((⌈x⌉ : ℤ) : ℝ)) fuel line
      input = some [{ start := 16, end_ := 16 }, { start := 12, end_ := 12 }] := by
  have hsec : findCornerSections Real.sqrt (fun y x => Complex.arg ⟨x, y⟩)
      (fun x => ((⌈x⌉ : ℤ) : ℝ)) fuel line input =
        some [{ start := 5, end_ := 9 }, { start := 18, end_ := 22 }] := by
    obtain ⟨r, rfl⟩ : ∃ r, fuel = 2 + (4 + 1 + ((7 + (4 + 1 + ((16 + r) + 1))) + 1)) :=
      ⟨fuel - 37, by omega⟩
    have h := findCornerSections_of_scan Real.sqrt (fun y x => Complex.arg ⟨x, y⟩)
      (fun x => ((⌈x⌉ : ℤ) : ℝ)) (2 + (4 + 1 + ((7 + (4 + 1 + ((16 + r) + 1))) + 1))) line input
      { cornerSection := Range.new
        result := [{ start := 5, end_ := 9 }, { start := 18, end_ := 22 }] }
      (by
        rw [hfit.clip, cornerMargin_eq_three input hin hout]
        simp only
        rw [show (42 : ℝ) - 3 = 39 by norm_num, show (0 : ℝ) + 3 = 3 by norm_num]
        exact hairpin_scan hfit input hin hout ho hi hstep hmin hmerge r)
    exact h
  refine ⟨hsec, ?_⟩
  rw [findCorners_of_sections _ _ _ _ _ _ _ hsec]
  obtain ⟨r, rfl⟩ : ∃ r, fuel = 45 + r := ⟨fuel - 45, by omega⟩
  have e1 : 45 + r = 0 + 1 + (15 + (15 + 1 + (13 + r))) := by omega
  have h1 := hairpin_reduce_a hfit input hin hout r
  rw [← e1] at h1
  have e2 : 45 + r = 0 + 1 + (2 + (11 + 1 + (30 + r))) := by omega
  have h2 := hairpin_reduce_b hfit input hin hout r
  rw [← e2] at h2
  simp only [reduceCorners, h1, h2]

end HairpinReduce

section HairpinSegments

variable {line : FreeformLine ℝ}

theorem FLT_MIN_small : (FLT_MIN : ℝ) ≤ 1 / 1000 := by
  unfold FLT_MIN
  apply one_div_le_one_div_of_le (by norm_num)
  norm_num

/-- The span `{0, 16}` of the hairpin stroke, from the start to the second
bend, is accepted as a segment with the default `SegmentsInput`: the samples
are `(0,0)` and `(12,3)`. -/
theorem hairpin_segment_first (hfit : Fitted hairpinPath 42 line) (fuel : Nat) (hf : 2 ≤ fuel) :
    ∃ e, isSegment Real.sqrt fuel line { start := 0, end_ := 16 } SegmentsInput.default =
      some (true, e) := by
  have hA : (0 : ℝ) < ME_A_LOT := ME_A_LOT_pos
  have hm : (0 : ℝ) < FLT_MIN := FLT_MIN_pos
  have hp0 : line.getPointAt 0 = some ⟨0, 0⟩ := by
    rw [hfit.point 0 (by linarith) (by norm_num), hairpinPath_nonpos 0 (le_refl _)]
  have hp15 : line.getPointAt 15 = some ⟨12, 3⟩ := by
    rw [hfit.point 15 (by linarith) (by norm_num), hairpinPath_b 15 (by norm_num) (by norm_num)]
    norm_num
  have hp16 : line.getPointAt 16 = some ⟨12, 4⟩ := by
    rw [hfit.point 16 (by linarith) (by norm_num), hairpinPath_b 16 (by norm_num) (by norm_num)]
    norm_num
  have hsd0 := (between_signedDist Real.sqrt (⟨0, 0⟩ : Vector2 ℝ) ⟨12, 4⟩).1
  have hsd1 : (Line.between Real.sqrt (⟨0, 0⟩ : Vector2 ℝ) ⟨12, 4⟩).signedDistTo ⟨12, 3⟩ =
      -12 * (1 / (Vector2.norm Real.sqrt ((⟨12, 4⟩ : Vector2 ℝ) - ⟨0, 0⟩) + FLT_MIN)) := by
    simp only [Line.between, Line.fromPointAndNormal, Line.signedDistTo, Line.normal,
      Vector2.directionTo, Vector2.normalized, Vector2.rotate90, Vector2.dot, Vector2.div_x,
      Vector2.div_y, Vector2.sub_x, Vector2.sub_y]
    ring
  have hn1 : 12 ≤ Vector2.norm Real.sqrt ((⟨12, 4⟩ : Vector2 ℝ) - ⟨0, 0⟩) := by
    unfold Vector2.norm Vector2.norm2
    apply Real.le_sqrt_of_sq_le
    simp only [Vector2.sub_x, Vector2.sub_y]
    norm_num
  have hn2 : 12 ≤ Vector2.distTo Real.sqrt (⟨0, 0⟩ : Vector2 ℝ) ⟨12, 4⟩ := by
    unfold Vector2.distTo Vector2.norm Vector2.norm2
    apply Real.le_sqrt_of_sq_le
    simp only [Vector2.sub_x, Vector2.sub_y]
    norm_num
  have hloop := calcMeanSquaredErrorLoop_eval
    (Line.between Real.sqrt (⟨0, 0⟩ : Vector2 ℝ) ⟨12, 4⟩).signedDistTo
    line 15 16 [⟨0, 0⟩, ⟨12, 3⟩] fuel 0 FLT_MIN 0 (by simpa using hf)
    (by
      intro i hi
      have hi2 : i = 0 ∨ i = 1 := by simp at hi; omega
      rcases hi2 with h | h <;> subst h
      · simp only [Nat.cast_zero, zero_mul, add_zero, List.getElem?_cons_zero]
        exact ⟨by norm_num, hp0⟩
      · simp only [Nat.cast_one, one_mul, zero_add, List.getElem?_cons_succ,
          List.getElem?_cons_zero]
        exact ⟨by norm_num, hp15⟩)
    (by simp; norm_num)
  have hseg := isSegment_of_parts Real.sqrt fuel line { start := 0, end_ := 16 }
    (SegmentsInput.default : SegmentsInput ℝ) ⟨0, 0⟩ ⟨12, 4⟩ _ hp0 hp16
    (by simp [SegmentsInput.default]) hloop
  rw [hseg]
  simp only [Option.some.injEq, Prod.mk.injEq, exists_eq_right', decide_eq_true_eq]
  simp only [List.map_cons, List.map_nil, List.sum_cons, List.sum_nil, hsd0, hsd1,
    List.length_cons, List.length_nil, SegmentsInput.default]
  set k := 1 / (Vector2.norm Real.sqrt ((⟨12, 4⟩ : Vector2 ℝ) - ⟨0, 0⟩) + FLT_MIN) with hkdef
  have hk0 : 0 < k := by positivity
  have hk1 : k ≤ 1 / 12 := one_div_le_one_div_of_le (by norm_num) (by linarith)
  have hkk : k * k ≤ 1 / 12 * (1 / 12) := mul_le_mul hk1 hk1 hk0.le (by norm_num)
  have hq : (0 + (0 * 0 + (-12 * k * (-12 * k) + 0))) / (FLT_MIN + ((0 + 1 + 1 : Nat) : ℝ)) ≤
      1 / 2 := by
    rw [div_le_div_iff₀ (by positivity) (by norm_num)]
    push_cast
    nlinarith
  have hlim : (3 : ℝ) ≤ 5 / 2 * (5 / 2) *
      (Vector2.distTo Real.sqrt (⟨0, 0⟩ : Vector2 ℝ) ⟨12, 4⟩ / 20) := by
    linarith
  exact le_trans hq (by linarith)


/-- The span `{12, 42}` of the hairpin stroke, from the first bend to the
end, is rejected as a segment with the default `SegmentsInput`: the samples
are `(12,0)` and `(1,4)`. -/
theorem hairpin_segment_last (hfit : Fitted hairpinPath 42 line) (fuel : Nat) (hf : 2 ≤ fuel) :
    ∃ e, isSegment Real.sqrt fuel line { start := 12, end_ := 42 } SegmentsInput.default =
      some (false, e) := by
  have hA : (0 : ℝ) < ME_A_LOT := ME_A_LOT_pos
  have hm : (0 : ℝ) < FLT_MIN := FLT_MIN_pos
  have hm1 := FLT_MIN_small
  have hp12 : line.getPointAt 12 = some ⟨12, 0⟩ := by
    rw [hfit.point 12 (by linarith) (by norm_num), hairpinPath_a 12 (by norm_num) (by norm_num)]
  have hp27 : line.getPointAt 27 = some ⟨1, 4⟩ := by
    rw [hfit.point 27 (by linarith) (by norm_num), hairpinPath_c 27 (by norm_num) (by norm_num)]
    norm_num
  have hp42 : line.getPointAt 42 = some ⟨-4, 14⟩ := by
    rw [hfit.point 42 (by linarith) (by norm_num), hairpinPath_d 42 (by norm_num)]
    norm_num
  have hsd0 := (between_signedDist Real.sqrt (⟨12, 0⟩ : Vector2 ℝ) ⟨-4, 14⟩).1
  have hsd1 : (Line.between Real.sqrt (⟨12, 0⟩ : Vector2 ℝ) ⟨-4, 14⟩).signedDistTo ⟨1, 4⟩ =
      90 * (1 / (Vector2.norm Real.sqrt ((⟨-4, 14⟩ : Vector2 ℝ) - ⟨12, 0⟩) + FLT_MIN)) := by
    simp only [Line.between, Line.fromPointAndNormal, Line.signedDistTo, Line.normal,
      Vector2.directionTo, Vector2.normalized, Vector2.rotate90, Vector2.dot, Vector2.div_x,
      Vector2.div_y, Vector2.sub_x, Vector2.sub_y]
    ring
  have hn0 : 0 ≤ Vector2.norm Real.sqrt ((⟨-4, 14⟩ : Vector2 ℝ) - ⟨12, 0⟩) := Real.sqrt_nonneg _
  have hn1 : Vector2.norm Real.sqrt ((⟨-4, 14⟩ : Vector2 ℝ) - ⟨12, 0⟩) ≤ 213 / 10 := by
    unfold Vector2.norm Vector2.norm2
    rw [Real.sqrt_le_left (by norm_num)]
    simp only [Vector2.sub_x, Vector2.sub_y]
    norm_num
  have hn2 : Vector2.distTo Real.sqrt (⟨12, 0⟩ : Vector2 ℝ) ⟨-4, 14⟩ ≤ 213 / 10 := by
    unfold Vector2.distTo Vector2.norm Vector2.norm2
    rw [Real.sqrt_le_left (by norm_num)]
    simp only [Vector2.sub_x, Vector2.sub_y]
    norm_num
  have hloop := calcMeanSquaredErrorLoop_eval
    (Line.between Real.sqrt (⟨12, 0⟩ : Vector2 ℝ) ⟨-4, 14⟩).signedDistTo
    line 15 42 [⟨12, 0⟩, ⟨1, 4⟩] fuel 12 FLT_MIN 0 (by simpa using hf)
    (by
      intro i hi
      have hi2 : i = 0 ∨ i = 1 := by simp at hi; omega
      rcases hi2 with h | h <;> subst h
      · simp only [Nat.cast_zero, zero_mul, add_zero, List.getElem?_cons_zero]
        exact ⟨by norm_num, hp12⟩
      · simp only [Nat.cast_one, one_mul, List.getElem?_cons_succ, List.getElem?_cons_zero]
        rw [show (12 : ℝ) + 15 = 27 by norm_num]
        exact ⟨by norm_num, hp27⟩)
    (by simp; norm_num)
  have hseg := isSegment_of_parts Real.sqrt fuel line { start := 12, end_ := 42 }
    (SegmentsInput.default : SegmentsInput ℝ) ⟨12, 0⟩ ⟨-4, 14⟩ _ hp12 hp42
    (by simp [SegmentsInput.default]) hloop
  rw [hseg]
  simp only [Option.some.injEq, Prod.mk.injEq, exists_eq_right', decide_eq_false_iff_not, not_le]
  simp only [List.map_cons, List.map_nil, List.sum_cons, List.sum_nil, hsd0, hsd1,
    List.length_cons, List.length_nil, SegmentsInput.default]
  set k := 1 / (Vector2.norm Real.sqrt ((⟨-4, 14⟩ : Vector2 ℝ) - ⟨12, 0⟩) + FLT_MIN) with hkdef
  have hk1 : 1 / 22 ≤ k := one_div_le_one_div_of_le (by positivity) (by linarith)
  have hkk : 1 / 22 * (1 / 22) ≤ k * k := mul_le_mul hk1 hk1 (by norm_num) (by linarith)
  have hq : (7 : ℝ) <
      (0 + (0 * 0 + (90 * k * (90 * k) + 0))) / (FLT_MIN + ((0 + 1 + 1 : Nat) : ℝ)) := by
    rw [lt_div_iff₀ (by positivity)]
    push_cast
    nlinarith
  have hlim : 5 / 2 * (5 / 2) *
      (Vector2.distTo Real.sqrt (⟨12, 0⟩ : Vector2 ℝ) ⟨-4, 14⟩ / 20) < 7 := by
    linarith
  exact lt_trans hlim hq

/-- The markers of the hairpin stroke with the default configuration: the
segment `{0, 16}` from the start to the second bend and the corners `{12, 12}`
and `{16, 16}`. -/
theorem hairpin_markers (ks : List ℝ) (line : FreeformLine ℝ)
    (hinv : CurveInv hairpinPath 42 ks line)
    (h12 : (12 : ℝ) ∈ ks) (h16 : (16 : ℝ) ∈ ks) (h32 : (32 : ℝ) ∈ ks)
    (input : ProcessingInput ℝ)
    (hin : input.corners.innerInterMeasurementFactor = 1)
    (hout : input.corners.outerInterMeasurementFactor = 2)
    (ho : input.corners.outerMaxAngleInDeg = 25) (hi : input.corners.innerMinAngleInDeg = 45)
    (hstep : input.corners.tStep = 1)
    (hmin : input.corners.minNumberTestPositivesInSeries = 2)
    (hmerge : input.corners.maxDistBetweenCornersToMerge = 4)
    (hseg : input.segments = SegmentsInput.default)
    (fuel : Nat) (hf : 45 ≤ fuel) :
    findCornersAndSegments Real.sqrt (fun y x => Complex.arg ⟨x, y⟩)
      (fun x => ((⌈x⌉ : ℤ) : ℝ)) fuel input line =
      some (line.setBounds { start := 0, end_ := line.length },
        [{ start := 0, end_ := 16 }, { start := 12, end_ := 12 },
         { start := 16, end_ := 16 }]) := by
  have hfit := hairpin_fitted ks line hinv h12 h16 h32
  have hlen : (line.setBounds { start := 0, end_ := line.length }).length = 42 := hfit.len
  obtain ⟨e1, h1⟩ := hairpin_segment_first hfit fuel (by omega)
  obtain ⟨e2, h2⟩ := hairpin_segment_last hfit fuel (by omega)
  have hc := (hairpin_findCorners hfit input.corners hin hout ho hi hstep hmin hmerge fuel hf).2
  have hgap1 : (ME_MAX_SPLINE_GAP : ℝ) < 16 - 0 := by unfold ME_MAX_SPLINE_GAP; norm_num
  have hgap2 : ¬ (ME_MAX_SPLINE_GAP : ℝ) < 0 := by unfold ME_MAX_SPLINE_GAP; norm_num
  have hgap3 : (ME_MAX_SPLINE_GAP : ℝ) < 42 - 12 := by unfold ME_MAX_SPLINE_GAP; norm_num
  have hsl : segmentLoop Real.sqrt fuel (line.setBounds { start := 0, end_ := line.length })
      input.segments
      ([{ start := 16, end_ := 16 }, { start := 12, end_ := 12 }] ++
        [{ start := (line.setBounds { start := 0, end_ := line.length }).length,
           end_ := (line.setBounds { start := 0, end_ := line.length }).length }])
      0 [] = some [{ start := 0, end_ := 16 }] := by
    rw [hlen, hseg]
    simp only [List.cons_append, List.nil_append, segmentLoop]
    rw [Range.length_of_le (0 : ℝ) 16 (by norm_num), if_pos hgap1, h1]
    simp only
    rw [Range.length_of_gt (16 : ℝ) 12 (by norm_num), if_neg hgap2,
      Range.length_of_le (12 : ℝ) 42 (by norm_num), if_pos hgap3, h2]
  rw [findCornersAndSegments_of_parts _ _ _ _ _ _ _ _ hc hsl]
  congr 2
  simp only [sortRanges, List.cons_append, List.nil_append, List.insertionSort,
    List.orderedInsert, Range.isLess]
  norm_num

end HairpinSegments

section BentLemmas

theorem bentPath_nonpos {F : Type} [LinearOrderedField F] (t : F) (h : t ≤ 0) :
    bentPath t = ⟨0, 0⟩ := by
  unfold bentPath
  rw [max_eq_right h, min_eq_left (by norm_num), max_eq_right (by linarith)]

theorem bentPath_low {F : Type} [LinearOrderedField F] (t : F) (h0 : 0 ≤ t) (h1 : t ≤ 4) :
    bentPath t = ⟨t, 0⟩ := by
  unfold bentPath
  rw [max_eq_left h0, min_eq_left h1, max_eq_right (by linarith)]

theorem bentPath_high {F : Type} [LinearOrderedField F] (t : F) (h : 4 ≤ t) :
    bentPath t = ⟨4, t - 4⟩ := by
  unfold bentPath
  rw [max_eq_left (by linarith), min_eq_right h, max_eq_left (by linarith)]

/-- The bent stroke builds, and its map holds the bend. -/
theorem build_bent :
    ∃ line, FreeformLine.build Real.sqrt [⟨0, 0⟩, ⟨4, 0⟩, ⟨4, 3⟩] = some line ∧
      CurveInv bentPath 7 [4] line := by
  have hA := ME_A_LOT_large (F := ℝ)
  have h0 := CurveInv_single (bentPath : ℝ → Vector2 ℝ)
  rw [bentPath_nonpos (0 : ℝ) (le_refl _)] at h0
  obtain ⟨l1, hadd1, hinv1⟩ := CurveInv_step Real.sqrt bentPath 0 4 [] _ ⟨4, 0⟩ h0 (by norm_num)
    (by rw [bentPath_nonpos (0 : ℝ) (le_refl _), distTo_axis]; norm_num)
    (by rw [bentPath_low _ (by norm_num) (by norm_num)]; ext <;> simp)
    (by linarith)
  rw [show (0 : ℝ) + 4 = 4 by norm_num] at hinv1
  obtain ⟨l2, hadd2, hinv2⟩ := CurveInv_step Real.sqrt bentPath 4 3 _ l1 ⟨4, 3⟩ hinv1
    (by norm_num)
    (by rw [bentPath_low _ (by norm_num) (by norm_num), distTo_axis_y]; norm_num)
    (by rw [bentPath_high _ (by norm_num)]; ext <;> simp)
    (by linarith)
  rw [show (4 : ℝ) + 3 = 7 by norm_num] at hinv2
  refine ⟨l2, ?_, hinv2.mono (by simp)⟩
  have hb := build_snoc Real.sqrt [(⟨0, 0⟩ : Vector2 ℝ), ⟨4, 0⟩] ⟨4, 3⟩
  have hb1 := build_snoc Real.sqrt [(⟨0, 0⟩ : Vector2 ℝ)] ⟨4, 0⟩
  rw [build_single] at hb1
  simp only [List.cons_append, List.nil_append, Option.some_bind] at hb1 hb
  rw [hb, hb1, hadd1]
  simp only [Option.some_bind]
  exact hadd2

theorem bent_fitted {F : Type} [LinearOrderedField F] (ks : List F) (line : FreeformLine F)
    (hinv : CurveInv bentPath 7 ks line) (h4 : (4 : F) ∈ ks) :
    Fitted bentPath 7 (line.setBounds { start := 0, end_ := line.length }) := by
  apply hinv.fitted (by norm_num)
  intro t h1 h2
  rcases lt_or_le t 0 with h | h
  · rw [hinv.getPointAt_before t h1 h, bentPath_nonpos t h.le, bentPath_nonpos 0 (le_refl _)]
  · rcases lt_or_le t 4 with h3 | h3
    · exact hinv.getPointAt_piece 0 4 t ⟨0, 0⟩ ⟨1, 0⟩ hinv.has_zero (hinv.has 4 h4)
        (le_refl _) (by norm_num)
        (fun s hs0 hs1 => by rw [bentPath_low s hs0 hs1]; ext <;> simp) h h3
    · rcases eq_or_lt_of_le h2 with h5 | h5
      · rw [h5]
        exact hinv.getPointAt_last
      · exact hinv.getPointAt_piece 4 7 t ⟨4, -4⟩ ⟨0, 1⟩ (hinv.has 4 h4) hinv.has_last
          (by norm_num) (le_refl _)
          (fun s hs0 _ => by
            rw [bentPath_high s hs0]
            ext <;> simp
            ring) h3 h5

/-- No position of the bent stroke passes the corner test: the stroke is
shorter than a tangent window, so all tangents are equal. -/
theorem bent_not_candidate (line : FreeformLine ℝ) (hfit : Fitted bentPath 7 line)
    (input : CornersInput ℝ)
    (hin : input.innerInterMeasurementFactor = 1) (hout : input.outerInterMeasurementFactor = 2)
    (ho : input.outerMaxAngleInDeg = 25) (hi : input.innerMinAngleInDeg = 45) (t : ℝ) :
    ∃ angles, cornerAngles Real.sqrt (fun y x => Complex.arg ⟨x, y⟩) line input t =
        some angles ∧ isCornerCandidate input angles = false := by
  have hs : ∀ s, tangentSecant bentPath line s = ⟨4, 3⟩ := by
    intro s
    rw [hfit.secant_short (by norm_num) s, bentPath_high 7 (by norm_num),
      bentPath_nonpos 0 (le_refl _)]
    ext <;> simp
    norm_num
  refine hfit.pos_false_inner (by norm_num) input hin hout ho hi t ⟨4, 3⟩ ⟨4, 3⟩ (hs _) (hs _)
    ?_ ?_
  · simp only [Vector2.dot]
    norm_num
  · simp only [Vector2.dot, Vector2.cross]
    norm_num

/-- The corner scan of the bent stroke finds nothing. -/
theorem bent_findCorners (line : FreeformLine ℝ) (hfit : Fitted bentPath 7 line)
    (input : CornersInput ℝ)
    (hin : input.innerInterMeasurementFactor = 1) (hout : input.outerInterMeasurementFactor = 2)
    (ho : input.outerMaxAngleInDeg = 25) (hi : input.innerMinAngleInDeg = 45)
    (hstep : 0 < input.tStep) (hmin : 1 ≤ input.minNumberTestPositivesInSeries)
    (ceil : ℝ → ℝ) :
    ∃ N : Nat, ∀ fuel, N ≤ fuel →
      findCorners Real.sqrt (fun y x => Complex.arg ⟨x, y⟩) ceil fuel line input = some [] := by
  obtain ⟨N, hN⟩ := scanLoop_all_false line input (line.clippingRange.start + cornerMargin ceil input)
    (line.clippingRange.end_ - cornerMargin ceil input) hstep hmin
    (bent_not_candidate line hfit input hin hout ho hi)
  refine ⟨N, fun fuel hf => ?_⟩
  rw [findCorners_of_sections _ _ _ _ _ _ _
    (findCornerSections_of_scan _ _ _ _ _ _ _ (hN fuel hf))]
  rfl

/-- The full span `{0, 7}` of the bent stroke is rejected as a segment when
sampled with `tStep = 4` and the default limit: the samples are `(0,0)` and
`(4,0)`. -/
theorem bent_segment_rejected (line : FreeformLine ℝ) (hfit : Fitted bentPath 7 line)
    (input : SegmentsInput ℝ) (hstep : input.tStep = 4)
    (hmax : input.maxMeanErrorAtReferenceLength = 5 / 2)
    (href : input.referenceSegmentLength = 20) (fuel : Nat) (hf : 2 ≤ fuel) :
    ∃ e, isSegment Real.sqrt fuel line { start := 0, end_ := 7 } input = some (false, e) := by
  have hA : (0 : ℝ) < ME_A_LOT := ME_A_LOT_pos
  have hm : (0 : ℝ) < FLT_MIN := FLT_MIN_pos
  have hm1 : (FLT_MIN : ℝ) ≤ 1 / 1000 := by
    unfold FLT_MIN
    apply one_div_le_one_div_of_le (by norm_num)
    norm_num
  have hp0 : line.getPointAt 0 = some ⟨0, 0⟩ := by
    rw [hfit.point 0 (by linarith) (by norm_num), bentPath_nonpos 0 (le_refl _)]
  have hp4 : line.getPointAt 4 = some ⟨4, 0⟩ := by
    rw [hfit.point 4 (by linarith) (by norm_num), bentPath_low 4 (by norm_num) (le_refl _)]
  have hp7 : line.getPointAt 7 = some ⟨4, 3⟩ := by
    rw [hfit.point 7 (by linarith) (le_refl _), bentPath_high 7 (by norm_num)]
    norm_num
  have hsd0 := (between_signedDist Real.sqrt (⟨0, 0⟩ : Vector2 ℝ) ⟨4, 3⟩).1
  have hsd1 : (Line.between Real.sqrt (⟨0, 0⟩ : Vector2 ℝ) ⟨4, 3⟩).signedDistTo ⟨4, 0⟩ =
      -12 * (1 / (Vector2.norm Real.sqrt ((⟨4, 3⟩ : Vector2 ℝ) - ⟨0, 0⟩) + FLT_MIN)) := by
    simp only [Line.between, Line.fromPointAndNormal, Line.signedDistTo, Line.normal,
      Vector2.directionTo, Vector2.normalized, Vector2.rotate90, Vector2.dot, Vector2.div_x,
      Vector2.div_y, Vector2.sub_x, Vector2.sub_y]
    ring
  have hn1 : Vector2.norm Real.sqrt ((⟨4, 3⟩ : Vector2 ℝ) - ⟨0, 0⟩) = 5 := by
    unfold Vector2.norm Vector2.norm2
    simp only [Vector2.sub_x, Vector2.sub_y]
    rw [show ((4 : ℝ) - 0) * (4 - 0) + (3 - 0) * (3 - 0) = 5 ^ 2 by norm_num,
      Real.sqrt_sq (by norm_num)]
  have hn2 : Vector2.distTo Real.sqrt (⟨0, 0⟩ : Vector2 ℝ) ⟨4, 3⟩ = 5 := by
    unfold Vector2.distTo Vector2.norm Vector2.norm2
    simp only [Vector2.sub_x, Vector2.sub_y]
    rw [show ((0 : ℝ) - 4) * (0 - 4) + (0 - 3) * (0 - 3) = 5 ^ 2 by norm_num,
      Real.sqrt_sq (by norm_num)]
  have hloop := calcMeanSquaredErrorLoop_eval
    (Line.between Real.sqrt (⟨0, 0⟩ : Vector2 ℝ) ⟨4, 3⟩).signedDistTo
    line 4 7 [⟨0, 0⟩, ⟨4, 0⟩] fuel 0 FLT_MIN 0 (by simpa using hf)
    (by
      intro i hi
      have hi2 : i = 0 ∨ i = 1 := by simp at hi; omega
      rcases hi2 with h | h <;> subst h
      · simp only [Nat.cast_zero, zero_mul, add_zero, List.getElem?_cons_zero]
        exact ⟨by norm_num, hp0⟩
      · simp only [Nat.cast_one, one_mul, zero_add, List.getElem?_cons_succ,
          List.getElem?_cons_zero]
        exact ⟨by norm_num, hp4⟩)
    (by simp; norm_num)
  have hseg := isSegment_of_parts Real.sqrt fuel line { start := 0, end_ := 7 }
    input ⟨0, 0⟩ ⟨4, 3⟩ _ hp0 hp7 (by rw [href]; norm_num)
    (by
      rw [hstep]
      exact hloop)
  rw [hseg]
  simp only [Option.some.injEq, Prod.mk.injEq, exists_eq_right', decide_eq_false_iff_not, not_le]
  simp only [List.map_cons, List.map_nil, List.sum_cons, List.sum_nil, hsd0, hsd1,
    List.length_cons, List.length_nil, hmax, href, hn1, hn2]
  have hk1 : 1 / (5 + 1 / 1000) ≤ 1 / (5 + (FLT_MIN : ℝ)) :=
    one_div_le_one_div_of_le (by positivity) (by linarith)
  have hk0 : (0 : ℝ) < 1 / (5 + 1 / 1000) := by norm_num
  have hkk : 1 / (5 + 1 / 1000) * (1 / (5 + 1 / 1000)) ≤
      1 / (5 + (FLT_MIN : ℝ)) * (1 / (5 + FLT_MIN)) := mul_le_mul hk1 hk1 hk0.le (by positivity)
  have hq : (2 : ℝ) <
      (0 + (0 * 0 + (-12 * (1 / (5 + FLT_MIN)) * (-12 * (1 / (5 + FLT_MIN))) + 0))) /
        (FLT_MIN + ((0 + 1 + 1 : Nat) : ℝ)) := by
    rw [lt_div_iff₀ (by positivity)]
    push_cast
    have h3 : (1 : ℝ) / 26 ≤ 1 / (5 + 1 / 1000) * (1 / (5 + 1 / 1000)) := by norm_num
    nlinarith
  exact lt_trans (by norm_num) hq

/-- The bent stroke sampled with `SegmentsInput.tStep = 4` has no marker. -/
theorem bent_markers (ks : List ℝ) (line : FreeformLine ℝ) (hinv : CurveInv bentPath 7 ks line)
    (h4 : (4 : ℝ) ∈ ks) (input : ProcessingInput ℝ)
    (hin : input.corners.innerInterMeasurementFactor = 1)
    (hout : input.corners.outerInterMeasurementFactor = 2)
    (ho : input.corners.outerMaxAngleInDeg = 25) (hi : input.corners.innerMinAngleInDeg = 45)
    (hstep : 0 < input.corners.tStep)
    (hmin : 1 ≤ input.corners.minNumberTestPositivesInSeries)
    (hsstep : input.segments.tStep = 4)
    (hmax : input.segments.maxMeanErrorAtReferenceLength = 5 / 2)
    (href : input.segments.referenceSegmentLength = 20) :
    ∃ N : Nat, ∀ fuel, N ≤ fuel →
      findCornersAndSegments Real.sqrt (fun y x => Complex.arg ⟨x, y⟩)
        (fun x => ((⌈x⌉ : ℤ) : ℝ)) fuel input line =
        some (line.setBounds { start := 0, end_ := line.length }, []) := by
  have hfit := bent_fitted ks line hinv h4
  have hlen : (line.setBounds { start := 0, end_ := line.length }).length = 7 := hfit.len
  obtain ⟨N, hN⟩ := bent_findCorners _ hfit input.corners hin hout ho hi hstep hmin
    (fun x => ((⌈x⌉ : ℤ) : ℝ))
  refine ⟨max 2 N, fun fuel hf => ?_⟩
  obtain ⟨e, he⟩ := bent_segment_rejected _ hfit input.segments hsstep hmax href fuel
    (le_trans (le_max_left _ _) hf)
  have hgap : (ME_MAX_SPLINE_GAP : ℝ) < 7 - 0 := by unfold ME_MAX_SPLINE_GAP; norm_num
  have hsl : segmentLoop Real.sqrt fuel (line.setBounds { start := 0, end_ := line.length })
      input.segments
      ([] ++
        [{ start := (line.setBounds { start := 0, end_ := line.length }).length,
           end_ := (line.setBounds { start := 0, end_ := line.length }).length }])
      0 [] = some [] := by
    rw [hlen]
    simp only [List.nil_append, segmentLoop]
    rw [Range.length_of_le (0 : ℝ) 7 (by norm_num), if_pos hgap, he]
  rw [findCornersAndSegments_of_parts _ _ _ _ _ _ _ _ (hN fuel (le_trans (le_max_right _ _) hf))
    hsl]
  rfl

end BentLemmas

section GapBoundsLemmas
variable {F : Type} [LinearOrderedField F]

/-- With no marker, `generateBiarcsAndFinalShapes` on a line longer than
`ME_MAX_SPLINE_GAP` fits the whole line, and `biarcs.tBounds` of the shared
`ProcessingInput` is `{0, length}` afterwards. -/
theorem generate_no_markers (sqrt : F → F) (atan2 : F → F → F)
    (convert : FreeformLine F → BiarcsInput F → List (Biarc F)) (line : FreeformLine F)
    (input : ProcessingInput F) (L : F) (hL : line.length = L) (hlen : ME_MAX_SPLINE_GAP < L)
    (st1 : SplineState F)
    (h : generateBiarcsAndFinalShapes sqrt atan2 convert
      { line := line, processingInput := input, markers := [], outCorners := []
        outDisplayShapes := [] } = some st1) :
    st1.processingInput.biarcs.tBounds = { start := 0, end_ := L } := by
  have h0 : (0 : F) ≤ L := by
    unfold ME_MAX_SPLINE_GAP at hlen
    linarith
  unfold generateBiarcsAndFinalShapes at h
  simp only [List.nil_append, markerLoop, hL] at h
  cases hs : markerStep sqrt atan2 convert { start := -1, end_ := 0 }
      { start := L, end_ := L + 1 }
      { line := line, processingInput := input, markers := [{ start := L, end_ := L + 1 }]
        outCorners := [], outDisplayShapes := [] } with
  | none =>
    rw [hs] at h
    cases h
  | some st0 =>
    rw [hs] at h
    simp only [Option.some.injEq] at h
    subst h
    obtain ⟨_, _, _, _, _, _, hb, _⟩ := markerStep_eq_some sqrt atan2 convert _ _ _ _ hs
    exact hb (by
      rw [Range.length_of_le _ _ h0, sub_zero]
      exact hlen)

end GapBoundsLemmas

section SegmentDistLemmas

/-- The squared distance from a point of the line through `p0` and `p1` to
`q`, in the terms `SplineSegment::distTo` computes. -/
theorem norm2_on_segment (p0 p1 q : Vector2 ℝ) (s : ℝ) :
    ((p0 + (p1 - p0) * s) - q).norm2 =
      (q - p0).norm2 - 2 * s * (q - p0).dot (p1 - p0) + s * s * (p1 - p0).dot (p1 - p0) := by
  simp only [Vector2.norm2, Vector2.dot, Vector2.sub_x, Vector2.sub_y, Vector2.add_x,
    Vector2.add_y, Vector2.mul_x, Vector2.mul_y]
  ring

/-- The point chosen by `SplineSegment::distTo` is a point of the segment, and
no point of the segment is closer to `q`. -/
theorem closestPoint_spec (p0 p1 q : Vector2 ℝ) :
    (∃ s : ℝ, 0 ≤ s ∧ s ≤ 1 ∧ SplineSegment.closestPoint p0 p1 q = p0 + (p1 - p0) * s) ∧
    ∀ s : ℝ, 0 ≤ s → s ≤ 1 →
      (SplineSegment.closestPoint p0 p1 q - q).norm2 ≤ ((p0 + (p1 - p0) * s) - q).norm2 := by
  have hv : 0 ≤ (p1 - p0).dot (p1 - p0) := Vector2.norm2_nonneg (p1 - p0)
  have e0 : p0 = p0 + (p1 - p0) * (0 : ℝ) := by ext <;> simp
  have e1 : p1 = p0 + (p1 - p0) * (1 : ℝ) := by ext <;> simp
  unfold SplineSegment.closestPoint
  simp only
  by_cases h1 : (q - p0).dot (p1 - p0) ≤ 0
  · rw [if_pos h1]
    refine ⟨⟨0, le_refl _, zero_le_one, e0⟩, fun s hs0 hs1 => ?_⟩
    rw [norm2_on_segment p0 p1 q s]
    have h2 : (p0 - q).norm2 = (q - p0).norm2 := Vector2.norm2_sub_comm _ _
    rw [h2]
    nlinarith [mul_nonneg hs0 (neg_nonneg.mpr h1), mul_nonneg (mul_nonneg hs0 hs0) hv]
  · rw [if_neg h1]
    have h1p : 0 < (q - p0).dot (p1 - p0) := not_le.mp h1
    by_cases h2 : (p1 - p0).dot (p1 - p0) ≤ (q - p0).dot (p1 - p0)
    · rw [if_pos h2]
      refine ⟨⟨1, zero_le_one, le_refl _, e1⟩, fun s hs0 hs1 => ?_⟩
      have h3 : (p1 - q).norm2 = ((p0 + (p1 - p0) * (1 : ℝ)) - q).norm2 := by rw [← e1]
      rw [h3, norm2_on_segment p0 p1 q s, norm2_on_segment p0 p1 q 1]
      nlinarith [mul_nonneg (sub_nonneg.mpr hs1) (sub_nonneg.mpr h2),
        mul_nonneg (mul_nonneg (sub_nonneg.mpr hs1) (sub_nonneg.mpr hs1)) hv]
    · rw [if_neg h2]
      have h2p : (q - p0).dot (p1 - p0) < (p1 - p0).dot (p1 - p0) := not_le.mp h2
      have hc2 : 0 < (p1 - p0).dot (p1 - p0) := lt_trans h1p h2p
      refine ⟨⟨(q - p0).dot (p1 - p0) / (p1 - p0).dot (p1 - p0), by positivity,
        (div_le_one hc2).mpr h2p.le, rfl⟩, fun s hs0 hs1 => ?_⟩
      rw [norm2_on_segment p0 p1 q s, norm2_on_segment p0 p1 q _]
      have hsq : 0 ≤ (s * (p1 - p0).dot (p1 - p0) - (q - p0).dot (p1 - p0)) ^ 2 := sq_nonneg _
      have hkey : (q - p0).norm2 - 2 * s * (q - p0).dot (p1 - p0) +
            s * s * (p1 - p0).dot (p1 - p0) -
          ((q - p0).norm2 -
            2 * ((q - p0).dot (p1 - p0) / (p1 - p0).dot (p1 - p0)) * (q - p0).dot (p1 - p0) +
            (q - p0).dot (p1 - p0) / (p1 - p0).dot (p1 - p0) *
              ((q - p0).dot (p1 - p0) / (p1 - p0).dot (p1 - p0)) * (p1 - p0).dot (p1 - p0)) =
          (s * (p1 - p0).dot (p1 - p0) - (q - p0).dot (p1 - p0)) ^ 2 /
            (p1 - p0).dot (p1 - p0) := by
        field_simp
        ring
      have hdiv : 0 ≤ (s * (p1 - p0).dot (p1 - p0) - (q - p0).dot (p1 - p0)) ^ 2 /
          (p1 - p0).dot (p1 - p0) := div_nonneg hsq hc2.le
      linarith

end SegmentDistLemmas

section QuadraticLemmas

/-- Unit vectors have a dot product of at most 1. -/
theorem dot_le_one_of_unit (t0 t1 : Vector2 ℝ) (h0 : t0.norm2 = 1) (h1 : t1.norm2 = 1) :
    t0.dot t1 ≤ 1 := by
  simp only [Vector2.norm2] at h0 h1
  simp only [Vector2.dot]
  nlinarith [sq_nonneg (t0.x - t1.x), sq_nonneg (t0.y - t1.y)]

/-- With a positive leading coefficient and a non-positive constant term the
discriminant is non-negative and the root with `+ sqrt` is non-negative and a
root. -/
theorem quadratic_larger_root (a b c : ℝ) (ha : 0 < a) (hc : c ≤ 0) :
    0 ≤ b * b - 4 * a * c ∧
    (-b - Real.sqrt (b * b - 4 * a * c)) / (2 * a) ≤
      (-b + Real.sqrt (b * b - 4 * a * c)) / (2 * a) ∧
    0 ≤ (-b + Real.sqrt (b * b - 4 * a * c)) / (2 * a) ∧
    a * ((-b + Real.sqrt (b * b - 4 * a * c)) / (2 * a)) *
        ((-b + Real.sqrt (b * b - 4 * a * c)) / (2 * a)) +
      b * ((-b + Real.sqrt (b * b - 4 * a * c)) / (2 * a)) + c = 0 := by
  have hd : 0 ≤ b * b - 4 * a * c := by nlinarith [mul_self_nonneg b, mul_nonneg ha.le (neg_nonneg.mpr hc)]
  have hs0 : 0 ≤ Real.sqrt (b * b - 4 * a * c) := Real.sqrt_nonneg _
  have hss : Real.sqrt (b * b - 4 * a * c) * Real.sqrt (b * b - 4 * a * c) =
      b * b - 4 * a * c := Real.mul_self_sqrt hd
  have hb : |b| ≤ Real.sqrt (b * b - 4 * a * c) := by
    apply Real.abs_le_sqrt
    nlinarith [mul_nonneg ha.le (neg_nonneg.mpr hc)]
  have hb2 : b ≤ Real.sqrt (b * b - 4 * a * c) := le_trans (le_abs_self b) hb
  have h2a : 0 < 2 * a := by linarith
  refine ⟨hd, ?_, ?_, ?_⟩
  · exact div_le_div_of_nonneg_right (by linarith) h2a.le
  · exact div_nonneg (by linarith) h2a.le
  · field_simp
    nlinarith

end QuadraticLemmas

section ClosureLemmas

theorem calcCachedShapes_of_mid {F : Type} [LinearOrderedField F] (sqrt : F → F) (b : Biarc F)
    (mid : Vector2 F) (hmid : b.midPoint = some mid) :
    b.calcCachedShapes sqrt =
      some { b with
        shape0 := CircleOrLine.fitCircleOrLine sqrt b.point0 b.tangent0 mid
        shape1 := CircleOrLine.fitCircleOrLine sqrt b.point1 b.tangent1 mid
        divLine := Line.fromPointAndNormal mid (b.midTangent sqrt) } := by
  unfold Biarc.calcCachedShapes
  rw [hmid]

theorem midPoint_of_pos {F : Type} [LinearOrderedField F] (b : Biarc F)
    (h : 0 ≤ b.param.d0 + b.param.d1) :
    b.midPoint = some (Vector2.interpolate b.q0 b.q1
      (b.param.d0 / (b.param.d0 + b.param.d1 + FLT_MIN))) := by
  have hm : (0 : F) < FLT_MIN := FLT_MIN_pos
  unfold Biarc.midPoint
  rw [if_neg (by intro hc; linarith)]


/-- The pair recorded from the quadratic branch of `findPossibleBiarcParams`
closes the biarc: `|q1 - q0| = d0 + d1`, and the mid point divides the segment
from `q0` to `q1` in the ratio `d0 : d1 + FLT_MIN`. -/
theorem closure_of_quadratic_root (b : Biarc ℝ) (r : ℝ)
    (h0 : b.tangent0.norm2 = 1) (h1 : b.tangent1.norm2 = 1) (hr : 0 < r)
    (ha : |Biarc.coeffA b.tangent0 b.tangent1 r| > ME_EPSILON)
    (hd1 : b.param.d1 = max
      ((-Biarc.coeffB b.tangent0 b.tangent1 (b.point1 - b.point0) r -
          Real.sqrt (Biarc.coeffB b.tangent0 b.tangent1 (b.point1 - b.point0) r *
            Biarc.coeffB b.tangent0 b.tangent1 (b.point1 - b.point0) r -
            4 * Biarc.coeffA b.tangent0 b.tangent1 r * Biarc.coeffC (b.point1 - b.point0))) /
        (2 * Biarc.coeffA b.tangent0 b.tangent1 r))
      ((-Biarc.coeffB b.tangent0 b.tangent1 (b.point1 - b.point0) r +
          Real.sqrt (Biarc.coeffB b.tangent0 b.tangent1 (b.point1 - b.point0) r *
            Biarc.coeffB b.tangent0 b.tangent1 (b.point1 - b.point0) r -
            4 * Biarc.coeffA b.tangent0 b.tangent1 r * Biarc.coeffC (b.point1 - b.point0))) /
        (2 * Biarc.coeffA b.tangent0 b.tangent1 r)))
    (hd0 : b.param.d0 = r * b.param.d1)
    (hmax : b.param.d1 < ME_MAX_D_PARAM) (heps : ME_EPSILON < b.param.d1) :
    Biarc.ratioStep Real.sqrt b.tangent0 b.tangent1 (b.point1 - b.point0) r =
      Biarc.RatioStep.finished b.param.d1 true ∧
    Biarc.ratioLoop Real.sqrt b.tangent0 b.tangent1 (b.point1 - b.point0) [r] [] =
      some [b.param] ∧
    (b.q1 - b.q0).norm Real.sqrt = b.param.d0 + b.param.d1 ∧
    ∃ mid, b.midPoint = some mid ∧
      (mid - b.q0).norm Real.sqrt =
        b.param.d0 / (b.param.d0 + b.param.d1 + FLT_MIN) * (b.param.d0 + b.param.d1) ∧
      (b.q1 - mid).norm Real.sqrt =
        (b.param.d1 + FLT_MIN) / (b.param.d0 + b.param.d1 + FLT_MIN) *
          (b.param.d0 + b.param.d1) ∧
      (mid - b.q0).norm Real.sqrt < b.param.d0 := by
  have he : (0 : ℝ) < ME_EPSILON := ME_EPSILON_pos
  have hm : (0 : ℝ) < FLT_MIN := FLT_MIN_pos
  have hdot := dot_le_one_of_unit b.tangent0 b.tangent1 h0 h1
  have ha0 : 0 ≤ Biarc.coeffA b.tangent0 b.tangent1 r := by
    unfold Biarc.coeffA
    exact mul_nonneg hr.le (by linarith)
  have hapos : 0 < Biarc.coeffA b.tangent0 b.tangent1 r := by
    rw [abs_of_nonneg ha0] at ha
    linarith
  have hc : Biarc.coeffC (b.point1 - b.point0) ≤ 0 := by
    unfold Biarc.coeffC
    have := Vector2.norm2_nonneg (b.point1 - b.point0)
    simp only [Vector2.norm2] at this
    simp only [Vector2.dot]
    linarith
  obtain ⟨hd, hle, _, hroot⟩ :=
    quadratic_larger_root (Biarc.coeffA b.tangent0 b.tangent1 r)
      (Biarc.coeffB b.tangent0 b.tangent1 (b.point1 - b.point0) r)
      (Biarc.coeffC (b.point1 - b.point0)) hapos hc
  have hd1max := hd1
  rw [max_eq_right hle] at hd1
  rw [← hd1] at hroot
  have hd1pos : 0 < b.param.d1 := lt_trans he heps
  have hd0pos : 0 < b.param.d0 := by rw [hd0]; exact mul_pos hr hd1pos
  have hstep : Biarc.ratioStep Real.sqrt b.tangent0 b.tangent1 (b.point1 - b.point0) r =
      Biarc.RatioStep.finished b.param.d1 true := by
    unfold Biarc.ratioStep
    simp only [if_pos ha, if_pos (ge_iff_le.mpr hd), ← hd1max]
    rw [if_neg (by
      intro h
      rcases h with h | h
      · linarith
      · linarith), if_pos hmax]
  have hparam : b.param = { d0 := r * b.param.d1, d1 := b.param.d1 } := by
    rw [← hd0]
  have hloop : Biarc.ratioLoop Real.sqrt b.tangent0 b.tangent1 (b.point1 - b.point0) [r] [] =
      some [b.param] := by
    unfold Biarc.ratioLoop
    rw [hstep]
    simp only [if_pos heps, Biarc.ratioLoop, List.nil_append]
    rw [← hparam]
  have hn2 : (b.q1 - b.q0).norm2 =
      (b.param.d0 + b.param.d1) * (b.param.d0 + b.param.d1) := by
    simp only [Vector2.norm2] at h0 h1
    simp only [Biarc.coeffA, Biarc.coeffB, Biarc.coeffC, Vector2.dot, Vector2.sub_x,
      Vector2.sub_y, Vector2.add_x, Vector2.add_y, Vector2.mul_x, Vector2.mul_y] at hroot
    simp only [Vector2.norm2, Biarc.q0, Biarc.q1, Vector2.sub_x, Vector2.sub_y, Vector2.add_x,
      Vector2.add_y, Vector2.mul_x, Vector2.mul_y, hd0]
    linear_combination (-2 : ℝ) * hroot +
      (b.param.d1 * b.param.d1 * r * r) * h0 + (b.param.d1 * b.param.d1) * h1
  have hsum : 0 < b.param.d0 + b.param.d1 := by linarith
  have hnorm : (b.q1 - b.q0).norm Real.sqrt = b.param.d0 + b.param.d1 := by
    unfold Vector2.norm
    rw [hn2, Real.sqrt_mul_self hsum.le]
  have hscale : ∀ (v : Vector2 ℝ) (k : ℝ), 0 ≤ k →
      (v * k).norm Real.sqrt = k * v.norm Real.sqrt := by
    intro v k hk
    unfold Vector2.norm
    have : (v * k).norm2 = k * k * v.norm2 := by
      simp only [Vector2.norm2, Vector2.mul_x, Vector2.mul_y]
      ring
    rw [this, Real.sqrt_mul (mul_self_nonneg k), Real.sqrt_mul_self hk]
  have hl0 : 0 ≤ b.param.d0 / (b.param.d0 + b.param.d1 + FLT_MIN) := by positivity
  have hl1 : 0 ≤ (b.param.d1 + FLT_MIN) / (b.param.d0 + b.param.d1 + FLT_MIN) := by positivity
  refine ⟨hstep, hloop, hnorm, _, midPoint_of_pos b hsum.le, ?_, ?_, ?_⟩
  · have e : Vector2.interpolate b.q0 b.q1 (b.param.d0 / (b.param.d0 + b.param.d1 + FLT_MIN)) -
        b.q0 = (b.q1 - b.q0) * (b.param.d0 / (b.param.d0 + b.param.d1 + FLT_MIN)) := by
      ext
      · simp only [Vector2.interpolate, Vector2.sub_x, Vector2.add_x, Vector2.mul_x]
        ring
      · simp only [Vector2.interpolate, Vector2.sub_y, Vector2.add_y, Vector2.mul_y]
        ring
    rw [e, hscale _ _ hl0, hnorm]
  · have e : b.q1 -
        Vector2.interpolate b.q0 b.q1 (b.param.d0 / (b.param.d0 + b.param.d1 + FLT_MIN)) =
        (b.q1 - b.q0) * ((b.param.d1 + FLT_MIN) / (b.param.d0 + b.param.d1 + FLT_MIN)) := by
      ext
      · simp only [Vector2.interpolate, Vector2.sub_x, Vector2.add_x, Vector2.mul_x]
        field_simp
        ring
      · simp only [Vector2.interpolate, Vector2.sub_y, Vector2.add_y, Vector2.mul_y]
        field_simp
        ring
    rw [e, hscale _ _ hl1, hnorm]
  · have e : Vector2.interpolate b.q0 b.q1 (b.param.d0 / (b.param.d0 + b.param.d1 + FLT_MIN)) -
        b.q0 = (b.q1 - b.q0) * (b.param.d0 / (b.param.d0 + b.param.d1 + FLT_MIN)) := by
      ext
      · simp only [Vector2.interpolate, Vector2.sub_x, Vector2.add_x, Vector2.mul_x]
        ring
      · simp only [Vector2.interpolate, Vector2.sub_y, Vector2.add_y, Vector2.mul_y]
        ring
    rw [e, hscale _ _ hl0, hnorm, div_mul_eq_mul_div, div_lt_iff₀ (by linarith)]
    nlinarith

/-- The biarc from `(0,0)` with tangent `(1,0)` to `(0,2)` with tangent
`(-1,0)` and the parameters `d0 = d1 = 1`. -/
theorem closure_example_hyps :
    (1 : ℝ) = max
      ((-Biarc.coeffB (⟨1, 0⟩ : Vector2 ℝ) ⟨-1, 0⟩ (⟨0, 2⟩ - ⟨0, 0⟩) 1 -
          Real.sqrt (Biarc.coeffB (⟨1, 0⟩ : Vector2 ℝ) ⟨-1, 0⟩ (⟨0, 2⟩ - ⟨0, 0⟩) 1 *
            Biarc.coeffB (⟨1, 0⟩ : Vector2 ℝ) ⟨-1, 0⟩ (⟨0, 2⟩ - ⟨0, 0⟩) 1 -
            4 * Biarc.coeffA (⟨1, 0⟩ : Vector2 ℝ) ⟨-1, 0⟩ 1 *
              Biarc.coeffC ((⟨0, 2⟩ : Vector2 ℝ) - ⟨0, 0⟩))) /
        (2 * Biarc.coeffA (⟨1, 0⟩ : Vector2 ℝ) ⟨-1, 0⟩ 1))
      ((-Biarc.coeffB (⟨1, 0⟩ : Vector2 ℝ) ⟨-1, 0⟩ (⟨0, 2⟩ - ⟨0, 0⟩) 1 +
          Real.sqrt (Biarc.coeffB (⟨1, 0⟩ : Vector2 ℝ) ⟨-1, 0⟩ (⟨0, 2⟩ - ⟨0, 0⟩) 1 *
            Biarc.coeffB (⟨1, 0⟩ : Vector2 ℝ) ⟨-1, 0⟩ (⟨0, 2⟩ - ⟨0, 0⟩) 1 -
            4 * Biarc.coeffA (⟨1, 0⟩ : Vector2 ℝ) ⟨-1, 0⟩ 1 *
              Biarc.coeffC ((⟨0, 2⟩ : Vector2 ℝ) - ⟨0, 0⟩))) /
        (2 * Biarc.coeffA (⟨1, 0⟩ : Vector2 ℝ) ⟨-1, 0⟩ 1)) ∧
    |Biarc.coeffA (⟨1, 0⟩ : Vector2 ℝ) ⟨-1, 0⟩ 1| > ME_EPSILON ∧
    (1 : ℝ) < ME_MAX_D_PARAM ∧ (ME_EPSILON : ℝ) < 1 := by
  have hA : Biarc.coeffA (⟨1, 0⟩ : Vector2 ℝ) ⟨-1, 0⟩ 1 = 2 := by
    simp [Biarc.coeffA, Vector2.dot]
    norm_num
  have hB : Biarc.coeffB (⟨1, 0⟩ : Vector2 ℝ) ⟨-1, 0⟩ (⟨0, 2⟩ - ⟨0, 0⟩) 1 = 0 := by
    simp [Biarc.coeffB, Vector2.dot]
  have hC : Biarc.coeffC ((⟨0, 2⟩ : Vector2 ℝ) - ⟨0, 0⟩) = -2 := by
    simp [Biarc.coeffC, Vector2.dot]
  have hs : Real.sqrt ((0 : ℝ) * 0 - 4 * 2 * -2) = 4 := by
    rw [show (0 : ℝ) * 0 - 4 * 2 * -2 = 4 * 4 by norm_num]
    exact Real.sqrt_mul_self (by norm_num)
  refine ⟨?_, ?_, ?_, ?_⟩
  · rw [hA, hB, hC, hs]
    norm_num
  · rw [hA]
    unfold ME_EPSILON
    norm_num
  · unfold ME_MAX_D_PARAM
    norm_num
  · unfold ME_EPSILON
    norm_num

end ClosureLemmas

section StreamPathLemmas

/-- The map after one more `addPoint` while the path length stays below the
sentinel: unchanged when the point repeats the last one, otherwise one entry
is added before the closing sentinel. -/
theorem addPoint_path_shape (l : List (Vector2 ℝ)) (q p : Vector2 ℝ)
    (line next : FreeformLine ℝ) (hinv : PathInv (l ++ [q]) q line)
    (hlt : pathLength Real.sqrt (l ++ [q] ++ [p]) < ME_A_LOT)
    (hadd : FreeformLine.addPoint Real.sqrt line p = some next) :
    ∃ pre, line.points = pre ++ [(pathLength Real.sqrt (l ++ [q]), q), (ME_A_LOT, q)] ∧
      ((p = q ∧ next.points = line.points) ∨
       (pathLength Real.sqrt (l ++ [q]) < pathLength Real.sqrt (l ++ [q] ++ [p]) ∧
        pathLength Real.sqrt (l ++ [q] ++ [p]) =
          pathLength Real.sqrt (l ++ [q]) + q.distTo Real.sqrt p ∧
        next.points = pre ++ [(pathLength Real.sqrt (l ++ [q]), q),
          (pathLength Real.sqrt (l ++ [q] ++ [p]), p), (ME_A_LOT, p)])) := by
  obtain ⟨pre, hpts⟩ := hinv.shape
  have hd : 0 ≤ q.distTo Real.sqrt p := distTo_nonneg _ _
  have hsnoc : pathLength Real.sqrt (l ++ [q] ++ [p]) =
      pathLength Real.sqrt (l ++ [q]) + q.distTo Real.sqrt p := by
    rw [pathLength_snoc, distTo_eq_norm_sub]
  obtain ⟨pts2, hadd2, _, hc⟩ :=
    addPoint_cases Real.sqrt line p pre (pathLength Real.sqrt (l ++ [q]), q) (ME_A_LOT, q)
      hpts hinv.sorted hd
  rw [hadd] at hadd2
  have hnext : next.points = pts2 := by rw [Option.some.inj hadd2]
  simp only at hc
  refine ⟨pre, hpts, ?_⟩
  rcases hc with ⟨c1, c2⟩ | ⟨c1, _, c3⟩ | ⟨c1, _⟩ | ⟨c1, _⟩
  · have hqp : q = p := eq_of_distTo_eq_zero (by linarith)
    exact Or.inl ⟨hqp.symm, by rw [hnext, c2, hpts, hqp]⟩
  · exact Or.inr ⟨by rw [hsnoc]; exact c1, hsnoc, by rw [hnext, c3, hsnoc]⟩
  · rw [← hsnoc] at c1; exact absurd c1 (ne_of_lt hlt)
  · rw [← hsnoc] at c1; exact absurd c1 (not_lt.mpr hlt.le)

/-- One `addPoint` of a point different from the last one adds one entry to
the map while the path length stays below the sentinel. -/
theorem PathInv_step_size (l : List (Vector2 ℝ)) (q p : Vector2 ℝ) (line next : FreeformLine ℝ)
    (hinv : PathInv (l ++ [q]) q line)
    (hlt : pathLength Real.sqrt (l ++ [q] ++ [p]) < ME_A_LOT) (hne : q ≠ p)
    (hadd : FreeformLine.addPoint Real.sqrt line p = some next) :
    next.points.length = line.points.length + 1 := by
  obtain ⟨pre, hpts, hc⟩ := addPoint_path_shape l q p line next hinv hlt hadd
  rcases hc with ⟨c1, _⟩ | ⟨_, _, c3⟩
  · exact absurd c1.symm hne
  · rw [c3, hpts]; simp

/-- The map of a polyline built from points of which no two consecutive ones
coincide has one entry per point and the two sentinel entries. -/
theorem build_path_size (l : List (Vector2 ℝ)) (q : Vector2 ℝ)
    (hlt : pathLength Real.sqrt (l ++ [q]) < ME_A_LOT)
    (hne : List.Chain' (fun a b => a ≠ b) (l ++ [q])) :
    ∃ line, FreeformLine.build Real.sqrt (l ++ [q]) = some line ∧
      PathInv (l ++ [q]) q line ∧ line.points.length = (l ++ [q]).length + 2 := by
  induction l using List.reverseRecOn generalizing q with
  | nil => exact ⟨_, build_single Real.sqrt q, PathInv_single q, rfl⟩
  | append_singleton init q2 ih =>
    have hle : pathLength Real.sqrt (init ++ [q2]) ≤
        pathLength Real.sqrt (init ++ [q2] ++ [q]) := by
      rw [pathLength_snoc]
      have : 0 ≤ (q - q2).norm Real.sqrt := Real.sqrt_nonneg _
      linarith
    have hne2 : List.Chain' (fun a b => a ≠ b) (init ++ [q2]) :=
      (List.chain'_append.mp hne).1
    have hq : q2 ≠ q := by
      have h := (List.chain'_append.mp hne).2.2 q2 (by simp) q (by simp)
      exact h
    obtain ⟨line, hb, hinv, hsize⟩ := ih q2 (lt_of_le_of_lt hle hlt) hne2
    obtain ⟨next, hadd, hinv2⟩ := PathInv_step init q2 q line hinv hlt
    refine ⟨next, ?_, hinv2, ?_⟩
    · rw [build_snoc, hb]
      exact hadd
    · rw [PathInv_step_size init q2 q line next hinv hlt hq hadd, hsize]
      simp

end StreamPathLemmas

section SpeedLemmas

variable {F : Type} [LinearOrderedField F]

theorem interpolate_one (a b : Vector2 F) : Vector2.interpolate a b 1 = b := by
  ext <;> simp [Vector2.interpolate]

/-- Scaling a vector scales its norm, for any function `sqrt` that is the
non-negative square root on non-negative numbers. -/
theorem norm_scale_of (sqrt : F → F)
    (hsq : ∀ x : F, 0 ≤ x → 0 ≤ sqrt x ∧ sqrt x * sqrt x = x)
    (v : Vector2 F) (c : F) : (v * c).norm sqrt = |c| * v.norm sqrt := by
  have hn : (v * c).norm2 = c * c * v.norm2 := by
    simp only [Vector2.norm2, Vector2.mul_x, Vector2.mul_y]; ring
  have h0 := Vector2.norm2_nonneg v
  have h1 := hsq v.norm2 h0
  have h2 := hsq (c * c * v.norm2) (mul_nonneg (mul_self_nonneg c) h0)
  unfold Vector2.norm
  rw [hn]
  apply (mul_self_inj h2.1 (mul_nonneg (abs_nonneg c) h1.1)).mp
  rw [h2.2]
  have h3 : |c| * sqrt v.norm2 * (|c| * sqrt v.norm2) =
      (|c| * |c|) * (sqrt v.norm2 * sqrt v.norm2) := by ring
  rw [h3, h1.2, abs_mul_abs_self]

/-- The triangle inequality of the norm. -/
theorem norm_add_le_of (sqrt : F → F)
    (hsq : ∀ x : F, 0 ≤ x → 0 ≤ sqrt x ∧ sqrt x * sqrt x = x)
    (u v : Vector2 F) : (u + v).norm sqrt ≤ u.norm sqrt + v.norm sqrt := by
  have hu := hsq u.norm2 (Vector2.norm2_nonneg u)
  have hv := hsq v.norm2 (Vector2.norm2_nonneg v)
  have hw := hsq (u + v).norm2 (Vector2.norm2_nonneg _)
  unfold Vector2.norm
  have hexp : (u + v).norm2 = u.norm2 + v.norm2 + 2 * (u.dot v) := by
    simp only [Vector2.norm2, Vector2.dot, Vector2.add_x, Vector2.add_y]; ring
  have hcs : (u.dot v) * (u.dot v) ≤ u.norm2 * v.norm2 := by
    simp only [Vector2.dot, Vector2.norm2]
    nlinarith [mul_self_nonneg (u.x * v.y - u.y * v.x)]
  have hab : 0 ≤ sqrt u.norm2 * sqrt v.norm2 := mul_nonneg hu.1 hv.1
  have e : sqrt u.norm2 * sqrt v.norm2 * (sqrt u.norm2 * sqrt v.norm2) =
      u.norm2 * v.norm2 := by
    have e1 : sqrt u.norm2 * sqrt v.norm2 * (sqrt u.norm2 * sqrt v.norm2) =
        (sqrt u.norm2 * sqrt u.norm2) * (sqrt v.norm2 * sqrt v.norm2) := by ring
    rw [e1, hu.2, hv.2]
  have hdot : u.dot v ≤ sqrt u.norm2 * sqrt v.norm2 := by
    by_contra h
    push_neg at h
    have h2 := mul_self_lt_mul_self hab h
    linarith
  by_contra h
  push_neg at h
  have h2 := mul_self_lt_mul_self (add_nonneg hu.1 hv.1) h
  have e2 : (sqrt u.norm2 + sqrt v.norm2) * (sqrt u.norm2 + sqrt v.norm2) =
      sqrt u.norm2 * sqrt u.norm2 + sqrt v.norm2 * sqrt v.norm2 +
        2 * (sqrt u.norm2 * sqrt v.norm2) := by ring
  rw [e2, hu.2, hv.2, hw.2, hexp] at h2
  linarith

theorem distTo_triangle_of (sqrt : F → F)
    (hsq : ∀ x : F, 0 ≤ x → 0 ≤ sqrt x ∧ sqrt x * sqrt x = x)
    (a b c : Vector2 F) : a.distTo sqrt c ≤ a.distTo sqrt b + b.distTo sqrt c := by
  have h : a - c = (a - b) + (b - c) := by ext <;> simp
  unfold Vector2.distTo
  rw [h]
  exact norm_add_le_of sqrt hsq _ _

theorem distTo_interpolate_of (sqrt : F → F)
    (hsq : ∀ x : F, 0 ≤ x → 0 ≤ sqrt x ∧ sqrt x * sqrt x = x)
    (a b : Vector2 F) (s s2 : F) :
    (Vector2.interpolate a b s).distTo sqrt (Vector2.interpolate a b s2) =
      |s2 - s| * a.distTo sqrt b := by
  have h : Vector2.interpolate a b s - Vector2.interpolate a b s2 = (a - b) * (s2 - s) := by
    ext <;> simp [Vector2.interpolate] <;> ring
  unfold Vector2.distTo
  rw [h]
  exact norm_scale_of sqrt hsq _ _

omit [LinearOrderedField F] in
theorem distTo_symm_of [LinearOrderedField F] (sqrt : F → F) (a b : Vector2 F) :
    a.distTo sqrt b = b.distTo sqrt a := by
  unfold Vector2.distTo Vector2.norm
  rw [Vector2.norm2_sub_comm]

/-- A query at or past the second key of the map does not look at the first
entry. -/
theorem getPointAt_cons_skip (line : FreeformLine F) (a b : F × Vector2 F)
    (rest : List (F × Vector2 F)) (t : F) (hpts : line.points = a :: b :: rest)
    (hab : a.1 ≤ b.1) (ht : b.1 ≤ t) :
    line.getPointAt t = ({ line with points := b :: rest } : FreeformLine F).getPointAt t := by
  have h1 : ¬ t < a.1 := not_lt.mpr (le_trans hab ht)
  have h2 : ¬ t < b.1 := not_lt.mpr ht
  unfold FreeformLine.getPointAt
  simp only [hpts, upper_bound, h1, h2, if_false]
  simp

/-- The point `getPointAt` gives anywhere on the closed span between two
adjacent entries that are followed by another entry. -/
theorem getPointAt_on_piece (line : FreeformLine F) (pre post : List (F × Vector2 F))
    (a b c : F × Vector2 F) (t : F) (hpts : line.points = pre ++ a :: b :: c :: post)
    (hs : SortedKeys line.points) (h1 : a.1 ≤ t) (h2 : t ≤ b.1) :
    line.getPointAt t =
      some (Vector2.interpolate a.2 b.2 ((t - a.1) / (b.1 - a.1))) := by
  have hs2 : SortedKeys (pre ++ a :: b :: c :: post) := hpts ▸ hs
  have hsplit := List.pairwise_append.mp hs2
  have hab : a.1 < b.1 := (List.pairwise_cons.mp hsplit.2.1).1 b (by simp)
  have hbc : b.1 < c.1 :=
    (List.pairwise_cons.mp (List.pairwise_cons.mp hsplit.2.1).2).1 c (by simp)
  have hpre : ∀ e ∈ pre, e.1 ≤ t := fun e he =>
    le_trans (hsplit.2.2 e he a (by simp)).le h1
  rcases lt_or_eq_of_le h2 with h3 | h3
  · exact getPointAt_between line t pre (c :: post) a b hpts hpre h1 h3
  · have h4 := getPointAt_between line t (pre ++ [a]) post b c (by simp [hpts])
      (by
        intro e he
        rcases List.mem_append.mp he with h | h
        · exact hpre e h
        · simp at h; rw [h]; exact h1)
      h3.ge (by rw [h3]; exact hbc)
    have hne : b.1 - a.1 ≠ 0 := by linarith
    rw [h4, h3, sub_self, zero_div, Vector2.interpolate_zero, div_self hne, interpolate_one]

/-- Along a map with increasing keys in which adjacent entries are no
farther apart than their keys, `getPointAt` is defined below the largest key
and moves no faster than unit speed. -/
theorem getPointAt_speed_of (sqrt : F → F)
    (hsq : ∀ x : F, 0 ≤ x → 0 ≤ sqrt x ∧ sqrt x * sqrt x = x)
    (K : F) (rest : List (F × Vector2 F)) :
    ∀ (a : F × Vector2 F) (line : FreeformLine F), line.points = a :: rest →
      SortedKeys (a :: rest) →
      List.Chain' (fun u v => u.2.distTo sqrt v.2 ≤ v.1 - u.1) (a :: rest) →
      (∃ e ∈ a :: rest, K ≤ e.1) →
      ∀ t, a.1 ≤ t → t < K →
        ∃ x, line.getPointAt t = some x ∧ a.2.distTo sqrt x ≤ t - a.1 ∧
          ∀ t2, t ≤ t2 → t2 < K →
            ∃ y, line.getPointAt t2 = some y ∧ x.distTo sqrt y ≤ t2 - t := by
  induction rest with
  | nil =>
    intro a line _ _ _ he t h1 h2
    obtain ⟨e, hmem, hK⟩ := he
    simp at hmem
    rw [hmem] at hK
    linarith
  | cons b rest ih =>
    intro a line hpts hs hc he t h1 h2
    have hab : a.1 < b.1 := (List.pairwise_cons.mp hs).1 b (List.mem_cons_self _ _)
    have hs2 : SortedKeys (b :: rest) := (List.pairwise_cons.mp hs).2
    have hc2 := List.chain'_cons.mp hc
    have hdab : a.2.distTo sqrt b.2 ≤ b.1 - a.1 := hc2.1
    have he2 : ∀ u, b.1 ≤ u → u < K → ∃ e ∈ b :: rest, K ≤ e.1 := by
      intro u hb hK
      obtain ⟨e, hmem, heK⟩ := he
      rcases List.mem_cons.mp hmem with h | h
      · rw [h] at heK; linarith
      · exact ⟨e, h, heK⟩
    have htail : ∀ u, b.1 ≤ u → u < K →
        ∃ x, line.getPointAt u = some x ∧ b.2.distTo sqrt x ≤ u - b.1 ∧
          ∀ t2, u ≤ t2 → t2 < K →
            ∃ y, line.getPointAt t2 = some y ∧ x.distTo sqrt y ≤ t2 - u := by
      intro u hb hK
      obtain ⟨x, hx, hdx, hrest⟩ :=
        ih b { line with points := b :: rest } rfl hs2 hc2.2 (he2 u hb hK) u hb hK
      refine ⟨x, ?_, hdx, ?_⟩
      · rw [getPointAt_cons_skip line a b rest u hpts hab.le hb]; exact hx
      · intro t2 h3 h4
        obtain ⟨y, hy, hdy⟩ := hrest t2 h3 h4
        refine ⟨y, ?_, hdy⟩
        rw [getPointAt_cons_skip line a b rest t2 hpts hab.le (le_trans hb h3)]; exact hy
    rcases lt_or_le t b.1 with htb | htb
    · have hpiece : ∀ u, a.1 ≤ u → u < b.1 → line.getPointAt u =
          some (Vector2.interpolate a.2 b.2 ((u - a.1) / (b.1 - a.1))) := by
        intro u h3 h4
        exact getPointAt_between line u [] rest a b (by simpa using hpts) (by simp) h3 h4
      have hpos : 0 < b.1 - a.1 := by linarith
      have hs0 : 0 ≤ (t - a.1) / (b.1 - a.1) := div_nonneg (by linarith) hpos.le
      have hsmul : (t - a.1) / (b.1 - a.1) * (b.1 - a.1) = t - a.1 := by field_simp
      refine ⟨_, hpiece t h1 htb, ?_, ?_⟩
      · have h := distTo_interpolate_of sqrt hsq a.2 b.2 0 ((t - a.1) / (b.1 - a.1))
        rw [Vector2.interpolate_zero, sub_zero, abs_of_nonneg hs0] at h
        rw [h]
        calc (t - a.1) / (b.1 - a.1) * a.2.distTo sqrt b.2
            ≤ (t - a.1) / (b.1 - a.1) * (b.1 - a.1) := mul_le_mul_of_nonneg_left hdab hs0
          _ = t - a.1 := hsmul
      · intro t2 h3 h4
        rcases lt_or_le t2 b.1 with h5 | h5
        · have hs2mul : (t2 - a.1) / (b.1 - a.1) * (b.1 - a.1) = t2 - a.1 := by field_simp
          have hss : (t - a.1) / (b.1 - a.1) ≤ (t2 - a.1) / (b.1 - a.1) :=
            div_le_div_of_nonneg_right (by linarith) hpos.le
          refine ⟨_, hpiece t2 (le_trans h1 h3) h5, ?_⟩
          rw [distTo_interpolate_of sqrt hsq, abs_of_nonneg (by linarith)]
          calc ((t2 - a.1) / (b.1 - a.1) - (t - a.1) / (b.1 - a.1)) * a.2.distTo sqrt b.2
              ≤ ((t2 - a.1) / (b.1 - a.1) - (t - a.1) / (b.1 - a.1)) * (b.1 - a.1) :=
                mul_le_mul_of_nonneg_left hdab (by linarith)
            _ = t2 - t := by rw [sub_mul, hs2mul, hsmul]; ring
        · obtain ⟨y, hy, hdy, _⟩ := htail t2 h5 h4
          refine ⟨y, hy, ?_⟩
          have hs1 : (t - a.1) / (b.1 - a.1) ≤ 1 := by
            rw [div_le_one hpos]; linarith
          have hxb := distTo_interpolate_of sqrt hsq a.2 b.2 ((t - a.1) / (b.1 - a.1)) 1
          rw [interpolate_one, abs_of_nonneg (by linarith)] at hxb
          have hxb2 : (Vector2.interpolate a.2 b.2 ((t - a.1) / (b.1 - a.1))).distTo sqrt b.2 ≤
              b.1 - t := by
            rw [hxb]
            calc (1 - (t - a.1) / (b.1 - a.1)) * a.2.distTo sqrt b.2
                ≤ (1 - (t - a.1) / (b.1 - a.1)) * (b.1 - a.1) :=
                  mul_le_mul_of_nonneg_left hdab (by linarith)
              _ = b.1 - t := by rw [sub_mul, hsmul]; ring
          have htri := distTo_triangle_of sqrt hsq
            (Vector2.interpolate a.2 b.2 ((t - a.1) / (b.1 - a.1))) b.2 y
          linarith
    · obtain ⟨x, hx, hdx, hrest⟩ := htail t htb h2
      refine ⟨x, hx, ?_, hrest⟩
      have htri := distTo_triangle_of sqrt hsq a.2 b.2 x
      linarith

end SpeedLemmas

section SpeedPathLemmas

theorem real_sqrt_spec : ∀ x : ℝ, 0 ≤ x → 0 ≤ Real.sqrt x ∧ Real.sqrt x * Real.sqrt x = x :=
  fun x hx => ⟨Real.sqrt_nonneg x, Real.mul_self_sqrt hx⟩

theorem distTo_self_real (p : Vector2 ℝ) : p.distTo Real.sqrt p = 0 := by
  simp [Vector2.distTo, Vector2.norm, Vector2.norm2]

/-- In the map of a polyline whose path length stays below the sentinel,
adjacent entries are no farther apart than their keys, and exactly as far
apart when neither is a sentinel. -/
theorem build_path_chain (l : List (Vector2 ℝ)) (q : Vector2 ℝ)
    (hlt : pathLength Real.sqrt (l ++ [q]) < ME_A_LOT) :
    ∃ line, FreeformLine.build Real.sqrt (l ++ [q]) = some line ∧
      PathInv (l ++ [q]) q line ∧
      List.Chain' (fun u v => u.2.distTo Real.sqrt v.2 ≤ v.1 - u.1 ∧
        (0 ≤ u.1 → v.1 < ME_A_LOT → u.2.distTo Real.sqrt v.2 = v.1 - u.1)) line.points := by
  have hA : (0 : ℝ) < ME_A_LOT := ME_A_LOT_pos
  induction l using List.reverseRecOn generalizing q with
  | nil =>
    refine ⟨_, build_single Real.sqrt q, PathInv_single q, ?_⟩
    show List.Chain' _ [((-ME_A_LOT : ℝ), q), (0, q), (ME_A_LOT, q)]
    simp only [List.chain'_cons, List.chain'_singleton, and_true, distTo_self_real]
    refine ⟨⟨by linarith, fun h _ => by linarith⟩, ⟨by linarith, fun _ h => absurd h (lt_irrefl _)⟩⟩
  | append_singleton init q2 ih =>
    have hle : pathLength Real.sqrt (init ++ [q2]) ≤
        pathLength Real.sqrt (init ++ [q2] ++ [q]) := by
      rw [pathLength_snoc]
      have : 0 ≤ (q - q2).norm Real.sqrt := Real.sqrt_nonneg _
      linarith
    obtain ⟨line, hb, hinv, hch⟩ := ih q2 (lt_of_le_of_lt hle hlt)
    obtain ⟨next, hadd, hinv2⟩ := PathInv_step init q2 q line hinv hlt
    refine ⟨next, by rw [build_snoc, hb]; exact hadd, hinv2, ?_⟩
    obtain ⟨pre, hpts, hc⟩ := addPoint_path_shape init q2 q line next hinv hlt hadd
    rcases hc with ⟨_, c2⟩ | ⟨c1, c2, c3⟩
    · rw [c2]; exact hch
    · rw [hpts] at hch
      have h1 : List.Chain' (fun u v : ℝ × Vector2 ℝ =>
          u.2.distTo Real.sqrt v.2 ≤ v.1 - u.1 ∧
          (0 ≤ u.1 → v.1 < ME_A_LOT → u.2.distTo Real.sqrt v.2 = v.1 - u.1))
          (pre ++ [(pathLength Real.sqrt (init ++ [q2]), q2)]) := by
        have h2 : pre ++ [(pathLength Real.sqrt (init ++ [q2]), q2), ((ME_A_LOT : ℝ), q2)] =
            (pre ++ [(pathLength Real.sqrt (init ++ [q2]), q2)]) ++ [((ME_A_LOT : ℝ), q2)] := by
          simp
        rw [h2] at hch
        exact (List.chain'_append.mp hch).1
      have h3 : pre ++ [(pathLength Real.sqrt (init ++ [q2]), q2),
            (pathLength Real.sqrt (init ++ [q2] ++ [q]), q), ((ME_A_LOT : ℝ), q)] =
          (pre ++ [(pathLength Real.sqrt (init ++ [q2]), q2)]) ++
            [(pathLength Real.sqrt (init ++ [q2] ++ [q]), q), ((ME_A_LOT : ℝ), q)] := by
        simp
      rw [c3, h3]
      refine List.chain'_append.mpr ⟨h1, ?_, ?_⟩
      · simp only [List.chain'_cons, List.chain'_singleton, and_true, distTo_self_real]
        exact ⟨by linarith, fun _ h => absurd h (lt_irrefl _)⟩
      · intro x hx y hy
        have hx2 : x = (pathLength Real.sqrt (init ++ [q2]), q2) := by
          rw [List.getLast?_concat] at hx
          exact (Option.some.inj hx).symm
        have hy2 : y = (pathLength Real.sqrt (init ++ [q2] ++ [q]), q) :=
          (Option.some.inj hy).symm
        rw [hx2, hy2]
        exact ⟨by simp only; linarith, fun _ _ => by simp only; linarith⟩

end SpeedPathLemmas

section FloatLemmas
variable {F : Type} [LinearOrderedField F]

/-- With exact subtraction `setBoundsWith` is `setBounds`. -/
theorem setBoundsWith_exact (line : FreeformLine F) (range : Range F) :
    line.setBoundsWith (fun a b => a - b) range = line.setBounds range := rfl

/-- With exact addition `midPointWith` is `midPoint`. -/
theorem midPointWith_exact (b : Biarc F) : b.midPointWith (fun a c => a + c) = b.midPoint := rfl

/-- With exact addition `generateBiarcsAndFinalShapesWith` is
`generateBiarcsAndFinalShapes`. -/
theorem generateWith_exact (sqrt : F → F) (atan2 : F → F → F)
    (convert : FreeformLine F → BiarcsInput F → List (Biarc F)) (st : SplineState F) :
    generateBiarcsAndFinalShapesWith (fun a b => a + b) sqrt atan2 convert st =
      generateBiarcsAndFinalShapes sqrt atan2 convert st := rfl

/-- With exact addition `recreateSplineWith` is `recreateSpline`. -/
theorem recreateSplineWith_exact (sqrt : F → F) (atan2 : F → F → F) (ceil : F → F)
    (convert : FreeformLine F → BiarcsInput F → List (Biarc F)) (fuel : Nat)
    (spline : ArcSpline F) (p : Option (ProcessingInput F)) :
    recreateSplineWith (fun a b => a + b) sqrt atan2 ceil convert fuel spline p =
      recreateSpline sqrt atan2 ceil convert fuel spline p := rfl

/-- The value of `roundHalfEven` at a point half way between the integers
`n` and `n + 1`. -/
theorem roundHalfEven_tie [FloorRing F] (x : F) (n : Int) (h : 2 * x = 2 * (n : F) + 1) :
    roundHalfEven x = if n % 2 = 0 then n else n + 1 := by
  have hx : x = (n : F) + 1 / 2 := by linarith
  have hfl : ⌊x⌋ = n := by
    rw [Int.floor_eq_iff, hx]
    constructor <;> linarith
  have hfr : Int.fract x = 1 / 2 := by
    unfold Int.fract
    rw [hfl, hx]
    ring
  unfold roundHalfEven
  rw [hfr, hfl]
  norm_num

/-- The value of `roundHalfEven` at an integer. -/
theorem roundHalfEven_int [FloorRing F] (x : F) (n : Int) (h : x = (n : F)) :
    roundHalfEven x = n := by
  unfold roundHalfEven
  rw [h, Int.fract_intCast, Int.floor_intCast]
  norm_num

/-- The value of `float32` at a positive `x` from the binade of `x` and the
rounded quotient. -/
theorem float32_eq [FloorRing F] (x : F) (e n : Int) (hx : 0 < x)
    (h1 : (2 : F) ^ e ≤ x) (h2 : x < (2 : F) ^ (e + 1))
    (h3 : roundHalfEven (x / 2 ^ (e - 23)) = n) :
    float32 x = (n : F) * 2 ^ (e - 23) := by
  have hlog : Int.log 2 x = e := by
    apply le_antisymm
    · have := (Int.lt_zpow_iff_log_lt (b := 2) (by norm_num) hx (x := e + 1)).mp
        (by exact_mod_cast h2)
      omega
    · exact (Int.zpow_le_iff_le_log (b := 2) (by norm_num) hx (x := e)).mp
        (by exact_mod_cast h1)
  unfold float32
  rw [abs_of_pos hx, hlog, h3]

end FloatLemmas

section RoundedLemmas

variable {F : Type} [LinearOrderedField F]

theorem addPoint_eq_addPointWith (sqrt : F → F) (line : FreeformLine F) (p : Vector2 F) :
    FreeformLine.addPoint sqrt line p =
      FreeformLine.addPointWith (fun a b => a + b) (fun a b => a.distTo sqrt b) line p := rfl

theorem build_eq_buildWith (sqrt : F → F) (pts : List (Vector2 F)) :
    FreeformLine.build sqrt pts =
      FreeformLine.buildWith (fun a b => a + b) (fun a b => a.distTo sqrt b) pts := rfl

/-- One `addPoint` on a map ending in the two entries `a`, `b`, when the new
key `L` is not below `a`'s: it lands in one of four places. -/
theorem addPointWith_cases (plus : F → F → F) (dist : Vector2 F → Vector2 F → F)
    (line : FreeformLine F) (p : Vector2 F)
    (pre : List (F × Vector2 F)) (a b : F × Vector2 F)
    (hpts : line.points = pre ++ [a, b]) (hs : SortedKeys line.points)
    (hL : a.1 ≤ plus a.1 (dist a.2 p)) :
    ∃ pts, FreeformLine.addPointWith plus dist line p =
        some { line with points := pts, cachedLength := plus a.1 (dist a.2 p) } ∧
      SortedKeys pts ∧
      ((plus a.1 (dist a.2 p) = a.1 ∧ pts = pre ++ [(a.1, p), (b.1, p)]) ∨
       (a.1 < plus a.1 (dist a.2 p) ∧ plus a.1 (dist a.2 p) < b.1 ∧
          pts = pre ++ [a, (plus a.1 (dist a.2 p), p), (b.1, p)]) ∨
       (plus a.1 (dist a.2 p) = b.1 ∧ pts = pre ++ [a, (b.1, p)]) ∨
       (b.1 < plus a.1 (dist a.2 p) ∧
          pts = pre ++ [a, b, (plus a.1 (dist a.2 p), p)])) := by
  set L := plus a.1 (dist a.2 p) with hLdef
  have hlen : line.points.length ≠ 0 := by rw [hpts]; simp
  have hsl : secondLast line.points = some a := by rw [hpts]; exact secondLast_append_pair _ _ _
  have hadd : FreeformLine.addPointWith plus dist line p =
      some { line with points := setLastValue p (mapSet L p line.points), cachedLength := L } := by
    unfold FreeformLine.addPointWith
    rw [if_pos hlen, hsl]
  refine ⟨setLastValue p (mapSet L p line.points), hadd,
    setLastValue_sorted _ _ (mapSet_sorted _ _ _ hs), ?_⟩
  have hs2 : SortedKeys (pre ++ [a, b]) := hpts ▸ hs
  have hsa := List.pairwise_append.mp hs2
  have hpre : ∀ e ∈ pre, e.1 < L := by
    intro e he
    have : e.1 < a.1 := hsa.2.2 e he a (by simp)
    exact lt_of_lt_of_le this hL
  have hab : a.1 < b.1 := by
    have := hsa.2.1
    simp at this
    exact this
  rw [hpts, mapSet_append_of_lt L p pre [a, b] hpre]
  rcases lt_trichotomy L b.1 with h1 | h1 | h1
  · rcases eq_or_lt_of_le hL with h2 | h2
    · left
      refine ⟨h2.symm, ?_⟩
      have e1 : mapSet L p [a, b] = [(L, p), b] := by
        simp [mapSet, h2.symm]
      rw [e1]
      have := setLastValue_append_singleton p (pre ++ [(L, p)]) b
      simp only [List.append_assoc, List.singleton_append] at this
      rw [this, ← h2]
    · right; left
      refine ⟨h2, h1, ?_⟩
      have e1 : mapSet L p [a, b] = [a, (L, p), b] := by
        simp [mapSet, not_lt.mpr h2.le, ne_of_gt h2, h1]
      rw [e1]
      have := setLastValue_append_singleton p (pre ++ [a, (L, p)]) b
      simp only [List.append_assoc, List.cons_append, List.nil_append] at this
      exact this
  · right; right; left
    refine ⟨h1, ?_⟩
    have h2 : a.1 < L := by rw [h1]; exact hab
    have e1 : mapSet L p [a, b] = [a, (L, p)] := by
      simp [mapSet, h1, not_lt.mpr hab.le, ne_of_gt hab]
    rw [e1]
    have := setLastValue_append_singleton p (pre ++ [a]) (L, p)
    simp only [List.append_assoc, List.cons_append, List.nil_append] at this
    rw [this, h1]
  · right; right; right
    refine ⟨h1, ?_⟩
    have h2 : a.1 < L := lt_trans hab h1
    have e1 : mapSet L p [a, b] = [a, b, (L, p)] := by
      simp [mapSet, not_lt.mpr h2.le, ne_of_gt h2, not_lt.mpr h1.le, ne_of_gt h1]
    rw [e1]
    have := setLastValue_append_singleton p (pre ++ [a, b]) (L, p)
    simp only [List.append_assoc, List.cons_append, List.nil_append] at this
    exact this

/-- The first `addPoint` on an empty polyline. -/
theorem addPointWith_first (plus : F → F → F) (dist : Vector2 F → Vector2 F → F)
    (p : Vector2 F) :
    FreeformLine.addPointWith plus dist (FreeformLine.new : FreeformLine F) p =
      some { (FreeformLine.new : FreeformLine F) with
        points := [(-ME_A_LOT, p), (0, p), (ME_A_LOT, p)] } := by
  have h1 : (0 : F) < ME_A_LOT := ME_A_LOT_pos
  have h2 : ¬ (0 : F) < -ME_A_LOT := by linarith
  have h3 : ¬ (0 : F) = -ME_A_LOT := by linarith
  have h4 : ¬ (ME_A_LOT : F) < -ME_A_LOT := by linarith
  have h5 : ¬ (ME_A_LOT : F) = -ME_A_LOT := by linarith
  have h6 : ¬ (ME_A_LOT : F) < 0 := by linarith
  have h7 : ¬ (ME_A_LOT : F) = 0 := by linarith
  simp [FreeformLine.addPointWith, FreeformLine.new, mapSet, h2, h3, h4, h5, h6, h7]

theorem buildWith_cons (plus : F → F → F) (dist : Vector2 F → Vector2 F → F)
    (p0 : Vector2 F) (more : List (Vector2 F)) :
    FreeformLine.buildWith plus dist (p0 :: more) =
      more.foldl (fun acc q => acc.bind (fun l => FreeformLine.addPointWith plus dist l q))
        (some { (FreeformLine.new : FreeformLine F) with
          points := [(-ME_A_LOT, p0), (0, p0), (ME_A_LOT, p0)] }) := by
  unfold FreeformLine.buildWith
  rw [List.foldl_cons, Option.some_bind, addPointWith_first]

theorem sorted_first (p : Vector2 F) :
    SortedKeys [((-ME_A_LOT : F), p), (0, p), (ME_A_LOT, p)] := by
  have h1 : (0 : F) < ME_A_LOT := ME_A_LOT_pos
  unfold SortedKeys
  simp only [List.pairwise_cons, List.mem_cons, List.mem_singleton, forall_eq_or_imp,
    forall_eq, List.not_mem_nil, false_implies, implies_true, List.Pairwise.nil, and_true]
  refine ⟨⟨?_, ?_⟩, ?_⟩ <;> linarith

omit [LinearOrderedField F] in
theorem foldl_bind_none {α β : Type} (f : α → β → Option α) (l : List β) :
    l.foldl (fun acc q => acc.bind (fun x => f x q)) none = none := by
  induction l with
  | nil => rfl
  | cons a rest ih => simpa using ih

/-- A key of a map with increasing keys is found with its value. -/
theorem mapFind_of_mem (m : List (F × Vector2 F)) (hs : SortedKeys m) (s : F × Vector2 F)
    (h : s ∈ m) : mapFind s.1 m = some s.2 := by
  induction m with
  | nil => simp at h
  | cons e rest ih =>
    have hs2 := List.pairwise_cons.mp hs
    rcases List.mem_cons.mp h with h1 | h1
    · simp [mapFind, h1]
    · have hne : e.1 ≠ s.1 := ne_of_lt (hs2.1 s h1)
      simp [mapFind, hne, ih hs2.2 h1]

/-! ### The tail of the map after any sequence of `addPoint` calls -/

theorem TailInv_first (p : Vector2 F) :
    TailInv { (FreeformLine.new : FreeformLine F) with
        points := [(-ME_A_LOT, p), (0, p), (ME_A_LOT, p)] } := by
  have h1 : (0 : F) < ME_A_LOT := ME_A_LOT_pos
  exact ⟨sorted_first p, Or.inl ⟨[(-ME_A_LOT, p)], (0, p), p, rfl, h1, fun _ => rfl⟩⟩

theorem TailInv_step (plus : F → F → F) (dist : Vector2 F → Vector2 F → F)
    (hmono : ∀ (t : F) (a b : Vector2 F), t ≤ plus t (dist a b))
    (line : FreeformLine F) (p : Vector2 F) (hinv : TailInv line) :
    ∃ next, FreeformLine.addPointWith plus dist line p = some next ∧ TailInv next ∧
      next.halfSmoothingSpread = line.halfSmoothingSpread := by
  rcases hinv.tail with ⟨pre, a, q, hpts, ha, hlen⟩ | ⟨hge, pre, a, b, hpts, ha⟩
  · obtain ⟨pts, hadd, hsorted, hc⟩ :=
      addPointWith_cases plus dist line p pre a (ME_A_LOT, q) hpts hinv.sorted (hmono _ _ _)
    refine ⟨_, hadd, ⟨hsorted, ?_⟩, rfl⟩
    simp only at hc ⊢
    rcases hc with ⟨c1, c2⟩ | ⟨c1, c2, c3⟩ | ⟨c1, c2⟩ | ⟨c1, c2⟩
    · exact Or.inl ⟨pre, (a.1, p), p, c2, ha, fun _ => c1.symm⟩
    · exact Or.inl ⟨pre ++ [a], (plus a.1 (dist a.2 p), p), p, by rw [c3]; simp, c2,
        fun _ => rfl⟩
    · exact Or.inl ⟨pre, a, p, c2, ha, fun h => absurd h (by rw [c1]; exact lt_irrefl _)⟩
    · exact Or.inr ⟨c1.le, pre ++ [a], (ME_A_LOT, q), (plus a.1 (dist a.2 p), p),
        by rw [c2]; simp, le_refl _⟩
  · have hL := hmono a.1 a.2 p
    obtain ⟨pts, hadd, hsorted, hc⟩ :=
      addPointWith_cases plus dist line p pre a b hpts hinv.sorted hL
    have hab : a.1 < b.1 := by
      have := (List.pairwise_append.mp (hpts ▸ hinv.sorted)).2.1
      simp at this
      exact this
    refine ⟨_, hadd, ⟨hsorted, ?_⟩, rfl⟩
    simp only at hc ⊢
    rcases hc with ⟨c1, c2⟩ | ⟨c1, _, c3⟩ | ⟨c1, c2⟩ | ⟨c1, c2⟩
    · exact Or.inr ⟨le_trans ha hL, pre, (a.1, p), (b.1, p), c2, ha⟩
    · exact Or.inr ⟨le_trans ha hL, pre ++ [a], (plus a.1 (dist a.2 p), p), (b.1, p),
        by rw [c3]; simp, le_trans ha hL⟩
    · exact Or.inr ⟨le_trans ha hL, pre, a, (b.1, p), c2, ha⟩
    · exact Or.inr ⟨le_trans ha hL, pre ++ [a], b, (plus a.1 (dist a.2 p), p),
        by rw [c2]; simp, le_trans ha hab.le⟩

theorem foldl_tail (plus : F → F → F) (dist : Vector2 F → Vector2 F → F)
    (hmono : ∀ (t : F) (a b : Vector2 F), t ≤ plus t (dist a b)) (more : List (Vector2 F)) :
    ∀ line : FreeformLine F, TailInv line →
      ∃ line2,
        more.foldl (fun acc q => acc.bind (fun l => FreeformLine.addPointWith plus dist l q))
          (some line) = some line2 ∧
        TailInv line2 ∧ line2.halfSmoothingSpread = line.halfSmoothingSpread := by
  induction more with
  | nil => exact fun line h => ⟨line, rfl, h, rfl⟩
  | cons q rest ih =>
    intro line h
    obtain ⟨next, hadd, hnext, hsp⟩ := TailInv_step plus dist hmono line q h
    obtain ⟨line2, hfold, h2, hsp2⟩ := ih next hnext
    refine ⟨line2, ?_, h2, hsp2.trans hsp⟩
    rw [List.foldl_cons, Option.some_bind, hadd]
    exact hfold

/-- Every sequence of `addPoint` calls gives a polyline, whose map has the
tail described by `TailInv`, when the key computed is never below the key it
is computed from. -/
theorem buildWith_tail (plus : F → F → F) (dist : Vector2 F → Vector2 F → F)
    (hmono : ∀ (t : F) (a b : Vector2 F), t ≤ plus t (dist a b))
    (p0 : Vector2 F) (more : List (Vector2 F)) :
    ∃ line, FreeformLine.buildWith plus dist (p0 :: more) = some line ∧ TailInv line ∧
      line.halfSmoothingSpread = (FreeformLine.new : FreeformLine F).halfSmoothingSpread := by
  obtain ⟨line, hfold, hinv, hsp⟩ := foldl_tail plus dist hmono more _ (TailInv_first p0)
  exact ⟨line, by rw [buildWith_cons]; exact hfold, hinv, hsp⟩

/-! ### The entries written while the keys advance -/

omit [LinearOrderedField F] in
theorem samplesWith_cons_form (plus : F → F → F) (dist : Vector2 F → Vector2 F → F)
    (t : F) (p : Vector2 F) (more : List (Vector2 F)) :
    ∃ tl, samplesWith plus dist t p more = (t, p) :: tl := by
  cases more with
  | nil => exact ⟨[], rfl⟩
  | cons q rest => exact ⟨_, rfl⟩

omit [LinearOrderedField F] in
theorem samplesWith_points (plus : F → F → F) (dist : Vector2 F → Vector2 F → F)
    (more : List (Vector2 F)) :
    ∀ (t : F) (p : Vector2 F), (samplesWith plus dist t p more).map Prod.snd = p :: more := by
  induction more with
  | nil => intro t p; rfl
  | cons q rest ih =>
    intro t p
    simp only [samplesWith, List.map_cons, ih]

omit [LinearOrderedField F] in
theorem samplesWith_length (plus : F → F → F) (dist : Vector2 F → Vector2 F → F)
    (t : F) (p : Vector2 F) (more : List (Vector2 F)) :
    (samplesWith plus dist t p more).length = more.length + 1 := by
  have h := congrArg List.length (samplesWith_points plus dist more t p)
  simpa using h

/-- The map after the `addPoint` calls for `more`, on a map that ends with
the entry `(t, p)` and the closing sentinel, while every key computed is above
the key before it, or repeats it for a repeated point, and stays below
`ME_A_LOT`. -/
theorem foldl_samples (plus : F → F → F) (dist : Vector2 F → Vector2 F → F)
    (more : List (Vector2 F)) :
    ∀ (t : F) (p : Vector2 F) (line : FreeformLine F) (pre : List (F × Vector2 F)),
      line.points = pre ++ [(t, p), (ME_A_LOT, p)] → SortedKeys line.points →
      line.cachedLength = t →
      List.Chain' (fun a b : F × Vector2 F => a.1 < b.1 ∨ a = b)
        (samplesWith plus dist t p more) →
      (∀ s ∈ samplesWith plus dist t p more, s.1 < ME_A_LOT) →
      ∃ (line2 : FreeformLine F) (body : List (F × Vector2 F)) (last : F × Vector2 F),
        more.foldl (fun acc q => acc.bind (fun l => FreeformLine.addPointWith plus dist l q))
          (some line) = some line2 ∧
        (samplesWith plus dist t p more).getLast? = some last ∧
        line2.points = pre ++ body ++ [(ME_A_LOT, last.2)] ∧
        SortedKeys line2.points ∧
        line2.cachedLength = last.1 ∧
        line2.halfSmoothingSpread = line.halfSmoothingSpread ∧
        (∀ s, s ∈ body ↔ s ∈ samplesWith plus dist t p more) ∧
        (List.Chain' (fun a b : F × Vector2 F => a.1 < b.1) (samplesWith plus dist t p more) →
          body = samplesWith plus dist t p more) := by
  induction more with
  | nil =>
    intro t p line pre hpts hs hlen _ _
    exact ⟨line, [(t, p)], (t, p), rfl, rfl, by rw [hpts]; simp, hs, hlen, rfl,
      fun s => Iff.rfl, fun _ => rfl⟩
  | cons q rest ih =>
    intro t p line pre hpts hs hlen hch hlt
    obtain ⟨tl, htl⟩ := samplesWith_cons_form plus dist (plus t (dist p q)) q rest
    have hsam : samplesWith plus dist t p (q :: rest) =
        (t, p) :: samplesWith plus dist (plus t (dist p q)) q rest := rfl
    rw [hsam] at hch hlt
    have hch2 : List.Chain' (fun a b : F × Vector2 F => a.1 < b.1 ∨ a = b)
        (samplesWith plus dist (plus t (dist p q)) q rest) := (List.chain'_cons'.mp hch).2
    have hR : t < plus t (dist p q) ∨ ((t, p) : F × Vector2 F) = (plus t (dist p q), q) := by
      have h := (List.chain'_cons'.mp hch).1 (plus t (dist p q), q) (by rw [htl]; rfl)
      exact h
    have hlt2 : ∀ s ∈ samplesWith plus dist (plus t (dist p q)) q rest, s.1 < ME_A_LOT :=
      fun s h => hlt s (List.mem_cons_of_mem _ h)
    have hkey : plus t (dist p q) < ME_A_LOT :=
      hlt2 (plus t (dist p q), q) (by rw [htl]; exact List.mem_cons_self _ _)
    have hle : t ≤ plus t (dist p q) := by
      rcases hR with h | h
      · exact h.le
      · exact le_of_eq (congrArg Prod.fst h)
    obtain ⟨pts, hadd, hsorted, hc⟩ :=
      addPointWith_cases plus dist line q pre (t, p) (ME_A_LOT, p) hpts hs hle
    simp only at hadd hc
    have hstep : ∀ (pre1 : List (F × Vector2 F)),
        pts = pre1 ++ [(plus t (dist p q), q), (ME_A_LOT, q)] →
        ∃ (line2 : FreeformLine F) (body1 : List (F × Vector2 F)) (last : F × Vector2 F),
          (q :: rest).foldl
            (fun acc q => acc.bind (fun l => FreeformLine.addPointWith plus dist l q))
            (some line) = some line2 ∧
          (samplesWith plus dist (plus t (dist p q)) q rest).getLast? = some last ∧
          line2.points = pre1 ++ body1 ++ [(ME_A_LOT, last.2)] ∧
          SortedKeys line2.points ∧
          line2.cachedLength = last.1 ∧
          line2.halfSmoothingSpread = line.halfSmoothingSpread ∧
          (∀ s, s ∈ body1 ↔ s ∈ samplesWith plus dist (plus t (dist p q)) q rest) ∧
          (List.Chain' (fun a b : F × Vector2 F => a.1 < b.1)
              (samplesWith plus dist (plus t (dist p q)) q rest) →
            body1 = samplesWith plus dist (plus t (dist p q)) q rest) := by
      intro pre1 hp1
      obtain ⟨line2, body1, last, hfold, hlast, hpts2, hs2, hlen2, hsp2, hmem, hstrict⟩ :=
        ih (plus t (dist p q)) q
          { line with points := pts, cachedLength := plus t (dist p q) } pre1 hp1 hsorted rfl
          hch2 hlt2
      refine ⟨line2, body1, last, ?_, hlast, hpts2, hs2, hlen2, hsp2, hmem, hstrict⟩
      rw [List.foldl_cons, Option.some_bind, hadd]
      exact hfold
    have hlastEq : ((t, p) :: samplesWith plus dist (plus t (dist p q)) q rest).getLast? =
        (samplesWith plus dist (plus t (dist p q)) q rest).getLast? := by
      rw [htl, List.getLast?_cons_cons]
    rcases hc with ⟨c1, c2⟩ | ⟨c1, _, c3⟩ | ⟨c1, _⟩ | ⟨c1, _⟩
    · -- the key repeats: the point repeats, and the map is unchanged
      have hqp : ((t, p) : F × Vector2 F) = (plus t (dist p q), q) := by
        rcases hR with h | h
        · exact absurd c1 (ne_of_gt h)
        · exact h
      have hq : p = q := congrArg Prod.snd hqp
      obtain ⟨line2, body1, last, hfold, hlast, hpts2, hs2, hlen2, hsp2, hmem, hstrict⟩ :=
        hstep pre (by rw [c2, c1])
      refine ⟨line2, body1, last, hfold, by rw [hsam, hlastEq]; exact hlast, hpts2, hs2, hlen2,
        hsp2, ?_, ?_⟩
      · intro s
        rw [hmem s, hsam, List.mem_cons]
        constructor
        · exact fun h => Or.inr h
        · rintro (h | h)
          · rw [h, hqp, htl]
            exact List.mem_cons_self _ _
          · exact h
      · intro hstr
        rw [hsam] at hstr
        have h := (List.chain'_cons'.mp hstr).1 (plus t (dist p q), q) (by rw [htl]; rfl)
        exact absurd c1 (ne_of_gt h)
    · -- the key advances: one entry is added before the sentinel
      obtain ⟨line2, body1, last, hfold, hlast, hpts2, hs2, hlen2, hsp2, hmem, hstrict⟩ :=
        hstep (pre ++ [(t, p)]) (by rw [c3]; simp)
      refine ⟨line2, (t, p) :: body1, last, hfold, by rw [hsam, hlastEq]; exact hlast,
        by rw [hpts2]; simp, hs2, hlen2, hsp2, ?_, ?_⟩
      · intro s
        rw [hsam, List.mem_cons, List.mem_cons, hmem s]
      · intro hstr
        rw [hsam] at hstr ⊢
        rw [hstrict (List.chain'_cons'.mp hstr).2]
    · exact absurd c1 (ne_of_lt hkey)
    · exact absurd c1 (not_lt.mpr hkey.le)

/-- The polyline built from `p0 :: more` while the keys advance. -/
theorem buildWith_samples (plus : F → F → F) (dist : Vector2 F → Vector2 F → F)
    (p0 : Vector2 F) (more : List (Vector2 F))
    (hadv : List.Chain' (fun a b : F × Vector2 F => a.1 < b.1 ∨ a = b)
      (samplesWith plus dist 0 p0 more))
    (hlt : ∀ s ∈ samplesWith plus dist 0 p0 more, s.1 < ME_A_LOT) :
    ∃ (line : FreeformLine F) (body : List (F × Vector2 F)) (last : F × Vector2 F),
      FreeformLine.buildWith plus dist (p0 :: more) = some line ∧
      (samplesWith plus dist 0 p0 more).getLast? = some last ∧
      (p0 :: more).getLast? = some last.2 ∧
      line.points = (-ME_A_LOT, p0) :: body ++ [(ME_A_LOT, last.2)] ∧
      SortedKeys line.points ∧
      line.cachedLength = last.1 ∧
      line.halfSmoothingSpread = (FreeformLine.new : FreeformLine F).halfSmoothingSpread ∧
      (∀ s, s ∈ body ↔ s ∈ samplesWith plus dist 0 p0 more) ∧
      (List.Chain' (fun a b : F × Vector2 F => a.1 < b.1) (samplesWith plus dist 0 p0 more) →
        body = samplesWith plus dist 0 p0 more) := by
  obtain ⟨line, body, last, hfold, hlast, hpts, hs, hlen, hsp, hmem, hstrict⟩ :=
    foldl_samples plus dist more 0 p0
      { (FreeformLine.new : FreeformLine F) with
        points := [(-ME_A_LOT, p0), (0, p0), (ME_A_LOT, p0)] }
      [(-ME_A_LOT, p0)] rfl (sorted_first p0) rfl hadv hlt
  refine ⟨line, body, last, by rw [buildWith_cons]; exact hfold, hlast, ?_, by rw [hpts]; simp,
    hs, hlen, hsp, hmem, hstrict⟩
  have h := congrArg (Option.map Prod.snd) hlast
  rw [← List.getLast?_map, samplesWith_points] at h
  exact h

/-- With exact addition and the distance `distTo`, the key computed for the
point of index `k` is the sum of the distances between consecutive points up
to it. -/
theorem samplesWith_exact (sqrt : F → F) (more : List (Vector2 F)) :
    ∀ (t : F) (p : Vector2 F) (k : Nat),
      (samplesWith (fun a b => a + b) (fun a b => a.distTo sqrt b) t p more)[k]? =
        ((p :: more)[k]?).map
          (fun q => (t + pathLength sqrt ((p :: more).take (k + 1)), q)) := by
  induction more with
  | nil =>
    intro t p k
    cases k with
    | zero => simp [samplesWith, pathLength]
    | succ k => simp [samplesWith]
  | cons q rest ih =>
    intro t p k
    cases k with
    | zero => simp [samplesWith, pathLength]
    | succ k =>
      have h := ih (t + p.distTo sqrt q) q k
      simp only [samplesWith, List.getElem?_cons_succ] at h ⊢
      rw [h]
      have hd : p.distTo sqrt q = (q - p).norm sqrt := by
        unfold Vector2.distTo Vector2.norm
        rw [Vector2.norm2_sub_comm]
      cases hq : (q :: rest)[k]? with
      | none => simp
      | some v =>
        simp only [Option.map_some', List.take_succ_cons, Option.some.injEq, Prod.mk.injEq,
          and_true]
        have hpl : pathLength sqrt (p :: q :: List.take k rest) =
            (q - p).norm sqrt + pathLength sqrt (q :: List.take k rest) := rfl
        rw [hpl, hd]
        ring

/-! ### Reading back what was written -/

omit [LinearOrderedField F] in
theorem pointTokens_length (fmt : F → F) (m : List (F × Vector2 F)) :
    (pointTokens fmt m).length = 3 * m.length := by
  induction m with
  | nil => rfl
  | cons e rest ih => simp only [pointTokens, List.length_cons, ih]; ring

omit [LinearOrderedField F] in
theorem pointTokens_append (fmt : F → F) (l r : List (F × Vector2 F)) :
    pointTokens fmt (l ++ r) = pointTokens fmt l ++ pointTokens fmt r := by
  induction l with
  | nil => rfl
  | cons e rest ih => simp [pointTokens, ih]

/-- Reading back the numbers written for a map with increasing keys that all
lie above the keys read so far, when every number of the map is read back
unchanged from its text, appends the map to the entries read so far. -/
theorem readPoints_pointTokens (fmt parse : F → F) (m acc : List (F × Vector2 F))
    (rest : List (Token F)) (hs : SortedKeys (acc ++ m))
    (hfix : ∀ e ∈ m, parse (fmt e.1) = e.1 ∧ parse (fmt e.2.x) = e.2.x ∧
      parse (fmt e.2.y) = e.2.y) :
    readPoints parse m.length (pointTokens fmt m ++ rest) acc = some (acc ++ m, rest) := by
  induction m generalizing acc with
  | nil => simp [readPoints, pointTokens]
  | cons e tl ih =>
    have hlt : ∀ a ∈ acc, a.1 < e.1 := by
      intro a ha
      exact (List.pairwise_append.mp hs).2.2 a ha e (List.mem_cons_self _ _)
    obtain ⟨f1, f2, f3⟩ := hfix e (List.mem_cons_self _ _)
    have hset : mapSet e.1 ⟨e.2.x, e.2.y⟩ acc = acc ++ [e] := by
      have h := mapSet_append_of_lt e.1 ⟨e.2.x, e.2.y⟩ acc [] hlt
      rw [List.append_nil] at h
      rw [h]
      rfl
    have hs2 : SortedKeys ((acc ++ [e]) ++ tl) := by
      rw [List.append_assoc]
      exact hs
    have h := ih (acc ++ [e]) hs2 (fun x hx => hfix x (List.mem_cons_of_mem _ hx))
    rw [List.append_assoc] at h
    simp only [pointTokens, List.length_cons, List.cons_append, readPoints, readFloat, f1, f2,
      f3, hset]
    exact h

/-- The polyline `operator>>` reads from the numbers `operator<<` wrote for a
polyline whose map has increasing keys and is empty or has two entries or
more, when every number written is read back unchanged from its text. -/
theorem streamIn_streamOut (fmt parse : F → F) (line dst : FreeformLine F)
    (hs : SortedKeys line.points) (key : F)
    (hkey : (line.points = [] ∧ key = 0) ∨
      ∃ pre a b, line.points = pre ++ [a, b] ∧ key = a.1)
    (hspread : parse (fmt line.halfSmoothingSpread) = line.halfSmoothingSpread)
    (hfix : ∀ e ∈ line.points, parse (fmt e.1) = e.1 ∧ parse (fmt e.2.x) = e.2.x ∧
      parse (fmt e.2.y) = e.2.y) :
    FreeformLine.streamIn parse (line.streamOut fmt) dst =
      some ({ dst with
        halfSmoothingSpread := line.halfSmoothingSpread
        points := line.points
        cachedLength := key }, []) := by
  have hread : readPoints parse line.points.length (pointTokens fmt line.points) [] =
      some (line.points, []) := by
    have h := readPoints_pointTokens fmt parse line.points [] [] (by simpa using hs) hfix
    simpa using h
  unfold FreeformLine.streamIn FreeformLine.streamOut
  simp only [readFloat, readInt, Int.toNat_ofNat, hread, hspread]
  rcases hkey with ⟨h1, h2⟩ | ⟨pre, a, b, h1, h2⟩
  · simp [h1, h2]
  · have hlen : line.points.length ≠ 0 := by rw [h1]; simp
    have hsl : secondLast line.points = some a := by
      rw [h1]; exact secondLast_append_pair _ _ _
    rw [if_pos hlen, hsl, h2]

end RoundedLemmas

section MeanLemmas

end MeanLemmas

section ClosureLemmas

/-- The mid point of a closed biarc (`|q1 - q0| = d0 + d1`, both parameters
positive) when the guard `FLT_MIN` is absorbed by the float addition to
`d0 + d1`: it lies at distance `d0` from `q0` and `d1` from `q1`. -/
theorem midPointWith_absorbed (b : Biarc ℝ) (plus : ℝ → ℝ → ℝ)
    (hclose : (b.q1 - b.q0).norm Real.sqrt = b.param.d0 + b.param.d1)
    (hp0 : 0 < b.param.d0) (hp1 : 0 < b.param.d1)
    (habs : plus (b.param.d0 + b.param.d1) FLT_MIN = b.param.d0 + b.param.d1) :
    ∃ mid, b.midPointWith plus = some mid ∧
      (mid - b.q0).norm Real.sqrt = b.param.d0 ∧ (b.q1 - mid).norm Real.sqrt = b.param.d1 := by
  have hsum : 0 < b.param.d0 + b.param.d1 := by linarith
  have hscale : ∀ (v : Vector2 ℝ) (k : ℝ), 0 ≤ k →
      (v * k).norm Real.sqrt = k * v.norm Real.sqrt := by
    intro v k hk
    unfold Vector2.norm
    have : (v * k).norm2 = k * k * v.norm2 := by
      simp only [Vector2.norm2, Vector2.mul_x, Vector2.mul_y]
      ring
    rw [this, Real.sqrt_mul (mul_self_nonneg k), Real.sqrt_mul_self hk]
  refine ⟨Vector2.interpolate b.q0 b.q1 (b.param.d0 / (b.param.d0 + b.param.d1)), ?_, ?_, ?_⟩
  · unfold Biarc.midPointWith
    rw [habs, if_neg (ne_of_gt hsum)]
  · have e : Vector2.interpolate b.q0 b.q1 (b.param.d0 / (b.param.d0 + b.param.d1)) - b.q0 =
        (b.q1 - b.q0) * (b.param.d0 / (b.param.d0 + b.param.d1)) := by
      ext <;> simp [Vector2.interpolate] <;> ring
    rw [e, hscale _ _ (by positivity), hclose]
    field_simp
  · have e : b.q1 - Vector2.interpolate b.q0 b.q1 (b.param.d0 / (b.param.d0 + b.param.d1)) =
        (b.q1 - b.q0) * (b.param.d1 / (b.param.d0 + b.param.d1)) := by
      ext <;> simp [Vector2.interpolate] <;> field_simp <;> ring
    rw [e, hscale _ _ (by positivity), hclose]
    field_simp

end ClosureLemmas

section FloatExampleLemmas

/-- The float difference `51.016834f - 17.157438f`: the exact difference
`17752075 / 2^19` lies half way between two floats and is rounded to the even
one, `4438019 / 2^17`, above it. -/
theorem float32_margin_example :
    float32 ((13373757 / 2 ^ 18 : ℚ) - 8995439 / 2 ^ 19) = 4438019 / 2 ^ 17 := by
  have h := float32_eq ((13373757 / 2 ^ 18 : ℚ) - 8995439 / 2 ^ 19) 5 8876038
    (by norm_num) (by norm_num) (by norm_num)
    (by
      rw [roundHalfEven_tie _ 8876037 (by norm_num)]
      norm_num)
  rw [h]
  norm_num

/-- The float sum `3.3f + 1.0f`: the exact sum `18035507 / 2^22` lies half
way between two floats and is rounded to the even one, `4508877 / 2^20`, above
it. -/
theorem float32_terminal_example :
    float32 ((13841203 / 2 ^ 22 : ℝ) + 1) = 4508877 / 2 ^ 20 := by
  have h := float32_eq ((13841203 / 2 ^ 22 : ℝ) + 1) 2 9017754
    (by norm_num) (by norm_num) (by norm_num)
    (by
      rw [roundHalfEven_tie _ 9017753 (by norm_num)]
      norm_num)
  rw [h]
  norm_num

end FloatExampleLemmas

section TerminalLemmas

theorem recreateSplineWith_of_parts {F : Type} [LinearOrderedField F] (plus : F → F → F)
    (sqrt : F → F) (atan2 : F → F → F) (ceil : F → F)
    (convert : FreeformLine F → BiarcsInput F → List (Biarc F)) (fuel : Nat)
    (spline : ArcSpline F) (p : Option (ProcessingInput F)) (line1 : FreeformLine F)
    (markers : List (Range F)) (st : SplineState F)
    (hf : findCornersAndSegments sqrt atan2 ceil fuel (p.getD spline.processingInput)
        spline.sourceLine = some (line1, markers))
    (hg : generateBiarcsAndFinalShapesWith plus sqrt atan2 convert
        { line := line1, processingInput := p.getD spline.processingInput, markers := markers
          outCorners := [], outDisplayShapes := [] } = some st) :
    recreateSplineWith plus sqrt atan2 ceil convert fuel spline p =
      some { sourceLine := spline.sourceLine, processingInput := st.processingInput
             displayShapes := st.outDisplayShapes, debugCorners := st.outCorners } := by
  unfold recreateSplineWith
  simp only
  rw [hf]
  simp only
  rw [hg]

/-- The point of a polyline at a parameter between its length and the closing
sentinel: the last point. -/
theorem CurveInv.getPointAt_after {F : Type} [LinearOrderedField F] {path : F → Vector2 F}
    {L : F} {ks : List F} {line : FreeformLine F} (hinv : CurveInv path L ks line) (t : F)
    (h1 : L ≤ t) (h2 : t < ME_A_LOT) : line.getPointAt t = some (path L) := by
  obtain ⟨pre, hshape⟩ := hinv.shape
  obtain ⟨hpre, _⟩ := hinv.pre_lt pre hshape
  rw [getPointAt_between line t pre [] (L, path L) (ME_A_LOT, path L) (by simpa using hshape)
    (fun e he => le_trans (hpre e he).le h1) h1 h2]
  simp only [Vector2.interpolate_self]

/-- The shapes of a straight polyline with the one marker `{0, L}` when the
terminal `{L, plus L 1}` is longer than `ME_MAX_SPLINE_GAP`: the segment of
the marker, and a segment for the terminal, from the last point to itself. -/
theorem terminal_segment_generate (plus : ℝ → ℝ → ℝ) (p0 u : Vector2 ℝ) (L : ℝ)
    (line : FreeformLine ℝ) (hinv : CurveInv (linePath p0 u) L [] line) (hL : 1 < L)
    (hE1 : 1 < plus L 1 - L) (hE2 : plus L 1 < ME_A_LOT)
    (input : ProcessingInput ℝ)
    (convert : FreeformLine ℝ → BiarcsInput ℝ → List (Biarc ℝ)) :
    generateBiarcsAndFinalShapesWith plus Real.sqrt (fun y x => Complex.arg ⟨x, y⟩) convert
      { line := line.setBounds { start := 0, end_ := line.length }, processingInput := input
        markers := [{ start := 0, end_ := L }], outCorners := [], outDisplayShapes := [] } =
    some { line := line.setBounds { start := 0, end_ := line.length }, processingInput := input
           markers := [{ start := 0, end_ := L }], outCorners := []
           outDisplayShapes :=
             [some (SplineElement.segment p0 (p0 + u * L) (-1)),
              some (SplineElement.segment (p0 + u * L) (p0 + u * L) (-1))] } := by
  have hL0 : (0 : ℝ) ≤ L := by linarith
  have hfit := collinear_fitted p0 u L line hinv hL0
  have hlen : (line.setBounds { start := 0, end_ := line.length }).length = L := hfit.len
  have hp0 : (line.setBounds { start := 0, end_ := line.length }).getPointAt 0 = some p0 := by
    rw [hfit.point 0 (by have := ME_A_LOT_pos (F := ℝ); linarith) hL0, linePath_zero]
  have hpL : (line.setBounds { start := 0, end_ := line.length }).getPointAt L =
      some (p0 + u * L) := by
    rw [hfit.point L (by have := ME_A_LOT_pos (F := ℝ); linarith) (le_refl _),
      linePath_of_nonneg p0 u L hL0]
  have hpE : (line.setBounds { start := 0, end_ := line.length }).getPointAt (plus L 1) =
      some (p0 + u * L) := by
    have h := hinv.getPointAt_after (plus L 1) (by linarith) hE2
    rw [linePath_of_nonneg p0 u L hL0] at h
    exact h
  have hlenL : ({ start := 0, end_ := L } : Range ℝ).length = L := by
    rw [Range.length_of_le 0 L hL0, sub_zero]
  have hlenE : ({ start := L, end_ := plus L 1 } : Range ℝ).length = plus L 1 - L :=
    Range.length_of_le L _ (by linarith)
  have hgapL : ({ start := 0, end_ := L } : Range ℝ).length > ME_MAX_SPLINE_GAP := by
    rw [hlenL]
    unfold ME_MAX_SPLINE_GAP
    exact hL
  have hgapE : ({ start := L, end_ := plus L 1 } : Range ℝ).length > ME_MAX_SPLINE_GAP := by
    rw [hlenE]
    unfold ME_MAX_SPLINE_GAP
    exact hE1
  have hzL : ¬ ({ start := 0, end_ := L } : Range ℝ).length = 0 := by
    rw [hlenL]
    linarith
  have hzE : ¬ ({ start := L, end_ := plus L 1 } : Range ℝ).length = 0 := by
    rw [hlenE]
    linarith
  unfold generateBiarcsAndFinalShapesWith
  simp only [hlen, List.singleton_append]
  rw [markerLoop_contiguous Real.sqrt (fun y x => Complex.arg ⟨x, y⟩) convert
    [{ start := 0, end_ := L }, { start := L, end_ := plus L 1 }] { start := -1, end_ := 0 } _
    (by
      simp only [List.chain_cons, List.Chain.nil, and_true]
      refine ⟨?_, ?_⟩
      · rw [Range.length_of_le (0 : ℝ) 0 (le_refl _)]
        unfold ME_MAX_SPLINE_GAP
        norm_num
      · rw [Range.length_of_le L L (le_refl _)]
        unfold ME_MAX_SPLINE_GAP
        norm_num)
    (by
      intro s hs
      simp only [List.mem_cons, List.mem_singleton, List.not_mem_nil, or_false] at hs
      rcases hs with h | h <;> subst h
      · exact ⟨fun _ => ⟨⟨_, hp0⟩, ⟨_, hpL⟩⟩, fun _ => ⟨_, hp0⟩⟩
      · exact ⟨fun _ => ⟨⟨_, hpL⟩, ⟨_, hpE⟩⟩, fun _ => ⟨_, hpL⟩⟩)]
  simp only [List.filterMap_cons, List.filterMap_nil, markerCorner, markerShape, if_neg hzL,
    if_neg hzE, if_pos hgapL, if_pos hgapE, hp0, hpL, hpE, List.nil_append,
    SplineElement.newSegment, List.dropLast_cons₂, List.dropLast_single, List.append_nil]

/-- The stroke `(0,0)`, `(3.3f, 0)`: the polyline built from it. -/
theorem build_short_stroke :
    ∃ line : FreeformLine ℝ,
      FreeformLine.build Real.sqrt [⟨0, 0⟩, ⟨13841203 / 2 ^ 22, 0⟩] = some line ∧
      CurveInv (linePath (⟨0, 0⟩ : Vector2 ℝ) ⟨1, 0⟩) (13841203 / 2 ^ 22) [] line := by
  obtain ⟨line, hb, hinv⟩ := build_collinear (⟨0, 0⟩ : Vector2 ℝ) ⟨1, 0⟩
    (by simp [Vector2.norm2]) [13841203 / 2 ^ 22] (by simp; norm_num)
    (by simp [ME_A_LOT]; norm_num)
  refine ⟨line, ?_, by simpa using hinv⟩
  rw [← hb]
  congr 1
  simp only [List.map_cons, List.map_nil, List.cons.injEq, and_true, true_and]
  ext <;> simp

end TerminalLemmas

/-! # Claims -/

section Claims

open FreeformLine

/-- C1 (as stated, refuted): for the polyline built from `(0,0)` and
`(2·10^10, 0)` the length is `2·10^10`, no key of the map is greater than it,
and `getPointAt(length())` dereferences `end()`: it does not return the last
point added. -/
theorem C1_counterexample :
    ∃ line : FreeformLine ℝ,
      build Real.sqrt [⟨0, 0⟩, ⟨2 * 10 ^ 10, 0⟩] = some line ∧
      line.length = 2 * 10 ^ 10 ∧
      line.getPointAt line.length = none ∧
      line.getPointAt line.length ≠ some ⟨2 * 10 ^ 10, 0⟩ := by
  have hc : (ME_A_LOT : ℝ) < 2 * 10 ^ 10 := by unfold ME_A_LOT; norm_num
  have hA : (0 : ℝ) < ME_A_LOT := ME_A_LOT_pos
  have hnone : ({ (FreeformLine.new : FreeformLine ℝ) with
        points := [(-ME_A_LOT, ⟨0, 0⟩), (0, ⟨0, 0⟩), (ME_A_LOT, ⟨0, 0⟩),
          (2 * 10 ^ 10, ⟨2 * 10 ^ 10, 0⟩)]
        cachedLength := 2 * 10 ^ 10 } : FreeformLine ℝ).getPointAt (2 * 10 ^ 10) = none := by
    apply getPointAt_past_end
    intro e he
    simp at he
    rcases he with h | h | h | h <;> rw [h] <;> simp <;> linarith
  refine ⟨_, build_two_points_far _ hc, rfl, hnone, ?_⟩
  show FreeformLine.getPointAt _ (2 * 10 ^ 10) ≠ _
  rw [hnone]
  simp

/-- C1 (amended): for every polyline built by one or more `addPoint` calls,
`getPointAt(0)` is the first point added, and `getPointAt(length())` is the
last point added whenever `length()` is below the sentinel distance
`ME_A_LOT`. -/
theorem C1_getPointAt_endpoints (p0 : Vector2 ℝ) (more : List (Vector2 ℝ)) :
    ∃ line : FreeformLine ℝ,
      build Real.sqrt (p0 :: more) = some line ∧
      line.getPointAt 0 = some p0 ∧
      (line.length < ME_A_LOT →
        line.getPointAt line.length =
          some ((p0 :: more).getLast (List.cons_ne_nil _ _))) := by
  obtain ⟨line, hb, hinv⟩ := build_inv p0 more
  exact ⟨line, hb, hinv.getPointAt_zero,
    fun hlen => hinv.getPointAt_tail hlen _ (le_refl _) hlen⟩

/-- C1 witness: the polyline `(0,0)`, `(5,0)` has length 5, below `ME_A_LOT`,
and both endpoint queries return the endpoints. -/
theorem C1_getPointAt_endpoints_witness :
    ∃ line : FreeformLine ℝ,
      build Real.sqrt [⟨0, 0⟩, ⟨5, 0⟩] = some line ∧
      line.length < ME_A_LOT ∧
      line.getPointAt 0 = some ⟨0, 0⟩ ∧
      line.getPointAt line.length = some ⟨5, 0⟩ := by
  obtain ⟨line, hb, h0, h1⟩ := C1_getPointAt_endpoints ⟨0, 0⟩ [⟨5, 0⟩]
  have hA : (5 : ℝ) < ME_A_LOT := by unfold ME_A_LOT; norm_num
  have hline := build_two_points 5 (by norm_num) hA
  rw [hb] at hline
  have hlen : line.length < ME_A_LOT := by
    rw [Option.some.inj hline]
    exact hA
  exact ⟨line, hb, hlen, h0, h1 hlen⟩

/-- C2 (as stated, refuted): for the points `(0,0)`, `(ME_A_LOT,0)`, `(0,0)`
the consecutive distances sum to `2·ME_A_LOT`, but `length()` is 0 after the
third `addPoint`: the second point overwrote the sentinel entry, so the third
call took the entry at key 0 for the last real point. -/
theorem C2_counterexample :
    ∃ line : FreeformLine ℝ,
      build Real.sqrt [⟨0, 0⟩, ⟨ME_A_LOT, 0⟩, ⟨0, 0⟩] = some line ∧
      line.length = 0 ∧
      pathLength Real.sqrt [⟨0, 0⟩, ⟨ME_A_LOT, 0⟩, ⟨0, 0⟩] = 2 * ME_A_LOT ∧
      line.length ≠ pathLength Real.sqrt [⟨0, 0⟩, ⟨ME_A_LOT, 0⟩, ⟨0, 0⟩] := by
  have hA : (0 : ℝ) < ME_A_LOT := ME_A_LOT_pos
  have hp : pathLength Real.sqrt [(⟨0, 0⟩ : Vector2 ℝ), ⟨ME_A_LOT, 0⟩, ⟨0, 0⟩] = 2 * ME_A_LOT := by
    simp only [pathLength]
    rw [norm_axis, norm_axis, sub_zero, zero_sub, abs_neg, abs_of_pos hA]
    ring
  refine ⟨_, build_out_and_back, rfl, hp, ?_⟩
  rw [hp]
  show (0 : ℝ) ≠ 2 * ME_A_LOT
  linarith

/-- C3: for every non-empty polyline with `length()` below `ME_A_LOT`,
`getPointAt(t)` is the last added point for `length() <= t < ME_A_LOT` and the
first added point for `-ME_A_LOT <= t <= 0`. -/
theorem C3_constant_extrapolation (p0 : Vector2 ℝ) (more : List (Vector2 ℝ)) :
    ∃ line : FreeformLine ℝ,
      build Real.sqrt (p0 :: more) = some line ∧
      (line.length < ME_A_LOT →
        (∀ t, line.length ≤ t → t < ME_A_LOT →
          line.getPointAt t = some ((p0 :: more).getLast (List.cons_ne_nil _ _))) ∧
        (∀ t, -ME_A_LOT ≤ t → t ≤ 0 → line.getPointAt t = some p0)) := by
  obtain ⟨line, hb, hinv⟩ := build_inv p0 more
  refine ⟨line, hb, fun hlen => ⟨fun t h1 h2 => hinv.getPointAt_tail hlen t h1 h2, ?_⟩⟩
  intro t h1 h2
  rcases eq_or_lt_of_le h2 with h | h
  · rw [h]; exact hinv.getPointAt_zero
  · exact hinv.getPointAt_neg t h1 h

/-- C3 witness: on the polyline `(0,0)`, `(5,0)` (length 5) the query at
`t = 7` returns `(5,0)` and the query at `t = -3` returns `(0,0)`. -/
theorem C3_constant_extrapolation_witness :
    ∃ line : FreeformLine ℝ,
      build Real.sqrt [⟨0, 0⟩, ⟨5, 0⟩] = some line ∧
      line.length < ME_A_LOT ∧
      line.getPointAt 7 = some ⟨5, 0⟩ ∧
      line.getPointAt (-3) = some ⟨0, 0⟩ := by
  obtain ⟨line, hb, h⟩ := C3_constant_extrapolation ⟨0, 0⟩ [⟨5, 0⟩]
  have hA : (5 : ℝ) < ME_A_LOT := by unfold ME_A_LOT; norm_num
  have hA7 : (7 : ℝ) < ME_A_LOT := by unfold ME_A_LOT; norm_num
  have hA3 : -(ME_A_LOT : ℝ) ≤ -3 := by unfold ME_A_LOT; norm_num
  have hline := build_two_points 5 (by norm_num) hA
  rw [hb] at hline
  have hlen5 : line.length = 5 := by rw [Option.some.inj hline]; rfl
  have hlen : line.length < ME_A_LOT := by rw [hlen5]; exact hA
  obtain ⟨ht, hn⟩ := h hlen
  exact ⟨line, hb, hlen, ht 7 (by rw [hlen5]; norm_num) hA7, hn (-3) hA3 (by norm_num)⟩

/-- C4: in a map with strictly increasing keys (every `std::map`), for two
consecutive stored entries `(t_i, p_i)`, `(t_(i+1), p_(i+1))` and every `t`
with `t_i <= t < t_(i+1)`, `getPointAt(t)` is
`p_i + (p_(i+1) - p_i) * ((t - t_i) / (t_(i+1) - t_i))`; in particular
`getPointAt(t_i)` is exactly `p_i`. -/
theorem C4_linear_interpolation {F : Type} [LinearOrderedField F] (line : FreeformLine F)
    (hs : SortedKeys line.points) (i : Nat) (prev next : F × Vector2 F)
    (hi : line.points[i]? = some prev) (hi1 : line.points[i + 1]? = some next)
    (t : F) (h1 : prev.1 ≤ t) (h2 : t < next.1) :
    line.getPointAt t =
        some (prev.2 + (next.2 - prev.2) * ((t - prev.1) / (next.1 - prev.1))) ∧
      line.getPointAt prev.1 = some prev.2 := by
  obtain ⟨pre, post, hpts⟩ := split_at_adjacent line.points i prev next hi hi1
  have hs2 : SortedKeys (pre ++ prev :: next :: post) := hpts ▸ hs
  have hpre : ∀ e ∈ pre, e.1 < prev.1 := fun e he =>
    (List.pairwise_append.mp hs2).2.2 e he prev (List.mem_cons_self _ _)
  have hpn : prev.1 < next.1 := lt_of_le_of_lt h1 h2
  constructor
  · rw [getPointAt_between line t pre post prev next hpts
      (fun e he => le_trans (hpre e he).le h1) h1 h2]
    congr 1
    ext <;> simp [Vector2.interpolate] <;> ring
  · rw [getPointAt_between line prev.1 pre post prev next hpts
      (fun e he => (hpre e he).le) (le_refl _) hpn]
    simp [Vector2.interpolate_zero]

/-- C4 witness: on the polyline `(0,0)`, `(5,0)` the entries at positions 1
and 2 are `(0, (0,0))` and `(5, (5,0))`; the query at `t = 2` interpolates
between them. -/
theorem C4_linear_interpolation_witness :
    ∃ line : FreeformLine ℝ,
      build Real.sqrt [⟨0, 0⟩, ⟨5, 0⟩] = some line ∧
      SortedKeys line.points ∧
      line.points[1]? = some (0, ⟨0, 0⟩) ∧ line.points[2]? = some (5, ⟨5, 0⟩) ∧
      line.getPointAt 2 =
        some ((⟨0, 0⟩ : Vector2 ℝ) + ((⟨5, 0⟩ : Vector2 ℝ) - ⟨0, 0⟩) * (((2 : ℝ) - 0) / (5 - 0))) ∧
      line.getPointAt 0 = some ⟨0, 0⟩ := by
  have hA : (5 : ℝ) < ME_A_LOT := by unfold ME_A_LOT; norm_num
  obtain ⟨line, hb, hinv⟩ := build_inv ⟨0, 0⟩ [⟨5, 0⟩]
  have hline := build_two_points 5 (by norm_num) hA
  rw [hb] at hline
  have hpts : line.points =
      [(-ME_A_LOT, ⟨0, 0⟩), (0, ⟨0, 0⟩), (5, ⟨5, 0⟩), (ME_A_LOT, ⟨5, 0⟩)] := by
    rw [Option.some.inj hline]
  have h1 : line.points[1]? = some (0, ⟨0, 0⟩) := by rw [hpts]; rfl
  have h2 : line.points[2]? = some (5, ⟨5, 0⟩) := by rw [hpts]; rfl
  have h := C4_linear_interpolation line hinv.sorted 1 (0, ⟨0, 0⟩) (5, ⟨5, 0⟩) h1 h2 2
    (by norm_num) (by norm_num)
  exact ⟨line, hb, hinv.sorted, h1, h2, h.1, h.2⟩

/-- C6: after `setBounds(range)` with a valid range (and a positive smoothing
spread `h`) the clip margin is `min(2h, range.length())`, both sample
parameters of `getTangentAt` lie inside `[range.start, range.end]`, and when
`range.length() >= 2h` the samples are `range.start`, `range.start + 2h` for
every `t <= range.start + h` and `range.end - 2h`, `range.end` for every
`t >= range.end - h`, so the tangent is the same vector throughout each of the
two boundary zones. -/
theorem C6_tangent_frozen_near_bounds {F : Type} [LinearOrderedField F] (sqrt : F → F)
    (line : FreeformLine F) (range : Range F) (hv : range.isValid)
    (hh : 0 < line.halfSmoothingSpread) :
    (line.setBounds range).clippingRange = range ∧
    (line.setBounds range).clippingMargin = min (2 * line.halfSmoothingSpread) range.length ∧
    (∀ t, range.start ≤ (line.setBounds range).tangentSampleA t ∧
          (line.setBounds range).tangentSampleA t ≤ range.end_ ∧
          range.start ≤ (line.setBounds range).tangentSampleB t ∧
          (line.setBounds range).tangentSampleB t ≤ range.end_) ∧
    (2 * line.halfSmoothingSpread ≤ range.length →
      (∀ t, t ≤ range.start + line.halfSmoothingSpread →
        (line.setBounds range).tangentSampleA t = range.start ∧
        (line.setBounds range).tangentSampleB t = range.start + 2 * line.halfSmoothingSpread ∧
        (line.setBounds range).getTangentAt sqrt t =
          (line.setBounds range).getTangentAt sqrt range.start) ∧
      (∀ t, range.end_ - line.halfSmoothingSpread ≤ t →
        (line.setBounds range).tangentSampleA t = range.end_ - 2 * line.halfSmoothingSpread ∧
        (line.setBounds range).tangentSampleB t = range.end_ ∧
        (line.setBounds range).getTangentAt sqrt t =
          (line.setBounds range).getTangentAt sqrt range.end_)) := by
  refine ⟨rfl, rfl, fun t => tangentSamples_in_range line range hv hh.le t, ?_⟩
  intro h2
  have hlen : range.length = range.end_ - range.start := by
    unfold Range.length; rw [if_pos hv]
  have hcm : min (2 * line.halfSmoothingSpread) range.length = 2 * line.halfSmoothingSpread :=
    min_eq_left h2
  rw [hlen] at h2
  have hlow : ∀ t, t ≤ range.start + line.halfSmoothingSpread →
      (line.setBounds range).tangentSampleA t = range.start ∧
      (line.setBounds range).tangentSampleB t =
        range.start + 2 * line.halfSmoothingSpread := by
    intro t ht
    simp only [FreeformLine.setBounds, FreeformLine.tangentSampleA, FreeformLine.tangentSampleB,
      getClipped, hcm]
    constructor
    · rw [max_eq_left (by linarith), min_eq_left (by linarith)]
    · rw [max_eq_left (by linarith), min_eq_left (by linarith)]
  have hhigh : ∀ t, range.end_ - line.halfSmoothingSpread ≤ t →
      (line.setBounds range).tangentSampleA t =
        range.end_ - 2 * line.halfSmoothingSpread ∧
      (line.setBounds range).tangentSampleB t = range.end_ := by
    intro t ht
    simp only [FreeformLine.setBounds, FreeformLine.tangentSampleA, FreeformLine.tangentSampleB,
      getClipped, hcm]
    constructor
    · rw [max_eq_right (by linarith), min_eq_right (by linarith)]
    · rw [max_eq_right (by linarith), min_eq_right (by linarith)]
  constructor
  · intro t ht
    obtain ⟨hA, hB⟩ := hlow t ht
    obtain ⟨hA0, hB0⟩ := hlow range.start (by linarith)
    exact ⟨hA, hB, getTangentAt_congr sqrt _ t range.start (by rw [hA, hA0]) (by rw [hB, hB0])⟩
  · intro t ht
    obtain ⟨hA, hB⟩ := hhigh t ht
    obtain ⟨hA0, hB0⟩ := hhigh range.end_ (by linarith)
    exact ⟨hA, hB, getTangentAt_congr sqrt _ t range.end_ (by rw [hA, hA0]) (by rw [hB, hB0])⟩

/-- C6 witness: a fresh line (smoothing spread 10) clipped to `[0, 100]`: the
margin is 20, and the queries at `t = 3` and `t = 0` use the same samples
0 and 20. -/
theorem C6_tangent_frozen_near_bounds_witness :
    (⟨0, 100⟩ : Range ℚ).isValid ∧
    (0 : ℚ) < (FreeformLine.new : FreeformLine ℚ).halfSmoothingSpread ∧
    2 * (FreeformLine.new : FreeformLine ℚ).halfSmoothingSpread ≤ (⟨0, 100⟩ : Range ℚ).length ∧
    ((FreeformLine.new : FreeformLine ℚ).setBounds ⟨0, 100⟩).clippingMargin = 20 ∧
    ((FreeformLine.new : FreeformLine ℚ).setBounds ⟨0, 100⟩).tangentSampleA 3 = 0 ∧
    ((FreeformLine.new : FreeformLine ℚ).setBounds ⟨0, 100⟩).tangentSampleB 3 = 20 ∧
    ((FreeformLine.new : FreeformLine ℚ).setBounds ⟨0, 100⟩).getTangentAt id 3 =
      ((FreeformLine.new : FreeformLine ℚ).setBounds ⟨0, 100⟩).getTangentAt id 0 := by
  have hv : (⟨0, 100⟩ : Range ℚ).isValid := by unfold Range.isValid; norm_num
  have hh : (0 : ℚ) < (FreeformLine.new : FreeformLine ℚ).halfSmoothingSpread := by
    simp [FreeformLine.new]
  have hl : 2 * (FreeformLine.new : FreeformLine ℚ).halfSmoothingSpread ≤
      (⟨0, 100⟩ : Range ℚ).length := by
    simp only [FreeformLine.new, Range.length, if_pos hv]
    norm_num
  obtain ⟨_, hm, _, hf⟩ :=
    C6_tangent_frozen_near_bounds id (FreeformLine.new : FreeformLine ℚ) ⟨0, 100⟩ hv hh
  obtain ⟨hlow, _⟩ := hf hl
  obtain ⟨hA, hB, hT⟩ := hlow 3 (by simp [FreeformLine.new]; norm_num)
  refine ⟨hv, hh, hl, ?_, ?_, ?_, hT⟩
  · rw [hm]
    simp only [FreeformLine.new, Range.length, if_pos hv]
    norm_num
  · rw [hA]
  · rw [hB]
    simp [FreeformLine.new]
    norm_num

/-- C8 (as stated, refuted): the fit through `(0,0)` with tangent `(1,0)` and
`(2,2)` is the circle with centre `(0,2)` and radius 2; the chord midpoint is
`(1,1)`, at squared distance 2 from the centre, while `point0` is at squared
distance 4: the centre is not equidistant from `point0` and the midpoint. -/
theorem C8_counterexample :
    CircleOrLine.fitCircleOrLine Real.sqrt ⟨0, 0⟩ ⟨1, 0⟩ ⟨2, 2⟩ =
      (CircleOrLine.circle { x := 0, y := 2, radius := 2 } : CircleOrLine ℝ) ∧
    CircleOrLine.fitMid (⟨0, 0⟩ : Vector2 ℝ) ⟨2, 2⟩ = ⟨1, 1⟩ ∧
    ((⟨0, 2⟩ : Vector2 ℝ) - ⟨0, 0⟩).norm2 = 4 ∧
    ((⟨0, 2⟩ : Vector2 ℝ) - ⟨1, 1⟩).norm2 = 2 ∧
    Vector2.distTo Real.sqrt (⟨0, 2⟩ : Vector2 ℝ) ⟨0, 0⟩ ≠
      Vector2.distTo Real.sqrt (⟨0, 2⟩ : Vector2 ℝ) ⟨1, 1⟩ := by
  have h4 : ((⟨0, 2⟩ : Vector2 ℝ) - ⟨0, 0⟩).norm2 = 4 := by
    simp [Vector2.norm2]; norm_num
  have h2 : ((⟨0, 2⟩ : Vector2 ℝ) - ⟨1, 1⟩).norm2 = 2 := by
    simp [Vector2.norm2]; norm_num
  refine ⟨fit_example, ?_, h4, h2, ?_⟩
  · ext <;> simp [CircleOrLine.fitMid]
  · unfold Vector2.distTo Vector2.norm
    rw [h4, h2]
    intro h
    have := (Real.sqrt_inj (by norm_num) (by norm_num)).mp h
    norm_num at this

/-- C8 (amended): whenever `fitCircleOrLine` (unit tangent) returns a circle
for a non-degenerate chord, its centre lies on the line through `point0`
perpendicular to `tangent0` and is equidistant from `point0` and `point1`
(both at distance `radius`). -/
theorem C8_center_on_normal_equidistant (point0 tangent0 point1 : Vector2 ℝ) (c : Circle ℝ)
    (hunit : tangent0.norm2 = 1) (hchord : (point1 - point0).norm2 > ME_EPSILON2)
    (hres : CircleOrLine.fitCircleOrLine Real.sqrt point0 tangent0 point1 =
      CircleOrLine.circle c) :
    (CircleOrLine.fitLine0 point0 tangent0).signedDistTo c.center = 0 ∧
    (CircleOrLine.fitLine0 point0 tangent0).signedDistTo point0 = 0 ∧
    (CircleOrLine.fitLine0 point0 tangent0).normal.cross tangent0 = 0 ∧
    c.center.distTo Real.sqrt point0 = c.center.distTo Real.sqrt point1 ∧
    c.center.distTo Real.sqrt point0 = c.radius := by
  rcases fitCircleOrLine_cases Real.sqrt point0 tangent0 point1 with
    ⟨h, _⟩ | ⟨_, h2, _, hres2⟩ | ⟨_, _, hres2⟩
  · exact absurd hchord h
  · rw [hres] at hres2
    have hc : c = { x := (CircleOrLine.fitCenter point0 tangent0 point1).x,
                    y := (CircleOrLine.fitCenter point0 tangent0 point1).y,
                    radius := CircleOrLine.fitRadius Real.sqrt point0 tangent0 point1 } :=
      CircleOrLine.circle.inj hres2
    have hcc : c.center = CircleOrLine.fitCenter point0 tangent0 point1 := by
      rw [hc]; rfl
    have hcr : c.radius = CircleOrLine.fitRadius Real.sqrt point0 tangent0 point1 := by
      rw [hc]
    obtain ⟨g0, g1, g2⟩ := fit_circle_geometry point0 tangent0 point1 hunit h2
    have d0 : c.center.distTo Real.sqrt point0 = c.radius := by
      rw [distTo_eq_norm_sub, hcc, hcr]; exact g0
    have d1 : c.center.distTo Real.sqrt point1 = c.radius := by
      rw [distTo_eq_norm_sub, hcc, hcr]; exact g1
    refine ⟨?_, ?_, ?_, by rw [d0, d1], d0⟩
    · rw [hcc]
      simp only [Vector2.dot, Vector2.sub_x, Vector2.sub_y] at g2
      simp only [CircleOrLine.fitLine0, Line.fromPointAndNormal, Line.signedDistTo, Line.normal,
        Vector2.dot, Vector2.neg_x, Vector2.neg_y]
      linear_combination (-1 : ℝ) * g2
    · simp only [CircleOrLine.fitLine0, Line.fromPointAndNormal, Line.signedDistTo, Line.normal,
        Vector2.dot, Vector2.neg_x, Vector2.neg_y]
      ring
    · simp only [CircleOrLine.fitLine0, Line.fromPointAndNormal, Line.normal, Vector2.cross,
        Vector2.neg_x, Vector2.neg_y]
      ring
  · rw [hres] at hres2
    cases hres2

/-- C8 witness: the fit through `(0,0)` with tangent `(1,0)` and `(2,2)`
returns the circle with centre `(0,2)` and radius 2, at distance 2 from both
points. -/
theorem C8_center_on_normal_equidistant_witness :
    (⟨1, 0⟩ : Vector2 ℝ).norm2 = 1 ∧
    ((⟨2, 2⟩ : Vector2 ℝ) - ⟨0, 0⟩).norm2 > ME_EPSILON2 ∧
    CircleOrLine.fitCircleOrLine Real.sqrt ⟨0, 0⟩ ⟨1, 0⟩ ⟨2, 2⟩ =
      (CircleOrLine.circle { x := 0, y := 2, radius := 2 } : CircleOrLine ℝ) ∧
    Vector2.distTo Real.sqrt (⟨0, 2⟩ : Vector2 ℝ) ⟨0, 0⟩ =
      Vector2.distTo Real.sqrt (⟨0, 2⟩ : Vector2 ℝ) ⟨2, 2⟩ ∧
    Vector2.distTo Real.sqrt (⟨0, 2⟩ : Vector2 ℝ) ⟨0, 0⟩ = 2 := by
  have hu : (⟨1, 0⟩ : Vector2 ℝ).norm2 = 1 := by simp [Vector2.norm2]
  have hch : ((⟨2, 2⟩ : Vector2 ℝ) - ⟨0, 0⟩).norm2 > ME_EPSILON2 := by
    simp [Vector2.norm2, ME_EPSILON2, ME_EPSILON]
    norm_num
  obtain ⟨_, _, _, h1, h2⟩ :=
    C8_center_on_normal_equidistant ⟨0, 0⟩ ⟨1, 0⟩ ⟨2, 2⟩ { x := 0, y := 2, radius := 2 } hu hch
      fit_example
  exact ⟨hu, hch, fit_example, h1, h2⟩

/-- C9: `fitCircleOrLine` never returns an invalid shape; a circle returned
for a non-degenerate chord has `radius <= ME_MAX_ARC_RADIUS` and
`radius < 1000 * |point1 - point0|`; when the candidate circle exceeds either
ceiling, or the (unit) tangent is parallel to the chord, the result is the
line through `point0` and `point1`; when `|point1 - point0|^2 <= ME_EPSILON2`
the result is the zero-radius circle centred at `point0`. -/
theorem C9_fit_never_invalid (point0 tangent0 point1 : Vector2 ℝ) :
    CircleOrLine.fitCircleOrLine Real.sqrt point0 tangent0 point1 ≠ CircleOrLine.invalid ∧
    (∀ c : Circle ℝ, (point1 - point0).norm2 > ME_EPSILON2 →
      CircleOrLine.fitCircleOrLine Real.sqrt point0 tangent0 point1 = CircleOrLine.circle c →
      c.radius ≤ ME_MAX_ARC_RADIUS ∧
      c.radius <
        ME_MAX_ARC_RADIUS_TO_CHORD_LENGTH_RATIO * (point1 - point0).norm Real.sqrt) ∧
    ((point1 - point0).norm2 > ME_EPSILON2 →
      (¬ CircleOrLine.fitRadius Real.sqrt point0 tangent0 point1 ≤ ME_MAX_ARC_RADIUS ∨
       ¬ CircleOrLine.fitRadius Real.sqrt point0 tangent0 point1 *
           CircleOrLine.fitRadius Real.sqrt point0 tangent0 point1 <
         ME_MAX_ARC_RADIUS_TO_CHORD_LENGTH_RATIO * ME_MAX_ARC_RADIUS_TO_CHORD_LENGTH_RATIO *
           (point1 - point0).norm2) →
      CircleOrLine.fitCircleOrLine Real.sqrt point0 tangent0 point1 =
        CircleOrLine.line (Line.between Real.sqrt point0 point1)) ∧
    ((point1 - point0).norm2 > ME_EPSILON2 → tangent0.norm2 = 1 →
      tangent0.cross (point1 - point0) = 0 →
      CircleOrLine.fitCircleOrLine Real.sqrt point0 tangent0 point1 =
        CircleOrLine.line (Line.between Real.sqrt point0 point1)) ∧
    ((point1 - point0).norm2 ≤ ME_EPSILON2 →
      CircleOrLine.fitCircleOrLine Real.sqrt point0 tangent0 point1 =
        CircleOrLine.circle { x := point0.x, y := point0.y, radius := 0 }) := by
  have hcases := fitCircleOrLine_cases Real.sqrt point0 tangent0 point1
  refine ⟨?_, ?_, ?_, ?_, ?_⟩
  · rcases hcases with ⟨_, h⟩ | ⟨_, _, _, h⟩ | ⟨_, _, h⟩ <;> rw [h] <;> simp
  · intro c hchord hres
    rcases hcases with ⟨h, _⟩ | ⟨_, _, ⟨h3, h4⟩, hres2⟩ | ⟨_, _, hres2⟩
    · exact absurd hchord h
    · rw [hres] at hres2
      have hc := CircleOrLine.circle.inj hres2
      have hcr : c.radius = CircleOrLine.fitRadius Real.sqrt point0 tangent0 point1 := by
        rw [hc]
      rw [hcr]
      refine ⟨h3, ?_⟩
      have hr0 : 0 ≤ CircleOrLine.fitRadius Real.sqrt point0 tangent0 point1 :=
        Real.sqrt_nonneg _
      have hpos : (0 : ℝ) < ME_MAX_ARC_RADIUS_TO_CHORD_LENGTH_RATIO := by
        unfold ME_MAX_ARC_RADIUS_TO_CHORD_LENGTH_RATIO; norm_num
      have hlt : CircleOrLine.fitRadius Real.sqrt point0 tangent0 point1 /
          ME_MAX_ARC_RADIUS_TO_CHORD_LENGTH_RATIO < Real.sqrt (point1 - point0).norm2 := by
        rw [Real.lt_sqrt (div_nonneg hr0 hpos.le), div_pow, div_lt_iff₀ (by positivity)]
        nlinarith [h4]
      rw [div_lt_iff₀ hpos] at hlt
      show _ < _ * Real.sqrt (point1 - point0).norm2
      linarith
    · rw [hres] at hres2
      cases hres2
  · intro hchord hexceed
    rcases hcases with ⟨h, _⟩ | ⟨_, _, ⟨h3, h4⟩, _⟩ | ⟨_, _, hres2⟩
    · exact absurd hchord h
    · rcases hexceed with h | h
      · exact absurd h3 h
      · exact absurd h4 h
    · exact hres2
  · intro hchord hunit hpar
    have hl := fitLead_parallel point0 tangent0 point1 hunit hpar
    rcases hcases with ⟨h, _⟩ | ⟨_, h2, _, _⟩ | ⟨_, _, hres2⟩
    · exact absurd hchord h
    · rw [hl] at h2
      exact absurd h2 (not_lt.mpr ME_EPSILON2_pos.le)
    · exact hres2
  · intro hsmall
    rcases hcases with ⟨_, h⟩ | ⟨h, _, _, _⟩ | ⟨h, _, _⟩
    · exact h
    · exact absurd h (not_lt.mpr hsmall)
    · exact absurd h (not_lt.mpr hsmall)

/-- C9 witness: with `point0 = (0,0)`, `point1 = (2,0)` and the unit tangent
`(1,0)` along the chord the result is the line through the two points. -/
theorem C9_fit_never_invalid_witness :
    ((⟨2, 0⟩ : Vector2 ℝ) - ⟨0, 0⟩).norm2 > ME_EPSILON2 ∧
    (⟨1, 0⟩ : Vector2 ℝ).norm2 = 1 ∧
    (⟨1, 0⟩ : Vector2 ℝ).cross ((⟨2, 0⟩ : Vector2 ℝ) - ⟨0, 0⟩) = 0 ∧
    CircleOrLine.fitCircleOrLine Real.sqrt ⟨0, 0⟩ ⟨1, 0⟩ ⟨2, 0⟩ =
      CircleOrLine.line (Line.between Real.sqrt ⟨0, 0⟩ ⟨2, 0⟩) := by
  have hch : ((⟨2, 0⟩ : Vector2 ℝ) - ⟨0, 0⟩).norm2 > ME_EPSILON2 := by
    simp [Vector2.norm2, ME_EPSILON2, ME_EPSILON]
    norm_num
  have hu : (⟨1, 0⟩ : Vector2 ℝ).norm2 = 1 := by simp [Vector2.norm2]
  have hp : (⟨1, 0⟩ : Vector2 ℝ).cross ((⟨2, 0⟩ : Vector2 ℝ) - ⟨0, 0⟩) = 0 := by
    simp [Vector2.cross]
  exact ⟨hch, hu, hp, (C9_fit_never_invalid ⟨0, 0⟩ ⟨1, 0⟩ ⟨2, 0⟩).2.2.2.1 hch hu hp⟩

/-- C10: for every two points `p0`, `p1` (distinct or not) and any square-root
function, `Line::between(p0, p1)` has signed distance 0 to both `p0` and `p1`,
and its normal is the chord direction `p0.directionTo(p1)` rotated by 90
degrees, hence perpendicular to the chord. -/
theorem C10_line_between {F : Type} [LinearOrderedField F] (sqrt : F → F)
    (p0 p1 : Vector2 F) :
    (Line.between sqrt p0 p1).signedDistTo p0 = 0 ∧
    (Line.between sqrt p0 p1).signedDistTo p1 = 0 ∧
    (Line.between sqrt p0 p1).normal = (p0.directionTo sqrt p1).rotate90 ∧
    (Line.between sqrt p0 p1).normal.dot (p0.directionTo sqrt p1) = 0 ∧
    (Line.between sqrt p0 p1).normal.dot (p1 - p0) = 0 := by
  obtain ⟨h0, h1⟩ := between_signedDist sqrt p0 p1
  refine ⟨h0, h1, rfl, ?_, ?_⟩
  · simp [Line.between, Line.fromPointAndNormal, Line.normal, Vector2.rotate90, Vector2.dot]
    ring
  · simp [Line.between, Line.fromPointAndNormal, Line.normal, Vector2.rotate90, Vector2.dot,
      Vector2.directionTo, Vector2.normalized]
    ring

/-- C19: for every `Range`, `isValid()` holds iff `start <= end`; a
default-constructed or invalidated range is invalid; `length()` is
`end - start` for a valid range and 0 for an invalid one, so it is never
negative. -/
theorem C19_range_validity {F : Type} [LinearOrderedField F] (r : Range F) :
    (r.isValid ↔ r.start ≤ r.end_) ∧
    ¬ (Range.new : Range F).isValid ∧
    ¬ (r.invalidate).isValid ∧
    (r.isValid → r.length = r.end_ - r.start) ∧
    (¬ r.isValid → r.length = 0) ∧
    0 ≤ r.length := by
  refine ⟨Iff.rfl, Range.invalidate_not_valid _, Range.invalidate_not_valid r, ?_, ?_,
    Range.length_nonneg r⟩
  · intro h; unfold Range.length; rw [if_pos h]
  · intro h; unfold Range.length; rw [if_neg h]

/-- C20: `Range::include` never shrinks a range: afterwards the range contains
the value and everything it contained before (its start does not grow, its end
does not shrink); including a finite float `v` (`|v| <= FLT_MAX`) into an
invalidated or default-constructed range gives exactly `{v, v}`; `include` is
idempotent and independent of the order of two values. -/
theorem C20_include_never_shrinks {F : Type} [LinearOrderedField F] (r : Range F)
    (v a b x : F) :
    (r.include_ v).contains v ∧
    (r.contains x → (r.include_ v).contains x) ∧
    (r.include_ v).start ≤ r.start ∧ r.end_ ≤ (r.include_ v).end_ ∧
    (-FLT_MAX ≤ v → v ≤ FLT_MAX →
      (r.invalidate).include_ v = { start := v, end_ := v } ∧
      (Range.new : Range F).include_ v = { start := v, end_ := v }) ∧
    (r.include_ v).include_ v = r.include_ v ∧
    (r.include_ a).include_ b = (r.include_ b).include_ a := by
  refine ⟨⟨min_le_left _ _, le_max_right _ _⟩, ?_, min_le_right _ _, le_max_left _ _, ?_, ?_, ?_⟩
  · intro hx
    exact ⟨le_trans (min_le_right _ _) hx.1, le_trans hx.2 (le_max_left _ _)⟩
  · intro h1 h2
    simp only [Range.new, Range.invalidate, Range.include_, min_eq_left h2, max_eq_right h1,
      and_self]
  · simp only [Range.include_, Range.mk.injEq]
    exact ⟨by rw [← min_assoc, min_self], by rw [max_assoc, max_self]⟩
  · simp only [Range.include_, Range.mk.injEq]
    exact ⟨min_left_comm _ _ _, by rw [max_assoc, max_comm a b, ← max_assoc]⟩

/-- C20 witness: including 5 into a fresh range gives `{5, 5}`. -/
theorem C20_include_never_shrinks_witness :
    -(FLT_MAX : ℚ) ≤ 5 ∧ (5 : ℚ) ≤ FLT_MAX ∧
    (Range.new : Range ℚ).include_ 5 = { start := 5, end_ := 5 } := by
  have h1 : -(FLT_MAX : ℚ) ≤ 5 := by unfold FLT_MAX; norm_num
  have h2 : (5 : ℚ) ≤ FLT_MAX := by unfold FLT_MAX; norm_num
  exact ⟨h1, h2, ((C20_include_never_shrinks (Range.new : Range ℚ) 5 0 0 0).2.2.2.2.1 h1 h2).2⟩

/-- C18: segment acceptance is monotonic in error: for two polylines and
bounds with the same chord length under the same `SegmentsInput`, if
`isSegment` accepts the one whose mean squared error is `e`, it accepts the
one whose mean squared error is any `e2 <= e`. -/
theorem C18_acceptance_monotone {F : Type} [LinearOrderedField F] (sqrt : F → F)
    (fuel fuel2 : Nat) (line line2 : FreeformLine F) (bounds bounds2 : Range F)
    (input : SegmentsInput F) (p0 p1 q0 q1 : Vector2 F) (e e2 : F) (b2 : Bool)
    (hp0 : line.getPointAt bounds.start = some p0) (hp1 : line.getPointAt bounds.end_ = some p1)
    (hq0 : line2.getPointAt bounds2.start = some q0)
    (hq1 : line2.getPointAt bounds2.end_ = some q1)
    (hchord : p0.distTo sqrt p1 = q0.distTo sqrt q1)
    (hacc : isSegment sqrt fuel line bounds input = some (true, e))
    (hres : isSegment sqrt fuel2 line2 bounds2 input = some (b2, e2))
    (hle : e2 ≤ e) : b2 = true := by
  obtain ⟨a0, a1, ha0, ha1, _, _, hb⟩ := isSegment_eq_some sqrt fuel line bounds input true e hacc
  obtain ⟨c0, c1, hc0, hc1, _, _, hb2⟩ :=
    isSegment_eq_some sqrt fuel2 line2 bounds2 input b2 e2 hres
  rw [hp0] at ha0
  rw [hp1] at ha1
  rw [hq0] at hc0
  rw [hq1] at hc1
  have e0 := Option.some.inj ha0
  have e1 := Option.some.inj ha1
  have f0 := Option.some.inj hc0
  have f1 := Option.some.inj hc1
  subst e0 e1 f0 f1
  have hlim := of_decide_eq_true hb.symm
  rw [hb2, decide_eq_true_eq, ← hchord]
  exact le_trans hle hlim

/-- C18 witness: the straight stroke `(0,0)`, `(5,0)` over `[0, 5]` with the
default input is accepted with error 0; a second span with the same chord and
an error `<= 0` is accepted too. -/
theorem C18_acceptance_monotone_witness :
    isSegment Real.sqrt 1 (straightStroke : FreeformLine ℝ) { start := 0, end_ := 5 } SegmentsInput.default =
      some (true, 0) ∧ (0 : ℝ) ≤ 0 ∧ true = true := by
  refine ⟨isSegment_straightStroke, le_refl _, ?_⟩
  exact (C18_acceptance_monotone Real.sqrt 1 1 (straightStroke : FreeformLine ℝ) straightStroke
    { start := 0, end_ := 5 } { start := 0, end_ := 5 } SegmentsInput.default
    ⟨0, 0⟩ ⟨5, 0⟩ ⟨0, 0⟩ ⟨5, 0⟩ 0 0 true straightStroke_getPointAt_zero
    straightStroke_getPointAt_five straightStroke_getPointAt_zero straightStroke_getPointAt_five
    rfl isSegment_straightStroke isSegment_straightStroke (le_refl _)).symm ▸ rfl

/-- C12 (code evaluated at the failing input): start `(0,0)` with tangent
`(1,0)`, end `(20000, 60000)` with tangent `(0,1)`, one ratio (`r = 1`).  The
only pair returned is `(25000, 25000)`; its `d1` solves `b x + c = 0`, but
`a = 1` is not approximately 0 and `d1` is not a root of
`a x^2 + b x + c = 0`. -/
theorem C12_recorded_pair_not_a_root :
    Biarc.findPossibleBiarcParams Real.sqrt (fun x y => x ^ y)
      (Biarc.ofPointsAndTangents (⟨0, 0⟩ : Vector2 ℝ) ⟨1, 0⟩ ⟨20000, 60000⟩ ⟨0, 1⟩)
      (1 / 5) 5 1 false = some [{ d0 := 25000, d1 := 25000 }] ∧
    (⟨1, 0⟩ : Vector2 ℝ).norm2 = 1 ∧ (⟨0, 1⟩ : Vector2 ℝ).norm2 = 1 ∧
    ME_EPSILON < |Biarc.coeffA (⟨1, 0⟩ : Vector2 ℝ) ⟨0, 1⟩ 1| ∧
    Biarc.coeffB (⟨1, 0⟩ : Vector2 ℝ) ⟨0, 1⟩ ⟨20000, 60000⟩ 1 * 25000 +
      Biarc.coeffC (⟨20000, 60000⟩ : Vector2 ℝ) = 0 ∧
    Biarc.coeffA (⟨1, 0⟩ : Vector2 ℝ) ⟨0, 1⟩ 1 * 25000 ^ 2 +
      Biarc.coeffB (⟨1, 0⟩ : Vector2 ℝ) ⟨0, 1⟩ ⟨20000, 60000⟩ 1 * 25000 +
      Biarc.coeffC (⟨20000, 60000⟩ : Vector2 ℝ) ≠ 0 := by
  refine ⟨findPossibleBiarcParams_far_example, by simp [Vector2.norm2], by simp [Vector2.norm2],
    ?_, ?_, ?_⟩
  · simp [Biarc.coeffA, Vector2.dot, ME_EPSILON]
    norm_num
  · simp [Biarc.coeffB, Biarc.coeffC, Vector2.dot]
    norm_num
  · simp [Biarc.coeffA, Biarc.coeffB, Biarc.coeffC, Vector2.dot]
    norm_num

/-- C13 (code evaluated at the failing input): for the same input as C12 the
ratio pass ends with `d1 = 25000` and `foundSolution == false`, and the pair
`(25000, 25000)` is recorded although `25000 < ME_MAX_D_PARAM` is false. -/
theorem C13_recorded_d1_above_max :
    Biarc.ratioStep Real.sqrt (⟨1, 0⟩ : Vector2 ℝ) ⟨0, 1⟩ ⟨20000, 60000⟩ 1 =
      Biarc.RatioStep.finished 25000 false ∧
    Biarc.findPossibleBiarcParams Real.sqrt (fun x y => x ^ y)
      (Biarc.ofPointsAndTangents (⟨0, 0⟩ : Vector2 ℝ) ⟨1, 0⟩ ⟨20000, 60000⟩ ⟨0, 1⟩)
      (1 / 5) 5 1 false = some [{ d0 := 25000, d1 := 25000 }] ∧
    ¬ ((25000 : ℝ) < ME_MAX_D_PARAM) := by
  refine ⟨ratioStep_far_example, findPossibleBiarcParams_far_example, ?_⟩
  unfold ME_MAX_D_PARAM
  norm_num

/-- C15: when the ratio loop completes with the pairs `main` (it divides by
zero only when `-c / b` has `b == 0`), then with `addSingleArcResult` true and
`chord . tangent0 != 0` the result is `main` followed by the single pair
`(d0, 0)`, `d0 = |chord|^2 / (2 * chord . tangent0)`, unless `d0` is within
`ME_EPSILON` of 0, in which case the result is `main`; with
`addSingleArcResult` false the result is `main`, which holds no pair with
`d1 == 0`. -/
theorem C15_single_arc_pair {F : Type} [LinearOrderedField F] (sqrt : F → F)
    (powf : F → F → F) (biarc : Biarc F) (rLower rUpper : F) (n : Int)
    (main : List (DParam F)) (hdef : ¬ (n > 1 ∧ rLower = 0))
    (hloop : Biarc.ratioLoop sqrt biarc.tangent0 biarc.tangent1 (biarc.point1 - biarc.point0)
        (Biarc.ratiosTried powf rLower rUpper n) [] = some main) :
    ((biarc.point1 - biarc.point0).dot biarc.tangent0 ≠ 0 →
      Biarc.findPossibleBiarcParams sqrt powf biarc rLower rUpper n true =
        some (if ¬ isEqual 0 ((biarc.point1 - biarc.point0).dot (biarc.point1 - biarc.point0) /
            (2 * (biarc.point1 - biarc.point0).dot biarc.tangent0)) ME_EPSILON then
          main ++ [{ d0 := (biarc.point1 - biarc.point0).dot (biarc.point1 - biarc.point0) /
            (2 * (biarc.point1 - biarc.point0).dot biarc.tangent0), d1 := 0 }]
          else main)) ∧
    Biarc.findPossibleBiarcParams sqrt powf biarc rLower rUpper n false = some main ∧
    (∀ p ∈ main, p.d1 ≠ 0) := by
  obtain ⟨h1, h2⟩ := findPossibleBiarcParams_of_loop sqrt powf biarc rLower rUpper n main hdef hloop
  refine ⟨h2, h1, ?_⟩
  intro p hp
  obtain ⟨added, hout, hpairs⟩ := ratioLoop_pairs sqrt _ _ _ _ [] main hloop
  rw [List.nil_append] at hout
  rw [hout] at hp
  obtain ⟨_, _, _, _, hd1, _⟩ := hpairs p hp
  have heps : (0 : F) < ME_EPSILON := ME_EPSILON_pos
  exact ne_of_gt (lt_trans heps hd1)

/-- C15 witness: start `(0,0)` with tangent `(1,0)`, end `(-1,1)` with tangent
`(1,0)`, one ratio: the loop records nothing, `chord . tangent0 = -1`, and the
result with `addSingleArcResult` is the single pair `(-1, 0)`; without it the
result is empty. -/
theorem C15_single_arc_pair_witness :
    ¬ ((1 : Int) > 1 ∧ (1 / 5 : ℝ) = 0) ∧
    Biarc.ratioLoop Real.sqrt (⟨1, 0⟩ : Vector2 ℝ) ⟨1, 0⟩ ((⟨-1, 1⟩ : Vector2 ℝ) - ⟨0, 0⟩)
      (Biarc.ratiosTried (fun x y => x ^ y) (1 / 5) 5 1) [] = some [] ∧
    ((⟨-1, 1⟩ : Vector2 ℝ) - ⟨0, 0⟩).dot ⟨1, 0⟩ ≠ 0 ∧
    Biarc.findPossibleBiarcParams Real.sqrt (fun x y => x ^ y)
      (Biarc.ofPointsAndTangents (⟨0, 0⟩ : Vector2 ℝ) ⟨1, 0⟩ ⟨-1, 1⟩ ⟨1, 0⟩)
      (1 / 5) 5 1 true = some [{ d0 := -1, d1 := 0 }] ∧
    Biarc.findPossibleBiarcParams Real.sqrt (fun x y => x ^ y)
      (Biarc.ofPointsAndTangents (⟨0, 0⟩ : Vector2 ℝ) ⟨1, 0⟩ ⟨-1, 1⟩ ⟨1, 0⟩)
      (1 / 5) 5 1 false = some [] := by
  have hv : ((⟨-1, 1⟩ : Vector2 ℝ) - ⟨0, 0⟩) = ⟨-1, 1⟩ := by ext <;> simp
  have hdef : ¬ ((1 : Int) > 1 ∧ (1 / 5 : ℝ) = 0) := by norm_num
  have hloop : Biarc.ratioLoop Real.sqrt (⟨1, 0⟩ : Vector2 ℝ) ⟨1, 0⟩
      ((⟨-1, 1⟩ : Vector2 ℝ) - ⟨0, 0⟩)
      (Biarc.ratiosTried (fun x y => x ^ y) (1 / 5) 5 1) [] = some [] := by
    rw [hv, ratiosTried_one]
    exact ratioLoop_back_example
  have hne : ((⟨-1, 1⟩ : Vector2 ℝ) - ⟨0, 0⟩).dot ⟨1, 0⟩ ≠ 0 := by
    rw [hv]
    simp [Vector2.dot]
  obtain ⟨h1, h2, _⟩ := C15_single_arc_pair Real.sqrt (fun x y => x ^ y)
    (Biarc.ofPointsAndTangents (⟨0, 0⟩ : Vector2 ℝ) ⟨1, 0⟩ ⟨-1, 1⟩ ⟨1, 0⟩) (1 / 5) 5 1 []
    hdef hloop
  refine ⟨hdef, hloop, hne, ?_, h2⟩
  rw [h1 hne]
  simp only [Biarc.ofPointsAndTangents, hv, Vector2.dot, isEqual, ME_EPSILON]
  norm_num

/-- C16 (as stated, refuted): for start `(0,0)` with unit tangent `(1,0)`, end
`(-1,1)` with unit tangent `(1,0)`, ratio bounds `1/5` and `5`, one ratio and
`addSingleArcResult`, the pair returned is `(-1, 0)`: `d0` is negative. -/
theorem C16_counterexample :
    Biarc.findPossibleBiarcParams Real.sqrt (fun x y => x ^ y)
      (Biarc.ofPointsAndTangents (⟨0, 0⟩ : Vector2 ℝ) ⟨1, 0⟩ ⟨-1, 1⟩ ⟨1, 0⟩)
      (1 / 5) 5 1 true = some [{ d0 := -1, d1 := 0 }] ∧
    (⟨1, 0⟩ : Vector2 ℝ).norm2 = 1 ∧ (0 : ℝ) < 1 / 5 ∧ (0 : ℝ) < 5 ∧
    ¬ ((0 : ℝ) ≤ ({ d0 := -1, d1 := 0 } : DParam ℝ).d0) := by
  refine ⟨findPossibleBiarcParams_back_example, by simp [Vector2.norm2], by norm_num,
    by norm_num, ?_⟩
  norm_num

/-- C16 (amended): for positive ratio bounds, every pair `(d0, d1)` returned by
`findPossibleBiarcParams` is either a pair of the ratio loop, with
`d1 > ME_EPSILON > 0` and `d0 > 0`, or the single-arc pair, present only with
`addSingleArcResult`, with `d1 = 0` and
`d0 = |chord|^2 / (2 * chord . tangent0)`, which is farther than `ME_EPSILON`
from 0 and may be negative. -/
theorem C16_param_signs (biarc : Biarc ℝ) (rLower rUpper : ℝ) (n : Int) (add : Bool)
    (result : List (DParam ℝ)) (hl : 0 < rLower) (hu : 0 < rUpper)
    (hres : Biarc.findPossibleBiarcParams Real.sqrt (fun x y => x ^ y) biarc rLower rUpper n add =
      some result) :
    ∀ p ∈ result,
      (ME_EPSILON < p.d1 ∧ 0 < p.d1 ∧ 0 < p.d0) ∨
      (add = true ∧ p.d1 = 0 ∧
        p.d0 = (biarc.point1 - biarc.point0).dot (biarc.point1 - biarc.point0) /
          (2 * (biarc.point1 - biarc.point0).dot biarc.tangent0) ∧
        ME_EPSILON < |p.d0|) := by
  have heps : (0 : ℝ) < ME_EPSILON := ME_EPSILON_pos
  obtain ⟨main, hloop, hshape⟩ :=
    findPossibleBiarcParams_eq_some Real.sqrt _ biarc rLower rUpper n add result hres
  obtain ⟨added, hout, hpairs⟩ := ratioLoop_pairs Real.sqrt _ _ _ _ [] main hloop
  rw [List.nil_append] at hout
  have hmain : ∀ p ∈ main, ME_EPSILON < p.d1 ∧ 0 < p.d1 ∧ 0 < p.d0 := by
    intro p hp
    rw [hout] at hp
    obtain ⟨r, hr, _, _, hd1, hd0⟩ := hpairs p hp
    have hrpos := ratiosTried_pos rLower rUpper n hl hu r hr
    have h1 : 0 < p.d1 := lt_trans heps hd1
    exact ⟨hd1, h1, by rw [hd0]; positivity⟩
  intro p hp
  rcases hshape with ⟨_, hr⟩ | ⟨hadd, _, hr⟩
  · rw [hr] at hp
    exact Or.inl (hmain p hp)
  · rw [hr] at hp
    by_cases hz : isEqual 0 ((biarc.point1 - biarc.point0).dot (biarc.point1 - biarc.point0) /
        (2 * (biarc.point1 - biarc.point0).dot biarc.tangent0)) ME_EPSILON
    · rw [if_neg (not_not.mpr hz)] at hp
      exact Or.inl (hmain p hp)
    · rw [if_pos hz] at hp
      rcases List.mem_append.mp hp with h | h
      · exact Or.inl (hmain p h)
      · simp only [List.mem_singleton] at h
        subst h
        refine Or.inr ⟨hadd, rfl, rfl, ?_⟩
        unfold isEqual at hz
        rw [zero_sub, abs_neg] at hz
        exact not_le.mp hz

/-- C16 witness: the failing input of C12 has positive ratio bounds and a
defined result; its pair `(25000, 25000)` is a loop pair with positive
entries. -/
theorem C16_param_signs_witness :
    (0 : ℝ) < 1 / 5 ∧ (0 : ℝ) < 5 ∧
    Biarc.findPossibleBiarcParams Real.sqrt (fun x y => x ^ y)
      (Biarc.ofPointsAndTangents (⟨0, 0⟩ : Vector2 ℝ) ⟨1, 0⟩ ⟨20000, 60000⟩ ⟨0, 1⟩)
      (1 / 5) 5 1 false = some [{ d0 := 25000, d1 := 25000 }] ∧
    ∀ p ∈ [({ d0 := 25000, d1 := 25000 } : DParam ℝ)],
      (ME_EPSILON < p.d1 ∧ 0 < p.d1 ∧ 0 < p.d0) ∨
      (false = true ∧ p.d1 = 0 ∧
        p.d0 = (((⟨20000, 60000⟩ : Vector2 ℝ) - ⟨0, 0⟩).dot
            ((⟨20000, 60000⟩ : Vector2 ℝ) - ⟨0, 0⟩)) /
          (2 * ((⟨20000, 60000⟩ : Vector2 ℝ) - ⟨0, 0⟩).dot ⟨1, 0⟩) ∧
        ME_EPSILON < |p.d0|) :=
  ⟨by norm_num, by norm_num, findPossibleBiarcParams_far_example,
    C16_param_signs _ (1 / 5) 5 1 false _ (by norm_num) (by norm_num)
      findPossibleBiarcParams_far_example⟩

/-- In exact arithmetic, end to end on a straight stroke: for a polyline whose points
`p0, p0 + u s1, p0 + u s2, ...` advance monotonically (`0 ≤ s1 ≤ s2 ≤ ...`)
along one unit direction `u`, with a total length above the minimum display
gap (and below the sentinel), under the default configuration and with enough
fuel: `findCorners` returns no corner, `isSegment` accepts the full span
`[0, length]`, and `recreateSpline` produces exactly one shape element, the
segment from the first to the last point, and an empty corner list, whatever
the biarc fitter is. -/
theorem straight_stroke_pipeline (p0 u : Vector2 ℝ) (ss : List ℝ) (hu : u.norm2 = 1)
    (hmono : (0 :: ss).Pairwise (fun a b => a ≤ b))
    (hgap : ME_MAX_SPLINE_GAP < ss.getLastD 0) (hA : ss.getLastD 0 < ME_A_LOT) :
    ∃ (line : FreeformLine ℝ) (N : Nat),
      FreeformLine.build Real.sqrt (p0 :: ss.map (fun s => p0 + u * s)) = some line ∧
      line.length = ss.getLastD 0 ∧
      ∀ fuel, N ≤ fuel →
        findCorners Real.sqrt (fun y x => Complex.arg ⟨x, y⟩) (fun x => ((⌈x⌉ : ℤ) : ℝ)) fuel
          (line.setBounds { start := 0, end_ := line.length }) CornersInput.default = some [] ∧
        isSegment Real.sqrt fuel (line.setBounds { start := 0, end_ := line.length })
          { start := 0, end_ := line.length } SegmentsInput.default = some (true, 0) ∧
        ∀ (convert : FreeformLine ℝ → BiarcsInput ℝ → List (Biarc ℝ)) (old : ProcessingInput ℝ)
          (shapes : List (Option (SplineElement ℝ))) (corners : List (Vector2 ℝ)),
          recreateSpline Real.sqrt (fun y x => Complex.arg ⟨x, y⟩) (fun x => ((⌈x⌉ : ℤ) : ℝ))
            convert fuel
            { sourceLine := line, processingInput := old, displayShapes := shapes,
              debugCorners := corners } (some ProcessingInput.default) =
          some { sourceLine := line, processingInput := ProcessingInput.default
                 displayShapes :=
                   [some (SplineElement.segment p0 (p0 + u * ss.getLastD 0) (-1))]
                 debugCorners := [] } := by
  have hL1 : (1 : ℝ) < ss.getLastD 0 := by
    unfold ME_MAX_SPLINE_GAP at hgap
    exact hgap
  have hL0 : (0 : ℝ) ≤ ss.getLastD 0 := by linarith
  obtain ⟨line, hb, hinv⟩ := build_collinear p0 u hu ss hmono hA
  have hfit := collinear_fitted p0 u _ line hinv hL0
  obtain ⟨N1, h1⟩ := collinear_findCorners p0 u hu _ _ hfit (by linarith)
    (CornersInput.default : CornersInput ℝ) rfl rfl rfl rfl
    (by simp [CornersInput.default]) (by simp [CornersInput.default])
    (fun x => ((⌈x⌉ : ℤ) : ℝ))
  obtain ⟨N2, h2⟩ := collinear_isSegment p0 u _ _ hfit hL0
    (SegmentsInput.default : SegmentsInput ℝ) (by simp [SegmentsInput.default])
    (by simp [SegmentsInput.default])
  obtain ⟨N3, h3⟩ := collinear_spline p0 u hu _ line hinv hL1
    (ProcessingInput.default : ProcessingInput ℝ) rfl rfl rfl rfl
    (by simp [ProcessingInput.default, CornersInput.default])
    (by simp [ProcessingInput.default, CornersInput.default])
    (by simp [ProcessingInput.default, SegmentsInput.default])
    (by simp [ProcessingInput.default, SegmentsInput.default])
    (fun x => ((⌈x⌉ : ℤ) : ℝ))
  have hlen : line.length = ss.getLastD 0 := hinv.len
  refine ⟨line, max N1 (max N2 N3), hb, hlen, fun fuel hf => ⟨?_, ?_, ?_⟩⟩
  · exact h1 fuel (le_trans (le_max_left _ _) hf)
  · rw [hlen]
    have := h2 fuel (le_trans (le_trans (le_max_left _ _) (le_max_right _ _)) hf)
    rw [hlen] at this
    exact this
  · intro convert old shapes corners
    exact h3 fuel (le_trans (le_trans (le_max_right _ _) (le_max_right _ _)) hf)
      convert old shapes corners

/-- C24: the list produced by `findCornersAndSegments` is a permutation of
the corners `findCorners` returned together with the segments the segment loop
accepted (each of them a span longer than the display gap that `isSegment`
accepted), and it is sorted: for consecutive elements `a`, `b` either
`a.start < b.start`, or `a.start = b.start` and `a.end ≤ b.end`.
`Range::isLess` is the strict lexicographic order on `(start, end)`:
irreflexive, transitive and total. -/
theorem C24_markers_sorted {F : Type} [LinearOrderedField F] (sqrt : F → F)
    (atan2 : F → F → F) (ceil : F → F) (fuel : Nat) (input : ProcessingInput F)
    (line line1 : FreeformLine F) (result : List (Range F))
    (h : findCornersAndSegments sqrt atan2 ceil fuel input line = some (line1, result)) :
    (∃ corners segments,
      findCorners sqrt atan2 ceil fuel line1 input.corners = some corners ∧
      segmentLoop sqrt fuel line1 input.segments
        (corners ++ [{ start := line1.length, end_ := line1.length }]) 0 [] = some segments ∧
      (∀ s ∈ segments, ME_MAX_SPLINE_GAP < s.length ∧
        ∃ e, isSegment sqrt fuel line1 s input.segments = some (true, e)) ∧
      result.Perm (corners ++ segments)) ∧
    result.Chain' (fun a b => a.start < b.start ∨ (a.start = b.start ∧ a.end_ ≤ b.end_)) ∧
    (∀ a : Range F, ¬ a.isLess a) ∧
    (∀ a b c : Range F, a.isLess b → b.isLess c → a.isLess c) ∧
    (∀ a b : Range F, a.isLess b ∨ a = b ∨ b.isLess a) ∧
    (∀ a b : Range F,
      a.isLess b ↔ a.start < b.start ∨ (a.start = b.start ∧ a.end_ < b.end_)) := by
  obtain ⟨_, corners, segments, hc, hs, hr⟩ :=
    findCornersAndSegments_eq_some sqrt atan2 ceil fuel input line line1 result h
  obtain ⟨added, hadd, hacc⟩ := segmentLoop_accepted sqrt fuel line1 input.segments _ _ _ _ hs
  rw [List.nil_append] at hadd
  refine ⟨⟨corners, segments, hc, hs, ?_, ?_⟩, ?_, Range.isLess_irrefl,
    fun a b c => Range.isLess_trans, Range.isLess_trichotomy, fun a b => Iff.rfl⟩
  · rw [hadd]
    exact hacc
  · rw [hr]
    exact sortRanges_perm _
  · rw [hr]
    exact (sortRanges_sorted _).chain'

/-- C24 witness: the stroke `(0,0)`, `(5,0)` with the default configuration;
the list is the single segment `{0, 5}`. -/
theorem C24_markers_sorted_witness :
    ∃ (line : FreeformLine ℝ) (N : Nat),
      FreeformLine.build Real.sqrt [⟨0, 0⟩, ⟨5, 0⟩] = some line ∧
      findCornersAndSegments Real.sqrt (fun y x => Complex.arg ⟨x, y⟩)
        (fun x => ((⌈x⌉ : ℤ) : ℝ)) N ProcessingInput.default line =
        some (line.setBounds { start := 0, end_ := line.length },
          [{ start := 0, end_ := 5 }]) ∧
      ([{ start := 0, end_ := 5 }] : List (Range ℝ)).Chain'
        (fun a b => a.start < b.start ∨ (a.start = b.start ∧ a.end_ ≤ b.end_)) := by
  have hu : (⟨1, 0⟩ : Vector2 ℝ).norm2 = 1 := by simp [Vector2.norm2]
  have hA : ([5] : List ℝ).getLastD 0 < (ME_A_LOT : ℝ) := by
    simp [ME_A_LOT]
    norm_num
  obtain ⟨line, hb, hinv⟩ := build_collinear ⟨0, 0⟩ ⟨1, 0⟩ hu [5] (by simp) hA
  have hpts : ((⟨0, 0⟩ : Vector2 ℝ) :: ([5] : List ℝ).map
      (fun s => (⟨0, 0⟩ : Vector2 ℝ) + (⟨1, 0⟩ : Vector2 ℝ) * s)) = [⟨0, 0⟩, ⟨5, 0⟩] := by
    simp only [List.map_cons, List.map_nil, List.cons.injEq, and_true, true_and]
    ext <;> simp
  rw [hpts] at hb
  have hL : ([5] : List ℝ).getLastD 0 = 5 := by simp
  rw [hL] at hinv
  obtain ⟨N, hN⟩ := collinear_markers ⟨0, 0⟩ ⟨1, 0⟩ hu 5 line hinv (by norm_num)
    (ProcessingInput.default : ProcessingInput ℝ) rfl rfl rfl rfl
    (by simp [ProcessingInput.default, CornersInput.default])
    (by simp [ProcessingInput.default, CornersInput.default])
    (by simp [ProcessingInput.default, SegmentsInput.default])
    (by simp [ProcessingInput.default, SegmentsInput.default])
    (fun x => ((⌈x⌉ : ℤ) : ℝ))
  exact ⟨line, N, hb, hN N (le_refl _),
    (C24_markers_sorted Real.sqrt _ _ N _ line _ _ (hN N (le_refl _))).2.1⟩

/-- C23: after the scanning loop of `findCorners` every two consecutive kept
corner sections `a`, `b` satisfy `a.end + maxDistBetweenCornersToMerge <
b.start`.  When a run that reached the required length ends, it is merged into
the previous kept section (whose end becomes the end of the run) if that
section's end plus `maxDistBetweenCornersToMerge` reaches the start of the run,
and is otherwise (or when nothing was kept yet) appended. -/
theorem C23_sections_separated {F : Type} [LinearOrderedField F] (sqrt : F → F)
    (atan2 : F → F → F) (ceil : F → F) (fuel : Nat) (line : FreeformLine F)
    (input : CornersInput F) (sections : List (Range F))
    (h : findCornerSections sqrt atan2 ceil fuel line input = some sections) :
    sections.Chain'
      (fun a b => a.end_ + (input.maxDistBetweenCornersToMerge : F) < b.start) ∧
    ∀ (t : F) (st : CornerScan F),
      st.cornerSection.length ≥ (input.minNumberTestPositivesInSeries : F) →
      (∀ back, st.result.getLast? = some back →
        back.end_ + (input.maxDistBetweenCornersToMerge : F) ≥ st.cornerSection.start →
        (scanStep input false t st).result =
          st.result.dropLast ++ [{ back with end_ := st.cornerSection.end_ }]) ∧
      (∀ back, st.result.getLast? = some back →
        ¬ back.end_ + (input.maxDistBetweenCornersToMerge : F) ≥ st.cornerSection.start →
        (scanStep input false t st).result = st.result ++ [st.cornerSection]) ∧
      (st.result = [] → (scanStep input false t st).result = [st.cornerSection]) := by
  refine ⟨findCornerSections_chain sqrt atan2 ceil fuel line input sections h, ?_⟩
  intro t st hlen
  refine ⟨?_, ?_, ?_⟩
  · intro back hb hm
    simp only [scanStep, Bool.false_eq_true, if_false, if_pos hlen, hb, if_pos hm]
  · intro back hb hm
    simp only [scanStep, Bool.false_eq_true, if_false, if_pos hlen, hb, if_neg hm]
  · intro he
    simp only [scanStep, Bool.false_eq_true, if_false, if_pos hlen, he, List.getLast?_nil,
      List.nil_append]

/-- C27 (amended): `recreateSpline` leaves the source polyline and every
field of the `ProcessingInput` unchanged except `biarcs.tBounds`. -/
theorem C27_frame {F : Type} [LinearOrderedField F] (sqrt : F → F)
    (atan2 : F → F → F) (ceil : F → F)
    (convert : FreeformLine F → BiarcsInput F → List (Biarc F)) (fuel : Nat)
    (spline spline1 : ArcSpline F) (p : Option (ProcessingInput F))
    (h : recreateSpline sqrt atan2 ceil convert fuel spline p = some spline1) :
    spline1.sourceLine = spline.sourceLine ∧
    spline1.processingInput.corners = (p.getD spline.processingInput).corners ∧
    spline1.processingInput.segments = (p.getD spline.processingInput).segments ∧
    spline1.processingInput.biarcs =
      { (p.getD spline.processingInput).biarcs with
        tBounds := spline1.processingInput.biarcs.tBounds } := by
  obtain ⟨line1, markers, st, _, hg, hs⟩ :=
    recreateSpline_eq_some sqrt atan2 ceil convert fuel spline spline1 p h
  obtain ⟨_, _, hc, hseg, hb, _, _⟩ := generate_eq_some sqrt atan2 convert _ st hg
  rw [hs]
  exact ⟨rfl, hc, hseg, hb⟩

/-- C27 witness: the stroke `(0,0)`, `(5,0)` fitted with the default
configuration. -/
theorem C27_frame_witness :
    ∃ (line : FreeformLine ℝ) (N : Nat) (spline1 : ArcSpline ℝ),
      FreeformLine.build Real.sqrt [⟨0, 0⟩, ⟨5, 0⟩] = some line ∧
      recreateSpline Real.sqrt (fun y x => Complex.arg ⟨x, y⟩) (fun x => ((⌈x⌉ : ℤ) : ℝ))
        (fun _ _ => []) N
        { sourceLine := line, processingInput := ProcessingInput.default, displayShapes := [],
          debugCorners := [] } (some ProcessingInput.default) = some spline1 ∧
      spline1.sourceLine = line ∧
      spline1.processingInput.corners = CornersInput.default := by
  have hu : (⟨1, 0⟩ : Vector2 ℝ).norm2 = 1 := by simp [Vector2.norm2]
  have hA : ([5] : List ℝ).getLastD 0 < (ME_A_LOT : ℝ) := by
    simp [ME_A_LOT]
    norm_num
  obtain ⟨line, hb, hinv⟩ := build_collinear ⟨0, 0⟩ ⟨1, 0⟩ hu [5] (by simp) hA
  have hpts : ((⟨0, 0⟩ : Vector2 ℝ) :: ([5] : List ℝ).map
      (fun s => (⟨0, 0⟩ : Vector2 ℝ) + (⟨1, 0⟩ : Vector2 ℝ) * s)) = [⟨0, 0⟩, ⟨5, 0⟩] := by
    simp only [List.map_cons, List.map_nil, List.cons.injEq, and_true, true_and]
    ext <;> simp
  rw [hpts] at hb
  have hL : ([5] : List ℝ).getLastD 0 = 5 := by simp
  rw [hL] at hinv
  obtain ⟨N, hN⟩ := collinear_spline ⟨0, 0⟩ ⟨1, 0⟩ hu 5 line hinv (by norm_num)
    (ProcessingInput.default : ProcessingInput ℝ) rfl rfl rfl rfl
    (by simp [ProcessingInput.default, CornersInput.default])
    (by simp [ProcessingInput.default, CornersInput.default])
    (by simp [ProcessingInput.default, SegmentsInput.default])
    (by simp [ProcessingInput.default, SegmentsInput.default])
    (fun x => ((⌈x⌉ : ℤ) : ℝ))
  have hr := hN N (le_refl _) (fun _ _ => []) ProcessingInput.default [] []
  have hf := C27_frame Real.sqrt _ _ _ N _ _ _ hr
  exact ⟨line, N, _, hb, hr, hf.1, hf.2.1⟩

/-- C29: end to end on the L-shaped stroke sampled at unit spacing (a
straight 50-unit run `(0,0)` ... `(50,0)`, a 90-degree turn and a second
50-unit run `(50,1)` ... `(50,50)`), with the default configuration and enough
fuel: the scan of `findCorners` keeps the single section `{45, 55}`,
`findCorners` returns exactly one corner, at `t = 50` (the bend), and
`recreateSpline` produces exactly two segments, the first ending and the
second starting at the corner point `(50,0)`, and that one corner point,
whatever the biarc fitter is. -/
theorem C29_corner_stroke :
    ∃ (line : FreeformLine ℝ) (N : Nat),
      FreeformLine.build Real.sqrt (lStrokePoints : List (Vector2 ℝ)) = some line ∧
      line.length = 100 ∧
      (line.setBounds { start := 0, end_ := line.length }).getPointAt 50 = some ⟨50, 0⟩ ∧
      ∀ fuel, N ≤ fuel →
        findCornerSections Real.sqrt (fun y x => Complex.arg ⟨x, y⟩)
          (fun x => ((⌈x⌉ : ℤ) : ℝ)) fuel
          (line.setBounds { start := 0, end_ := line.length }) CornersInput.default =
          some [{ start := 45, end_ := 55 }] ∧
        findCorners Real.sqrt (fun y x => Complex.arg ⟨x, y⟩) (fun x => ((⌈x⌉ : ℤ) : ℝ)) fuel
          (line.setBounds { start := 0, end_ := line.length }) CornersInput.default =
          some [{ start := 50, end_ := 50 }] ∧
        ∀ (convert : FreeformLine ℝ → BiarcsInput ℝ → List (Biarc ℝ)) (old : ProcessingInput ℝ)
          (shapes : List (Option (SplineElement ℝ))) (corners : List (Vector2 ℝ)),
          recreateSpline Real.sqrt (fun y x => Complex.arg ⟨x, y⟩) (fun x => ((⌈x⌉ : ℤ) : ℝ))
            convert fuel
            { sourceLine := line, processingInput := old, displayShapes := shapes,
              debugCorners := corners } (some ProcessingInput.default) =
          some { sourceLine := line, processingInput := ProcessingInput.default
                 displayShapes := [some (SplineElement.segment ⟨0, 0⟩ ⟨50, 0⟩ (-1)),
                                   some (SplineElement.segment ⟨50, 0⟩ ⟨50, 50⟩ (-1))]
                 debugCorners := [⟨50, 0⟩] } := by
  have hA : (0 : ℝ) < ME_A_LOT := ME_A_LOT_pos
  obtain ⟨line, hb, hinv⟩ := build_lStroke
  have hfit := l_fitted [50] line hinv (by simp)
  obtain ⟨N, hN⟩ := l_spline [50] line hinv (by simp)
    (ProcessingInput.default : ProcessingInput ℝ) rfl rfl rfl rfl rfl rfl
    (by simp [ProcessingInput.default, SegmentsInput.default])
    (by simp [ProcessingInput.default, SegmentsInput.default])
  refine ⟨line, max 95 N, hb, hinv.len, ?_, fun fuel hf => ?_⟩
  · rw [hfit.point 50 (by linarith) (by norm_num), lPath_low 50 (by norm_num) (le_refl _)]
  · have h := l_findCorners hfit (CornersInput.default : CornersInput ℝ) rfl rfl rfl rfl rfl rfl
      fuel (le_trans (le_max_left _ _) hf)
    exact ⟨h.1, h.2, hN fuel (le_trans (le_max_right _ _) hf)⟩

/-- C22 (the code at the failing input): the L-shaped stroke `(0,0)`,
`(50,0)`, `(50,50)` scanned with `tStep = 1/2` and
`minNumberTestPositivesInSeries = 20` (other fields default:
`halfStepCorners`).  The 23
consecutive positions 44.5, 45, ..., 55.5 pass the corner test while 44 and 56
fail it, so the run is 22 steps long; the scan keeps no section and
`findCorners` returns no corner. -/
theorem C22_long_run_dropped :
    ∃ line : FreeformLine ℝ,
      FreeformLine.build Real.sqrt [⟨0, 0⟩, ⟨50, 0⟩, ⟨50, 50⟩] = some line ∧
      (∀ k : Nat, k < 23 → ∃ angles,
        cornerAngles Real.sqrt (fun y x => Complex.arg ⟨x, y⟩)
          (line.setBounds { start := 0, end_ := line.length })
          halfStepCorners
          (89 / 2 + (k : ℝ) * (1 / 2)) = some angles ∧
        isCornerCandidate
          halfStepCorners
          angles = true) ∧
      (∀ t : ℝ, t = 44 ∨ t = 56 → ∃ angles,
        cornerAngles Real.sqrt (fun y x => Complex.arg ⟨x, y⟩)
          (line.setBounds { start := 0, end_ := line.length })
          halfStepCorners
          t = some angles ∧
        isCornerCandidate
          halfStepCorners
          angles = false) ∧
      ∀ fuel, 189 ≤ fuel →
        findCornerSections Real.sqrt (fun y x => Complex.arg ⟨x, y⟩)
          (fun x => ((⌈x⌉ : ℤ) : ℝ)) fuel
          (line.setBounds { start := 0, end_ := line.length })
          halfStepCorners = some [] ∧
        findCorners Real.sqrt (fun y x => Complex.arg ⟨x, y⟩) (fun x => ((⌈x⌉ : ℤ) : ℝ)) fuel
          (line.setBounds { start := 0, end_ := line.length })
          halfStepCorners = some [] := by
  obtain ⟨line, hb, hinv⟩ := build_lVertices
  have hfit := l_fitted [50] line hinv (by simp)
  refine ⟨line, hb, ?_, ?_, ?_⟩
  · intro k hk
    have hk2 : (k : ℝ) ≤ 22 := by exact_mod_cast Nat.lt_succ_iff.mp hk
    have hk0 : (0 : ℝ) ≤ (k : ℝ) := Nat.cast_nonneg k
    exact l_true hfit halfStepCorners rfl rfl rfl rfl _ (by linarith) (by linarith)
  · intro t ht
    rcases ht with h | h
    · exact l_false_low hfit halfStepCorners rfl rfl rfl rfl t (by rw [h])
    · exact l_false_high hfit halfStepCorners rfl rfl rfl rfl t (by rw [h])
  · intro fuel hf
    obtain ⟨r, rfl⟩ : ∃ r, fuel = 83 + (22 + 1 + ((82 + r) + 1)) := ⟨fuel - 189, by omega⟩
    have hsec := findCornerSections_of_scan Real.sqrt (fun y x => Complex.arg ⟨x, y⟩)
      (fun x => ((⌈x⌉ : ℤ) : ℝ)) (83 + (22 + 1 + ((82 + r) + 1)))
      (line.setBounds { start := 0, end_ := line.length })
      halfStepCorners
      { cornerSection := Range.new, result := [] }
      (by
        rw [hfit.clip, cornerMargin_eq_three halfStepCorners rfl rfl]
        simp only
        rw [show (100 : ℝ) - 3 = 97 by norm_num, show (0 : ℝ) + 3 = 3 by norm_num]
        exact l_scan_half hfit halfStepCorners rfl rfl rfl rfl rfl rfl r)
    refine ⟨hsec, ?_⟩
    rw [findCorners_of_sections _ _ _ _ _ _ _ hsec]
    rfl

/-- C21 (the code at the failing input): the hairpin stroke `(0,0)`, `(12,0)`,
`(12,4)`, `(-4,4)`, `(-4,14)` of length 42 with the default `CornersInput`.
The scan keeps the two runs `{5, 9}` and `{18, 22}`; the second loop of
`findCorners` searches `[-15, 29]` for the first run and `[-2, 42]` for the
second one and writes `{16, 16}` for the first and `{12, 12}` for the second:
the list `findCorners` returns is not ordered by increasing `t`. -/
theorem C21_corners_out_of_order :
    ∃ line : FreeformLine ℝ,
      FreeformLine.build Real.sqrt [⟨0, 0⟩, ⟨12, 0⟩, ⟨12, 4⟩, ⟨-4, 4⟩, ⟨-4, 14⟩] = some line ∧
      line.length = 42 ∧
      ∀ fuel, 45 ≤ fuel →
        findCornerSections Real.sqrt (fun y x => Complex.arg ⟨x, y⟩)
          (fun x => ((⌈x⌉ : ℤ) : ℝ)) fuel
          (line.setBounds { start := 0, end_ := line.length }) CornersInput.default =
          some [{ start := 5, end_ := 9 }, { start := 18, end_ := 22 }] ∧
        findCorners Real.sqrt (fun y x => Complex.arg ⟨x, y⟩) (fun x => ((⌈x⌉ : ℤ) : ℝ)) fuel
          (line.setBounds { start := 0, end_ := line.length }) CornersInput.default =
          some [{ start := 16, end_ := 16 }, { start := 12, end_ := 12 }] := by
  obtain ⟨line, hb, hinv⟩ := build_hairpin
  have hfit := hairpin_fitted [12, 16, 32] line hinv (by simp) (by simp) (by simp)
  exact ⟨line, hb, hinv.len, fun fuel hf =>
    hairpin_findCorners hfit (CornersInput.default : CornersInput ℝ) rfl rfl rfl rfl rfl rfl rfl
      fuel hf⟩

/-- C23 witness: the scan of the hairpin stroke `(0,0)`, `(12,0)`, `(12,4)`,
`(-4,4)`, `(-4,14)` with the default `CornersInput` keeps the sections
`{5, 9}` and `{18, 22}`, which are more than
`maxDistBetweenCornersToMerge = 4` apart. -/
theorem C23_sections_separated_witness :
    ∃ line : FreeformLine ℝ,
      FreeformLine.build Real.sqrt [⟨0, 0⟩, ⟨12, 0⟩, ⟨12, 4⟩, ⟨-4, 4⟩, ⟨-4, 14⟩] = some line ∧
      findCornerSections Real.sqrt (fun y x => Complex.arg ⟨x, y⟩)
        (fun x => ((⌈x⌉ : ℤ) : ℝ)) 45
        (line.setBounds { start := 0, end_ := line.length }) CornersInput.default =
        some [{ start := 5, end_ := 9 }, { start := 18, end_ := 22 }] ∧
      ([{ start := 5, end_ := 9 }, { start := 18, end_ := 22 }] : List (Range ℝ)).Chain'
        (fun a b => a.end_ +
          ((CornersInput.default : CornersInput ℝ).maxDistBetweenCornersToMerge : ℝ) <
            b.start) := by
  obtain ⟨line, hb, hinv⟩ := build_hairpin
  have hfit := hairpin_fitted [12, 16, 32] line hinv (by simp) (by simp) (by simp)
  have hsec := (hairpin_findCorners hfit (CornersInput.default : CornersInput ℝ) rfl rfl rfl rfl
    rfl rfl rfl 45 (le_refl _)).1
  exact ⟨line, hb, hsec,
    (C23_sections_separated Real.sqrt (fun y x => Complex.arg ⟨x, y⟩)
      (fun x => ((⌈x⌉ : ℤ) : ℝ)) 45 (line.setBounds { start := 0, end_ := line.length })
      CornersInput.default _ hsec).1⟩

/-- C25 (the code at the failing input): the hairpin stroke `(0,0)`, `(12,0)`,
`(12,4)`, `(-4,4)`, `(-4,14)` with the default `ProcessingInput`.
`findCornersAndSegments` returns the markers `{0, 16}`, `{12, 12}`,
`{16, 16}`: the segment `{0, 16}` ends after the corner `{12, 12}` that follows
it starts, and the gap range `{16, 12}` that `generateBiarcsAndFinalShapes`
forms between the two is not a valid range (its `length()` is 0). -/
theorem C25_markers_overlap :
    ∃ line : FreeformLine ℝ,
      FreeformLine.build Real.sqrt [⟨0, 0⟩, ⟨12, 0⟩, ⟨12, 4⟩, ⟨-4, 4⟩, ⟨-4, 14⟩] = some line ∧
      (∀ fuel, 45 ≤ fuel →
        findCornersAndSegments Real.sqrt (fun y x => Complex.arg ⟨x, y⟩)
          (fun x => ((⌈x⌉ : ℤ) : ℝ)) fuel ProcessingInput.default line =
          some (line.setBounds { start := 0, end_ := line.length },
            [{ start := 0, end_ := 16 }, { start := 12, end_ := 12 },
             { start := 16, end_ := 16 }])) ∧
      ¬ ({ start := 0, end_ := 16 } : Range ℝ).end_ ≤ ({ start := 12, end_ := 12 } : Range ℝ).start ∧
      ¬ ({ start := ({ start := 0, end_ := 16 } : Range ℝ).end_
           end_ := ({ start := 12, end_ := 12 } : Range ℝ).start } : Range ℝ).isValid ∧
      ({ start := ({ start := 0, end_ := 16 } : Range ℝ).end_
         end_ := ({ start := 12, end_ := 12 } : Range ℝ).start } : Range ℝ).length = 0 := by
  obtain ⟨line, hb, hinv⟩ := build_hairpin
  refine ⟨line, hb, fun fuel hf => ?_, ?_, ?_, ?_⟩
  · exact hairpin_markers [12, 16, 32] line hinv (by simp) (by simp) (by simp)
      (ProcessingInput.default : ProcessingInput ℝ) rfl rfl rfl rfl rfl rfl rfl rfl fuel hf
  · norm_num
  · unfold Range.isValid
    norm_num
  · exact Range.length_of_gt (16 : ℝ) 12 (by norm_num)

/-- C27 (as stated, refuted): fitting the bent stroke `(0,0)`, `(4,0)`,
`(4,3)` with the default `ProcessingInput` except `segments.tStep = 4`.  No
corner is found and the span `{0, 7}` is rejected as a segment, so the whole
line is handed to the biarc fitter, and `recreateSpline` stores the fitted
range in the configuration: `biarcs.tBounds`, a default-constructed (invalid)
range before the call, is `{0, 7}` after it, whatever the biarc fitter is. -/
theorem C27_counterexample :
    ∃ (line : FreeformLine ℝ) (N : Nat),
      FreeformLine.build Real.sqrt [⟨0, 0⟩, ⟨4, 0⟩, ⟨4, 3⟩] = some line ∧
      ((ProcessingInput.default : ProcessingInput ℝ).biarcs.tBounds.start = FLT_MAX ∧
        (ProcessingInput.default : ProcessingInput ℝ).biarcs.tBounds.end_ = -FLT_MAX) ∧
      ∀ fuel, N ≤ fuel →
        ∀ convert : FreeformLine ℝ → BiarcsInput ℝ → List (Biarc ℝ),
          (∀ l i, ∀ b ∈ convert l i, b.param.d0 + b.param.d1 + FLT_MIN ≠ 0) →
          ∃ spline1 : ArcSpline ℝ,
            recreateSpline Real.sqrt (fun y x => Complex.arg ⟨x, y⟩) (fun x => ((⌈x⌉ : ℤ) : ℝ))
              convert fuel
              { sourceLine := line, processingInput := ProcessingInput.default
                displayShapes := [], debugCorners := [] }
              (some { (ProcessingInput.default : ProcessingInput ℝ) with
                segments := { (SegmentsInput.default : SegmentsInput ℝ) with tStep := 4 } }) =
              some spline1 ∧
            spline1.processingInput.biarcs.tBounds = { start := 0, end_ := 7 } := by
  obtain ⟨line, hb, hinv⟩ := build_bent
  have hfit := bent_fitted [4] line hinv (by simp)
  obtain ⟨N, hN⟩ := bent_markers [4] line hinv (by simp)
    { (ProcessingInput.default : ProcessingInput ℝ) with
      segments := { (SegmentsInput.default : SegmentsInput ℝ) with tStep := 4 } }
    rfl rfl rfl rfl
    (by simp [ProcessingInput.default, CornersInput.default])
    (by simp [ProcessingInput.default, CornersInput.default])
    rfl rfl rfl
  refine ⟨line, N, hb, ⟨rfl, rfl⟩, fun fuel hf convert hmid => ?_⟩
  obtain ⟨st1, hg⟩ := generate_isSome Real.sqrt (fun y x => Complex.arg ⟨x, y⟩) convert hmid
    { line := line.setBounds { start := 0, end_ := line.length }
      processingInput := { (ProcessingInput.default : ProcessingInput ℝ) with
        segments := { (SegmentsInput.default : SegmentsInput ℝ) with tStep := 4 } }
      markers := [], outCorners := [], outDisplayShapes := [] }
    (by
      intro s hs
      simp at hs)
  have ht := generate_no_markers Real.sqrt (fun y x => Complex.arg ⟨x, y⟩) convert _ _ 7
    hfit.len (by unfold ME_MAX_SPLINE_GAP; norm_num) st1 hg
  exact ⟨_, recreateSpline_of_parts Real.sqrt _ _ convert fuel _ _ _ _ st1
    (by simpa using hN fuel hf) (by simpa using hg), ht⟩

/-- In exact arithmetic: after `setBounds(range)` with a valid range, whatever the
`halfSmoothingSpread` (positive or not), both clamps of `getTangentAt` have a lower bound that is
at most the upper bound (`range.start <= range.end - clippingMargin` and
`range.start + clippingMargin <= range.end`), so the assertion of `getClipped`
(`min <= max + ME_EPSILON`) holds, and each clamped value lies within its
bounds. -/
theorem clamp_bounds_ordered {F : Type} [LinearOrderedField F] (line : FreeformLine F)
    (range : Range F) (hv : range.isValid) :
    (line.setBounds range).clippingRange.start ≤
      (line.setBounds range).clippingRange.end_ - (line.setBounds range).clippingMargin ∧
    (line.setBounds range).clippingRange.start + (line.setBounds range).clippingMargin ≤
      (line.setBounds range).clippingRange.end_ ∧
    (line.setBounds range).clippingRange.start ≤
      (line.setBounds range).clippingRange.end_ - (line.setBounds range).clippingMargin +
        ME_EPSILON ∧
    (line.setBounds range).clippingRange.start + (line.setBounds range).clippingMargin ≤
      (line.setBounds range).clippingRange.end_ + ME_EPSILON ∧
    ∀ t,
      ((line.setBounds range).clippingRange.start ≤ (line.setBounds range).tangentSampleA t ∧
        (line.setBounds range).tangentSampleA t ≤
          (line.setBounds range).clippingRange.end_ - (line.setBounds range).clippingMargin) ∧
      ((line.setBounds range).clippingRange.start + (line.setBounds range).clippingMargin ≤
          (line.setBounds range).tangentSampleB t ∧
        (line.setBounds range).tangentSampleB t ≤ (line.setBounds range).clippingRange.end_) := by
  have hv2 : range.start ≤ range.end_ := hv
  have hlen : range.length = range.end_ - range.start := by
    unfold Range.length; rw [if_pos hv]
  have he : (0 : F) < ME_EPSILON := ME_EPSILON_pos
  have hm1 : min (2 * line.halfSmoothingSpread) (range.end_ - range.start) ≤
      range.end_ - range.start := min_le_right _ _
  simp only [FreeformLine.setBounds, FreeformLine.tangentSampleA, FreeformLine.tangentSampleB,
    getClipped, hlen]
  refine ⟨by linarith, by linarith, by linarith, by linarith, fun t => ⟨⟨?_, ?_⟩, ?_, ?_⟩⟩
  · exact le_min (le_max_left _ _) (by linarith)
  · exact min_le_right _ _
  · exact le_min (le_max_left _ _) (by linarith)
  · exact min_le_right _ _

/-- C37: when `fitCircleOrLine` returns a circle for a chord with
`|point1 - point0|^2 > ME_EPSILON2` and a unit `tangent0` (the source asserts
the unit length in `Line::fromPointAndNormal`), the circle passes through
`point0` and `point1` (`|point0 - center| = |point1 - center| = radius`, so
both signed distances are 0) and is tangent to `tangent0` at `point0`
(`center - point0` is perpendicular to `tangent0`). -/
theorem C37_circle_through_points (point0 tangent0 point1 : Vector2 ℝ) (c : Circle ℝ)
    (hunit : tangent0.norm2 = 1) (hchord : (point1 - point0).norm2 > ME_EPSILON2)
    (hres : CircleOrLine.fitCircleOrLine Real.sqrt point0 tangent0 point1 =
      CircleOrLine.circle c) :
    (point0 - c.center).norm Real.sqrt = c.radius ∧
    (point1 - c.center).norm Real.sqrt = c.radius ∧
    c.signedDistTo Real.sqrt point0 = 0 ∧
    c.signedDistTo Real.sqrt point1 = 0 ∧
    (c.center - point0).dot tangent0 = 0 := by
  rcases fitCircleOrLine_cases Real.sqrt point0 tangent0 point1 with
    ⟨h, _⟩ | ⟨_, h2, _, hres2⟩ | ⟨_, _, hres2⟩
  · exact absurd hchord h
  · rw [hres] at hres2
    have hc : c = { x := (CircleOrLine.fitCenter point0 tangent0 point1).x,
                    y := (CircleOrLine.fitCenter point0 tangent0 point1).y,
                    radius := CircleOrLine.fitRadius Real.sqrt point0 tangent0 point1 } :=
      CircleOrLine.circle.inj hres2
    have hcc : c.center = CircleOrLine.fitCenter point0 tangent0 point1 := by
      rw [hc]; rfl
    have hcr : c.radius = CircleOrLine.fitRadius Real.sqrt point0 tangent0 point1 := by
      rw [hc]
    obtain ⟨g0, g1, g2⟩ := fit_circle_geometry point0 tangent0 point1 hunit h2
    rw [← hcc, ← hcr] at g0 g1
    rw [← hcc] at g2
    refine ⟨g0, g1, ?_, ?_, g2⟩
    · unfold Circle.signedDistTo
      rw [g0, sub_self]
    · unfold Circle.signedDistTo
      rw [g1, sub_self]
  · rw [hres] at hres2
    cases hres2

/-- C37 witness: the fit through `(0,0)` with tangent `(1,0)` and `(2,2)`
returns the circle with centre `(0,2)` and radius 2. -/
theorem C37_circle_through_points_witness :
    (⟨1, 0⟩ : Vector2 ℝ).norm2 = 1 ∧
    ((⟨2, 2⟩ : Vector2 ℝ) - ⟨0, 0⟩).norm2 > ME_EPSILON2 ∧
    CircleOrLine.fitCircleOrLine Real.sqrt ⟨0, 0⟩ ⟨1, 0⟩ ⟨2, 2⟩ =
      (CircleOrLine.circle { x := 0, y := 2, radius := 2 } : CircleOrLine ℝ) ∧
    ((⟨0, 0⟩ : Vector2 ℝ) - ⟨0, 2⟩).norm Real.sqrt = 2 ∧
    ((⟨2, 2⟩ : Vector2 ℝ) - ⟨0, 2⟩).norm Real.sqrt = 2 := by
  have hu : (⟨1, 0⟩ : Vector2 ℝ).norm2 = 1 := by simp [Vector2.norm2]
  have hch : ((⟨2, 2⟩ : Vector2 ℝ) - ⟨0, 0⟩).norm2 > ME_EPSILON2 := by
    simp [Vector2.norm2, ME_EPSILON2, ME_EPSILON]
    norm_num
  obtain ⟨h1, h2, _⟩ :=
    C37_circle_through_points ⟨0, 0⟩ ⟨1, 0⟩ ⟨2, 2⟩ { x := 0, y := 2, radius := 2 } hu hch
      fit_example
  exact ⟨hu, hch, fit_example, h1, h2⟩

/-- C34: for the segment from `p0` to `p1` (equal or not) and every point
`q`, `SplineSegment::distTo(q)` is the distance from `q` to a point of the
closed segment and no point of the closed segment is closer to `q`;
`SplineSegment::distToEndPoint(q)` is `min(|q - p0|, |q - p1|)`; and
`distTo(q) <= distToEndPoint(q)`. -/
theorem C34_segment_distance (p0 p1 q : Vector2 ℝ) :
    (∃ s : ℝ, 0 ≤ s ∧ s ≤ 1 ∧
      SplineSegment.distTo Real.sqrt p0 p1 q = ((p0 + (p1 - p0) * s) - q).norm Real.sqrt) ∧
    (∀ s : ℝ, 0 ≤ s → s ≤ 1 →
      SplineSegment.distTo Real.sqrt p0 p1 q ≤ ((p0 + (p1 - p0) * s) - q).norm Real.sqrt) ∧
    SplineSegment.distToEndPoint Real.sqrt p0 p1 q =
      min ((q - p0).norm Real.sqrt) ((q - p1).norm Real.sqrt) ∧
    SplineSegment.distTo Real.sqrt p0 p1 q ≤ SplineSegment.distToEndPoint Real.sqrt p0 p1 q := by
  obtain ⟨⟨s0, hs0, hs1, hc⟩, hmin⟩ := closestPoint_spec p0 p1 q
  have hle : ∀ s : ℝ, 0 ≤ s → s ≤ 1 →
      SplineSegment.distTo Real.sqrt p0 p1 q ≤ ((p0 + (p1 - p0) * s) - q).norm Real.sqrt :=
    fun s h0 h1 => Real.sqrt_le_sqrt (hmin s h0 h1)
  refine ⟨⟨s0, hs0, hs1, ?_⟩, hle, rfl, ?_⟩
  · unfold SplineSegment.distTo Vector2.distTo
    rw [hc]
  · unfold SplineSegment.distToEndPoint
    have e0 : Vector2.distTo Real.sqrt q p0 = ((p0 + (p1 - p0) * (0 : ℝ)) - q).norm Real.sqrt := by
      unfold Vector2.distTo Vector2.norm
      rw [Vector2.norm2_sub_comm]
      congr 2
      ext <;> simp
    have e1 : Vector2.distTo Real.sqrt q p1 = ((p0 + (p1 - p0) * (1 : ℝ)) - q).norm Real.sqrt := by
      unfold Vector2.distTo Vector2.norm
      rw [Vector2.norm2_sub_comm]
      congr 2
      ext <;> simp
    rw [e0, e1]
    exact le_min (hle 0 (le_refl _) zero_le_one) (hle 1 zero_le_one (le_refl _))

/-- C33: after `calcCachedShapes` the dividing line passes through the mid
point of the biarc and its normal is the mid tangent; and, for `0 <= d1` (what
`Biarc::signedDistTo` asserts), `signedDistTo(p)` is the signed distance of
`shape0` when `p` lies on the same side of the dividing line as `point0` or on
the line (the product of the two signed distances to the dividing line is not
negative) or when `d1 == 0`, and the signed distance of `shape1` when `p` lies
strictly on the other side and `d1 > 0`. -/
theorem C33_dividing_line {F : Type} [LinearOrderedField F] (sqrt : F → F) (b b1 : Biarc F)
    (mid : Vector2 F) (hmid : b.midPoint = some mid)
    (hc : b.calcCachedShapes sqrt = some b1) :
    b1.divLine.signedDistTo mid = 0 ∧
    b1.divLine.normal = b.midTangent sqrt ∧
    b1.shape0 = CircleOrLine.fitCircleOrLine sqrt b.point0 b.tangent0 mid ∧
    b1.shape1 = CircleOrLine.fitCircleOrLine sqrt b.point1 b.tangent1 mid ∧
    (∀ p, 0 ≤ b1.param.d1 →
      0 ≤ b1.divLine.signedDistTo b1.point0 * b1.divLine.signedDistTo p →
      b1.signedDistTo sqrt p = b1.shape0.signedDistTo sqrt p) ∧
    (∀ p, b1.param.d1 = 0 → b1.signedDistTo sqrt p = b1.shape0.signedDistTo sqrt p) ∧
    (∀ p, 0 < b1.param.d1 →
      b1.divLine.signedDistTo b1.point0 * b1.divLine.signedDistTo p < 0 →
      b1.signedDistTo sqrt p = b1.shape1.signedDistTo sqrt p) := by
  unfold Biarc.calcCachedShapes at hc
  rw [hmid] at hc
  simp only [Option.some.injEq] at hc
  subst hc
  refine ⟨?_, rfl, rfl, rfl, ?_, ?_, ?_⟩
  · simp only [Line.fromPointAndNormal, Line.signedDistTo, Line.normal]
    ring
  · intro p hd hs
    unfold Biarc.signedDistTo
    simp only
    rw [if_pos (ge_iff_le.mpr (mul_nonneg hs hd))]
  · intro p hd
    unfold Biarc.signedDistTo
    simp only
    rw [hd, mul_zero, if_pos (le_refl _)]
  · intro p hd hs
    unfold Biarc.signedDistTo
    simp only
    rw [if_neg (not_le.mpr (mul_neg_of_neg_of_pos hs hd))]

/-- C33 witness: the biarc `unitTurnBiarc` from `(0,0)` with tangent `(1,0)`
to `(0,2)` with tangent `(-1,0)` and `d0 = d1 = 1`, over the rationals. -/
theorem C33_dividing_line_witness :
    ∃ (mid : Vector2 ℚ) (b1 : Biarc ℚ),
      (unitTurnBiarc : Biarc ℚ).midPoint = some mid ∧
      (unitTurnBiarc : Biarc ℚ).calcCachedShapes id = some b1 ∧
      b1.divLine.signedDistTo mid = 0 := by
  have hmid := midPoint_of_pos (unitTurnBiarc : Biarc ℚ) (by simp [unitTurnBiarc])
  have hc := calcCachedShapes_of_mid id (unitTurnBiarc : Biarc ℚ) _ hmid
  exact ⟨_, _, hmid, hc, (C33_dividing_line id _ _ _ hmid hc).1⟩

/-- For unit tangents and a ratio `r > 0` with
`|a| > ME_EPSILON`, when the root `d1 = fmax(sol0, sol1)` of the quadratic
branch is below `ME_MAX_D_PARAM` and above `ME_EPSILON`, the loop body records
the pair `(d0, d1) = (r * d1, d1)`, and the biarc with these parameters
satisfies the closure equation `|q1 - q0| = d0 + d1`.  Its mid point lies on
the segment from `q0` to `q1` at distance `d0 * (d0 + d1) / (d0 + d1 +
FLT_MIN)` from `q0` (less than `d0`) and `(d1 + FLT_MIN) * (d0 + d1) / (d0 +
d1 + FLT_MIN)` from `q1`. -/
theorem biarc_closure_exact (b : Biarc ℝ) (r : ℝ)
    (h0 : b.tangent0.norm2 = 1) (h1 : b.tangent1.norm2 = 1) (hr : 0 < r)
    (ha : |Biarc.coeffA b.tangent0 b.tangent1 r| > ME_EPSILON)
    (hd1 : b.param.d1 = max
      ((-Biarc.coeffB b.tangent0 b.tangent1 (b.point1 - b.point0) r -
          Real.sqrt (Biarc.coeffB b.tangent0 b.tangent1 (b.point1 - b.point0) r *
            Biarc.coeffB b.tangent0 b.tangent1 (b.point1 - b.point0) r -
            4 * Biarc.coeffA b.tangent0 b.tangent1 r * Biarc.coeffC (b.point1 - b.point0))) /
        (2 * Biarc.coeffA b.tangent0 b.tangent1 r))
      ((-Biarc.coeffB b.tangent0 b.tangent1 (b.point1 - b.point0) r +
          Real.sqrt (Biarc.coeffB b.tangent0 b.tangent1 (b.point1 - b.point0) r *
            Biarc.coeffB b.tangent0 b.tangent1 (b.point1 - b.point0) r -
            4 * Biarc.coeffA b.tangent0 b.tangent1 r * Biarc.coeffC (b.point1 - b.point0))) /
        (2 * Biarc.coeffA b.tangent0 b.tangent1 r)))
    (hd0 : b.param.d0 = r * b.param.d1)
    (hmax : b.param.d1 < ME_MAX_D_PARAM) (heps : ME_EPSILON < b.param.d1) :
    Biarc.ratioLoop Real.sqrt b.tangent0 b.tangent1 (b.point1 - b.point0) [r] [] =
      some [b.param] ∧
    (b.q1 - b.q0).norm Real.sqrt = b.param.d0 + b.param.d1 ∧
    ∃ mid, b.midPoint = some mid ∧
      (mid - b.q0).norm Real.sqrt =
        b.param.d0 / (b.param.d0 + b.param.d1 + FLT_MIN) * (b.param.d0 + b.param.d1) ∧
      (b.q1 - mid).norm Real.sqrt =
        (b.param.d1 + FLT_MIN) / (b.param.d0 + b.param.d1 + FLT_MIN) *
          (b.param.d0 + b.param.d1) := by
  obtain ⟨_, hloop, hn, mid, hmid, e0, e1, _⟩ :=
    closure_of_quadratic_root b r h0 h1 hr ha hd1 hd0 hmax heps
  exact ⟨hloop, hn, mid, hmid, e0, e1⟩

/-- C40: in the scan loop of `findCorners` (here for any end position `tEnd`;
`findCorners` uses `tBounds.end - margin`), a run of `n + 1` consecutive
positions `t`, `t + tStep`, ... that pass the corner test, met without a
running section, whose next position is past `tEnd` leaves the loop with the
result vector it was entered with: the run is held in `cornerSection` only and
is never added to `*result`; and `findCorners` takes the corner sections from
`*result` alone. -/
theorem C40_open_run_not_reported {F : Type} [LinearOrderedField F] (sqrt : F → F)
    (atan2 : F → F → F) (ceil : F → F) (line : FreeformLine F) (input : CornersInput F)
    (tEnd : F) (hstep : 0 ≤ input.tStep) (res : List (Range F)) (n fuel : Nat) (t : F)
    (h1 : -FLT_MAX ≤ t) (h2 : t ≤ FLT_MAX)
    (htrue : ∀ k : Nat, k < n + 1 → t + (k : F) * input.tStep ≤ tEnd ∧
      ∃ angles, cornerAngles sqrt atan2 line input (t + (k : F) * input.tStep) = some angles ∧
        isCornerCandidate input angles = true)
    (hend : ¬ t + ((n + 1 : Nat) : F) * input.tStep ≤ tEnd) :
    scanLoop sqrt atan2 line input tEnd (n + 1 + fuel) t
        { cornerSection := Range.new, result := res } =
      some { cornerSection := { start := t, end_ := t + (n : F) * input.tStep },
             result := res } ∧
    ∀ fuel1 : Nat,
      findCornerSections sqrt atan2 ceil fuel1 line input =
        (scanLoop sqrt atan2 line input (line.clippingRange.end_ - cornerMargin ceil input) fuel1
          (line.clippingRange.start + cornerMargin ceil input)
          { cornerSection := Range.new, result := [] }).map CornerScan.result := by
  constructor
  · rw [scanLoop_run_true_new sqrt atan2 line input tEnd hstep res n fuel t h1 h2 htrue]
    exact scanLoop_done sqrt atan2 line input tEnd fuel _ _ hend
  · intro fuel1
    unfold findCornerSections
    cases scanLoop sqrt atan2 line input (line.clippingRange.end_ - cornerMargin ceil input)
      fuel1 (line.clippingRange.start + cornerMargin ceil input)
      { cornerSection := Range.new, result := [] } <;> rfl

/-- C40 witness: the scan of the hairpin stroke `(0,0)`, `(12,0)`, `(12,4)`,
`(-4,4)`, `(-4,14)` with the default `CornersInput`, stopped at `tEnd = 20`:
the positions 18, 19 and 20 pass the corner test, and the loop ends with the
run `{18, 20}` in `cornerSection` and the result `[{5, 9}]` it had before the
run. -/
theorem C40_open_run_not_reported_witness :
    ∃ line : FreeformLine ℝ,
      FreeformLine.build Real.sqrt [⟨0, 0⟩, ⟨12, 0⟩, ⟨12, 4⟩, ⟨-4, 4⟩, ⟨-4, 14⟩] = some line ∧
      scanLoop Real.sqrt (fun y x => Complex.arg ⟨x, y⟩)
          (line.setBounds { start := 0, end_ := line.length }) CornersInput.default 20
          (2 + 1 + 0) 18
          { cornerSection := Range.new, result := [{ start := 5, end_ := 9 }] } =
        some { cornerSection :=
                 { start := 18
                   end_ := 18 + ((2 : Nat) : ℝ) * (CornersInput.default : CornersInput ℝ).tStep }
               result := [{ start := 5, end_ := 9 }] } := by
  obtain ⟨line, hb, hinv⟩ := build_hairpin
  have hfit := hairpin_fitted [12, 16, 32] line hinv (by simp) (by simp) (by simp)
  have hF := FLT_MAX_large (F := ℝ)
  have hs : (CornersInput.default : CornersInput ℝ).tStep = 1 := rfl
  exact ⟨line, hb, (C40_open_run_not_reported Real.sqrt (fun y x => Complex.arg ⟨x, y⟩)
    (fun x => ((⌈x⌉ : ℤ) : ℝ)) (line.setBounds { start := 0, end_ := line.length })
    CornersInput.default 20 (by rw [hs]; norm_num) [{ start := 5, end_ := 9 }] 2 0 18
    (by linarith) (by linarith)
    (by
      intro k hk
      have hk2 : (k : ℝ) ≤ 2 := by exact_mod_cast Nat.lt_succ_iff.mp hk
      have hk0 : (0 : ℝ) ≤ (k : ℝ) := Nat.cast_nonneg k
      rw [hs, mul_one]
      exact ⟨by linarith, hairpin_true_b hfit CornersInput.default rfl rfl rfl rfl _
        (by linarith) (by linarith)⟩)
    (by
      rw [hs]
      push_cast
      norm_num)).1⟩

/-- C38 (as stated, refuted): the polyline built from `(0,0)` and
`(2·10^10, 0)` has `length()` `2·10^10`; `getPointAt(10^10)` is `(0,0)` and
`getPointAt(1.5·10^10)` is `(10^10, 0)`: the two points are `10^10` apart
while the parameters differ by `0.5·10^10`. -/
theorem C38_counterexample :
    ∃ line : FreeformLine ℝ,
      FreeformLine.build Real.sqrt [⟨0, 0⟩, ⟨2 * 10 ^ 10, 0⟩] = some line ∧
      line.length = 2 * 10 ^ 10 ∧
      line.getPointAt (10 ^ 10) = some ⟨0, 0⟩ ∧
      line.getPointAt (3 / 2 * 10 ^ 10) = some ⟨10 ^ 10, 0⟩ ∧
      ¬ (Vector2.distTo Real.sqrt (⟨0, 0⟩ : Vector2 ℝ) ⟨10 ^ 10, 0⟩ ≤
          |(3 / 2 * 10 ^ 10 : ℝ) - 10 ^ 10|) := by
  have hc : (ME_A_LOT : ℝ) < 2 * 10 ^ 10 := by unfold ME_A_LOT; norm_num
  have hAe : (ME_A_LOT : ℝ) = 10 ^ 10 := rfl
  have hA : (0 : ℝ) < ME_A_LOT := ME_A_LOT_pos
  have hpre : ∀ t : ℝ, 10 ^ 10 ≤ t →
      ∀ e ∈ [((-ME_A_LOT : ℝ), (⟨0, 0⟩ : Vector2 ℝ)), (0, ⟨0, 0⟩)], e.1 ≤ t := by
    intro t ht e he
    simp at he
    rcases he with h | h <;> rw [h] <;> simp only <;> linarith
  have hget : ∀ t : ℝ, 10 ^ 10 ≤ t → t < 2 * 10 ^ 10 →
      ({ (FreeformLine.new : FreeformLine ℝ) with
        points := [(-ME_A_LOT, ⟨0, 0⟩), (0, ⟨0, 0⟩), (ME_A_LOT, ⟨0, 0⟩),
          (2 * 10 ^ 10, ⟨2 * 10 ^ 10, 0⟩)]
        cachedLength := 2 * 10 ^ 10 } : FreeformLine ℝ).getPointAt t =
      some (Vector2.interpolate ⟨0, 0⟩ ⟨2 * 10 ^ 10, 0⟩
        ((t - ME_A_LOT) / (2 * 10 ^ 10 - ME_A_LOT))) := by
    intro t h1 h2
    exact getPointAt_between _ t [(-ME_A_LOT, ⟨0, 0⟩), (0, ⟨0, 0⟩)] []
      (ME_A_LOT, ⟨0, 0⟩) (2 * 10 ^ 10, ⟨2 * 10 ^ 10, 0⟩) rfl (hpre t h1)
      (by rw [hAe]; exact h1) h2
  refine ⟨_, build_two_points_far _ hc, rfl, ?_, ?_, ?_⟩
  · rw [hget _ (le_refl _) (by norm_num), hAe]
    congr 1
    ext <;> simp [Vector2.interpolate]
  · rw [hget _ (by norm_num) (by norm_num), hAe]
    congr 1
    ext
    · simp [Vector2.interpolate]
      norm_num
    · simp [Vector2.interpolate]
  · rw [distTo_axis]
    norm_num

/-- C38 (amended): for every polyline built by `addPoint` from one or more
points whose path length is below `ME_A_LOT`, and all `t1`, `t2` in
`[0, length()]`, `getPointAt` returns points no farther apart than
`|t2 - t1|`, and exactly `|t2 - t1|` apart when `t1` and `t2` lie between the
keys of two adjacent real samples of the map. -/
theorem C38_unit_speed (p0 : Vector2 ℝ) (more : List (Vector2 ℝ))
    (hlt : pathLength Real.sqrt (p0 :: more) < ME_A_LOT) :
    ∃ line : FreeformLine ℝ,
      FreeformLine.build Real.sqrt (p0 :: more) = some line ∧
      ∀ t1 t2 : ℝ, 0 ≤ t1 → t1 ≤ line.length → 0 ≤ t2 → t2 ≤ line.length →
        ∃ x y, line.getPointAt t1 = some x ∧ line.getPointAt t2 = some y ∧
          x.distTo Real.sqrt y ≤ |t2 - t1| ∧
          ∀ (pre post : List (ℝ × Vector2 ℝ)) (a b : ℝ × Vector2 ℝ),
            line.points = pre ++ a :: b :: post → 0 ≤ a.1 → b.1 ≤ line.length →
            a.1 ≤ t1 → t1 ≤ b.1 → a.1 ≤ t2 → t2 ≤ b.1 →
            x.distTo Real.sqrt y = |t2 - t1| := by
  have hA : (0 : ℝ) < ME_A_LOT := ME_A_LOT_pos
  have hsplit : p0 :: more =
      (p0 :: more).dropLast ++ [(p0 :: more).getLast (List.cons_ne_nil _ _)] :=
    (List.dropLast_append_getLast (List.cons_ne_nil _ _)).symm
  have hlt2 := hlt
  rw [hsplit] at hlt2
  obtain ⟨line, hb, hinv, hch⟩ := build_path_chain _ _ hlt2
  rw [← hsplit] at hb hinv
  obtain ⟨line2, hb2, hinv2⟩ := build_inv p0 more
  rw [hb] at hb2
  have hl : line2 = line := (Option.some.inj hb2).symm
  rw [hl] at hinv2
  obtain ⟨rest, _, hhead⟩ := hinv2.head
  obtain ⟨pre0, hshape⟩ := hinv.shape
  have hL : line.length < ME_A_LOT := by
    show line.cachedLength < ME_A_LOT
    rw [hinv.len]; exact hlt
  have hlast : ∃ e ∈ ((-ME_A_LOT : ℝ), p0) :: (0, p0) :: rest, ME_A_LOT ≤ e.1 := by
    refine ⟨(ME_A_LOT, (p0 :: more).getLast (List.cons_ne_nil _ _)), ?_, le_refl _⟩
    rw [← hhead, hshape]
    simp
  have hsorted : SortedKeys (((-ME_A_LOT : ℝ), p0) :: (0, p0) :: rest) := hhead ▸ hinv.sorted
  have hch1 : List.Chain' (fun u v : ℝ × Vector2 ℝ => u.2.distTo Real.sqrt v.2 ≤ v.1 - u.1)
      (((-ME_A_LOT : ℝ), p0) :: (0, p0) :: rest) := by
    rw [← hhead]
    exact List.Chain'.imp (fun _ _ h => h.1) hch
  have hsp := getPointAt_speed_of Real.sqrt real_sqrt_spec ME_A_LOT ((0, p0) :: rest)
    (-ME_A_LOT, p0) line hhead hsorted hch1 hlast
  refine ⟨line, hb, ?_⟩
  intro t1 t2 h1 h2 h3 h4
  have key : ∃ x y, line.getPointAt t1 = some x ∧ line.getPointAt t2 = some y ∧
      x.distTo Real.sqrt y ≤ |t2 - t1| := by
    rcases le_total t1 t2 with h | h
    · obtain ⟨x, hx, _, hr⟩ := hsp t1 (by simp only; linarith) (by linarith)
      obtain ⟨y, hy, hd⟩ := hr t2 h (by linarith)
      exact ⟨x, y, hx, hy, by rw [abs_of_nonneg (by linarith)]; exact hd⟩
    · obtain ⟨y, hy, _, hr⟩ := hsp t2 (by simp only; linarith) (by linarith)
      obtain ⟨x, hx, hd⟩ := hr t1 h (by linarith)
      refine ⟨x, y, hx, hy, ?_⟩
      rw [abs_of_nonpos (by linarith), distTo_symm_of]
      linarith
  obtain ⟨x, y, hx, hy, hd⟩ := key
  refine ⟨x, y, hx, hy, hd, ?_⟩
  intro pre post a b hpts ha hbL h5 h6 h7 h8
  -- the entry after `b`
  have hpost : ∃ c post2, post = c :: post2 := by
    cases post with
    | nil =>
      exfalso
      have h9 := congrArg List.getLast? (hpts.symm.trans hshape)
      have h10 : pre ++ [a, b] = (pre ++ [a]) ++ [b] := by simp
      have h11 : pre0 ++ [(pathLength Real.sqrt (p0 :: more),
            (p0 :: more).getLast (List.cons_ne_nil _ _)),
          ((ME_A_LOT : ℝ), (p0 :: more).getLast (List.cons_ne_nil _ _))] =
          (pre0 ++ [(pathLength Real.sqrt (p0 :: more),
            (p0 :: more).getLast (List.cons_ne_nil _ _))]) ++
          [((ME_A_LOT : ℝ), (p0 :: more).getLast (List.cons_ne_nil _ _))] := by simp
      rw [h10, h11, List.getLast?_concat, List.getLast?_concat] at h9
      have h12 : b.1 = ME_A_LOT := by rw [Option.some.inj h9]
      linarith
    | cons c post2 => exact ⟨c, post2, rfl⟩
  obtain ⟨c, post2, hp2⟩ := hpost
  rw [hp2] at hpts
  have hs2 : SortedKeys (pre ++ a :: b :: c :: post2) := hpts ▸ hinv.sorted
  have hab : a.1 < b.1 :=
    (List.pairwise_cons.mp (List.pairwise_append.mp hs2).2.1).1 b (by simp)
  have hR : a.2.distTo Real.sqrt b.2 = b.1 - a.1 := by
    rw [hpts] at hch
    have h9 := (List.chain'_split.mp hch).2
    exact (List.chain'_cons.mp h9).1.2 ha (by linarith)
  have hx2 := getPointAt_on_piece line pre post2 a b c t1 hpts hinv.sorted h5 h6
  have hy2 := getPointAt_on_piece line pre post2 a b c t2 hpts hinv.sorted h7 h8
  rw [hx] at hx2
  rw [hy] at hy2
  rw [Option.some.inj hx2, Option.some.inj hy2,
    distTo_interpolate_of Real.sqrt real_sqrt_spec, hR]
  have hpos : 0 < b.1 - a.1 := by linarith
  have e : (t2 - a.1) / (b.1 - a.1) - (t1 - a.1) / (b.1 - a.1) = (t2 - t1) / (b.1 - a.1) := by
    field_simp
  rw [e, abs_div, abs_of_pos hpos]
  field_simp

/-- C38 witness: the points `(0,0)`, `(5,0)` have path length 5, below
`ME_A_LOT`. -/
theorem C38_unit_speed_witness :
    pathLength Real.sqrt [⟨0, 0⟩, ⟨5, 0⟩] < ME_A_LOT ∧
    ∃ line : FreeformLine ℝ,
      FreeformLine.build Real.sqrt [⟨0, 0⟩, ⟨5, 0⟩] = some line ∧
      ∀ t1 t2 : ℝ, 0 ≤ t1 → t1 ≤ line.length → 0 ≤ t2 → t2 ≤ line.length →
        ∃ x y, line.getPointAt t1 = some x ∧ line.getPointAt t2 = some y ∧
          x.distTo Real.sqrt y ≤ |t2 - t1| ∧
          ∀ (pre post : List (ℝ × Vector2 ℝ)) (a b : ℝ × Vector2 ℝ),
            line.points = pre ++ a :: b :: post → 0 ≤ a.1 → b.1 ≤ line.length →
            a.1 ≤ t1 → t1 ≤ b.1 → a.1 ≤ t2 → t2 ≤ b.1 →
            x.distTo Real.sqrt y = |t2 - t1| := by
  have hp : pathLength Real.sqrt [(⟨0, 0⟩ : Vector2 ℝ), ⟨5, 0⟩] < ME_A_LOT := by
    simp only [pathLength]
    rw [norm_axis]
    unfold ME_A_LOT
    norm_num
  exact ⟨hp, C38_unit_speed ⟨0, 0⟩ [⟨5, 0⟩] hp⟩

/-- C2 (amended): the keys are those the float operations compute,
`t_0 = 0` and `t_k = t_(k-1) + |p_k - p_(k-1)|` (`plus` is the float addition
and `dist` is `distTo`).  For every sequence of points `p0..pn` added with
`addPoint` to an empty polyline, when every computed key is below `ME_A_LOT`
and exceeds the key before it (or repeats it for a point that repeats the
point before it), each point `pk` is stored at key `t_k` and `length()` equals
`t_n`.  With exact addition and `distTo` this is `build`, and `t_k` is the sum
of the distances `|p_i - p_(i-1)|` for `i = 1..k`. -/
theorem C2_keys_are_cumulative_distance {F : Type} [LinearOrderedField F]
    (plus : F → F → F) (dist : Vector2 F → Vector2 F → F)
    (p0 : Vector2 F) (more : List (Vector2 F))
    (hadv : List.Chain' (fun a b : F × Vector2 F => a.1 < b.1 ∨ a = b)
      (samplesWith plus dist 0 p0 more))
    (hlt : ∀ s ∈ samplesWith plus dist 0 p0 more, s.1 < ME_A_LOT) :
    (∃ (line : FreeformLine F) (last : F × Vector2 F),
      FreeformLine.buildWith plus dist (p0 :: more) = some line ∧
      (samplesWith plus dist 0 p0 more).getLast? = some last ∧
      line.length = last.1 ∧
      (samplesWith plus dist 0 p0 more).map Prod.snd = p0 :: more ∧
      ∀ s ∈ samplesWith plus dist 0 p0 more, mapFind s.1 line.points = some s.2) ∧
    (∀ sqrt : F → F,
      FreeformLine.buildWith (fun a b => a + b) (fun a b => a.distTo sqrt b) (p0 :: more) =
        FreeformLine.build sqrt (p0 :: more) ∧
      ∀ k : Nat,
        (samplesWith (fun a b => a + b) (fun a b => a.distTo sqrt b) 0 p0 more)[k]? =
          ((p0 :: more)[k]?).map
            (fun q => (0 + pathLength sqrt ((p0 :: more).take (k + 1)), q))) := by
  obtain ⟨line, body, last, hb, hlast, _, hpts, hs, hlen, _, hmem, _⟩ :=
    buildWith_samples plus dist p0 more hadv hlt
  refine ⟨⟨line, last, hb, hlast, hlen, samplesWith_points plus dist more 0 p0, ?_⟩,
    fun sqrt => ⟨rfl, fun k => samplesWith_exact sqrt more 0 p0 k⟩⟩
  intro s hsm
  apply mapFind_of_mem line.points hs s
  rw [hpts]
  simp only [List.cons_append, List.mem_cons, List.mem_append, List.mem_singleton]
  exact Or.inr (Or.inl ((hmem s).mpr hsm))

/-- C2 witness: the points `(0,0)`, `(5,0)` with exact arithmetic: the keys
are 0 and 5; `(5,0)` is stored at key 5 and `length()` is 5. -/
theorem C2_keys_are_cumulative_distance_witness :
    samplesWith (fun a b : ℝ => a + b) (fun a b => a.distTo Real.sqrt b) 0 ⟨0, 0⟩ [⟨5, 0⟩] =
      [(0, ⟨0, 0⟩), (5, ⟨5, 0⟩)] ∧
    ∃ line : FreeformLine ℝ,
      FreeformLine.build Real.sqrt [⟨0, 0⟩, ⟨5, 0⟩] = some line ∧
      line.length = 5 ∧
      mapFind 0 line.points = some ⟨0, 0⟩ ∧ mapFind 5 line.points = some ⟨5, 0⟩ := by
  have hsam : samplesWith (fun a b : ℝ => a + b) (fun a b => a.distTo Real.sqrt b) 0 ⟨0, 0⟩
      [⟨5, 0⟩] = [(0, ⟨0, 0⟩), (5, ⟨5, 0⟩)] := by
    simp only [samplesWith]
    rw [distTo_axis]
    norm_num
  have hA : (5 : ℝ) < ME_A_LOT := by unfold ME_A_LOT; norm_num
  obtain ⟨⟨line, last, hb, hlast, hlen, _, hfind⟩, _⟩ :=
    C2_keys_are_cumulative_distance (fun a b : ℝ => a + b) (fun a b => a.distTo Real.sqrt b)
      ⟨0, 0⟩ [⟨5, 0⟩]
      (by rw [hsam]; simp)
      (by
        rw [hsam]
        intro s hs
        simp only [List.mem_cons, List.mem_singleton, List.not_mem_nil, or_false] at hs
        rcases hs with h | h <;> rw [h] <;> simp <;> linarith [ME_A_LOT_pos (F := ℝ)])
  rw [hsam] at hlast hfind
  have hl : last = (5, ⟨5, 0⟩) := by
    simp at hlast
    exact hlast.symm
  refine ⟨hsam, line, hb, by rw [hlen, hl], ?_, ?_⟩
  · exact hfind (0, ⟨0, 0⟩) (by simp)
  · exact hfind (5, ⟨5, 0⟩) (by simp)

/-- C31 (as stated, refuted): the polyline built from `(0,0)` and
`(2·10^10, 0)` has `length()` `2·10^10`.  Whatever the text conversions are,
as long as the five numbers of this polyline are read back as written,
`operator>>` reads the numbers `operator<<` wrote for it to the end, restores
the map, and sets `length()` to `ME_A_LOT = 10^10`, the key of the entry
before the last one. -/
theorem C31_counterexample :
    ∃ line : FreeformLine ℝ,
      FreeformLine.build Real.sqrt [⟨0, 0⟩, ⟨2 * 10 ^ 10, 0⟩] = some line ∧
      line.length = 2 * 10 ^ 10 ∧
      ∀ fmt parse : ℝ → ℝ,
        (∀ x ∈ [(10 : ℝ), -10 ^ 10, 0, 10 ^ 10, 2 * 10 ^ 10], parse (fmt x) = x) →
        ∃ back : FreeformLine ℝ,
          FreeformLine.streamIn parse (line.streamOut fmt) FreeformLine.new =
            some (back, []) ∧
          back.points = line.points ∧
          back.length = 10 ^ 10 ∧ back.length ≠ line.length := by
  have hc : (ME_A_LOT : ℝ) < 2 * 10 ^ 10 := by unfold ME_A_LOT; norm_num
  have hA : (0 : ℝ) < ME_A_LOT := ME_A_LOT_pos
  have hAv : (ME_A_LOT : ℝ) = 10 ^ 10 := rfl
  have hs : SortedKeys [((-ME_A_LOT : ℝ), (⟨0, 0⟩ : Vector2 ℝ)), (0, ⟨0, 0⟩),
      (ME_A_LOT, ⟨0, 0⟩), (2 * 10 ^ 10, ⟨2 * 10 ^ 10, 0⟩)] := by
    unfold SortedKeys
    simp only [List.pairwise_cons, List.mem_cons, List.mem_singleton, forall_eq_or_imp,
      forall_eq, List.not_mem_nil, false_implies, implies_true, List.Pairwise.nil, and_true]
    refine ⟨⟨?_, ?_, ?_⟩, ⟨?_, ?_⟩, ?_⟩ <;> linarith
  refine ⟨_, build_two_points_far _ hc, rfl, fun fmt parse hfix => ?_⟩
  have h10 : parse (fmt 10) = 10 := hfix 10 (by simp)
  have hn : parse (fmt (-10 ^ 10)) = -10 ^ 10 := hfix _ (by simp)
  have h0 : parse (fmt 0) = 0 := hfix 0 (by simp)
  have hp : parse (fmt (10 ^ 10)) = 10 ^ 10 := hfix _ (by simp)
  have h2 : parse (fmt (2 * 10 ^ 10)) = 2 * 10 ^ 10 := hfix _ (by simp)
  have hrt := streamIn_streamOut fmt parse
    ({ (FreeformLine.new : FreeformLine ℝ) with
        points := [(-ME_A_LOT, ⟨0, 0⟩), (0, ⟨0, 0⟩), (ME_A_LOT, ⟨0, 0⟩),
          (2 * 10 ^ 10, ⟨2 * 10 ^ 10, 0⟩)]
        cachedLength := 2 * 10 ^ 10 } : FreeformLine ℝ) FreeformLine.new hs ME_A_LOT
    (Or.inr ⟨[(-ME_A_LOT, ⟨0, 0⟩), (0, ⟨0, 0⟩)], (ME_A_LOT, ⟨0, 0⟩),
      (2 * 10 ^ 10, ⟨2 * 10 ^ 10, 0⟩), rfl, rfl⟩)
    (by show parse (fmt 10) = 10; exact h10)
    (by
      intro e he
      simp only [List.mem_cons, List.mem_singleton, List.not_mem_nil, or_false] at he
      rcases he with h | h | h | h <;> rw [h] <;> simp only [hAv] <;>
        exact ⟨by assumption, by assumption, by assumption⟩)
  refine ⟨_, hrt, rfl, ?_, ?_⟩
  · show (ME_A_LOT : ℝ) = 10 ^ 10
    rfl
  · show (ME_A_LOT : ℝ) ≠ 2 * 10 ^ 10
    exact ne_of_lt hc

/-- C31 (amended): every list of points builds a polyline with `addPoint`
(`plus` is the float addition and `dist` is `distTo` in the key computation,
which never gives a key below the one it starts from).  When that polyline is
empty or its `length()` is below the sentinel distance `ME_A_LOT`, and the
text written for the smoothing spread and for every key and coordinate of the
map is read back as the same float (`fmt` gives the number the text written
for a float denotes, `parse` the float read from a number), `operator>>`
reads the numbers `operator<<` wrote for it to the end, into any polyline,
and yields the same `halfSmoothingSpread`, the same ordered map and the same
`length()`. -/
theorem C31_round_trip {F : Type} [LinearOrderedField F]
    (plus : F → F → F) (dist : Vector2 F → Vector2 F → F) (fmt parse : F → F)
    (hmono : ∀ (t : F) (a b : Vector2 F), t ≤ plus t (dist a b))
    (pts : List (Vector2 F)) (dst : FreeformLine F) :
    ∃ line : FreeformLine F,
      FreeformLine.buildWith plus dist pts = some line ∧
      (pts = [] ∨ line.length < ME_A_LOT →
        parse (fmt line.halfSmoothingSpread) = line.halfSmoothingSpread →
        (∀ e ∈ line.points, parse (fmt e.1) = e.1 ∧ parse (fmt e.2.x) = e.2.x ∧
          parse (fmt e.2.y) = e.2.y) →
        ∃ back : FreeformLine F,
          FreeformLine.streamIn parse (line.streamOut fmt) dst = some (back, []) ∧
          back.halfSmoothingSpread = line.halfSmoothingSpread ∧
          back.points = line.points ∧
          back.length = line.length) := by
  cases pts with
  | nil =>
    refine ⟨FreeformLine.new, rfl, fun _ hsp hfix =>
      ⟨_, streamIn_streamOut fmt parse FreeformLine.new dst
        (by simp [SortedKeys, FreeformLine.new]) 0 (Or.inl ⟨rfl, rfl⟩) hsp hfix, rfl, rfl, rfl⟩⟩
  | cons p0 more =>
    obtain ⟨line, hb, hinv, _⟩ := buildWith_tail plus dist hmono p0 more
    refine ⟨line, hb, fun h hsp hfix => ?_⟩
    have hlen : line.cachedLength < ME_A_LOT := by
      rcases h with h | h
      · exact absurd h (List.cons_ne_nil _ _)
      · exact h
    rcases hinv.tail with ⟨pre, a, q, hpts, _, ha⟩ | ⟨hge, _⟩
    · have hkey : line.cachedLength = a.1 := (ha hlen).symm
      exact ⟨_, streamIn_streamOut fmt parse line dst hinv.sorted line.cachedLength
        (Or.inr ⟨pre, a, _, hpts, hkey⟩) hsp hfix, rfl, rfl, rfl⟩
    · exact absurd hlen (not_lt.mpr hge)

/-- C31 witness: the polyline `(0,0)`, `(5,0)` with exact arithmetic and a
text that denotes every float exactly: it has length 5, below `ME_A_LOT`, and
read back into a fresh polyline it has the same spread, map and length. -/
theorem C31_round_trip_witness :
    (∀ (t : ℝ) (a b : Vector2 ℝ), t ≤ t + a.distTo Real.sqrt b) ∧
    ∃ line : FreeformLine ℝ,
      FreeformLine.build Real.sqrt [⟨0, 0⟩, ⟨5, 0⟩] = some line ∧
      line.length < ME_A_LOT ∧
      ∃ back : FreeformLine ℝ,
        FreeformLine.streamIn id (line.streamOut id) FreeformLine.new = some (back, []) ∧
        back.halfSmoothingSpread = line.halfSmoothingSpread ∧
        back.points = line.points ∧
        back.length = line.length := by
  have hmono : ∀ (t : ℝ) (a b : Vector2 ℝ), t ≤ t + a.distTo Real.sqrt b := by
    intro t a b
    have : 0 ≤ a.distTo Real.sqrt b := Real.sqrt_nonneg _
    linarith
  obtain ⟨line, hb, h⟩ := C31_round_trip (fun a b : ℝ => a + b)
    (fun a b => a.distTo Real.sqrt b) id id hmono [⟨0, 0⟩, ⟨5, 0⟩] FreeformLine.new
  have hA : (5 : ℝ) < ME_A_LOT := by unfold ME_A_LOT; norm_num
  have hline := build_two_points 5 (by norm_num) hA
  rw [build_eq_buildWith, hb] at hline
  have hlen : line.length < ME_A_LOT := by
    rw [Option.some.inj hline]
    exact hA
  exact ⟨hmono, line, by rw [build_eq_buildWith]; exact hb, hlen,
    h (Or.inr hlen) rfl (fun _ _ => ⟨rfl, rfl, rfl⟩)⟩

/-- C32 (as stated, refuted): for the polyline built from the single point
`(3,4)` the numbers written are the spread 10, the count 3 and nine sample
numbers: the sentinel entries at `-ME_A_LOT` and `ME_A_LOT` are written with
the one real sample, so the count is not 1 (`fmt` gives the number the text
written for a float denotes). -/
theorem C32_counterexample :
    ∃ line : FreeformLine ℝ,
      FreeformLine.build Real.sqrt [⟨3, 4⟩] = some line ∧
      line.points.length = 3 ∧
      ∀ fmt : ℝ → ℝ,
        line.streamOut fmt =
          [Token.float (fmt 10), Token.int 3,
           Token.float (fmt (-ME_A_LOT)), Token.float (fmt 3), Token.float (fmt 4),
           Token.float (fmt 0), Token.float (fmt 3), Token.float (fmt 4),
           Token.float (fmt ME_A_LOT), Token.float (fmt 3), Token.float (fmt 4)] ∧
        line.streamOut fmt ≠
          [Token.float (fmt 10), Token.int 1,
           Token.float (fmt 0), Token.float (fmt 3), Token.float (fmt 4)] :=
  ⟨_, build_single Real.sqrt ⟨3, 4⟩, rfl, fun fmt => ⟨rfl, by
    intro h
    have h2 := congrArg List.length h
    simp [FreeformLine.streamOut, pointTokens] at h2⟩⟩

/-- C32 (amended): for a polyline built from `n >= 1` points whose computed
keys (`t_0 = 0`, `t_k = t_(k-1) + |p_k - p_(k-1)|`, `plus` the float addition
and `dist` the float `distTo`) increase strictly and stay below `ME_A_LOT`,
the map holds the sentinel at `-ME_A_LOT` with the first point, the `n`
samples `(t_k, p_k)` and the sentinel at `ME_A_LOT` with the last point, and
`operator<<` writes the smoothing spread, then the count `n + 2`, then `t`,
`x`, `y` for every entry of the map, the two sentinel entries included:
`3 (n + 2)` numbers, the first three for the sentinel at `-ME_A_LOT` and the
last three for the sentinel at `ME_A_LOT` (`fmt` gives the number the text
written for a float denotes). -/
theorem C32_stream_encoding {F : Type} [LinearOrderedField F]
    (plus : F → F → F) (dist : Vector2 F → Vector2 F → F) (fmt : F → F)
    (p0 : Vector2 F) (more : List (Vector2 F))
    (hadv : List.Chain' (fun a b : F × Vector2 F => a.1 < b.1)
      (samplesWith plus dist 0 p0 more))
    (hlt : ∀ s ∈ samplesWith plus dist 0 p0 more, s.1 < ME_A_LOT) :
    ∃ (line : FreeformLine F) (last : Vector2 F),
      FreeformLine.buildWith plus dist (p0 :: more) = some line ∧
      (p0 :: more).getLast? = some last ∧
      line.points =
        (-ME_A_LOT, p0) :: samplesWith plus dist 0 p0 more ++ [(ME_A_LOT, last)] ∧
      line.streamOut fmt =
        Token.float (fmt line.halfSmoothingSpread) ::
          Token.int (((p0 :: more).length + 2 : Nat) : Int) :: pointTokens fmt line.points ∧
      (pointTokens fmt line.points).length = 3 * ((p0 :: more).length + 2) ∧
      pointTokens fmt line.points =
        [Token.float (fmt (-ME_A_LOT)), Token.float (fmt p0.x), Token.float (fmt p0.y)] ++
          pointTokens fmt (samplesWith plus dist 0 p0 more) ++
          [Token.float (fmt ME_A_LOT), Token.float (fmt last.x), Token.float (fmt last.y)] := by
  obtain ⟨line, body, last, hb, _, hlast, hpts, _, _, _, _, hstrict⟩ :=
    buildWith_samples plus dist p0 more
      (List.Chain'.imp (fun _ _ h => Or.inl h) hadv) hlt
  have hbody := hstrict hadv
  rw [hbody] at hpts
  have hsize : line.points.length = (p0 :: more).length + 2 := by
    rw [hpts]
    simp [samplesWith_length]
  refine ⟨line, last.2, hb, hlast, hpts, ?_, ?_, ?_⟩
  · unfold FreeformLine.streamOut
    rw [hsize]
  · rw [pointTokens_length, hsize]
  · rw [hpts]
    have h2 : (-ME_A_LOT, p0) :: samplesWith plus dist 0 p0 more ++ [(ME_A_LOT, last.2)] =
        [((-ME_A_LOT : F), p0)] ++ samplesWith plus dist 0 p0 more ++ [(ME_A_LOT, last.2)] := by
      simp
    rw [h2, pointTokens_append, pointTokens_append]
    rfl

/-- C32 witness: the polyline `(0,0)`, `(5,0)` with exact arithmetic: the
keys 0 and 5 increase; the count written is 4 and 12 sample numbers follow. -/
theorem C32_stream_encoding_witness :
    samplesWith (fun a b : ℝ => a + b) (fun a b => a.distTo Real.sqrt b) 0 ⟨0, 0⟩ [⟨5, 0⟩] =
      [(0, ⟨0, 0⟩), (5, ⟨5, 0⟩)] ∧
    ∃ line : FreeformLine ℝ,
      FreeformLine.build Real.sqrt [⟨0, 0⟩, ⟨5, 0⟩] = some line ∧
      line.streamOut id =
        Token.float line.halfSmoothingSpread :: Token.int 4 :: pointTokens id line.points ∧
      (pointTokens id line.points).length = 12 := by
  have hsam : samplesWith (fun a b : ℝ => a + b) (fun a b => a.distTo Real.sqrt b) 0 ⟨0, 0⟩
      [⟨5, 0⟩] = [(0, ⟨0, 0⟩), (5, ⟨5, 0⟩)] := by
    simp only [samplesWith]
    rw [distTo_axis]
    norm_num
  have hA : (5 : ℝ) < ME_A_LOT := by unfold ME_A_LOT; norm_num
  obtain ⟨line, _, hb, _, _, h1, h2, _⟩ :=
    C32_stream_encoding (fun a b : ℝ => a + b) (fun a b => a.distTo Real.sqrt b) id
      ⟨0, 0⟩ [⟨5, 0⟩]
      (by rw [hsam]; simp)
      (by
        rw [hsam]
        intro s hs
        simp only [List.mem_cons, List.mem_singleton, List.not_mem_nil, or_false] at hs
        rcases hs with h | h <;> rw [h] <;> simp <;> linarith [ME_A_LOT_pos (F := ℝ)])
  exact ⟨hsam, line, hb, h1, h2⟩

/-- C5 (code evaluated at the failing input): on the out-and-back stroke
`(0,0)`, `(10,0)`, `(0,0)` (length 20, default smoothing spread 10) with the
clip range set to the whole stroke `[0, length()]`, as
`findCornersAndSegments` sets it, the two samples of `getTangentAt(t)` are
taken at 0 and at 20 for every `t`, both are the point `(0,0)`, and the
tangent returned is the zero vector: its magnitude is 0, and its squared norm
fails the test `isEqual(norm2(), 1.0f, 1e-4f)` that `Vector2::angleTo` asserts
of both its operands. -/
theorem C5_zero_tangent :
    ∃ line : FreeformLine ℝ,
      FreeformLine.build Real.sqrt [⟨0, 0⟩, ⟨10, 0⟩, ⟨0, 0⟩] = some line ∧
      line.halfSmoothingSpread = 10 ∧ line.length = 20 ∧
      (∀ t : ℝ, (line.setBounds ⟨0, line.length⟩).getTangentAt Real.sqrt t = some ⟨0, 0⟩) ∧
      Vector2.norm Real.sqrt (⟨0, 0⟩ : Vector2 ℝ) = 0 ∧
      ¬ isEqual (Vector2.norm2 (⟨0, 0⟩ : Vector2 ℝ)) 1 (1 / 10 ^ 4) := by
  have hA : (20 : ℝ) < ME_A_LOT := by unfold ME_A_LOT; norm_num
  have hA0 : (0 : ℝ) < ME_A_LOT := ME_A_LOT_pos
  have hn : Vector2.norm Real.sqrt (⟨0, 0⟩ : Vector2 ℝ) = 0 := by
    simp [Vector2.norm, Vector2.norm2]
  have hq : ¬ isEqual (Vector2.norm2 (⟨0, 0⟩ : Vector2 ℝ)) 1 (1 / 10 ^ 4) := by
    unfold isEqual Vector2.norm2
    norm_num
  refine ⟨_, build_there_and_back, rfl, rfl, ?_, hn, hq⟩
  intro t
  set line : FreeformLine ℝ := { (FreeformLine.new : FreeformLine ℝ) with
        points := [(-ME_A_LOT, ⟨0, 0⟩), (0, ⟨0, 0⟩), (10, ⟨10, 0⟩), (20, ⟨0, 0⟩),
          (ME_A_LOT, ⟨0, 0⟩)]
        cachedLength := 20 } with hline
  have hlen : line.length = 20 := rfl
  rw [hlen]
  have hmargin : (line.setBounds ⟨0, 20⟩).clippingMargin = 20 := by
    simp only [FreeformLine.setBounds, Range.length, Range.isValid, hline, FreeformLine.new]
    norm_num
  have hta : (line.setBounds ⟨0, 20⟩).tangentSampleA t = 0 := by
    unfold FreeformLine.tangentSampleA getClipped
    rw [hmargin]
    show min (max (0 : ℝ) _) (20 - 20) = 0
    rw [sub_self]
    exact min_eq_right (le_max_left _ _)
  have htb : (line.setBounds ⟨0, 20⟩).tangentSampleB t = 20 := by
    unfold FreeformLine.tangentSampleB getClipped
    rw [hmargin]
    show min (max ((0 : ℝ) + 20) _) 20 = 20
    rw [zero_add]
    exact min_eq_right (le_max_left _ _)
  have ha : (line.setBounds ⟨0, 20⟩).getPointAt 0 = some ⟨0, 0⟩ := by
    rw [getPointAt_between (line.setBounds ⟨0, 20⟩) 0 [(-ME_A_LOT, ⟨0, 0⟩)]
      [(20, ⟨0, 0⟩), (ME_A_LOT, ⟨0, 0⟩)] (0, ⟨0, 0⟩) (10, ⟨10, 0⟩) rfl
      (by intro e he; simp at he; rw [he]; simp; exact hA0.le) (le_refl _) (by norm_num)]
    simp [Vector2.interpolate_zero]
  have hb : (line.setBounds ⟨0, 20⟩).getPointAt 20 = some ⟨0, 0⟩ := by
    rw [getPointAt_between (line.setBounds ⟨0, 20⟩) 20
      [(-ME_A_LOT, ⟨0, 0⟩), (0, ⟨0, 0⟩), (10, ⟨10, 0⟩)] [] (20, ⟨0, 0⟩) (ME_A_LOT, ⟨0, 0⟩) rfl
      (by
        intro e he
        simp at he
        rcases he with h | h | h <;> rw [h] <;> simp <;> linarith)
      (le_refl _) hA]
    rw [Vector2.interpolate_self]
  unfold FreeformLine.getTangentAt
  simp only [hta, htb, ha, hb]
  congr 1
  ext <;> simp [Vector2.normalized]

/-- C11 (code evaluated at the failing input): for `p0 = p1 = p` the chord
direction `p.directionTo(p)` is the zero vector, so `Line::between(p, p)`
passes the zero vector as the normal to `Line::fromPointAndNormal`, whose
assertion `isEqual(normal.norm2(), 1.0f, 1e-4f)` fails, and the line returned
has `a = b = c = 0`: `a^2 + b^2` is 0, not 1, and the signed distance of every
point to it is 0. -/
theorem C11_zero_normal {F : Type} [LinearOrderedField F] (sqrt : F → F) (p : Vector2 F) :
    (p.directionTo sqrt p).rotate90 = ⟨0, 0⟩ ∧
    ¬ isEqual ((p.directionTo sqrt p).rotate90.norm2) 1 (1 / 10 ^ 4) ∧
    (Line.between sqrt p p).a = 0 ∧ (Line.between sqrt p p).b = 0 ∧
    (Line.between sqrt p p).c = 0 ∧
    (Line.between sqrt p p).a * (Line.between sqrt p p).a +
      (Line.between sqrt p p).b * (Line.between sqrt p p).b = 0 ∧
    ∀ q : Vector2 F, (Line.between sqrt p p).signedDistTo q = 0 := by
  have hz : (p.directionTo sqrt p).rotate90 = ⟨0, 0⟩ := by
    ext <;> simp [Vector2.directionTo, Vector2.rotate90, Vector2.normalized]
  have ha : (Line.between sqrt p p).a = 0 := by
    simp [Line.between, Line.fromPointAndNormal, hz]
  have hb : (Line.between sqrt p p).b = 0 := by
    simp [Line.between, Line.fromPointAndNormal, hz]
  have hc : (Line.between sqrt p p).c = 0 := by
    simp [Line.between, Line.fromPointAndNormal, hz, Vector2.dot]
  refine ⟨hz, ?_, ha, hb, hc, by rw [ha, hb]; ring, ?_⟩
  · rw [hz]
    unfold isEqual Vector2.norm2
    norm_num
  · intro q
    simp [Line.signedDistTo, Line.normal, Vector2.dot, ha, hb, hc]

/-- C35: for unit tangents and a ratio `r > 0` with `|a| > ME_EPSILON`, when
the root `d1 = fmax(sol0, sol1)` of the quadratic branch is below
`ME_MAX_D_PARAM` and above `ME_EPSILON` (the pair is recorded with
`foundSolution` set), the loop body records the pair
`(d0, d1) = (r * d1, d1)`, and the biarc with these parameters satisfies the
closure equation `|q1 - q0| = d0 + d1`.  The mid point `Biarc::midPoint()`
lies at distance `d0` from `q0` and `d1` from `q1` whenever the float addition
absorbs the guard `FLT_MIN` in `d0 + d1 + FLT_MIN` (as it does for every sum
above `ME_EPSILON`); with the guard added exactly, the two distances are
within `FLT_MIN` of `d0` and `d1` and add up to `|q1 - q0|`. -/
theorem C35_biarc_closure (b : Biarc ℝ) (r : ℝ)
    (h0 : b.tangent0.norm2 = 1) (h1 : b.tangent1.norm2 = 1) (hr : 0 < r)
    (ha : |Biarc.coeffA b.tangent0 b.tangent1 r| > ME_EPSILON)
    (hd1 : b.param.d1 = max
      ((-Biarc.coeffB b.tangent0 b.tangent1 (b.point1 - b.point0) r -
          Real.sqrt (Biarc.coeffB b.tangent0 b.tangent1 (b.point1 - b.point0) r *
            Biarc.coeffB b.tangent0 b.tangent1 (b.point1 - b.point0) r -
            4 * Biarc.coeffA b.tangent0 b.tangent1 r * Biarc.coeffC (b.point1 - b.point0))) /
        (2 * Biarc.coeffA b.tangent0 b.tangent1 r))
      ((-Biarc.coeffB b.tangent0 b.tangent1 (b.point1 - b.point0) r +
          Real.sqrt (Biarc.coeffB b.tangent0 b.tangent1 (b.point1 - b.point0) r *
            Biarc.coeffB b.tangent0 b.tangent1 (b.point1 - b.point0) r -
            4 * Biarc.coeffA b.tangent0 b.tangent1 r * Biarc.coeffC (b.point1 - b.point0))) /
        (2 * Biarc.coeffA b.tangent0 b.tangent1 r)))
    (hd0 : b.param.d0 = r * b.param.d1)
    (hmax : b.param.d1 < ME_MAX_D_PARAM) (heps : ME_EPSILON < b.param.d1) :
    Biarc.ratioLoop Real.sqrt b.tangent0 b.tangent1 (b.point1 - b.point0) [r] [] =
      some [b.param] ∧
    (b.q1 - b.q0).norm Real.sqrt = b.param.d0 + b.param.d1 ∧
    (∀ plus : ℝ → ℝ → ℝ,
      plus (b.param.d0 + b.param.d1) FLT_MIN = b.param.d0 + b.param.d1 →
      ∃ mid, b.midPointWith plus = some mid ∧
        (mid - b.q0).norm Real.sqrt = b.param.d0 ∧
        (b.q1 - mid).norm Real.sqrt = b.param.d1) ∧
    ∃ mid, b.midPoint = some mid ∧
      |(mid - b.q0).norm Real.sqrt - b.param.d0| ≤ FLT_MIN ∧
      |(b.q1 - mid).norm Real.sqrt - b.param.d1| ≤ FLT_MIN ∧
      (mid - b.q0).norm Real.sqrt + (b.q1 - mid).norm Real.sqrt =
        (b.q1 - b.q0).norm Real.sqrt := by
  obtain ⟨hloop, hclose, mid, hmid, hm0, hm1⟩ :=
    biarc_closure_exact b r h0 h1 hr ha hd1 hd0 hmax heps
  have hm : (0 : ℝ) < FLT_MIN := FLT_MIN_pos
  have he : (0 : ℝ) < ME_EPSILON := ME_EPSILON_pos
  have hp1 : 0 < b.param.d1 := lt_trans he heps
  have hp0 : 0 < b.param.d0 := by rw [hd0]; exact mul_pos hr hp1
  have hD : 0 < b.param.d0 + b.param.d1 + FLT_MIN := by linarith
  refine ⟨hloop, hclose, fun plus habs => midPointWith_absorbed b plus hclose hp0 hp1 habs,
    mid, hmid, ?_, ?_, ?_⟩
  · rw [hm0]
    have e : b.param.d0 / (b.param.d0 + b.param.d1 + FLT_MIN) * (b.param.d0 + b.param.d1) -
        b.param.d0 = -(b.param.d0 * FLT_MIN / (b.param.d0 + b.param.d1 + FLT_MIN)) := by
      field_simp
      ring
    rw [e, abs_neg, abs_of_nonneg (by positivity), div_le_iff₀ hD]
    nlinarith
  · rw [hm1]
    have e : (b.param.d1 + FLT_MIN) / (b.param.d0 + b.param.d1 + FLT_MIN) *
        (b.param.d0 + b.param.d1) - b.param.d1 =
        b.param.d0 * FLT_MIN / (b.param.d0 + b.param.d1 + FLT_MIN) := by
      field_simp
      ring
    rw [e, abs_of_nonneg (by positivity), div_le_iff₀ hD]
    nlinarith
  · rw [hm0, hm1, hclose]
    field_simp
    ring

/-- C35 witness: the biarc from `(0,0)` with tangent `(1,0)` to `(0,2)` with
tangent `(-1,0)`, ratio 1, `d0 = d1 = 1`: `|q1 - q0| = 2`, and with the guard
absorbed the mid point is at distance 1 from `q0` and from `q1`. -/
theorem C35_biarc_closure_witness :
    |Biarc.coeffA (⟨1, 0⟩ : Vector2 ℝ) ⟨-1, 0⟩ 1| > ME_EPSILON ∧
    (1 : ℝ) < ME_MAX_D_PARAM ∧ (ME_EPSILON : ℝ) < 1 ∧
    ((unitTurnBiarc : Biarc ℝ).q1 -
      (unitTurnBiarc : Biarc ℝ).q0).norm Real.sqrt = 1 + 1 ∧
    ∃ mid, (unitTurnBiarc : Biarc ℝ).midPointWith (fun a _ => a) = some mid ∧
      (mid - (unitTurnBiarc : Biarc ℝ).q0).norm Real.sqrt = 1 ∧
      ((unitTurnBiarc : Biarc ℝ).q1 - mid).norm Real.sqrt = 1 := by
  obtain ⟨h1, h2, h3, h4⟩ := closure_example_hyps
  have h := C35_biarc_closure
    (unitTurnBiarc : Biarc ℝ) 1
    (by simp [unitTurnBiarc, Biarc.ofPointsAndTangents, Vector2.norm2])
    (by simp [unitTurnBiarc, Biarc.ofPointsAndTangents, Vector2.norm2])
    zero_lt_one h2 h1 (by simp [unitTurnBiarc]) h3 h4
  exact ⟨h2, h3, h4, h.2.1, h.2.2.1 (fun a _ => a) rfl⟩

/-- C39 (code evaluated at the failing input): `halfSmoothingSpread = 20` and
`setBounds` with the range `{17.157438, 51.016834}` (the floats
`8995439 / 2^19` and `13373757 / 2^18`), the subtraction of `range.length()`
rounded to `float`.  The range is valid and the spread positive, and the
margin stored is `4438019 / 2^17`, half a unit in the last place above the
exact length.  With it the lower bound `start + clippingMargin` of the second
clamp of `getTangentAt` exceeds the upper bound `end` by more than
`ME_EPSILON`, so the assertion `min <= max + ME_EPSILON` of `getClipped` does
not hold, and the clamped value is `end` for every `t`, below its lower
bound. -/
theorem C39_clamp_bounds_crossed :
    ∃ line : FreeformLine ℚ,
      line = ({ (FreeformLine.new : FreeformLine ℚ) with
          halfSmoothingSpread := 20 }).setBoundsWith (fun a b => float32 (a - b))
        { start := 8995439 / 2 ^ 19, end_ := 13373757 / 2 ^ 18 } ∧
      0 < line.halfSmoothingSpread ∧
      line.clippingRange.isValid ∧
      line.clippingMargin = 4438019 / 2 ^ 17 ∧
      line.clippingRange.end_ + ME_EPSILON <
        line.clippingRange.start + line.clippingMargin ∧
      ∀ t : ℚ, line.tangentSampleB t = line.clippingRange.end_ ∧
        line.tangentSampleB t < line.clippingRange.start + line.clippingMargin := by
  have hv : ({ start := 8995439 / 2 ^ 19, end_ := 13373757 / 2 ^ 18 } : Range ℚ).isValid := by
    show (8995439 / 2 ^ 19 : ℚ) ≤ 13373757 / 2 ^ 18
    norm_num
  have hmargin : (({ (FreeformLine.new : FreeformLine ℚ) with
          halfSmoothingSpread := 20 }).setBoundsWith (fun a b => float32 (a - b))
        { start := 8995439 / 2 ^ 19, end_ := 13373757 / 2 ^ 18 }).clippingMargin =
      4438019 / 2 ^ 17 := by
    show min ((2 : ℚ) * 20) (Range.lengthWith (fun a b => float32 (a - b))
      { start := 8995439 / 2 ^ 19, end_ := 13373757 / 2 ^ 18 }) = 4438019 / 2 ^ 17
    unfold Range.lengthWith
    rw [if_pos hv]
    show min ((2 : ℚ) * 20) (float32 ((13373757 / 2 ^ 18 : ℚ) - 8995439 / 2 ^ 19)) = _
    rw [float32_margin_example]
    exact min_eq_right (by norm_num)
  have hlo : (13373757 / 2 ^ 18 : ℚ) + ME_EPSILON < 8995439 / 2 ^ 19 + 4438019 / 2 ^ 17 := by
    unfold ME_EPSILON
    norm_num
  have he : (0 : ℚ) < ME_EPSILON := ME_EPSILON_pos
  refine ⟨_, rfl, ?_, hv, hmargin, ?_, ?_⟩
  · show (0 : ℚ) < 20
    norm_num
  · rw [hmargin]
    show (13373757 / 2 ^ 18 : ℚ) + ME_EPSILON < 8995439 / 2 ^ 19 + 4438019 / 2 ^ 17
    exact hlo
  · intro t
    have hB : (({ (FreeformLine.new : FreeformLine ℚ) with
          halfSmoothingSpread := 20 }).setBoundsWith (fun a b => float32 (a - b))
        { start := 8995439 / 2 ^ 19, end_ := 13373757 / 2 ^ 18 }).tangentSampleB t =
        13373757 / 2 ^ 18 := by
      unfold FreeformLine.tangentSampleB getClipped
      rw [hmargin]
      show min (max ((8995439 / 2 ^ 19 : ℚ) + 4438019 / 2 ^ 17) _) (13373757 / 2 ^ 18) = _
      exact min_eq_right (le_trans (by linarith) (le_max_left _ _))
    rw [hB, hmargin]
    refine ⟨rfl, ?_⟩
    show (13373757 / 2 ^ 18 : ℚ) < 8995439 / 2 ^ 19 + 4438019 / 2 ^ 17
    linarith

/-- C26 (code evaluated at the failing input): the polyline `(0,0)`,
`(3.3f, 0)` (`3.3f` is the float `13841203 / 2^22`) with the marker list
`[{0, 3.3f}]`, the list `findCornersAndSegments` returns for it.  The float
sum `length() + 1.0f` is `4508877 / 2^20`, so the terminal
`{length(), length() + 1.0f}` has the length `1 + 2^-22`, above
`ME_MAX_SPLINE_GAP`, and the marker loop creates a segment for it: the output
holds two shape elements, the segment of the marker and a segment from the
last point to itself for the terminal. -/
theorem C26_terminal_adds_segment :
    ∃ line : FreeformLine ℝ,
      FreeformLine.build Real.sqrt [⟨0, 0⟩, ⟨13841203 / 2 ^ 22, 0⟩] = some line ∧
      line.length = 13841203 / 2 ^ 22 ∧
      float32 (line.length + 1) = 4508877 / 2 ^ 20 ∧
      ({ start := line.length, end_ := float32 (line.length + 1) } : Range ℝ).length =
        1 + 1 / 2 ^ 22 ∧
      ∀ convert : FreeformLine ℝ → BiarcsInput ℝ → List (Biarc ℝ),
        generateBiarcsAndFinalShapesWith (fun a b => float32 (a + b)) Real.sqrt
          (fun y x => Complex.arg ⟨x, y⟩) convert
          { line := line.setBounds { start := 0, end_ := line.length }
            processingInput := ProcessingInput.default
            markers := [{ start := 0, end_ := 13841203 / 2 ^ 22 }]
            outCorners := [], outDisplayShapes := [] } =
        some { line := line.setBounds { start := 0, end_ := line.length }
               processingInput := ProcessingInput.default
               markers := [{ start := 0, end_ := 13841203 / 2 ^ 22 }]
               outCorners := []
               outDisplayShapes :=
                 [some (SplineElement.segment ⟨0, 0⟩ ⟨13841203 / 2 ^ 22, 0⟩ (-1)),
                  some (SplineElement.segment ⟨13841203 / 2 ^ 22, 0⟩
                    ⟨13841203 / 2 ^ 22, 0⟩ (-1))] } := by
  obtain ⟨line, hb, hinv⟩ := build_short_stroke
  have hlen : line.length = 13841203 / 2 ^ 22 := hinv.len
  have hE := float32_terminal_example
  have hpt : (⟨0, 0⟩ : Vector2 ℝ) + (⟨1, 0⟩ : Vector2 ℝ) * (13841203 / 2 ^ 22 : ℝ) =
      ⟨13841203 / 2 ^ 22, 0⟩ := by
    ext <;> simp
  refine ⟨line, hb, hlen, by rw [hlen]; exact hE, ?_, fun convert => ?_⟩
  · rw [hlen, hE, Range.length_of_le _ _ (by norm_num)]
    norm_num
  · have h := terminal_segment_generate (fun a b => float32 (a + b)) ⟨0, 0⟩ ⟨1, 0⟩
      (13841203 / 2 ^ 22) line hinv (by norm_num)
      (by show (1 : ℝ) < float32 (13841203 / 2 ^ 22 + 1) - 13841203 / 2 ^ 22
          rw [hE]; norm_num)
      (by show float32 ((13841203 / 2 ^ 22 : ℝ) + 1) < ME_A_LOT
          rw [hE]; unfold ME_A_LOT; norm_num)
      ProcessingInput.default convert
    rw [hpt] at h
    exact h

/-- C28 (code evaluated at the failing input): the straight stroke `(0,0)`,
`(3.3f, 0)` (`3.3f` is the float `13841203 / 2^22`), of a length above
`ME_MAX_SPLINE_GAP`, with the default configuration and enough fuel.
`findCorners` returns no corner and `isSegment` accepts the full span, but
`recreateSpline`, with the sum `length() + 1.0f` of the terminal rounded to
`float`, produces two shape elements: the segment from the first to the last
point, and a segment from the last point to itself. -/
theorem C28_short_stroke_two_shapes :
    ∃ (line : FreeformLine ℝ) (N : Nat),
      FreeformLine.build Real.sqrt [⟨0, 0⟩, ⟨13841203 / 2 ^ 22, 0⟩] = some line ∧
      line.length = 13841203 / 2 ^ 22 ∧ ME_MAX_SPLINE_GAP < line.length ∧
      ∀ fuel, N ≤ fuel →
        findCorners Real.sqrt (fun y x => Complex.arg ⟨x, y⟩) (fun x => ((⌈x⌉ : ℤ) : ℝ)) fuel
          (line.setBounds { start := 0, end_ := line.length }) CornersInput.default = some [] ∧
        isSegment Real.sqrt fuel (line.setBounds { start := 0, end_ := line.length })
          { start := 0, end_ := line.length } SegmentsInput.default = some (true, 0) ∧
        ∀ (convert : FreeformLine ℝ → BiarcsInput ℝ → List (Biarc ℝ)) (old : ProcessingInput ℝ)
          (shapes : List (Option (SplineElement ℝ))) (corners : List (Vector2 ℝ)),
          recreateSplineWith (fun a b => float32 (a + b)) Real.sqrt
            (fun y x => Complex.arg ⟨x, y⟩) (fun x => ((⌈x⌉ : ℤ) : ℝ)) convert fuel
            { sourceLine := line, processingInput := old, displayShapes := shapes,
              debugCorners := corners } (some ProcessingInput.default) =
          some { sourceLine := line, processingInput := ProcessingInput.default
                 displayShapes :=
                   [some (SplineElement.segment ⟨0, 0⟩ ⟨13841203 / 2 ^ 22, 0⟩ (-1)),
                    some (SplineElement.segment ⟨13841203 / 2 ^ 22, 0⟩
                      ⟨13841203 / 2 ^ 22, 0⟩ (-1))]
                 debugCorners := [] } := by
  obtain ⟨line, hb, hinv⟩ := build_short_stroke
  have hlen : line.length = 13841203 / 2 ^ 22 := hinv.len
  have hE := float32_terminal_example
  have hL1 : (1 : ℝ) < 13841203 / 2 ^ 22 := by norm_num
  have hL0 : (0 : ℝ) ≤ 13841203 / 2 ^ 22 := by norm_num
  have hpt : (⟨0, 0⟩ : Vector2 ℝ) + (⟨1, 0⟩ : Vector2 ℝ) * (13841203 / 2 ^ 22 : ℝ) =
      ⟨13841203 / 2 ^ 22, 0⟩ := by
    ext <;> simp
  have hu : (⟨1, 0⟩ : Vector2 ℝ).norm2 = 1 := by simp [Vector2.norm2]
  have hfit := collinear_fitted (⟨0, 0⟩ : Vector2 ℝ) ⟨1, 0⟩ _ line hinv hL0
  obtain ⟨N1, h1⟩ := collinear_findCorners (⟨0, 0⟩ : Vector2 ℝ) ⟨1, 0⟩ hu _ _ hfit
    (by norm_num) (CornersInput.default : CornersInput ℝ) rfl rfl rfl rfl
    (by simp [CornersInput.default]) (by simp [CornersInput.default])
    (fun x => ((⌈x⌉ : ℤ) : ℝ))
  obtain ⟨N2, h2⟩ := collinear_isSegment (⟨0, 0⟩ : Vector2 ℝ) ⟨1, 0⟩ _ _ hfit hL0
    (SegmentsInput.default : SegmentsInput ℝ) (by simp [SegmentsInput.default])
    (by simp [SegmentsInput.default])
  obtain ⟨N3, h3⟩ := collinear_markers (⟨0, 0⟩ : Vector2 ℝ) ⟨1, 0⟩ hu _ line hinv hL1
    (ProcessingInput.default : ProcessingInput ℝ) rfl rfl rfl rfl
    (by simp [ProcessingInput.default, CornersInput.default])
    (by simp [ProcessingInput.default, CornersInput.default])
    (by simp [ProcessingInput.default, SegmentsInput.default])
    (by simp [ProcessingInput.default, SegmentsInput.default])
    (fun x => ((⌈x⌉ : ℤ) : ℝ))
  refine ⟨line, max N1 (max N2 N3), hb, hlen, by rw [hlen]; unfold ME_MAX_SPLINE_GAP; exact hL1,
    fun fuel hf => ⟨?_, ?_, ?_⟩⟩
  · exact h1 fuel (le_trans (le_max_left _ _) hf)
  · rw [hlen]
    have := h2 fuel (le_trans (le_trans (le_max_left _ _) (le_max_right _ _)) hf)
    rw [hlen] at this
    exact this
  · intro convert old shapes corners
    have hg := terminal_segment_generate (fun a b => float32 (a + b)) ⟨0, 0⟩ ⟨1, 0⟩
      (13841203 / 2 ^ 22) line hinv hL1
      (by show (1 : ℝ) < float32 (13841203 / 2 ^ 22 + 1) - 13841203 / 2 ^ 22
          rw [hE]; norm_num)
      (by show float32 ((13841203 / 2 ^ 22 : ℝ) + 1) < ME_A_LOT
          rw [hE]; unfold ME_A_LOT; norm_num)
      ProcessingInput.default convert
    rw [hpt] at hg
    rw [recreateSplineWith_of_parts _ Real.sqrt _ _ convert fuel _ (some ProcessingInput.default)
      _ _ _
      (by simpa using h3 fuel (le_trans (le_trans (le_max_right _ _) (le_max_right _ _)) hf))
      (by simpa using hg)]

end Claims

end CodeSample
